import Mathlib

/-!
# vsfontcompiler: skyline packer and glyph storage

A shallow embedding of `sky_line.cpp`, `sky_line_location.hpp`, `glyph_storage.cpp`,
`glyph_range.cpp`, `sky_line_fitter.cpp`, the distance field, the expansion and the
contraction of `ft_glyph.cpp`, and the option handling and the page loop of `main.cpp`,
followed by the properties proved about them.

Conventions of the embedding.

* A C++ `unsigned` is a natural number.  Subtraction of two `unsigned` values wraps modulo
  `2^32` (`usub`); sums and products are taken exactly, i.e. the development describes runs in
  which no sum of pixel counts reaches `2^32`.  The exception is the start of
  `FtGlyph::crunch` (`crunchInit`), where the size of the tile and the index of its centre are
  reduced modulo `2^32`, because `main` accepts target sizes for which they wrap.
* `static_cast<int>` of an `unsigned` is `toInt` (two's complement); `int` arithmetic is exact.
* An array is a list; reading index `i` is `List.getD _ i 0`, writing is `List.set`.
* A `float` is represented by the rational number it is computed from (no rounding).
* A member that a constructor does not initialise keeps the previous content of its storage;
  that content is an explicit argument (`raw`) of the constructor.
* `boost::shared_ptr<FtGlyph>` is `Option FtGlyph`; `none` is the null pointer.
* `BOOST_ASSERT` is compiled out (release build) and does not appear in the definitions.
-/

set_option autoImplicit false

/-! ## Machine arithmetic -/

/-- `UINT_MAX` of a 32-bit `unsigned`. -/
def UINT_MAX : Nat := 4294967295

/-- Difference `a - b` of two `unsigned` values, wrapping modulo `2^32` when `a < b`. -/
def usub (a b : Nat) : Nat :=
  if b ≤ a then a - b else a + 4294967296 - b

/-- `static_cast<int>(n)` for a 32-bit `unsigned` value `n`. -/
def toInt (n : Nat) : Int :=
  if n < 2147483648 then (n : Int) else (n : Int) - 4294967296

/-- `memcpy(dst + dpos, src + spos, n)` on byte arrays: bytes are copied one by one. -/
def memcpy (dst : List Nat) (dpos : Nat) (src : List Nat) (spos : Nat) (n : Nat) : List Nat :=
  (List.range n).foldl (fun d k => d.set (dpos + k) (src.getD (spos + k) 0)) dst

/-! ## `SkyLineLocation` (sky_line_location.hpp) -/

/-- Members of `class SkyLineLocation`. -/
structure SkyLineLocation where
  m_x : Nat
  m_y : Nat
  m_width : Nat
  m_height : Nat
  m_wasted : Nat
  m_valid : Bool
deriving DecidableEq, Repr

namespace SkyLineLocation

/-- Empty constructor `SkyLineLocation()`: only `m_valid` is initialised. -/
def empty (raw : SkyLineLocation) : SkyLineLocation :=
  { raw with m_valid := false }

/-- Constructor `SkyLineLocation(px, py, pwidth, pheight)`: `m_wasted` is not initialised. -/
def make (raw : SkyLineLocation) (px py pwidth pheight : Nat) : SkyLineLocation :=
  { raw with m_x := px, m_y := py, m_width := pwidth, m_height := pheight, m_valid := true }

/-- Method `setWasted`. -/
def setWasted (loc : SkyLineLocation) (op : Nat) : SkyLineLocation :=
  { loc with m_wasted := op }

/-- The pixel `(px, py)` lies in the rectangle `[x, x+w) × [y, y+h)` of the location. -/
def covers (loc : SkyLineLocation) (px py : Nat) : Prop :=
  loc.m_x ≤ px ∧ px < loc.m_x + loc.m_width ∧ loc.m_y ≤ py ∧ py < loc.m_y + loc.m_height

instance (loc : SkyLineLocation) (px py : Nat) : Decidable (loc.covers px py) := by
  unfold covers
  infer_instance

end SkyLineLocation

/-! ## `FtGlyph` (ft_glyph.hpp), the members used by the packer and the storage -/

/-- Members of `class FtGlyph` read or written by `SkyLine` and `GlyphStorage`.
`m_crunched` is the crunched tile, row-major and top to bottom, `[]` for the null pointer. -/
structure FtGlyph where
  m_unicode : Nat
  m_crunched : List Nat
  m_bitmap_w : Nat
  m_bitmap_h : Nat
  m_s1 : ℚ
  m_t1 : ℚ
  m_s2 : ℚ
  m_t2 : ℚ
  m_page : Nat
deriving DecidableEq

namespace FtGlyph

/-- Method `setPage`. -/
def setPage (g : FtGlyph) (op : Nat) : FtGlyph :=
  { g with m_page := op }

/-- Method `setST`. -/
def setST (g : FtGlyph) (s1 t1 s2 t2 : ℚ) : FtGlyph :=
  { g with m_s1 := s1, m_t1 := t1, m_s2 := s2, m_t2 := t2 }

end FtGlyph

/-- Type `FtGlyphSptr`: a shared pointer to a glyph, `none` when null. -/
abbrev FtGlyphSptr := Option FtGlyph

/-- The XML sink: the calls `gly->write(xmlfile, glst)` made so far, each with the glyph as it
was when written and the coordinate flag. -/
abbrev XmlFile := List (FtGlyph × Bool)

/-! ## `GlyphStorage` (glyph_storage.cpp) -/

/-- Comparison `ft_glyph_sptr_less`. -/
def ft_glyph_sptr_less (lhs rhs : FtGlyphSptr) : Bool :=
  match lhs, rhs with
  | none, _ => false
  | some _, none => true
  | some l, some r =>
    let lw := l.m_bitmap_h
    let rw := r.m_bitmap_h
    if lw > rw then true
    else if lw = rw then
      if l.m_bitmap_w > r.m_bitmap_w then true else false
    else false

/-- Insertion step of `stdSort`: `x` goes in front of the first element it is less than. -/
def stdSortInsert {α : Type} (less : α → α → Bool) (x : α) : List α → List α
  | [] => [x]
  | y :: ys => if less x y then x :: y :: ys else y :: stdSortInsert less x ys

/-- Library call `std::sort(first, last, less)`, as an insertion sort: the result is a
permutation of the input in which no element is `less` than an earlier one. -/
def stdSort {α : Type} (less : α → α → Bool) : List α → List α
  | [] => []
  | x :: xs => stdSortInsert less x (stdSort less xs)

/-- Library call `std::vector::resize(n)` on a vector of shared pointers. -/
def vectorResize (v : List FtGlyphSptr) (n : Nat) : List FtGlyphSptr :=
  v.take n ++ List.replicate (n - v.length) none

/-- Members of `class GlyphStorage` (the mutex and the condition variable are left out). -/
structure GlyphStorage where
  m_glyphs : List FtGlyphSptr
  m_glyph_guard : List (Nat × Bool)
  m_glyphs_in_flight : Nat
  m_concurrency : Nat
  m_failure_pending : Bool

namespace GlyphStorage

/-- Method `GlyphStorage::sort`. -/
def sort (st : GlyphStorage) : GlyphStorage :=
  { st with m_glyphs := stdSort ft_glyph_sptr_less st.m_glyphs }

/-- The counting loop of `GlyphStorage::trim`: entries before the first null one. -/
def glyphsRemaining : List FtGlyphSptr → Nat
  | [] => 0
  | none :: _ => 0
  | some _ :: rest => glyphsRemaining rest + 1

/-- Method `GlyphStorage::trim`. -/
def trim (st : GlyphStorage) : GlyphStorage :=
  let sorted := st.sort
  let glyphs_remaining := glyphsRemaining sorted.m_glyphs
  { sorted with m_glyphs := vectorResize sorted.m_glyphs glyphs_remaining }

end GlyphStorage

/-! ## `SkyLine` (sky_line.cpp) -/

/-- Members of `class SkyLine`; `m_bitmap = none` is the null pointer. -/
structure SkyLine where
  m_bitmap : Option (List Nat)
  m_line : List Nat
  m_width : Nat
  m_max_height : Nat
  m_wasted : Nat
deriving DecidableEq

namespace SkyLine

/-- Constant `SkyLine::SIZE_STEP`. -/
def SIZE_STEP : Nat := 4

/-- Constructor `SkyLine(pw, pmaxh)`. -/
def new (pw pmaxh : Nat) : SkyLine :=
  { m_bitmap := none, m_line := List.replicate pw 0, m_width := pw, m_max_height := pmaxh,
    m_wasted := 0 }

/-- Method `SkyLine::allocate`. -/
def allocate (s : SkyLine) (op : SkyLineLocation) : SkyLine :=
  let end_height := op.m_y + op.m_height
  { s with
    m_line := (List.range op.m_width).foldl (fun line k => line.set (op.m_x + k) end_height)
      s.m_line
    m_wasted := s.m_wasted + op.m_wasted }

/-- Method `SkyLine::getWastedSpace`. -/
def getWastedSpace (s : SkyLine) (op : SkyLineLocation) : Nat :=
  (List.range op.m_width).foldl
    (fun ret k => ret + usub op.m_y (s.m_line.getD (op.m_x + k) 0)) 0

/-- The innermost `while` of `SkyLine::fit`: starting at column `kk`, `bitmap_w` consecutive
columns are at most `current_height`. -/
def fitRun (s : SkyLine) (kk current_height bitmap_w : Nat) : Bool :=
  (List.range bitmap_w).all (fun fitting_pixels =>
    decide (s.m_line.getD (kk + fitting_pixels) 0 ≤ current_height))

/-- The `while(kk <= ee)` loop of `SkyLine::fit` for the column `jj` of height
`current_height`: the first start column `kk` with a fitting run, as a location. -/
def fitColumn (s : SkyLine) (raw : SkyLineLocation) (bitmap_w bitmap_h current_height jj : Nat) :
    Option SkyLineLocation :=
  let width_i := toInt bitmap_w
  let iter_i := toInt jj
  let kk := max (iter_i - width_i + 1) 0
  let ee := min iter_i (toInt s.m_width - width_i)
  (List.range' kk.toNat (ee + 1 - kk).toNat).findSome? (fun k =>
    if fitRun s k current_height bitmap_w then
      let ret := SkyLineLocation.make raw k current_height bitmap_w bitmap_h
      some (ret.setWasted (s.getWastedSpace ret))
    else none)

/-- Method `SkyLine::fit`. -/
def fit (s : SkyLine) (op : FtGlyph) (raw : SkyLineLocation) : SkyLineLocation :=
  let bitmap_w := op.m_bitmap_w
  let bitmap_h := op.m_bitmap_h
  if bitmap_w = 0 ∨ bitmap_h = 0 then SkyLineLocation.make raw 0 0 0 0
  else
    let minh := (List.range s.m_width).foldl (fun m ii => min m (s.m_line.getD ii 0)) UINT_MAX
    let maxh := (List.range s.m_width).foldl (fun m ii => max m (s.m_line.getD ii 0)) 0
    let maxh := min maxh (usub s.m_max_height bitmap_h)
    let found := (List.range' minh (maxh + 1 - minh)).findSome? (fun ii =>
      (List.range s.m_width).findSome? (fun jj =>
        if s.m_line.getD jj 0 = ii then fitColumn s raw bitmap_w bitmap_h ii jj else none))
    match found with
    | some ret => ret
    | none => SkyLineLocation.empty raw

/-- The row loop of `SkyLine::insert`: `n` rows remain, `dst` and `src` are the offsets of the
two pointers into the atlas and into the crunched tile. -/
def insertRows (m_width scanline_width : Nat) (crunched : List Nat) :
    Nat → Nat → Int → List Nat → List Nat
  | 0, _, _, bitmap => bitmap
  | n + 1, dst, src, bitmap =>
    insertRows m_width scanline_width crunched n (dst + m_width) (src - scanline_width)
      (memcpy bitmap dst crunched src.toNat scanline_width)

/-- Method `SkyLine::insert`; the glyph is passed by reference, so it is returned as well. -/
def insert (s : SkyLine) (loc : SkyLineLocation) (op : FtGlyph) : SkyLine × FtGlyph :=
  if loc.m_width = 0 ∨ loc.m_height = 0 then (s, op)
  else
    let bitmap := match s.m_bitmap with
      | none => List.replicate (s.m_width * s.m_max_height) 0
      | some b => b
    let scanline_width := loc.m_width
    let dst := loc.m_y * s.m_width + loc.m_x
    let src : Int := ((loc.m_height - 1) * scanline_width : Nat)
    let bitmap := insertRows s.m_width scanline_width op.m_crunched loc.m_height dst src bitmap
    let fw : ℚ := s.m_width
    let fh : ℚ := s.m_max_height
    let s1 : ℚ := (loc.m_x : ℚ) / fw
    let t1 : ℚ := (loc.m_y : ℚ) / fh
    let s2 : ℚ := s1 + (loc.m_width : ℚ) / fw
    let t2 : ℚ := t1 + (loc.m_height : ℚ) / fh
    ({ s with m_bitmap := some bitmap }, op.setST s1 t1 s2 t2)

/-- Method `SkyLine::getUsedHeight`. -/
def getUsedHeight (s : SkyLine) : Nat :=
  let ret := (List.range s.m_width).foldl (fun ret ii => max (s.m_line.getD ii 0) ret) 0
  let remainder := ret % SIZE_STEP
  if 0 < remainder then ret - remainder + SIZE_STEP else ret

/-- The integer part of `SkyLine::getUsage`: the local `wasted` after the loop, i.e. the
numerator of the fraction that is subtracted from `1.0f`. -/
def getUsageWasted (s : SkyLine) : Nat :=
  let used_height := s.getUsedHeight
  (List.range s.m_width).foldl
    (fun wasted ii => wasted + usub used_height (s.m_line.getD ii 0)) s.m_wasted

/-- Method `SkyLine::getUsage`. -/
def getUsage (s : SkyLine) : ℚ :=
  let used_height := s.getUsedHeight
  let wasted := s.getUsageWasted
  if used_height = 0 then 0
  else 1 - (wasted : ℚ) / ((s.m_width * used_height : Nat) : ℚ)

/-- What `SkyLine::fitAll` leaves behind: the skyline, the storage vector, the XML sink, the
returned count, and (for stating the packing properties) the locations given to `allocate`. -/
structure FitAllResult where
  sky : SkyLine
  glyphs : List FtGlyphSptr
  xmlfile : Option XmlFile
  ret : Nat
  placed : List SkyLineLocation

/-- The block `if(NULL != xmlfile)` of `SkyLine::fitAll`, run after `allocate(loc)`: the
skyline, the sink and the storage entry `*ii` as they are after the block. -/
def fitAllWrite (pidx : Nat) (glst : Bool) (s : SkyLine) (xmlfile : Option XmlFile)
    (loc : SkyLineLocation) (gly : FtGlyph) : SkyLine × Option XmlFile × FtGlyphSptr :=
  match xmlfile with
  | none => (s, none, some gly)
  | some f =>
    let inserted := s.insert loc gly
    let gly := inserted.2.setPage pidx
    (inserted.1, some (f ++ [(gly, glst)]), none)

/-- The loop of `SkyLine::fitAll` from the iterator position on.  `raw k` is the content of
the storage in which the location of the `k`-th iteration is constructed.  A null entry is
dereferenced by the source, which has no defined result (`none`). -/
def fitAllLoop (pidx : Nat) (glst : Bool) :
    SkyLine → Option XmlFile → (Nat → SkyLineLocation) → List FtGlyphSptr → Option FitAllResult
  | s, xmlfile, _, [] =>
    some { sky := s, glyphs := [], xmlfile := xmlfile, ret := 0, placed := [] }
  | _, _, _, none :: _ => none
  | s, xmlfile, raw, some gly :: rest =>
    let loc := s.fit gly (raw 0)
    if !loc.m_valid then
      some { sky := s, glyphs := some gly :: rest, xmlfile := xmlfile, ret := 0, placed := [] }
    else
      let written := fitAllWrite pidx glst (s.allocate loc) xmlfile loc gly
      (fitAllLoop pidx glst written.1 written.2.1 (fun k => raw (k + 1)) rest).map (fun r =>
        { r with glyphs := written.2.2 :: r.glyphs, ret := r.ret + 1, placed := loc :: r.placed })

/-- Method `SkyLine::fitAll` on the storage `glyphs`; afterwards the vector of the storage is
the field `glyphs` of the result. -/
def fitAll (s : SkyLine) (glyphs : GlyphStorage) (xmlfile : Option XmlFile) (pidx : Nat)
    (glst : Bool) (raw : Nat → SkyLineLocation) : Option FitAllResult :=
  fitAllLoop pidx glst s xmlfile raw glyphs.m_glyphs

end SkyLine


/-! ## `GlyphStorage`: marking, adding and the in-flight counter (glyph_storage.cpp) -/

/-- Library call `std::map::find(k) != end()` on the glyph guard. -/
def mapContains (m : List (Nat × Bool)) (k : Nat) : Bool :=
  m.any (fun p => decide (p.1 = k))

/-- Library call `m[k] = v` of `std::map`: the entry of `k` is replaced, or added when absent. -/
def mapAssign (m : List (Nat × Bool)) (k : Nat) (v : Bool) : List (Nat × Bool) :=
  if mapContains m k then m.map (fun p => if p.1 = k then (k, v) else p) else m ++ [(k, v)]

namespace GlyphStorage

/-- Constructor `GlyphStorage()`; the argument is the value of `thr::hardware_concurrency()`. -/
def new (hardware_concurrency : Nat) : GlyphStorage :=
  { m_glyphs := [], m_glyph_guard := [], m_glyphs_in_flight := 0,
    m_concurrency := hardware_concurrency * 2, m_failure_pending := false }

/-- Method `GlyphStorage::concurrencyDecrement`: `--m_glyphs_in_flight` on an `unsigned`. -/
def concurrencyDecrement (st : GlyphStorage) : GlyphStorage :=
  { st with m_glyphs_in_flight := usub st.m_glyphs_in_flight 1 }

/-- Method `GlyphStorage::concurrencyIcrement`: `none` while the call waits on the condition
variable (`m_glyphs_in_flight >= m_concurrency`), otherwise the storage after the increment. -/
def concurrencyIcrement (st : GlyphStorage) : Option GlyphStorage :=
  if st.m_glyphs_in_flight ≥ st.m_concurrency then none
  else some { st with m_glyphs_in_flight := st.m_glyphs_in_flight + 1 }

/-- Method `GlyphStorage::markGlyph`: the storage afterwards and the returned flag. -/
def markGlyph (st : GlyphStorage) (op : Nat) : GlyphStorage × Bool :=
  if !mapContains st.m_glyph_guard op then
    ({ st with m_glyph_guard := mapAssign st.m_glyph_guard op true }, true)
  else (st, false)

/-- Method `GlyphStorage::add`: the storage afterwards and the message of the exception, if
one is thrown.  The console output of verbose mode is left out. -/
def add (st : GlyphStorage) (op : FtGlyph) (g_verbose : Bool) : GlyphStorage × Option String :=
  if !mapContains st.m_glyph_guard op.m_unicode then
    (st, some ("trying to add glyph " ++ toString op.m_unicode ++
      " that has not been marked for rendering"))
  else
    let st := { st with m_glyphs := st.m_glyphs ++ [some op] }
    let st := st.concurrencyDecrement
    if g_verbose then
      if st.m_failure_pending then ({ st with m_failure_pending := false }, none)
      else (st, none)
    else (st, none)

/-- Method `GlyphStorage::missing` (its console output is left out). -/
def missing (st : GlyphStorage) (_op : Nat) (g_verbose : Bool) : GlyphStorage :=
  if g_verbose then
    if !st.m_failure_pending then { st with m_failure_pending := true } else st
  else st

end GlyphStorage

/-- A call on a `GlyphStorage` made by the glyph pipeline. -/
inductive StorageCall where
  | markGlyph (op : Nat)
  | add (op : FtGlyph) (g_verbose : Bool)
  | concurrencyIcrement

namespace GlyphStorage

/-- One call executed under the mutex: the storage afterwards and the flag returned by
`markGlyph` (`false` for the other calls); `none` when `concurrencyIcrement` has to wait. -/
def call (st : GlyphStorage) : StorageCall → Option (GlyphStorage × Bool)
  | StorageCall.markGlyph op => some (st.markGlyph op)
  | StorageCall.add op g_verbose => some ((st.add op g_verbose).1, false)
  | StorageCall.concurrencyIcrement => st.concurrencyIcrement.map (fun s => (s, false))

/-- A sequence of calls executed one after the other: the final storage and the flags
returned, in order; `none` when some `concurrencyIcrement` of the sequence has to wait. -/
def run (st : GlyphStorage) : List StorageCall → Option (GlyphStorage × List Bool)
  | [] => some (st, [])
  | c :: rest =>
    match st.call c with
    | none => none
    | some (st1, flag) => (run st1 rest).map (fun r => (r.1, flag :: r.2))

/-- Every `add` of the sequence is executed while at least one glyph is in flight, as in the
pipeline, which calls `concurrencyIcrement` before it dispatches the task that adds. -/
def addsInFlight (st : GlyphStorage) : List StorageCall → Bool
  | [] => true
  | c :: rest =>
    (match c with
      | StorageCall.add _ _ => decide (0 < st.m_glyphs_in_flight)
      | _ => true) &&
    (match st.call c with
      | none => true
      | some (st1, _) => addsInFlight st1 rest)

end GlyphStorage

/-- The call is `markGlyph(c)`. -/
def StorageCall.isMarkOf (c : Nat) : StorageCall → Bool
  | StorageCall.markGlyph op => decide (op = c)
  | _ => false

/-! ## `GlyphRange` (glyph_range.cpp, glyph_range.hpp) -/

/-- Members of `class GlyphRange`. -/
structure GlyphRange where
  m_range : List Nat
  m_enabled : Bool
deriving DecidableEq

namespace GlyphRange

/-- Empty constructor `GlyphRange()`. -/
def empty : GlyphRange :=
  { m_range := [], m_enabled := false }

/-- Method `GlyphRange::sort`: `std::sort` with the default comparison `<`. -/
def sort (r : GlyphRange) : GlyphRange :=
  { r with m_range := stdSort (fun a b => decide (a < b)) r.m_range }

/-- Method `GlyphRange::add(unsigned ps, unsigned pe)`. -/
def addRange (r : GlyphRange) (ps pe : Nat) : GlyphRange :=
  let lo := if ps > pe then pe else ps
  let hi := if ps > pe then ps else pe
  ({ r with m_range := r.m_range ++ List.range' lo (hi + 1 - lo) }).sort

/-- Constructor `GlyphRange(ps, pe)`. -/
def ofRange (ps pe : Nat) : GlyphRange :=
  empty.addRange ps pe

/-- Method `GlyphRange::add(unsigned op)`. -/
def add (r : GlyphRange) (op : Nat) : GlyphRange :=
  ({ r with m_range := r.m_range ++ [op] }).sort

/-- Method `GlyphRange::remove(unsigned op)`: the first element equal to `op` is erased. -/
def remove (r : GlyphRange) (op : Nat) : GlyphRange :=
  { r with m_range := r.m_range.erase op }

/-- The inner loop of `GlyphRange::remove(ps, pe)`: the argument list starts at `jj` and `n`
is the distance from `ii` to `jj`; the result is the number of elements erased from `ii` on.
The source reads `*kk` also when `kk` is the end iterator; `past` is the value found there. -/
def removeScan (pe past : Nat) : List Nat → Nat → Nat
  | [], n => n
  | _ :: rest, n => if pe < rest.headD past then n else removeScan pe past rest (n + 1)

/-- The outer loop of `GlyphRange::remove(ps, pe)` from the iterator `ii` on, with `ps ≤ pe`
already swapped into order. -/
def removeFrom (ps pe past : Nat) : List Nat → List Nat
  | [] => []
  | x :: rest =>
    if x ≥ ps then (x :: rest).drop (removeScan pe past (x :: rest) 0)
    else x :: removeFrom ps pe past rest

/-- Method `GlyphRange::remove(unsigned ps, unsigned pe)`; `past` is the value the source
reads one element behind the end of the vector. -/
def removeRange (r : GlyphRange) (ps pe past : Nat) : GlyphRange :=
  let lo := if ps > pe then pe else ps
  let hi := if ps > pe then ps else pe
  { r with m_range := removeFrom lo hi past r.m_range }

/-- Method `enable`. -/
def enable (r : GlyphRange) : GlyphRange :=
  { r with m_enabled := true }

/-- Method `disable`. -/
def disable (r : GlyphRange) : GlyphRange :=
  { r with m_enabled := false }

end GlyphRange

/-- A modifying call on a `GlyphRange`. -/
inductive RangeCall where
  | add (op : Nat)
  | addRange (ps pe : Nat)
  | remove (op : Nat)
  | removeRange (ps pe past : Nat)

namespace GlyphRange

/-- One modifying call. -/
def call (r : GlyphRange) : RangeCall → GlyphRange
  | RangeCall.add op => r.add op
  | RangeCall.addRange ps pe => r.addRange ps pe
  | RangeCall.remove op => r.remove op
  | RangeCall.removeRange ps pe past => r.removeRange ps pe past

/-- A sequence of modifying calls, executed in order. -/
def run (r : GlyphRange) (calls : List RangeCall) : GlyphRange :=
  calls.foldl call r

end GlyphRange

/-! ## `SkyLineFitter` (sky_line_fitter.cpp) -/

/-- Members of `class SkyLineFitter`.  The mutex is left out, and so is `m_last_print_width`,
which only pads the console line of verbose mode. -/
structure SkyLineFitter where
  m_max_size : Nat
  m_best_count : Nat
  m_best_usage : ℚ
  m_best_width : Nat
  m_best_height : Nat
deriving DecidableEq

/-- The arguments of one call of `SkyLineFitter::storeAttempt`. -/
structure FitAttempt where
  pcount : Nat
  pusage : ℚ
  pw : Nat
  ph : Nat
deriving DecidableEq

namespace SkyLineFitter

/-- Constructor `SkyLineFitter(pmax)`. -/
def new (pmax : Nat) : SkyLineFitter :=
  { m_max_size := pmax, m_best_count := 0, m_best_usage := 0, m_best_width := 0,
    m_best_height := 0 }

/-- Method `SkyLineFitter::storeAttempt` (the console output of verbose mode is left out). -/
def storeAttempt (slf : SkyLineFitter) (pcount : Nat) (pusage : ℚ) (pw ph : Nat) :
    SkyLineFitter :=
  if pcount ≥ slf.m_best_count ∧ pusage > slf.m_best_usage then
    { slf with m_best_count := pcount, m_best_usage := pusage, m_best_width := pw,
               m_best_height := ph }
  else slf

/-- The attempts stored one after the other, each under the mutex, in the order of the list. -/
def storeAll (slf : SkyLineFitter) (attempts : List FitAttempt) : SkyLineFitter :=
  attempts.foldl (fun s a => s.storeAttempt a.pcount a.pusage a.pw a.ph) slf

/-- The scratch packing of `SkyLineFitter::attempt_thread`: the arguments it passes to
`storeAttempt`; `none` when `fitAll` dereferences a null entry. -/
def attempt (glyphs : GlyphStorage) (pw pmaxh : Nat) (raw : Nat → SkyLineLocation) :
    Option FitAttempt :=
  ((SkyLine.new pw pmaxh).fitAll glyphs none 0 true raw).map (fun r =>
    { pcount := r.ret, pusage := r.sky.getUsage, pw := pw, ph := r.sky.getUsedHeight })

/-- Function `SkyLineFitter::attempt_thread`. -/
def attempt_thread (slf : SkyLineFitter) (glyphs : GlyphStorage) (pw pmaxh : Nat)
    (raw : Nat → SkyLineLocation) : Option SkyLineFitter :=
  (attempt glyphs pw pmaxh raw).map (fun a => slf.storeAttempt a.pcount a.pusage a.pw a.ph)

/-- Method `SkyLineFitter::queue`: the fitter with `m_max_size` rounded down, and the
arguments `(pw, pmaxh)` of the dispatched `attempt_thread` tasks, in dispatch order. -/
def queue (slf : SkyLineFitter) : SkyLineFitter × List (Nat × Nat) :=
  let m_max_size := slf.m_max_size - slf.m_max_size % SkyLine.SIZE_STEP
  ({ slf with m_max_size := m_max_size },
    (List.range (m_max_size / SkyLine.SIZE_STEP)).map (fun k =>
      (m_max_size - SkyLine.SIZE_STEP * k, m_max_size)))

/-- The dispatched tasks executed by the worker pool: `order` lists them in the order in which
they take the mutex, `raws k` is the raw location storage of the `k`-th of them. -/
def runTasks (slf : SkyLineFitter) (glyphs : GlyphStorage)
    (raws : Nat → Nat → SkyLineLocation) : List (Nat × Nat) → Option SkyLineFitter
  | [] => some slf
  | (pw, pmaxh) :: rest =>
    match slf.attempt_thread glyphs pw pmaxh (raws 0) with
    | none => none
    | some slf1 => runTasks slf1 glyphs (fun k => raws (k + 1)) rest

end SkyLineFitter

/-! ## The page loop of `main` (main.cpp) -/

/-- Constant `FLT_MAX` of `<cfloat>`. -/
def FLT_MAX : ℚ := 340282346638528859811704183484516925440

/-- Modelled from the spec: `math::lround` of `math/generic.hpp`, which is not among the
sources; the spec writes the output byte as `round(v · 255)`.  Rounding is to the nearest
integer, halves away from zero, as for `lround` of `<cmath>`. -/
def lround (x : ℚ) : Int :=
  if 0 ≤ x then ⌊x + 1 / 2⌋ else -⌊-x + 1 / 2⌋

/-- The members of `FT_Bitmap` read by the source. -/
structure FT_Bitmap where
  rows : Nat
  width : Nat
  buffer : List Nat

/-- The values of the loop `for(int ii = lo; ii <= hi; ++ii)`. -/
def intRange (lo hi : Int) : List Int :=
  (List.range (hi + 1 - lo).toNat).map (fun (k : Nat) => lo + (k : Int))

/-- Function `fdist` with `USE_MANHATTAN` defined. -/
def fdist (x1 y1 x2 y2 : Int) : ℚ :=
  let dx := x2 - x1
  let dy := y2 - y1
  ((dx.natAbs + dy.natAbs : Nat) : ℚ)

/-- Function `get_ftbitmap_value`. -/
def get_ftbitmap_value (bitmap : FT_Bitmap) (px py : Int) : Bool :=
  if px < 0 ∨ py < 0 then false
  else
    let ux := px.toNat
    let uy := py.toNat
    if ux ≥ bitmap.width ∨ uy ≥ bitmap.rows then false
    else decide (127 < bitmap.buffer.getD (uy * bitmap.width + ux) 0)

/-- The body of the two nested search loops of `get_ftbitmap_dfield_value`; `inside` says
which of the two copies of the loops it is: the one for an inside sample looks for a point
that is not inside, the other one for a point that is. -/
def searchStep (bitmap : FT_Bitmap) (px py : Int) (inside : Bool) (closest : ℚ) (ii jj : Int) :
    ℚ :=
  let dist := fdist ii jj px py
  if dist < closest then
    if get_ftbitmap_value bitmap ii jj = !inside then dist else closest
  else closest

/-- The two nested search loops of `get_ftbitmap_dfield_value`, from `closest = FLT_MAX`. -/
def searchClosest (bitmap : FT_Bitmap) (px py search : Int) (inside : Bool) : ℚ :=
  (intRange (px - search) (px + search)).foldl (fun closest ii =>
    (intRange (py - search) (py + search)).foldl (fun closest jj =>
      searchStep bitmap px py inside closest ii jj) closest) FLT_MAX

/-- Function `get_ftbitmap_dfield_value`; the final `static_cast<uint8_t>` reduces modulo 256. -/
def get_ftbitmap_dfield_value (bitmap : FT_Bitmap) (px py search : Int) (dist_scale : ℚ) :
    Nat :=
  let ret : ℚ :=
    if get_ftbitmap_value bitmap px py then
      let closest := searchClosest bitmap px py search true
      min (1 / 2 + (closest + 1 / 2) * dist_scale) 1
    else
      let closest := searchClosest bitmap px py search false
      max (1 / 2 - (closest + 1 / 2) * dist_scale) 0
  (lround (ret * 255) % 256).toNat

/-- The local `dist_scale` of `FtGlyph::crunch`. -/
def crunchDistScale (m_size : Nat) (m_dropdown : ℚ) : ℚ :=
  (1 / 2) / ((m_size : ℚ) * m_dropdown)

/-- Modelled from the spec: `math::ceil` of `math/generic.hpp`, which is not among the
sources; the spec writes the search radius as `R = ceil(precalc_size · dropdown)`, the least
integer not below the product. -/
def ceil (x : ℚ) : Int :=
  ⌈x⌉

/-- The local `search` of `FtGlyph::crunch`: `static_cast<int>(math::ceil(fsize * m_dropdown))`. -/
def crunchSearch (m_size : Nat) (m_dropdown : ℚ) : Int :=
  ceil ((m_size : ℚ) * m_dropdown)

/-- The start of `FtGlyph::crunch` (ft_glyph.cpp, lines 330 to 336): the tile of
`m_bitmap_w * m_bitmap_h` zero bytes in which the centre holds the distance-field value of the
centre `(width / 2, rows / 2)` of the coverage bitmap.  The members `m_bitmap_w` and
`m_bitmap_h` are `ptarget * 2 + 1` (constructor, lines 126 and 127); they, the size of the
allocation and the index of the centre are computed in 32-bit `unsigned` arithmetic.  `none`:
the index of the centre is outside the allocation. -/
def crunchInit (bitmap : FT_Bitmap) (m_size m_target_size : Nat) (m_dropdown : ℚ) :
    Option (List Nat) :=
  let m_bitmap_w := (m_target_size * 2 + 1) % 4294967296
  let m_bitmap_h := (m_target_size * 2 + 1) % 4294967296
  let ox : Int := (bitmap.width / 2 : Nat)
  let oy : Int := (bitmap.rows / 2 : Nat)
  let dfval := get_ftbitmap_dfield_value bitmap ox oy (crunchSearch m_size m_dropdown)
    (crunchDistScale m_size m_dropdown)
  let size := (m_bitmap_w * m_bitmap_h) % 4294967296
  let centre := (m_target_size * m_bitmap_w + m_target_size) % 4294967296
  if centre < size then some ((List.replicate size 0).set centre dfval) else none

/-! ### Contraction of the sampled tile (`ft_glyph.cpp`, lines 158–284 and 511–561)

A tile is the triple `m_crunched`, `m_bitmap_w`, `m_bitmap_h` of a glyph; a deleted tile
(`m_crunched = NULL`) is the empty list. -/

/-- The read `m_crunched[y * m_bitmap_w + x]`. -/
def FtGlyph.cell (g : FtGlyph) (x y : Nat) : Nat :=
  g.m_crunched.getD (y * g.m_bitmap_w + x) 0

/-- `FtGlyph::isEmptyColumn`: no row `ii < m_bitmap_h` has `0 < m_crunched[ii * m_bitmap_w + op]`. -/
def FtGlyph.isEmptyColumn (g : FtGlyph) (op : Nat) : Bool :=
  (List.range g.m_bitmap_h).all
    (fun ii => !decide (0 < g.m_crunched.getD (ii * g.m_bitmap_w + op) 0))

/-- `FtGlyph::isEmptyRow`: no column `ii < m_bitmap_w` has `0 < m_crunched[op * m_bitmap_w + ii]`. -/
def FtGlyph.isEmptyRow (g : FtGlyph) (op : Nat) : Bool :=
  (List.range g.m_bitmap_w).all
    (fun ii => !decide (0 < g.m_crunched.getD (op * g.m_bitmap_w + ii) 0))

/-- The counting loop shared by the four contractions:
`for(ii = 0; ii < n; ++ii) { if(!empty(ii)) break; ++count; }`. -/
def countEmpty (empty : Nat → Bool) (n : Nat) : Nat :=
  ((List.range n).takeWhile empty).length

/-- `FtGlyph::subCrunched`: the new array of `pw * ph` bytes is written row by row,
`new_crunched[jj * pw + ii] = m_crunched[(jj + py) * m_bitmap_w + ii + px]`. -/
def FtGlyph.subCrunched (g : FtGlyph) (px py pw ph : Nat) : FtGlyph :=
  { g with
    m_crunched := (List.range ph).flatMap (fun jj =>
      (List.range pw).map (fun ii => g.m_crunched.getD ((jj + py) * g.m_bitmap_w + ii + px) 0))
    m_bitmap_w := pw
    m_bitmap_h := ph }

/-- The branch `delete[] m_crunched; m_bitmap_w = m_bitmap_h = 0; m_crunched = NULL;`. -/
def FtGlyph.collapse (g : FtGlyph) : FtGlyph :=
  { g with m_crunched := [], m_bitmap_w := 0, m_bitmap_h := 0 }

/-- `FtGlyph::contractDown`; the result is the glyph and the returned count. The subtractions
are taken below a value they were just compared with, so none of them wraps. -/
def FtGlyph.contractDown (g : FtGlyph) : FtGlyph × Nat :=
  let empty_rows := countEmpty (fun ii => g.isEmptyRow (g.m_bitmap_h - ii - 1)) g.m_bitmap_h
  if g.m_bitmap_h ≤ empty_rows then (g.collapse, empty_rows)
  else if 1 < empty_rows then
    (g.subCrunched 0 0 g.m_bitmap_w (g.m_bitmap_h - empty_rows + 1), empty_rows - 1)
  else (g, 0)

/-- `FtGlyph::contractLeft`. -/
def FtGlyph.contractLeft (g : FtGlyph) : FtGlyph × Nat :=
  let empty_columns := countEmpty (fun ii => g.isEmptyColumn ii) g.m_bitmap_w
  if g.m_bitmap_w ≤ empty_columns then (g.collapse, empty_columns)
  else if 1 < empty_columns then
    (g.subCrunched (empty_columns - 1) 0 (g.m_bitmap_w - empty_columns + 1) g.m_bitmap_h,
      empty_columns - 1)
  else (g, 0)

/-- `FtGlyph::contractRight`. -/
def FtGlyph.contractRight (g : FtGlyph) : FtGlyph × Nat :=
  let empty_columns :=
    countEmpty (fun ii => g.isEmptyColumn (g.m_bitmap_w - ii - 1)) g.m_bitmap_w
  if g.m_bitmap_w ≤ empty_columns then (g.collapse, empty_columns)
  else if 1 < empty_columns then
    (g.subCrunched 0 0 (g.m_bitmap_w - empty_columns + 1) g.m_bitmap_h, empty_columns - 1)
  else (g, 0)

/-- `FtGlyph::contractUp`. -/
def FtGlyph.contractUp (g : FtGlyph) : FtGlyph × Nat :=
  let empty_rows := countEmpty (fun ii => g.isEmptyRow ii) g.m_bitmap_h
  if g.m_bitmap_h ≤ empty_rows then (g.collapse, empty_rows)
  else if 1 < empty_rows then
    (g.subCrunched 0 (empty_rows - 1) g.m_bitmap_w (g.m_bitmap_h - empty_rows + 1),
      empty_rows - 1)
  else (g, 0)

/-- The contraction calls that end `FtGlyph::crunch` (ft_glyph.cpp:491–495), in the order of
the source: `contractLeft`, `contractUp`, `contractRight`, `contractDown`. -/
def FtGlyph.crunchContract (g : FtGlyph) : FtGlyph :=
  g.contractLeft.1.contractUp.1.contractRight.1.contractDown.1


/-! ## Vocabulary for the placement rule of `SkyLine::fit` -/

namespace SkyLine

/-- The resting height of a glyph of width `w` put at column `x`: the maximum
`max(line[x..x+w))` of the contour under it. -/
def restingHeight (s : SkyLine) (x w : Nat) : Nat :=
  (List.range w).foldl (fun m t => max m (s.m_line.getD (x + t) 0)) 0

/-- The indices at which `SkyLine::fit` may read `m_line` for a glyph of width `bitmap_w`:
`ii` of the minimum/maximum loop, `jj` of the column loop, and `kk + fitting_pixels` of the
innermost `while` for every `jj`, every `kk` from `max(jj - width + 1, 0)` to
`min(jj, m_width - width)` and every `fitting_pixels < bitmap_w`.  The source leaves the loops
at the first fit, so what it actually reads is part of this list. -/
def fitReadIndices (s : SkyLine) (bitmap_w : Nat) : List Int :=
  (List.range s.m_width).map (fun (ii : Nat) => (ii : Int)) ++
  (List.range s.m_width).flatMap (fun (jj : Nat) =>
    (jj : Int) ::
      let width_i := toInt bitmap_w
      let iter_i := toInt jj
      let kk := max (iter_i - width_i + 1) 0
      let ee := min iter_i (toInt s.m_width - width_i)
      (List.range (ee + 1 - kk).toNat).flatMap (fun (d : Nat) =>
        (List.range bitmap_w).map (fun (fitting_pixels : Nat) =>
          kk + (d : Int) + toInt fitting_pixels)))

end SkyLine


/-! ## The XML record of a glyph (`FtGlyph::write`, ft_glyph.cpp) -/

/-- The members of `class FtGlyph` that `write` prints and the packer never touches. -/
structure FtGlyphMetrics where
  m_width : ℚ
  m_height : ℚ
  m_left : ℚ
  m_top : ℚ
  m_advance_x : ℚ
  m_advance_y : ℚ
  m_x1 : ℚ
  m_y1 : ℚ
  m_x2 : ℚ
  m_y2 : ℚ
deriving DecidableEq

/-- The values that `FtGlyph::write` puts between the tags of one `<glyph>` element, in the
order in which they are printed. -/
structure GlyphRecord where
  code : Nat
  width : ℚ
  height : ℚ
  left : ℚ
  top : ℚ
  advance_x : ℚ
  advance_y : ℚ
  x1 : ℚ
  y1 : ℚ
  x2 : ℚ
  y2 : ℚ
  s1 : ℚ
  t1 : ℚ
  s2 : ℚ
  t2 : ℚ
  page : Nat
deriving DecidableEq

/-- Method `FtGlyph::write(fptr, glst)`: the record appended to the file. -/
def FtGlyph.write (g : FtGlyph) (m : FtGlyphMetrics) (glst : Bool) : GlyphRecord :=
  { code := g.m_unicode
    width := m.m_width
    height := m.m_height
    left := m.m_left
    top := m.m_top
    advance_x := m.m_advance_x
    advance_y := m.m_advance_y
    x1 := m.m_x1
    y1 := m.m_y1
    x2 := m.m_x2
    y2 := m.m_y2
    s1 := g.m_s1
    t1 := if glst then g.m_t1 else 1 - g.m_t1
    s2 := g.m_s2
    t2 := if glst then g.m_t2 else 1 - g.m_t2
    page := g.m_page }

/-! ## The driver: handling of the parsed options in `main` (main.cpp) -/

/-- Library call `std::string::compare`, on the characters of the two strings: zero when they
are equal, negative or positive by the first difference otherwise. -/
def charsCompare : List Char → List Char → Int
  | [], [] => 0
  | [], _ :: _ => -1
  | _ :: _, [] => 1
  | a :: as, b :: bs =>
    if a.toNat < b.toNat then -1 else if b.toNat < a.toNat then 1 else charsCompare as bs

/-- Library call `a.compare(b)` of `std::string`. -/
def stringCompare (a b : String) : Int :=
  charsCompare a.toList b.toList

/-- The block `if(vmap.count("coordinates"))` of `main` (main.cpp:202-219): the value of
`opengl_coordinates` after it, or the message of the exception thrown.  `coordinates` is the
value of the option, `none` when the option is absent; a C++ `if(n)` on an `int` tests
`n != 0`. -/
def mainCoordinates (coordinates : Option String) (opengl_coordinates : Bool) :
    Except String Bool :=
  match coordinates with
  | none => Except.ok opengl_coordinates
  | some coordinate_system =>
    if stringCompare coordinate_system "opengl" ≠ 0 then Except.ok true
    else if stringCompare coordinate_system "directx" ≠ 0 then Except.ok false
    else Except.error ("invalid coordinate system: " ++ coordinate_system)

/-- Type `RangeMap`, a `std::map<std::string, GlyphRange>`: its entries in key order. -/
abbrev RangeMap := List (String × GlyphRange)

/-- Library call `ranges.find(key)`; `none` is the end iterator. -/
def rangeMapFind (ranges : RangeMap) (key : String) : Option (String × GlyphRange) :=
  List.find? (fun vv => decide (vv.1 = key)) ranges

/-- Library call `ranges[key] = v`: the entry is replaced, or inserted at its place in the
key order. -/
def rangeMapAssign : RangeMap → String → GlyphRange → RangeMap
  | [], key, v => [(key, v)]
  | (k, r) :: rest, key, v =>
    if k = key then (key, v) :: rest
    else if stringCompare key k < 0 then (key, v) :: (k, r) :: rest
    else (k, r) :: rangeMapAssign rest key v

/-- A call `iter->second.f()` on the entry that an iterator found by `find(key)` points to. -/
def rangeMapModify (ranges : RangeMap) (key : String) (f : GlyphRange → GlyphRange) :
    RangeMap :=
  ranges.map (fun vv => if vv.1 = key then (vv.1, f vv.2) else vv)

/-- The table `g_segments_enabled`. -/
def g_segments_enabled : List String :=
  ["default", "ascii", "latin", "greek", "cyrillic", "hiragana", "katakana"]

/-- The range map of `main` before the options are looked at (main.cpp:108-135). -/
def mainInitialRanges : RangeMap :=
  let ranges : RangeMap := []
  let ranges := rangeMapAssign ranges "default" GlyphRange.empty
  let ranges := rangeMapAssign ranges "ascii" (GlyphRange.ofRange 32 126)
  let ranges := rangeMapAssign ranges "latin" (GlyphRange.ofRange 0xc0 0xff)
  let ranges := rangeMapAssign ranges "greek" (GlyphRange.ofRange 0x370 0x3ff)
  let ranges := rangeMapAssign ranges "cyrillic" (GlyphRange.ofRange 0x410 0x44f)
  let ranges := rangeMapAssign ranges "hiragana" (GlyphRange.ofRange 0x3040 0x309e)
  let ranges := rangeMapAssign ranges "katakana" (GlyphRange.ofRange 0x30a0 0x30fe)
  let ranges := rangeMapAssign ranges "unified-ideograms" (GlyphRange.ofRange 0x4e00 0x9fa5)
  let ranges := rangeMapAssign ranges "hangul" (GlyphRange.ofRange 0xac00 0xd7af)
  let ranges := rangeMapModify ranges "default"
    (fun default_range => ((default_range.add 0x2026).add 0x25a0).add 0x25af)
  g_segments_enabled.foldl (fun ranges ii => rangeMapModify ranges ii GlyphRange.enable) ranges

/-- Library call `isspace` of the C locale. -/
def isSpace (c : Char) : Bool :=
  decide (c.toNat = 32) || (decide (9 ≤ c.toNat) && decide (c.toNat ≤ 13))

/-- The digits of a `%u` conversion: the value read so far and the characters left. -/
def scanDigits : List Char → Nat → Nat × List Char
  | [], acc => (acc, [])
  | c :: rest, acc =>
    if c.isDigit then scanDigits rest (acc * 10 + (c.toNat - 48)) else (acc, c :: rest)

/-- One `%u` conversion of `sscanf`: white space is skipped, an optional sign is read, then
at least one decimal digit; the value is reduced to 32 bits (negated for a minus sign).  The
result is the value and the characters left, `none` when the conversion fails. -/
def scanUnsigned (cs : List Char) : Option (Nat × List Char) :=
  let cs := cs.dropWhile isSpace
  let signed : Bool × List Char :=
    match cs with
    | c :: rest => if c = '-' then (true, rest) else if c = '+' then (false, rest) else (false, cs)
    | [] => (false, [])
  match signed.2 with
  | [] => none
  | c :: rest =>
    if c.isDigit then
      let r := scanDigits (c :: rest) 0
      some (if signed.1 then usub 0 (r.1 % 4294967296) % 4294967296 else r.1 % 4294967296, r.2)
    else none

/-- The test `2 == sscanf(ii.c_str(), "%u:%u", &uu1, &uu2)`: the two values when both
conversions succeed with a colon between them. -/
def sscanfRange (ii : String) : Option (Nat × Nat) :=
  match scanUnsigned ii.toList with
  | none => none
  | some (uu1, rest) =>
    match rest with
    | c :: rest =>
      if c = ':' then
        match scanUnsigned rest with
        | some (uu2, _) => some (uu1, uu2)
        | none => none
      else none
    | [] => none

/-- The test `1 == sscanf(ii.c_str(), "%u", &uu1)`. -/
def sscanfPoint (ii : String) : Option Nat :=
  (scanUnsigned ii.toList).map (fun r => r.1)

/-- How the option handling of `main` ends: with the range map and the extra range, with an
exception (`what` is its message), or in a step that has no defined behaviour. -/
inductive ConfigOutcome where
  | ok (ranges : RangeMap) (extra_range : GlyphRange)
  | error (what : String)
  | undefinedBehaviour
deriving DecidableEq

/-- The body of the loop over the `--include` values (main.cpp:316-344) for the value `ii`. -/
def mainIncludeToken (ranges : RangeMap) (extra_range : GlyphRange) (ii : String) :
    ConfigOutcome :=
  if (rangeMapFind ranges ii).isSome then
    ConfigOutcome.ok (rangeMapModify ranges ii GlyphRange.enable) extra_range
  else
    match sscanfRange ii with
    | some (uu1, uu2) => ConfigOutcome.ok ranges (extra_range.addRange uu1 uu2).enable
    | none =>
      match sscanfPoint ii with
      | some uu1 => ConfigOutcome.ok ranges (extra_range.add uu1).enable
      | none => ConfigOutcome.error ("invalid range description: '" ++ ii ++ "'")

/-- The body of the loop over the `--revoke` values (main.cpp:349-383) for the value `ii`.
The first branch is taken when `ranges.end() == iter` and calls `disable()` through the end
iterator.  `past` is the value that `remove(ps, pe)` finds one element behind a vector. -/
def mainRevokeToken (ranges : RangeMap) (extra_range : GlyphRange) (past : Nat) (ii : String) :
    ConfigOutcome :=
  if (rangeMapFind ranges ii).isNone then ConfigOutcome.undefinedBehaviour
  else
    match sscanfRange ii with
    | some (uu1, uu2) =>
      ConfigOutcome.ok (ranges.map (fun vv => (vv.1, vv.2.removeRange uu1 uu2 past)))
        (extra_range.removeRange uu1 uu2 past)
    | none =>
      match sscanfPoint ii with
      | some uu1 =>
        ConfigOutcome.ok (ranges.map (fun vv => (vv.1, vv.2.remove uu1))) (extra_range.remove uu1)
      | none => ConfigOutcome.error ("invalid range description: '" ++ ii ++ "'")

/-- A loop over option values whose body may throw or leave defined behaviour. -/
def mainTokens (body : RangeMap → GlyphRange → String → ConfigOutcome) :
    List String → RangeMap → GlyphRange → ConfigOutcome
  | [], ranges, extra_range => ConfigOutcome.ok ranges extra_range
  | ii :: segments, ranges, extra_range =>
    match body ranges extra_range ii with
    | ConfigOutcome.ok ranges extra_range => mainTokens body segments ranges extra_range
    | ConfigOutcome.error what => ConfigOutcome.error what
    | ConfigOutcome.undefinedBehaviour => ConfigOutcome.undefinedBehaviour

/-- The options of the command line that `main` finds in `vmap` and that concern the glyph
ranges and the coordinate system: a flag is `true` when its count is positive, a list holds
the values of a repeatable option (empty when absent), `none` is an absent option. -/
structure VariablesMap where
  opt_all : Bool
  opt_coordinates : Option String
  opt_custom_range : Option String
  opt_empty : Bool
  opt_include : List String
  opt_revoke : List String

/-- The part of `main` that turns the options into the set of glyph ranges (main.cpp:97-135,
290-384 and 414-417).  No statement of `main` reads the value of `custom-range`. -/
def mainRanges (vmap : VariablesMap) (past : Nat) : ConfigOutcome :=
  let extra_range := GlyphRange.empty
  let ranges := mainInitialRanges
  let enable_all := vmap.opt_all
  let enable_none := vmap.opt_empty
  if enable_all && enable_none then
    ConfigOutcome.error "both 'all' and 'empty' options specified at the same time"
  else
    let ranges :=
      if enable_all then ranges.map (fun vv => (vv.1, vv.2.enable))
      else if enable_none then ranges.map (fun vv => (vv.1, vv.2.disable))
      else ranges
    match mainTokens mainIncludeToken vmap.opt_include ranges extra_range with
    | ConfigOutcome.ok ranges extra_range =>
      match mainTokens (fun r e ii => mainRevokeToken r e past ii) vmap.opt_revoke ranges
          extra_range with
      | ConfigOutcome.ok ranges extra_range =>
        if extra_range.m_enabled then
          ConfigOutcome.ok (rangeMapAssign ranges "extra" extra_range) extra_range
        else ConfigOutcome.ok ranges extra_range
      | ConfigOutcome.error what => ConfigOutcome.error what
      | ConfigOutcome.undefinedBehaviour => ConfigOutcome.undefinedBehaviour
    | ConfigOutcome.error what => ConfigOutcome.error what
    | ConfigOutcome.undefinedBehaviour => ConfigOutcome.undefinedBehaviour

/-! ## Rendering and dispatching the glyphs of a range (`GlyphRange::queue`, glyph_range.cpp) -/

/-- A font face.  `load unicode targetsize` stands for the FreeType calls of
`FtFace::renderGlyph` (`FT_Get_Char_Index`, `FT_Load_Glyph`, `FT_Render_Glyph`) and the glyph
built from the slot; it is `none` when one of the calls fails. -/
structure FtFace where
  load : Nat → Nat → Option FtGlyph

/-- Type `FtFaceSptr`. -/
abbrev FtFaceSptr := FtFace

/-- Method `FtFace::renderGlyph`: the new glyph carries the requested code point; `none` is
the null pointer. -/
def FtFace.renderGlyph (f : FtFace) (unicode targetsize : Nat) : Option FtGlyph :=
  (f.load unicode targetsize).map (fun g => { g with m_unicode := unicode })

/-- The task `crunch_glyph(storage, gly)` that a worker runs: `gly->crunch()` and then
`storage.add(gly)`.  `crunch gly` is the tile that `crunch` computes, with its width and
height; the other members used here are left as they are. -/
def crunch_glyph (crunch : FtGlyph → List Nat × Nat × Nat) (g_verbose : Bool)
    (storage : GlyphStorage) (gly : FtGlyph) : GlyphStorage :=
  let gly := { gly with m_crunched := (crunch gly).1, m_bitmap_w := (crunch gly).2.1,
                        m_bitmap_h := (crunch gly).2.2 }
  (storage.add gly g_verbose).1

/-- The producer running `GlyphRange::queue` together with the worker pool: the storage, the
tasks handed to `thr::dispatch` that no worker has finished yet (oldest first), and what the
producer has done so far: the glyphs dispatched, the arguments of `storage.missing`, and the
local `ret`. -/
structure QueueState where
  storage : GlyphStorage
  pending : List FtGlyph
  dispatched : List FtGlyph
  missing : List Nat
  ret : Nat

/-- Modelled from the spec: the worker pool behind `thr::dispatch` (`thr/dispatch.hpp` is not
among the sources); `dispatch(task)` enqueues the task and a worker of the pool runs it
later.  Here the workers finish the `n` oldest pending tasks (all of them when there are
fewer). -/
def queueWorkers (crunch : FtGlyph → List Nat × Nat × Nat) (g_verbose : Bool) :
    Nat → QueueState → QueueState
  | 0, q => q
  | n + 1, q =>
    match q.pending with
    | [] => q
    | gly :: rest =>
      queueWorkers crunch g_verbose n
        { q with storage := crunch_glyph crunch g_verbose q.storage gly, pending := rest }

/-- The wait of `concurrencyIcrement`: while the counter is at the ceiling the producer
sleeps and a worker finishes the oldest pending task.  `none`: the counter is at the ceiling
and no task is pending, so the producer is never woken. -/
def queueWait (crunch : FtGlyph → List Nat × Nat × Nat) (g_verbose : Bool) :
    Nat → QueueState → Option QueueState
  | fuel, q =>
    if q.storage.m_glyphs_in_flight ≥ q.storage.m_concurrency then
      match fuel, q.pending with
      | fuel + 1, gly :: rest =>
        queueWait crunch g_verbose fuel
          { q with storage := crunch_glyph crunch g_verbose q.storage gly, pending := rest }
      | _, _ => none
    else some q

/-- The body of the outer loop of `GlyphRange::queue` for the code point `gidx`.  Before it,
the workers finish `progress` of the pending tasks. -/
def queueStep (src : List FtFaceSptr) (target_size : Nat)
    (crunch : FtGlyph → List Nat × Nat × Nat) (g_verbose : Bool) (progress : Nat)
    (q : QueueState) (gidx : Nat) : Option QueueState :=
  let q := queueWorkers crunch g_verbose progress q
  let marked := q.storage.markGlyph gidx
  let q := { q with storage := marked.1 }
  let gly : Option FtGlyph :=
    if marked.2 then src.findSome? (fun ii => ii.renderGlyph gidx target_size) else none
  match gly with
  | some g =>
    (queueWait crunch g_verbose q.pending.length q).bind (fun q =>
      q.storage.concurrencyIcrement.map (fun storage =>
        { q with storage := storage, pending := q.pending ++ [g],
                 dispatched := q.dispatched ++ [g], ret := q.ret + 1 }))
  | none =>
    some { q with storage := q.storage.missing gidx g_verbose, missing := q.missing ++ [gidx] }

/-- The outer loop of `GlyphRange::queue` from the `k`-th code point on; `sched k` is the
number of pending tasks that the workers finish before the producer gets to it. -/
def queueLoop (src : List FtFaceSptr) (target_size : Nat)
    (crunch : FtGlyph → List Nat × Nat × Nat) (g_verbose : Bool) (sched : Nat → Nat) :
    List Nat → Nat → QueueState → Option QueueState
  | [], _, q => some q
  | gidx :: rest, k, q =>
    match queueStep src target_size crunch g_verbose (sched k) q gidx with
    | none => none
    | some q => queueLoop src target_size crunch g_verbose sched rest (k + 1) q

/-- Method `GlyphRange::queue`, run against the worker pool; the returned number is the field
`ret` of the result.  `pending` are the tasks of earlier calls that are still with the
workers. -/
def GlyphRange.queue (r : GlyphRange) (storage : GlyphStorage) (src : List FtFaceSptr)
    (target_size : Nat) (crunch : FtGlyph → List Nat × Nat × Nat) (g_verbose : Bool)
    (sched : Nat → Nat) (pending : List FtGlyph) : Option QueueState :=
  if !r.m_enabled then
    some { storage := storage, pending := pending, dispatched := [], missing := [], ret := 0 }
  else
    queueLoop src target_size crunch g_verbose sched r.m_range 0
      { storage := storage, pending := pending, dispatched := [], missing := [], ret := 0 }


/-! ## The dispatch loop of `SkyLineFitter::queue` -/

/-- The loop `for(unsigned ii = m_max_size; (0 < ii); ii -= SkyLine::SIZE_STEP)` of
`SkyLineFitter::queue` from the value `ii` on, run for at most `fuel` turns: the arguments
`(ii, m_max_size)` of the dispatched tasks, `none` when the loop is still running after
`fuel` turns. -/
def SkyLineFitter.queueDispatch (m_max_size : Nat) : Nat → Nat → Option (List (Nat × Nat))
  | fuel, ii =>
    if 0 < ii then
      match fuel with
      | 0 => none
      | fuel + 1 =>
        (SkyLineFitter.queueDispatch m_max_size fuel (usub ii SkyLine.SIZE_STEP)).map
          (fun tasks => (ii, m_max_size) :: tasks)
    else some []

/-! ## The expansion phase of `FtGlyph::crunch` (`ft_glyph.cpp`, lines 338–479)

The `unsigned` counters follow the conventions above: a subtraction wraps (`usub`), sums and
products are exact; the `int` sample coordinates are exact integers.  The sampling function
`sample px py` and the conversion `coord u` of an `unsigned` offset `u` into a source offset
(`math::lround(static_cast<float>(u) * step)`) are arguments of the passes, and `crunchExpansion`
below passes the ones of the source. -/

/-- The locals of `FtGlyph::crunch` that its expansion loop changes, with the tile
`m_crunched`. -/
structure Expansion where
  m_crunched : List Nat
  bitmap_down : Nat
  bitmap_left : Nat
  bitmap_right : Nat
  bitmap_scope_horiz : Nat
  bitmap_scope_vert : Nat
  bitmap_up : Nat
  down_done : Bool
  left_done : Bool
  right_done : Bool
  up_done : Bool
  done : Bool
deriving DecidableEq

/-- The assignment `*iter = dfval` for `iter = m_crunched + offset`; a write outside the
allocated tile has no defined result (`none`). -/
def Expansion.store (e : Expansion) (offset : Int) (dfval : Nat) : Option Expansion :=
  if 0 ≤ offset ∧ offset < (e.m_crunched.length : Int) then
    some { e with m_crunched := e.m_crunched.set offset.toNat dfval }
  else none

/-- The loop `for(unsigned ii = 0; (ii < n); ++ii)` around a body that may fail. -/
def Expansion.forRange (n : Nat) (body : Expansion → Nat → Option Expansion) (e : Expansion) :
    Option Expansion :=
  (List.range n).foldl (fun acc (ii : Nat) => acc.bind (fun e => body e ii)) (some e)

/-- The block guarded by `if(!down_done || (expansion < vert_expand))`. -/
def Expansion.downPass (sample : Int → Int → Nat) (coord : Nat → Int)
    (m_target_size m_bitmap_w : Nat) (ox oy : Int) (e : Expansion) : Option Expansion :=
  let e := { e with down_done := true, bitmap_down := e.bitmap_down + 1,
                    bitmap_scope_vert := e.bitmap_scope_vert + 1 }
  let iter : Int :=
    (((m_target_size + e.bitmap_down) * m_bitmap_w + m_target_size : Nat) : Int) -
      (e.bitmap_left : Int)
  Expansion.forRange e.bitmap_scope_horiz (fun e ii =>
    let dfval := sample (coord (usub ii e.bitmap_left) + ox) (coord e.bitmap_down + oy)
    let e :=
      if 0 < dfval then
        let e :=
          if 0 ≥ ii then { e with left_done := false }
          else if usub e.bitmap_scope_horiz 1 ≤ ii then { e with right_done := false }
          else e
        { e with down_done := false, done := false }
      else e
    e.store (iter + (ii : Int)) dfval) e

/-- The block guarded by `if(!left_done || (expansion < horiz_expand))`. -/
def Expansion.leftPass (sample : Int → Int → Nat) (coord : Nat → Int)
    (m_target_size m_bitmap_w : Nat) (ox oy : Int) (e : Expansion) : Option Expansion :=
  let e := { e with left_done := true, bitmap_left := e.bitmap_left + 1,
                    bitmap_scope_horiz := e.bitmap_scope_horiz + 1 }
  let iter : Int :=
    ((usub m_target_size e.bitmap_up * m_bitmap_w + m_target_size : Nat) : Int) -
      (e.bitmap_left : Int)
  Expansion.forRange e.bitmap_scope_vert (fun e ii =>
    let dfval := sample (coord (usub 0 e.bitmap_left) + ox) (coord (usub ii e.bitmap_up) + oy)
    let e :=
      if 0 < dfval then
        let e :=
          if 0 ≥ ii then { e with up_done := false }
          else if usub e.bitmap_scope_vert 1 ≤ ii then { e with down_done := false }
          else e
        { e with left_done := false, done := false }
      else e
    e.store (iter + ((ii * m_bitmap_w : Nat) : Int)) dfval) e

/-- The block guarded by `if(!right_done || (expansion < horiz_expand))`. -/
def Expansion.rightPass (sample : Int → Int → Nat) (coord : Nat → Int)
    (m_target_size m_bitmap_w : Nat) (ox oy : Int) (e : Expansion) : Option Expansion :=
  let e := { e with right_done := true, bitmap_right := e.bitmap_right + 1,
                    bitmap_scope_horiz := e.bitmap_scope_horiz + 1 }
  let iter : Int :=
    ((usub m_target_size e.bitmap_up * m_bitmap_w + m_target_size + e.bitmap_right : Nat) : Int)
  Expansion.forRange e.bitmap_scope_vert (fun e ii =>
    let dfval := sample (coord e.bitmap_right + ox) (coord (usub ii e.bitmap_up) + oy)
    let e :=
      if 0 < dfval then
        let e :=
          if 0 ≥ ii then { e with up_done := false }
          else if usub e.bitmap_scope_vert 1 ≤ ii then { e with down_done := false }
          else e
        { e with right_done := false, done := false }
      else e
    e.store (iter + ((ii * m_bitmap_w : Nat) : Int)) dfval) e

/-- The block guarded by `if(!up_done || (expansion < vert_expand))`. -/
def Expansion.upPass (sample : Int → Int → Nat) (coord : Nat → Int)
    (m_target_size m_bitmap_w : Nat) (ox oy : Int) (e : Expansion) : Option Expansion :=
  let e := { e with up_done := true, bitmap_up := e.bitmap_up + 1,
                    bitmap_scope_vert := e.bitmap_scope_vert + 1 }
  let iter : Int :=
    ((usub m_target_size e.bitmap_up * m_bitmap_w + m_target_size : Nat) : Int) -
      (e.bitmap_left : Int)
  Expansion.forRange e.bitmap_scope_horiz (fun e ii =>
    let dfval := sample (coord (usub ii e.bitmap_left) + ox) (coord (usub 0 e.bitmap_up) + oy)
    let e :=
      if 0 < dfval then
        let e :=
          if 0 ≥ ii then { e with left_done := false }
          else if usub e.bitmap_scope_horiz 1 ≤ ii then { e with right_done := false }
          else e
        { e with up_done := false, done := false }
      else e
    e.store (iter + (ii : Int)) dfval) e

/-- One turn of the expansion loop, for the loop counter `expansion`; `none` when one of its
writes is outside the tile. -/
def Expansion.turn (sample : Int → Int → Nat) (coord : Nat → Int)
    (m_target_size m_bitmap_w : Nat) (ox oy : Int) (horiz_expand vert_expand expansion : Nat)
    (e : Expansion) : Option Expansion :=
  let e := { e with done := true }
  (if !e.down_done || decide (expansion < vert_expand) then
      e.downPass sample coord m_target_size m_bitmap_w ox oy
    else some e).bind (fun e =>
  (if !e.left_done || decide (expansion < horiz_expand) then
      e.leftPass sample coord m_target_size m_bitmap_w ox oy
    else some e).bind (fun e =>
  (if !e.right_done || decide (expansion < horiz_expand) then
      e.rightPass sample coord m_target_size m_bitmap_w ox oy
    else some e).bind (fun e =>
  if !e.up_done || decide (expansion < vert_expand) then
    e.upPass sample coord m_target_size m_bitmap_w ox oy
  else some e)))

/-- How a run of the expansion phase ends: the loop is left with the locals `e`, a write of
the turn `expansion` is outside the tile, the loop is still running when the fuel is used up,
or the write of the centre byte before the loop is outside the tile. -/
inductive ExpansionOutcome where
  | finished (e : Expansion)
  | outside (expansion : Nat)
  | running
  | centreOutside
deriving DecidableEq

/-- The loop `for(unsigned expansion = 0; ((expansion < horiz_expand) ||
(expansion < vert_expand) || !done); ++expansion)` from the counter value `expansion` on, run
for at most `fuel` turns. -/
def Expansion.loop (sample : Int → Int → Nat) (coord : Nat → Int)
    (m_target_size m_bitmap_w : Nat) (ox oy : Int) (horiz_expand vert_expand : Nat) :
    Nat → Nat → Expansion → ExpansionOutcome
  | 0, expansion, e =>
    if expansion < horiz_expand ∨ expansion < vert_expand ∨ e.done = false then
      ExpansionOutcome.running
    else ExpansionOutcome.finished e
  | fuel + 1, expansion, e =>
    if expansion < horiz_expand ∨ expansion < vert_expand ∨ e.done = false then
      match e.turn sample coord m_target_size m_bitmap_w ox oy horiz_expand vert_expand
          expansion with
      | none => ExpansionOutcome.outside expansion
      | some e1 =>
        Expansion.loop sample coord m_target_size m_bitmap_w ox oy horiz_expand vert_expand
          fuel (expansion + 1) e1
    else ExpansionOutcome.finished e

/-- The expansion phase of `FtGlyph::crunch` on the coverage bitmap `bitmap` of a glyph with
the members `m_size`, `m_target_size` and `m_dropdown`, from the allocation of the tile to
the end of the expansion loop, run for at most `fuel` turns. -/
def crunchExpansion (bitmap : FT_Bitmap) (m_size m_target_size : Nat) (m_dropdown : ℚ)
    (fuel : Nat) : ExpansionOutcome :=
  let step : ℚ := (m_size : ℚ) / (m_target_size : ℚ)
  let dist_scale := crunchDistScale m_size m_dropdown
  let search := crunchSearch m_size m_dropdown
  let ox : Int := (bitmap.width / 2 : Nat)
  let oy : Int := (bitmap.rows / 2 : Nat)
  let m_bitmap_w := m_target_size * 2 + 1
  let horiz_expand := (ceil ((ox : ℚ) / step)).toNat
  let vert_expand := (ceil ((oy : ℚ) / step)).toNat
  match crunchInit bitmap m_size m_target_size m_dropdown with
  | none => ExpansionOutcome.centreOutside
  | some m_crunched =>
    Expansion.loop (fun px py => get_ftbitmap_dfield_value bitmap px py search dist_scale)
      (fun (u : Nat) => lround ((u : ℚ) * step)) m_target_size m_bitmap_w ox oy horiz_expand
      vert_expand fuel 0
      { m_crunched := m_crunched,
        bitmap_down := 0, bitmap_left := 0, bitmap_right := 0, bitmap_scope_horiz := 1,
        bitmap_scope_vert := 1, bitmap_up := 0, down_done := false, left_done := false,
        right_done := false, up_done := false, done := false }

/-- Method `FtGlyph::crunch` of a glyph with the code point `m_unicode` as far as its tile is
concerned: the expansion phase, run for at most `fuel` turns, followed by the four
contractions.  `none`: the expansion phase writes outside the tile, or is still running when
the fuel is used up. -/
def crunch (m_unicode : Nat) (bitmap : FT_Bitmap) (m_size m_target_size : Nat) (m_dropdown : ℚ)
    (fuel : Nat) : Option FtGlyph :=
  match crunchExpansion bitmap m_size m_target_size m_dropdown fuel with
  | ExpansionOutcome.finished e =>
    some (FtGlyph.mk m_unicode e.m_crunched ((m_target_size * 2 + 1) % 4294967296)
      ((m_target_size * 2 + 1) % 4294967296) 0 0 0 0 0).crunchContract
  | _ => none

/-- Specification side of the refinement of the expansion phase: the tile in which every cell
`(tx, ty)` holds the distance-field byte of the source point
`(ox + round((tx - target_size) * step), oy + round((ty - target_size) * step))`. -/
def crunchTileBySpec (bitmap : FT_Bitmap) (m_size m_target_size : Nat) (m_dropdown : ℚ) :
    List Nat :=
  let step : ℚ := (m_size : ℚ) / (m_target_size : ℚ)
  let ox : Int := (bitmap.width / 2 : Nat)
  let oy : Int := (bitmap.rows / 2 : Nat)
  let m_bitmap_w := m_target_size * 2 + 1
  (List.range (m_bitmap_w * m_bitmap_w)).map (fun (k : Nat) =>
    get_ftbitmap_dfield_value bitmap
      (ox + lround ((((k % m_bitmap_w : Nat) : ℚ) - (m_target_size : ℚ)) * step))
      (oy + lround ((((k / m_bitmap_w : Nat) : ℚ) - (m_target_size : ℚ)) * step))
      (crunchSearch m_size m_dropdown) (crunchDistScale m_size m_dropdown))

/-! ## Properties -/

/-! ### Folds over a column range -/

theorem foldl_max_getD_ge (l : List Nat) (n init : Nat) :
    init ≤ (List.range n).foldl (fun ret ii => max (l.getD ii 0) ret) init ∧
    ∀ i, i < n → l.getD i 0 ≤ (List.range n).foldl (fun ret ii => max (l.getD ii 0) ret) init := by
  induction n with
  | zero => simp
  | succ n ih =>
    rw [List.range_succ, List.foldl_append]
    simp only [List.foldl_cons, List.foldl_nil]
    refine ⟨le_trans ih.1 (le_max_right _ _), ?_⟩
    intro i hi
    rcases Nat.lt_succ_iff_lt_or_eq.mp hi with h | h
    · exact le_trans (ih.2 i h) (le_max_right _ _)
    · subst h; exact le_max_left _ _

theorem foldl_max_getD_le (l : List Nat) (n init k : Nat) (hinit : init ≤ k)
    (h : ∀ i, i < n → l.getD i 0 ≤ k) :
    (List.range n).foldl (fun ret ii => max (l.getD ii 0) ret) init ≤ k := by
  induction n with
  | zero => simpa using hinit
  | succ n ih =>
    rw [List.range_succ, List.foldl_append]
    simp only [List.foldl_cons, List.foldl_nil]
    exact max_le (h n (Nat.lt_succ_self n)) (ih (fun i hi => h i (Nat.lt_succ_of_lt hi)))

theorem getD_of_mem (l : List Nat) (v : Nat) (hv : v ∈ l) :
    ∃ i, i < l.length ∧ l.getD i 0 = v := by
  obtain ⟨i, hi, rfl⟩ := List.getElem_of_mem hv
  exact ⟨i, hi, by simp [List.getD_eq_getElem?_getD, List.getElem?_eq_getElem hi]⟩

theorem getD_mem_of_lt (l : List Nat) (i : Nat) (hi : i < l.length) : l.getD i 0 ∈ l := by
  simp [List.getD_eq_getElem?_getD, List.getElem?_eq_getElem hi]

/-! ### C10: `getUsedHeight` -/

/-- C10. For every contour (an array of `m_width` heights), `getUsedHeight` is a multiple of 4,
is at least every entry of `line[]`, and is at most every multiple of 4 that is at least every
entry: it is the least multiple of 4 above the maximum.  In particular it is 0 for an all-zero
or empty contour. -/
theorem getUsedHeight_least_multiple_of_four (s : SkyLine)
    (hlen : s.m_line.length = s.m_width) :
    4 ∣ s.getUsedHeight ∧
    (∀ v ∈ s.m_line, v ≤ s.getUsedHeight) ∧
    (∀ k, 4 ∣ k → (∀ v ∈ s.m_line, v ≤ k) → s.getUsedHeight ≤ k) ∧
    ((∀ v ∈ s.m_line, v = 0) → s.getUsedHeight = 0) := by
  have hge := foldl_max_getD_ge s.m_line s.m_width 0
  have hle := fun k => foldl_max_getD_le s.m_line s.m_width 0 k (Nat.zero_le k)
  have key : ∀ k, (∀ v ∈ s.m_line, v ≤ k) →
      (List.range s.m_width).foldl (fun ret ii => max (s.m_line.getD ii 0) ret) 0 ≤ k := by
    intro k hk
    apply hle
    intro i hi
    exact hk _ (getD_mem_of_lt _ _ (by omega))
  have hmem : ∀ v ∈ s.m_line,
      v ≤ (List.range s.m_width).foldl (fun ret ii => max (s.m_line.getD ii 0) ret) 0 := by
    intro v hv
    obtain ⟨i, hi, rfl⟩ := getD_of_mem _ _ hv
    exact hge.2 i (by omega)
  unfold SkyLine.getUsedHeight SkyLine.SIZE_STEP
  simp only []
  generalize (List.range s.m_width).foldl (fun ret ii => max (s.m_line.getD ii 0) ret) 0 = M
    at key hmem
  refine ⟨?_, ?_, ?_, ?_⟩
  · split <;> omega
  · intro v hv
    have := hmem v hv
    split <;> omega
  · intro k hk hall
    have := key k hall
    split <;> omega
  · intro hz
    have := key 0 (fun v hv => by rw [hz v hv])
    split <;> omega

theorem getUsedHeight_least_multiple_of_four_witness :
    (4 ∣ (SkyLine.mk none [0, 5, 3] 3 8 0).getUsedHeight ∧
      (∀ v ∈ [0, 5, 3], v ≤ (SkyLine.mk none [0, 5, 3] 3 8 0).getUsedHeight) ∧
      (∀ k, 4 ∣ k → (∀ v ∈ [0, 5, 3], v ≤ k) →
        (SkyLine.mk none [0, 5, 3] 3 8 0).getUsedHeight ≤ k) ∧
      ((∀ v ∈ [0, 5, 3], v = 0) → (SkyLine.mk none [0, 5, 3] 3 8 0).getUsedHeight = 0)) ∧
    (SkyLine.mk none [0, 5, 3] 3 8 0).getUsedHeight = 8 :=
  ⟨getUsedHeight_least_multiple_of_four (SkyLine.mk none [0, 5, 3] 3 8 0) (by decide),
    by decide⟩

/-! ### C9, C8: `sort` and `trim` -/

theorem stdSortInsert_perm {α : Type} (less : α → α → Bool) (x : α) (l : List α) :
    (stdSortInsert less x l).Perm (x :: l) := by
  induction l with
  | nil => exact List.Perm.refl _
  | cons y ys ih =>
    unfold stdSortInsert
    split
    · exact List.Perm.refl _
    · exact (List.Perm.cons y ih).trans (List.Perm.swap x y ys)

theorem stdSort_perm {α : Type} (less : α → α → Bool) (l : List α) :
    (stdSort less l).Perm l := by
  induction l with
  | nil => exact List.Perm.refl _
  | cons x xs ih =>
    unfold stdSort
    exact (stdSortInsert_perm less x _).trans (List.Perm.cons x ih)

theorem stdSortInsert_pairwise {α : Type} (less : α → α → Bool)
    (hasymm : ∀ a b, less a b = true → less b a = false)
    (htrans : ∀ a b c, less a b = true → less b c = true → less a c = true)
    (x : α) (l : List α) (h : l.Pairwise (fun a b => less b a = false)) :
    (stdSortInsert less x l).Pairwise (fun a b => less b a = false) := by
  induction l with
  | nil => simp [stdSortInsert]
  | cons y ys ih =>
    rw [List.pairwise_cons] at h
    unfold stdSortInsert
    split
    · rename_i hxy
      refine List.Pairwise.cons ?_ (List.Pairwise.cons h.1 h.2)
      intro z hz
      rcases List.mem_cons.mp hz with rfl | hz
      · exact hasymm _ _ hxy
      · have hzy := h.1 z hz
        cases hzx : less z x with
        | false => rfl
        | true => rw [htrans z x y hzx hxy] at hzy; exact absurd hzy (by simp)
    · rename_i hxy
      refine List.Pairwise.cons ?_ (ih h.2)
      intro z hz
      rcases List.mem_cons.mp ((stdSortInsert_perm less x ys).subset hz) with rfl | hz
      · simpa using hxy
      · exact h.1 z hz

theorem stdSort_pairwise {α : Type} (less : α → α → Bool)
    (hasymm : ∀ a b, less a b = true → less b a = false)
    (htrans : ∀ a b c, less a b = true → less b c = true → less a c = true)
    (l : List α) : (stdSort less l).Pairwise (fun a b => less b a = false) := by
  induction l with
  | nil => simp [stdSort]
  | cons x xs ih =>
    unfold stdSort
    exact stdSortInsert_pairwise less hasymm htrans x _ ih

theorem ft_glyph_sptr_less_asymm (a b : FtGlyphSptr) (h : ft_glyph_sptr_less a b = true) :
    ft_glyph_sptr_less b a = false := by
  cases a <;> cases b <;> simp_all [ft_glyph_sptr_less]
  omega

theorem ft_glyph_sptr_less_trans (a b c : FtGlyphSptr) (hab : ft_glyph_sptr_less a b = true)
    (hbc : ft_glyph_sptr_less b c = true) : ft_glyph_sptr_less a c = true := by
  cases a <;> cases b <;> cases c <;> simp_all [ft_glyph_sptr_less]
  omega

theorem ordered_of_not_less (a b : FtGlyphSptr) (h : ft_glyph_sptr_less b a = false) :
    (a = none → b = none) ∧
    ∀ ga gb, a = some ga → b = some gb →
      gb.m_bitmap_h < ga.m_bitmap_h ∨
      (gb.m_bitmap_h = ga.m_bitmap_h ∧ gb.m_bitmap_w ≤ ga.m_bitmap_w) := by
  cases a <;> cases b <;> simp_all [ft_glyph_sptr_less]
  omega

theorem sort_pairwise_ordered (l : List FtGlyphSptr) :
    (stdSort ft_glyph_sptr_less l).Pairwise (fun a b =>
      (a = none → b = none) ∧
      ∀ ga gb, a = some ga → b = some gb →
        gb.m_bitmap_h < ga.m_bitmap_h ∨
        (gb.m_bitmap_h = ga.m_bitmap_h ∧ gb.m_bitmap_w ≤ ga.m_bitmap_w)) :=
  (stdSort_pairwise ft_glyph_sptr_less ft_glyph_sptr_less_asymm ft_glyph_sptr_less_trans
    l).imp (fun {a b} h => ordered_of_not_less a b h)

theorem resize_glyphsRemaining (l : List FtGlyphSptr)
    (h : l.Pairwise (fun a b => a = none → b = none)) :
    vectorResize l (GlyphStorage.glyphsRemaining l) = l.filter Option.isSome := by
  induction l with
  | nil => simp [vectorResize, GlyphStorage.glyphsRemaining]
  | cons a rest ih =>
    rw [List.pairwise_cons] at h
    cases a with
    | none =>
      have hall : ∀ b ∈ rest, b = none := fun b hb => h.1 b hb rfl
      have hfil : rest.filter Option.isSome = [] := by
        rw [List.filter_eq_nil_iff]
        intro b hb
        simp [hall b hb]
      simp [vectorResize, GlyphStorage.glyphsRemaining, hfil]
    | some g =>
      have := ih h.2
      simp only [vectorResize, GlyphStorage.glyphsRemaining, List.take_succ_cons,
        List.length_cons, Nat.add_sub_add_right, List.cons_append] at this ⊢
      simp [this]

/-- C9. For every storage list, `sort` yields a permutation of the list in which, for any two
positions in order, a null placeholder is only followed by null placeholders (all glyphs come
first) and of two glyphs the earlier one has the larger crunched height or, for equal heights,
a crunched width that is at least as large. -/
theorem sort_perm_nulls_last_tallest_first (st : GlyphStorage) :
    st.sort.m_glyphs.Perm st.m_glyphs ∧
    st.sort.m_glyphs.Pairwise (fun a b =>
      (a = none → b = none) ∧
      ∀ ga gb, a = some ga → b = some gb →
        gb.m_bitmap_h < ga.m_bitmap_h ∨
        (gb.m_bitmap_h = ga.m_bitmap_h ∧ gb.m_bitmap_w ≤ ga.m_bitmap_w)) :=
  ⟨stdSort_perm ft_glyph_sptr_less st.m_glyphs, sort_pairwise_ordered st.m_glyphs⟩

/-- C8. For every storage list, with any mixture of glyphs and null placeholders, the list
after `trim` has no null entry, is a permutation of the non-null entries of the list before,
and is ordered by crunched height descending, then crunched width descending. -/
theorem trim_drops_nulls_keeps_glyphs_sorted (st : GlyphStorage) :
    (∀ e ∈ st.trim.m_glyphs, e ≠ none) ∧
    st.trim.m_glyphs.Perm (st.m_glyphs.filter Option.isSome) ∧
    st.trim.m_glyphs.Pairwise (fun a b =>
      ∀ ga gb, a = some ga → b = some gb →
        gb.m_bitmap_h < ga.m_bitmap_h ∨
        (gb.m_bitmap_h = ga.m_bitmap_h ∧ gb.m_bitmap_w ≤ ga.m_bitmap_w)) := by
  have hsorted := sort_pairwise_ordered st.m_glyphs
  have heq : st.trim.m_glyphs = (stdSort ft_glyph_sptr_less st.m_glyphs).filter Option.isSome :=
    resize_glyphsRemaining _ (hsorted.imp (fun {a b} h => h.1))
  rw [heq]
  refine ⟨?_, ?_, ?_⟩
  · intro e he
    have := (List.mem_filter.mp he).2
    intro hnone
    simp [hnone] at this
  · exact (stdSort_perm ft_glyph_sptr_less st.m_glyphs).filter _
  · exact (hsorted.imp (fun {a b} h => h.2)).sublist (List.filter_sublist _)

/-! ### Writes into an array -/

theorem getD_set (l : List Nat) (j a i : Nat) :
    (l.set j a).getD i 0 = if j = i ∧ i < l.length then a else l.getD i 0 := by
  simp only [List.getD_eq_getElem?_getD, List.getElem?_set]
  by_cases h : j = i
  · subst h
    by_cases h2 : j < l.length
    · simp [h2]
    · simp [h2, List.getElem?_eq_none (Nat.le_of_not_lt h2)]
  · simp [h]

theorem foldl_set_length (f : Nat → Nat) (p n : Nat) (d : List Nat) :
    ((List.range n).foldl (fun d k => d.set (p + k) (f k)) d).length = d.length := by
  induction n with
  | zero => simp
  | succ n ih =>
    rw [List.range_succ, List.foldl_append]
    simp only [List.foldl_cons, List.foldl_nil, List.length_set]
    exact ih

theorem foldl_set_getD (f : Nat → Nat) (p n : Nat) (d : List Nat) (i : Nat) :
    ((List.range n).foldl (fun d k => d.set (p + k) (f k)) d).getD i 0 =
      if p ≤ i ∧ i < p + n ∧ i < d.length then f (i - p) else d.getD i 0 := by
  induction n with
  | zero =>
    rw [if_neg (by omega)]
    rfl
  | succ n ih =>
    rw [List.range_succ, List.foldl_append]
    simp only [List.foldl_cons, List.foldl_nil]
    rw [getD_set, ih, foldl_set_length]
    by_cases h1 : p + n = i ∧ i < d.length
    · rw [if_pos h1, if_pos (by omega)]
      congr 1; omega
    · rw [if_neg h1]
      by_cases h2 : p ≤ i ∧ i < p + n ∧ i < d.length
      · rw [if_pos h2, if_pos (by omega)]
      · rw [if_neg h2, if_neg (by omega)]

theorem memcpy_length (dst : List Nat) (dpos : Nat) (src : List Nat) (spos n : Nat) :
    (memcpy dst dpos src spos n).length = dst.length :=
  foldl_set_length _ _ _ _

theorem memcpy_getD (dst : List Nat) (dpos : Nat) (src : List Nat) (spos n i : Nat) :
    (memcpy dst dpos src spos n).getD i 0 =
      if dpos ≤ i ∧ i < dpos + n ∧ i < dst.length then src.getD (spos + (i - dpos)) 0
      else dst.getD i 0 :=
  foldl_set_getD (fun k => src.getD (spos + k) 0) dpos n dst i

/-! ### C3: `insert` copies the tile upside down -/

theorem insertRows_length (W w : Nat) (C : List Nat) (n dst : Nat) (src : Int)
    (bitmap : List Nat) : (SkyLine.insertRows W w C n dst src bitmap).length = bitmap.length := by
  induction n generalizing dst src bitmap with
  | zero => rfl
  | succ n ih =>
    unfold SkyLine.insertRows
    rw [ih, memcpy_length]

/-- Position `row * W + col` lies in the segment of `w` bytes that starts at column `x` of
row `y0` exactly when `row = y0` and `x ≤ col < x + w`. -/
theorem row_segment_iff (W w x y0 row col : Nat) (hcol : col < W) (hxw : x + w ≤ W) :
    (y0 * W + x ≤ row * W + col ∧ row * W + col < y0 * W + x + w) ↔
      (row = y0 ∧ x ≤ col ∧ col < x + w) := by
  constructor
  · rintro ⟨h1, h2⟩
    have hrow : row = y0 := by
      rcases Nat.lt_trichotomy row y0 with h | h | h
      · have := Nat.mul_le_mul_right W (Nat.succ_le_of_lt h)
        rw [Nat.succ_mul] at this
        omega
      · exact h
      · have := Nat.mul_le_mul_right W (Nat.succ_le_of_lt h)
        rw [Nat.succ_mul] at this
        omega
    subst hrow
    omega
  · rintro ⟨rfl, h1, h2⟩
    omega

theorem insertRows_getD (W w x : Nat) (C : List Nat) (hxw : x + w ≤ W) (n : Nat) :
    ∀ (y0 : Nat) (bitmap : List Nat) (row col : Nat), col < W →
      (y0 + n) * W ≤ bitmap.length →
      (SkyLine.insertRows W w C n (y0 * W + x) ((n : Int) * w - w) bitmap).getD
          (row * W + col) 0 =
        if y0 ≤ row ∧ row < y0 + n ∧ x ≤ col ∧ col < x + w then
          C.getD ((n - 1 - (row - y0)) * w + (col - x)) 0
        else bitmap.getD (row * W + col) 0 := by
  induction n with
  | zero =>
    intro y0 bitmap row col _ _
    rw [if_neg (by omega)]
    rfl
  | succ n ih =>
    intro y0 bitmap row col hcol hlen
    unfold SkyLine.insertRows
    have hdst : y0 * W + x + W = (y0 + 1) * W + x := by rw [Nat.add_mul]; omega
    have hsrc : ((n + 1 : Nat) : Int) * w - w - w = (n : Int) * w - w := by push_cast; ring
    have hsrcn : (((n + 1 : Nat) : Int) * w - w).toNat = n * w := by
      have : ((n + 1 : Nat) : Int) * w - w = ((n * w : Nat) : Int) := by push_cast; ring
      rw [this]; exact Int.toNat_natCast _
    rw [hdst, hsrc, hsrcn]
    have hlen2 : (y0 + 1 + n) * W ≤ (memcpy bitmap (y0 * W + x) C (n * w) w).length := by
      rw [memcpy_length]
      have : y0 + 1 + n = y0 + (n + 1) := by omega
      rw [this]; exact hlen
    rw [ih (y0 + 1) _ row col hcol hlen2, memcpy_getD]
    have hseg := row_segment_iff W w x y0 row col hcol hxw
    have hin : row < y0 + (n + 1) → row * W + col < bitmap.length := by
      intro h
      have := Nat.mul_le_mul_right W (Nat.succ_le_of_lt h)
      rw [Nat.succ_mul] at this
      omega
    by_cases hr : row = y0
    · subst hr
      by_cases hc : x ≤ col ∧ col < x + w
      · rw [if_neg (by omega), if_pos ⟨by omega, by omega, hin (by omega)⟩, if_pos (by omega)]
        congr 1
        have h1 : row * W + col - (row * W + x) = col - x := by omega
        have h2 : n + 1 - 1 - (row - row) = n := by omega
        rw [h1, h2]
      · rw [if_neg (by omega), if_neg (by omega), if_neg (by omega)]
    · have hnseg : ¬ (y0 * W + x ≤ row * W + col ∧ row * W + col < y0 * W + x + w ∧
          row * W + col < bitmap.length) := by
        intro h
        exact hr (hseg.mp ⟨h.1, h.2.1⟩).1
      rw [if_neg hnseg]
      by_cases hc : y0 ≤ row ∧ row < y0 + (n + 1) ∧ x ≤ col ∧ col < x + w
      · rw [if_pos (by omega), if_pos hc]
        congr 2
        have : n - 1 - (row - (y0 + 1)) = n + 1 - 1 - (row - y0) := by omega
        rw [this]
      · rw [if_neg (by omega), if_neg hc]

/-- C3. Let `loc` be a location inside the atlas (`x + w ≤ W`, `y + h ≤ H_max`) with `w > 0`
and `h > 0`, and let `C` be the crunched tile of the glyph, of width `w` and height `h`.  After
`insert(loc, glyph)` the atlas buffer exists, has `W * H_max` bytes, holds `C[(h-1-j)*w + i]`
at column `x + i` of row `y + j` for all `i < w`, `j < h`, and every byte outside the rectangle
is as before (zero when the buffer was only allocated by this call). -/
theorem insert_flips_tile_into_atlas (s : SkyLine) (loc : SkyLineLocation) (op : FtGlyph)
    (hbuf : ∀ b, s.m_bitmap = some b → b.length = s.m_width * s.m_max_height)
    (hw : 0 < loc.m_width) (hh : 0 < loc.m_height)
    (hx : loc.m_x + loc.m_width ≤ s.m_width)
    (hy : loc.m_y + loc.m_height ≤ s.m_max_height) :
    ∃ after, (s.insert loc op).1.m_bitmap = some after ∧
      after.length = s.m_width * s.m_max_height ∧
      (∀ i j, i < loc.m_width → j < loc.m_height →
        after.getD ((loc.m_y + j) * s.m_width + (loc.m_x + i)) 0 =
          op.m_crunched.getD ((loc.m_height - 1 - j) * loc.m_width + i) 0) ∧
      (∀ col row, col < s.m_width → row < s.m_max_height →
        ¬ (loc.m_x ≤ col ∧ col < loc.m_x + loc.m_width ∧
            loc.m_y ≤ row ∧ row < loc.m_y + loc.m_height) →
        after.getD (row * s.m_width + col) 0 =
          (s.m_bitmap.getD (List.replicate (s.m_width * s.m_max_height) 0)).getD
            (row * s.m_width + col) 0) := by
  have hbefore : (s.m_bitmap.getD (List.replicate (s.m_width * s.m_max_height) 0)).length =
      s.m_width * s.m_max_height := by
    cases hb : s.m_bitmap with
    | none => simp
    | some b => simpa using hbuf b hb
  have hmatch : (match s.m_bitmap with
      | none => List.replicate (s.m_width * s.m_max_height) 0
      | some b => b) = s.m_bitmap.getD (List.replicate (s.m_width * s.m_max_height) 0) := by
    cases s.m_bitmap <;> rfl
  have hsrc : (((loc.m_height - 1) * loc.m_width : Nat) : Int) =
      (loc.m_height : Int) * loc.m_width - loc.m_width := by
    obtain ⟨k, hk⟩ : ∃ k, loc.m_height = k + 1 := ⟨loc.m_height - 1, by omega⟩
    rw [hk]; simp only [Nat.add_sub_cancel]; push_cast; ring
  have hlen : (loc.m_y + loc.m_height) * s.m_width ≤
      (s.m_bitmap.getD (List.replicate (s.m_width * s.m_max_height) 0)).length := by
    rw [hbefore, Nat.mul_comm s.m_width]
    exact Nat.mul_le_mul_right _ hy
  have hget := insertRows_getD s.m_width loc.m_width loc.m_x op.m_crunched hx loc.m_height
    loc.m_y (s.m_bitmap.getD (List.replicate (s.m_width * s.m_max_height) 0))
  unfold SkyLine.insert
  rw [if_neg (by omega)]
  simp only [hmatch, hsrc]
  refine ⟨_, rfl, ?_, ?_, ?_⟩
  · rw [insertRows_length, hbefore]
  · intro i j hi hj
    rw [hget (loc.m_y + j) (loc.m_x + i) (by omega) hlen, if_pos (by omega)]
    congr 2
    · congr 1; omega
    · omega
  · intro col row hcol _ hout
    rw [hget row col hcol hlen, if_neg (by omega)]

theorem insert_flips_tile_into_atlas_witness :
    (∃ after, ((SkyLine.new 3 2).insert ⟨1, 0, 2, 2, 0, true⟩
        (FtGlyph.mk 65 [1, 2, 3, 4] 2 2 0 0 0 0 0)).1.m_bitmap = some after ∧
      after.length = 3 * 2 ∧
      (∀ i j, i < 2 → j < 2 →
        after.getD ((0 + j) * 3 + (1 + i)) 0 = [1, 2, 3, 4].getD ((2 - 1 - j) * 2 + i) 0) ∧
      (∀ col row, col < 3 → row < 2 → ¬ (1 ≤ col ∧ col < 1 + 2 ∧ 0 ≤ row ∧ row < 0 + 2) →
        after.getD (row * 3 + col) 0 =
          ((none : Option (List Nat)).getD (List.replicate (3 * 2) 0)).getD (row * 3 + col) 0)) ∧
    ((SkyLine.new 3 2).insert ⟨1, 0, 2, 2, 0, true⟩
        (FtGlyph.mk 65 [1, 2, 3, 4] 2 2 0 0 0 0 0)).1.m_bitmap = some [0, 3, 4, 0, 1, 2] :=
  ⟨insert_flips_tile_into_atlas (SkyLine.new 3 2) ⟨1, 0, 2, 2, 0, true⟩
      (FtGlyph.mk 65 [1, 2, 3, 4] 2 2 0 0 0 0 0)
      (by intro b hb; exact absurd hb (by simp [SkyLine.new])) (by decide) (by decide) (by decide)
      (by decide),
    by decide⟩

/-! ### `allocate` and `fit` -/

theorem allocate_line_length (s : SkyLine) (op : SkyLineLocation) :
    (s.allocate op).m_line.length = s.m_line.length :=
  foldl_set_length (fun _ => op.m_y + op.m_height) op.m_x op.m_width s.m_line

theorem allocate_line_getD (s : SkyLine) (op : SkyLineLocation) (i : Nat) :
    (s.allocate op).m_line.getD i 0 =
      if op.m_x ≤ i ∧ i < op.m_x + op.m_width ∧ i < s.m_line.length then op.m_y + op.m_height
      else s.m_line.getD i 0 :=
  foldl_set_getD (fun _ => op.m_y + op.m_height) op.m_x op.m_width s.m_line i

theorem fitRun_iff (s : SkyLine) (kk cur w : Nat) :
    s.fitRun kk cur w = true ↔ ∀ t, t < w → s.m_line.getD (kk + t) 0 ≤ cur := by
  simp [SkyLine.fitRun, List.all_eq_true]

theorem toInt_cases (n : Nat) :
    (n < 2147483648 ∧ toInt n = (n : Int)) ∨
    (2147483648 ≤ n ∧ toInt n = (n : Int) - 4294967296) := by
  unfold toInt
  split
  · left; exact ⟨by assumption, rfl⟩
  · right; exact ⟨by omega, rfl⟩

theorem fitColumn_some (s : SkyLine) (raw : SkyLineLocation) (w h cur jj : Nat)
    (hW : s.m_width < 4294967296) (hw32 : w < 4294967296) (hjj : jj < s.m_width)
    (ret : SkyLineLocation) (hret : s.fitColumn raw w h cur jj = some ret) :
    ∃ k, ret = (SkyLineLocation.make raw k cur w h).setWasted
        (s.getWastedSpace (SkyLineLocation.make raw k cur w h)) ∧
      k + w ≤ s.m_width ∧ 0 < w ∧ jj < k + w ∧ k ≤ jj ∧
      ∀ t, t < w → s.m_line.getD (k + t) 0 ≤ cur := by
  unfold SkyLine.fitColumn at hret
  obtain ⟨k, hk, hf⟩ := List.exists_of_findSome?_eq_some hret
  rw [List.mem_range'_1] at hk
  by_cases hrun : s.fitRun k cur w = true
  · rw [if_pos hrun] at hf
    have hkk1 := le_max_left (toInt jj - toInt w + 1) 0
    have hkk2 := le_max_right (toInt jj - toInt w + 1) 0
    have hee1 := min_le_left (toInt jj) (toInt s.m_width - toInt w)
    have hee2 := min_le_right (toInt jj) (toInt s.m_width - toInt w)
    generalize max (toInt jj - toInt w + 1) 0 = kk at hk hkk1 hkk2
    generalize min (toInt jj) (toInt s.m_width - toInt w) = ee at hk hee1 hee2
    rcases toInt_cases w with ⟨_, hw⟩ | ⟨_, hw⟩ <;>
    rcases toInt_cases jj with ⟨_, hj⟩ | ⟨_, hj⟩ <;>
    rcases toInt_cases s.m_width with ⟨_, hW⟩ | ⟨_, hW⟩ <;>
    exact ⟨k, (Option.some.inj hf).symm, by omega, by omega, by omega, by omega,
      (fitRun_iff s k cur w).mp hrun⟩
  · rw [if_neg hrun] at hf
    exact absurd hf (by simp)

theorem fit_zero_area (s : SkyLine) (op : FtGlyph) (raw : SkyLineLocation)
    (h : op.m_bitmap_w = 0 ∨ op.m_bitmap_h = 0) :
    s.fit op raw = SkyLineLocation.make raw 0 0 0 0 := by
  unfold SkyLine.fit
  rw [if_pos h]

theorem fit_valid_nonzero (s : SkyLine) (op : FtGlyph) (raw : SkyLineLocation)
    (hW : s.m_width < 4294967296) (hw32 : op.m_bitmap_w < 4294967296)
    (hw : op.m_bitmap_w ≠ 0) (hh : op.m_bitmap_h ≠ 0)
    (hvalid : (s.fit op raw).m_valid = true) :
    ∃ k cur, s.fit op raw =
        (SkyLineLocation.make raw k cur op.m_bitmap_w op.m_bitmap_h).setWasted
          (s.getWastedSpace (SkyLineLocation.make raw k cur op.m_bitmap_w op.m_bitmap_h)) ∧
      k + op.m_bitmap_w ≤ s.m_width ∧
      cur ≤ usub s.m_max_height op.m_bitmap_h ∧
      ∀ t, t < op.m_bitmap_w → s.m_line.getD (k + t) 0 ≤ cur := by
  unfold SkyLine.fit at hvalid ⊢
  rw [if_neg (by omega)] at hvalid ⊢
  simp only [] at hvalid ⊢
  split at hvalid
  · rename_i ret hfound
    obtain ⟨ii, hiir, hii⟩ := List.exists_of_findSome?_eq_some hfound
    rw [List.mem_range'_1] at hiir
    have hcur : ii ≤ usub s.m_max_height op.m_bitmap_h := by
      have := min_le_right
        ((List.range s.m_width).foldl (fun m ii => max m (s.m_line.getD ii 0)) 0)
        (usub s.m_max_height op.m_bitmap_h)
      omega
    obtain ⟨jj, hjjW, hjj⟩ := List.exists_of_findSome?_eq_some hii
    split at hjj
    · obtain ⟨k, hk, hbound, _, _, _, hrun⟩ :=
        fitColumn_some s raw _ _ _ _ hW hw32 (List.mem_range.mp hjjW) ret hjj
      exact ⟨k, ii, hk, hbound, hcur, hrun⟩
    · exact absurd hjj (by simp)
  · simp [SkyLineLocation.empty] at hvalid

/-- A valid location returned by `fit` starts inside the contour and rests on or above every
column it spans. -/
theorem fit_valid_on_top (s : SkyLine) (op : FtGlyph) (raw : SkyLineLocation)
    (hW : s.m_width < 4294967296) (hw32 : op.m_bitmap_w < 4294967296)
    (hvalid : (s.fit op raw).m_valid = true) :
    (s.fit op raw).m_x + (s.fit op raw).m_width ≤ s.m_width ∧
    ∀ c, (s.fit op raw).m_x ≤ c → c < (s.fit op raw).m_x + (s.fit op raw).m_width →
      s.m_line.getD c 0 ≤ (s.fit op raw).m_y := by
  by_cases hz : op.m_bitmap_w = 0 ∨ op.m_bitmap_h = 0
  · rw [fit_zero_area s op raw hz]
    simp only [SkyLineLocation.make]
    exact ⟨by omega, fun c h1 h2 => by omega⟩
  · obtain ⟨k, cur, heq, hbound, _, hrun⟩ :=
      fit_valid_nonzero s op raw hW hw32 (by omega) (by omega) hvalid
    rw [heq]
    simp only [SkyLineLocation.make, SkyLineLocation.setWasted]
    refine ⟨hbound, fun c h1 h2 => ?_⟩
    have := hrun (c - k) (by omega)
    rwa [show k + (c - k) = c by omega] at this

theorem insert_fst_line (s : SkyLine) (loc : SkyLineLocation) (op : FtGlyph) :
    (s.insert loc op).1.m_line = s.m_line ∧ (s.insert loc op).1.m_width = s.m_width ∧
    (s.insert loc op).1.m_max_height = s.m_max_height ∧
    (s.insert loc op).1.m_wasted = s.m_wasted := by
  unfold SkyLine.insert
  split <;> exact ⟨rfl, rfl, rfl, rfl⟩

theorem allocate_fields (s : SkyLine) (op : SkyLineLocation) :
    (s.allocate op).m_width = s.m_width ∧ (s.allocate op).m_max_height = s.m_max_height ∧
    (s.allocate op).m_bitmap = s.m_bitmap :=
  ⟨rfl, rfl, rfl⟩

theorem fitAllWrite_line (pidx : Nat) (glst : Bool) (s : SkyLine) (xmlfile : Option XmlFile)
    (loc : SkyLineLocation) (gly : FtGlyph) :
    (SkyLine.fitAllWrite pidx glst s xmlfile loc gly).1.m_line = s.m_line ∧
    (SkyLine.fitAllWrite pidx glst s xmlfile loc gly).1.m_width = s.m_width := by
  cases xmlfile with
  | none => exact ⟨rfl, rfl⟩
  | some f =>
    obtain ⟨h1, h2, _, _⟩ := insert_fst_line s loc gly
    exact ⟨h1, h2⟩

/-! ### C1: placed rectangles do not overlap -/

theorem fitAllLoop_disjoint (pidx : Nat) (glst : Bool) (gs : List FtGlyphSptr) :
    ∀ (s : SkyLine) (xmlfile : Option XmlFile) (raw : Nat → SkyLineLocation)
      (prev : List SkyLineLocation),
      s.m_line.length = s.m_width → s.m_width < 4294967296 →
      (∀ g, some g ∈ gs → g.m_bitmap_w < 4294967296) →
      (∀ e ∈ gs, e ≠ none) →
      (∀ a ∈ prev, ∀ c, a.m_x ≤ c → c < a.m_x + a.m_width →
        a.m_y + a.m_height ≤ s.m_line.getD c 0) →
      ∃ r, SkyLine.fitAllLoop pidx glst s xmlfile raw gs = some r ∧
        r.placed.Pairwise (fun a b => ∀ px py, ¬ (a.covers px py ∧ b.covers px py)) ∧
        ∀ a ∈ prev, ∀ b ∈ r.placed, ∀ px py, ¬ (a.covers px py ∧ b.covers px py) := by
  induction gs with
  | nil =>
    intro s xmlfile raw prev _ _ _ _ _
    exact ⟨_, rfl, List.Pairwise.nil, fun a _ b hb => absurd hb (List.not_mem_nil b)⟩
  | cons e rest ih =>
    intro s xmlfile raw prev hlen hW hw32 hnn hprev
    cases e with
    | none => exact absurd rfl (hnn none (List.mem_cons_self _ _))
    | some gly =>
      unfold SkyLine.fitAllLoop
      by_cases hvalid : (s.fit gly (raw 0)).m_valid = true
      · simp only [hvalid, Bool.not_true, Bool.false_eq_true, if_false]
        obtain ⟨hin, htop⟩ := fit_valid_on_top s gly (raw 0) hW
          (hw32 gly (List.mem_cons_self _ _)) hvalid
        generalize s.fit gly (raw 0) = loc at hin htop
        have hprev2 : ∀ a ∈ loc :: prev, ∀ c, a.m_x ≤ c → c < a.m_x + a.m_width →
            a.m_y + a.m_height ≤ (s.allocate loc).m_line.getD c 0 := by
          intro a ha c h1 h2
          rw [allocate_line_getD]
          rcases List.mem_cons.mp ha with rfl | ha
          · rw [if_pos ⟨h1, h2, by omega⟩]
          · have := hprev a ha c h1 h2
            split
            · rename_i hc
              have := htop c hc.1 hc.2.1
              omega
            · exact this
        have hcross : ∀ a ∈ prev, ∀ px py, ¬ (a.covers px py ∧ loc.covers px py) := by
          intro a ha px py hcov
          obtain ⟨⟨a1, a2, _, a4⟩, ⟨l1, l2, l3, _⟩⟩ := hcov
          have := hprev a ha px a1 a2
          have := htop px l1 l2
          omega
        have hrest32 : ∀ g, some g ∈ rest → g.m_bitmap_w < 4294967296 :=
          fun g hg => hw32 g (List.mem_cons_of_mem _ hg)
        have hrestnn : ∀ e ∈ rest, e ≠ none := fun e he => hnn e (List.mem_cons_of_mem _ he)
        have hlen2 : (s.allocate loc).m_line.length = (s.allocate loc).m_width := by
          rw [allocate_line_length]; exact hlen
        obtain ⟨hl, hwd⟩ := fitAllWrite_line pidx glst (s.allocate loc) xmlfile loc gly
        obtain ⟨r, hr, hpw, hx⟩ := ih (SkyLine.fitAllWrite pidx glst (s.allocate loc) xmlfile
          loc gly).1 (SkyLine.fitAllWrite pidx glst (s.allocate loc) xmlfile loc gly).2.1
          (fun k => raw (k + 1)) (loc :: prev) (by rw [hl, hwd]; exact hlen2)
          (by rw [hwd]; exact hW) hrest32 hrestnn (by rw [hl]; exact hprev2)
        refine ⟨_, by simp only [hr, Option.map_some']; rfl, ?_, ?_⟩
        · exact List.Pairwise.cons (fun b hb => hx loc (List.mem_cons_self _ _) b hb) hpw
        · intro a ha b hb
          rcases List.mem_cons.mp hb with rfl | hb
          · exact hcross a ha
          · exact hx a (List.mem_cons_of_mem _ ha) b hb
      · simp only [hvalid, Bool.not_false, if_true]
        exact ⟨_, rfl, List.Pairwise.nil, fun a _ b hb => absurd hb (List.not_mem_nil b)⟩

/-- C1. For every storage of glyphs (no null entry) and every fresh `SkyLine(W, H_max)`,
`fitAll` returns, and no pixel lies in the rectangles `[x, x+w) × [y, y+h)` of two different
placed glyphs.  (`W` and the crunched widths are 32-bit values.) -/
theorem fitAll_placed_rectangles_disjoint (W H_max : Nat) (glyphs : GlyphStorage)
    (xmlfile : Option XmlFile) (pidx : Nat) (glst : Bool) (raw : Nat → SkyLineLocation)
    (hW : W < 4294967296)
    (hw32 : ∀ g, some g ∈ glyphs.m_glyphs → g.m_bitmap_w < 4294967296)
    (hnn : ∀ e ∈ glyphs.m_glyphs, e ≠ none) :
    ∃ r, (SkyLine.new W H_max).fitAll glyphs xmlfile pidx glst raw = some r ∧
      r.placed.Pairwise (fun a b => ∀ px py, ¬ (a.covers px py ∧ b.covers px py)) := by
  obtain ⟨r, hr, hpw, _⟩ := fitAllLoop_disjoint pidx glst glyphs.m_glyphs (SkyLine.new W H_max)
    xmlfile raw [] (by simp [SkyLine.new]) hW hw32 hnn
    (fun a ha => absurd ha (List.not_mem_nil a))
  exact ⟨r, hr, hpw⟩

theorem fitAll_placed_rectangles_disjoint_witness :
    (∃ r, (SkyLine.new 4 4).fitAll
        ⟨[some (FtGlyph.mk 65 [1, 2, 3, 4] 2 2 0 0 0 0 0), some (FtGlyph.mk 66 [5] 1 1 0 0 0 0 0)],
          [], 0, 0, false⟩ none 0 true (fun _ => ⟨0, 0, 0, 0, 0, false⟩) = some r ∧
      r.placed.Pairwise (fun a b => ∀ px py, ¬ (a.covers px py ∧ b.covers px py))) ∧
    ((SkyLine.new 4 4).fitAll
        ⟨[some (FtGlyph.mk 65 [1, 2, 3, 4] 2 2 0 0 0 0 0), some (FtGlyph.mk 66 [5] 1 1 0 0 0 0 0)],
          [], 0, 0, false⟩ none 0 true (fun _ => ⟨0, 0, 0, 0, 0, false⟩)).map
      (fun r => r.placed) = some [⟨0, 0, 2, 2, 0, true⟩, ⟨2, 0, 1, 1, 0, true⟩] :=
  ⟨fitAll_placed_rectangles_disjoint 4 4
      ⟨[some (FtGlyph.mk 65 [1, 2, 3, 4] 2 2 0 0 0 0 0), some (FtGlyph.mk 66 [5] 1 1 0 0 0 0 0)],
        [], 0, 0, false⟩ none 0 true (fun _ => ⟨0, 0, 0, 0, 0, false⟩) (by decide)
      (by
        intro g hg
        simp only [List.mem_cons, Option.some.injEq, List.mem_singleton, List.not_mem_nil,
          or_false] at hg
        rcases hg with rfl | rfl <;> decide)
      (by decide),
    by decide⟩

/-! ### C7: `fitAll` stops at the first glyph that does not fit -/

theorem insert_snd_fields (s : SkyLine) (loc : SkyLineLocation) (op : FtGlyph) :
    (s.insert loc op).2.m_unicode = op.m_unicode ∧
    (s.insert loc op).2.m_crunched = op.m_crunched ∧
    (s.insert loc op).2.m_bitmap_w = op.m_bitmap_w ∧
    (s.insert loc op).2.m_bitmap_h = op.m_bitmap_h := by
  unfold SkyLine.insert
  split <;> exact ⟨rfl, rfl, rfl, rfl⟩

theorem fitAllLoop_cons_valid (pidx : Nat) (glst : Bool) (s : SkyLine)
    (xmlfile : Option XmlFile) (raw : Nat → SkyLineLocation) (gly : FtGlyph)
    (rest : List FtGlyphSptr) (hvalid : (s.fit gly (raw 0)).m_valid = true) :
    SkyLine.fitAllLoop pidx glst s xmlfile raw (some gly :: rest) =
      (SkyLine.fitAllLoop pidx glst
        (SkyLine.fitAllWrite pidx glst (s.allocate (s.fit gly (raw 0))) xmlfile
          (s.fit gly (raw 0)) gly).1
        (SkyLine.fitAllWrite pidx glst (s.allocate (s.fit gly (raw 0))) xmlfile
          (s.fit gly (raw 0)) gly).2.1
        (fun k => raw (k + 1)) rest).map (fun r =>
        { r with
          glyphs := (SkyLine.fitAllWrite pidx glst (s.allocate (s.fit gly (raw 0))) xmlfile
            (s.fit gly (raw 0)) gly).2.2 :: r.glyphs
          ret := r.ret + 1
          placed := s.fit gly (raw 0) :: r.placed }) := by
  rw [SkyLine.fitAllLoop]
  simp only [hvalid, Bool.not_true, Bool.false_eq_true, if_false]

theorem fitAllLoop_cons_invalid (pidx : Nat) (glst : Bool) (s : SkyLine)
    (xmlfile : Option XmlFile) (raw : Nat → SkyLineLocation) (gly : FtGlyph)
    (rest : List FtGlyphSptr) (hvalid : (s.fit gly (raw 0)).m_valid = false) :
    SkyLine.fitAllLoop pidx glst s xmlfile raw (some gly :: rest) =
      some { sky := s, glyphs := some gly :: rest, xmlfile := xmlfile, ret := 0, placed := [] } := by
  rw [SkyLine.fitAllLoop]
  simp only [hvalid, Bool.not_false, if_true]

theorem fitAllLoop_first_failure (pidx : Nat) (glst : Bool) (gs : List FtGlyphSptr) :
    ∀ (s : SkyLine) (xmlfile : Option XmlFile) (raw : Nat → SkyLineLocation),
      (∀ e ∈ gs, e ≠ none) →
      ∃ r, SkyLine.fitAllLoop pidx glst s xmlfile raw gs = some r ∧
        r.ret ≤ gs.length ∧ r.placed.length = r.ret ∧
        (∀ g, gs[r.ret]? = some (some g) → (r.sky.fit g (raw r.ret)).m_valid = false) ∧
        ∀ i, i ≤ r.ret →
          ∃ ri, SkyLine.fitAllLoop pidx glst s xmlfile raw (gs.take i) = some ri ∧
            ri.ret = i ∧
            (i = r.ret → ri.sky = r.sky ∧ ri.xmlfile = r.xmlfile ∧ ri.placed = r.placed) ∧
            (i < r.ret → ∀ g, gs[i]? = some (some g) →
              (ri.sky.fit g (raw i)).m_valid = true ∧
              r.placed[i]? = some (ri.sky.fit g (raw i))) := by
  induction gs with
  | nil =>
    intro s xmlfile raw _
    refine ⟨_, rfl, Nat.le_refl _, rfl, fun g hg => by simp at hg, ?_⟩
    intro i hi
    have hi0 : i = 0 := Nat.le_zero.mp hi
    subst hi0
    exact ⟨_, rfl, rfl, fun _ => ⟨rfl, rfl, rfl⟩, fun h => absurd h (Nat.lt_irrefl 0)⟩
  | cons e rest ih =>
    intro s xmlfile raw hnn
    cases e with
    | none => exact absurd rfl (hnn none (List.mem_cons_self _ _))
    | some gly =>
      cases hvalid : (s.fit gly (raw 0)).m_valid with
      | false =>
        rw [fitAllLoop_cons_invalid pidx glst s xmlfile raw gly rest hvalid]
        refine ⟨_, rfl, Nat.zero_le _, rfl, ?_, ?_⟩
        · intro g hg
          simp only [List.getElem?_cons_zero, Option.some.injEq] at hg
          subst hg
          exact hvalid
        · intro i hi
          have hi0 : i = 0 := Nat.le_zero.mp hi
          subst hi0
          exact ⟨_, rfl, rfl, fun _ => ⟨rfl, rfl, rfl⟩, fun h => absurd h (Nat.lt_irrefl 0)⟩
      | true =>
        rw [fitAllLoop_cons_valid pidx glst s xmlfile raw gly rest hvalid]
        obtain ⟨r, hr, hle, hpl, hfail, hpre⟩ := ih
          (SkyLine.fitAllWrite pidx glst (s.allocate (s.fit gly (raw 0))) xmlfile
            (s.fit gly (raw 0)) gly).1
          (SkyLine.fitAllWrite pidx glst (s.allocate (s.fit gly (raw 0))) xmlfile
            (s.fit gly (raw 0)) gly).2.1
          (fun k => raw (k + 1)) (fun e he => hnn e (List.mem_cons_of_mem _ he))
        rw [hr]
        refine ⟨_, rfl, ?_, ?_, ?_, ?_⟩
        · simp only [List.length_cons]; omega
        · simp only [List.length_cons, hpl]
        · intro g hg
          simp only [List.getElem?_cons_succ] at hg
          exact hfail g hg
        · intro i hi
          cases i with
          | zero =>
            refine ⟨_, rfl, rfl, fun h => ?_, fun _ g hg => ?_⟩
            · simp at h
            · simp only [List.getElem?_cons_zero, Option.some.injEq] at hg
              subst hg
              exact ⟨hvalid, by simp only [List.getElem?_cons_zero]⟩
          | succ j =>
            obtain ⟨rj, hrj, hret, hlast, hmid⟩ := hpre j (by simpa using hi)
            rw [List.take_succ_cons,
              fitAllLoop_cons_valid pidx glst s xmlfile raw gly (rest.take j) hvalid, hrj]
            refine ⟨_, rfl, by simp only [hret], fun h => ?_, fun h g hg => ?_⟩
            · obtain ⟨h1, h2, h3⟩ := hlast (by simpa using h)
              exact ⟨h1, h2, by simp only [h3]⟩
            · simp only [List.getElem?_cons_succ] at hg ⊢
              exact hmid (by simpa using h) g hg

theorem fitAllLoop_storage (pidx : Nat) (glst : Bool) (gs : List FtGlyphSptr) :
    ∀ (s : SkyLine) (xmlfile : Option XmlFile) (raw : Nat → SkyLineLocation)
      (r : SkyLine.FitAllResult),
      SkyLine.fitAllLoop pidx glst s xmlfile raw gs = some r →
      (xmlfile = none → r.glyphs = gs ∧ r.xmlfile = none) ∧
      (∀ f, xmlfile = some f →
        r.glyphs = List.replicate r.ret none ++ gs.drop r.ret ∧
        ∃ recs, r.xmlfile = some (f ++ recs) ∧ recs.length = r.ret ∧
          ∀ i g, i < r.ret → gs[i]? = some (some g) →
            ∃ w, recs[i]? = some (w, glst) ∧ w.m_page = pidx ∧
              w.m_unicode = g.m_unicode ∧ w.m_crunched = g.m_crunched ∧
              w.m_bitmap_w = g.m_bitmap_w ∧ w.m_bitmap_h = g.m_bitmap_h) := by
  induction gs with
  | nil =>
    intro s xmlfile raw r hr
    simp only [SkyLine.fitAllLoop, Option.some.injEq] at hr
    subst hr
    refine ⟨fun h => ⟨rfl, h⟩, fun f hf => ⟨rfl, [], by simp [hf], rfl, ?_⟩⟩
    intro i g hi
    exact absurd hi (Nat.not_lt_zero i)
  | cons e rest ih =>
    intro s xmlfile raw r hr
    cases e with
    | none => simp [SkyLine.fitAllLoop] at hr
    | some gly =>
      cases hvalid : (s.fit gly (raw 0)).m_valid with
      | false =>
        rw [fitAllLoop_cons_invalid pidx glst s xmlfile raw gly rest hvalid] at hr
        simp only [Option.some.injEq] at hr
        subst hr
        refine ⟨fun h => ⟨rfl, h⟩, fun f hf => ⟨rfl, [], by simp [hf], rfl, ?_⟩⟩
        intro i g hi
        exact absurd hi (Nat.not_lt_zero i)
      | true =>
        rw [fitAllLoop_cons_valid pidx glst s xmlfile raw gly rest hvalid] at hr
        obtain ⟨r', hr', hmap⟩ := Option.map_eq_some'.mp hr
        subst hmap
        obtain ⟨hnone, hsome⟩ := ih _ _ _ r' hr'
        refine ⟨fun h => ?_, fun f hf => ?_⟩
        · subst h
          obtain ⟨h1, h2⟩ := hnone rfl
          exact ⟨by simp only [h1]; rfl, h2⟩
        · subst hf
          obtain ⟨h1, recs, h2, h3, h4⟩ := hsome
            (f ++ [((((s.allocate (s.fit gly (raw 0))).insert (s.fit gly (raw 0)) gly).2.setPage
              pidx), glst)]) rfl
          refine ⟨?_, ((((s.allocate (s.fit gly (raw 0))).insert (s.fit gly (raw 0)) gly).2.setPage
              pidx), glst) :: recs, ?_, by simp only [List.length_cons, h3], ?_⟩
          · simp only [h1, List.replicate_succ, List.drop_succ_cons, List.cons_append]
            rfl
          · rw [h2]
            simp only [SkyLine.fitAllWrite, List.append_assoc, List.singleton_append]
          · intro i g hi hg
            cases i with
            | zero =>
              simp only [List.getElem?_cons_zero, Option.some.injEq] at hg
              subst hg
              obtain ⟨u1, u2, u3, u4⟩ := insert_snd_fields
                (s.allocate (s.fit gly (raw 0))) (s.fit gly (raw 0)) gly
              exact ⟨((s.allocate (s.fit gly (raw 0))).insert (s.fit gly (raw 0)) gly).2.setPage
                pidx, by simp only [List.getElem?_cons_zero], rfl, u1, u2, u3, u4⟩
            | succ j =>
              simp only [List.getElem?_cons_succ] at hg ⊢
              exact h4 j g (by simpa using hi) hg

theorem fitAllLoop_append (pidx : Nat) (glst : Bool) (l₁ l₂ : List FtGlyphSptr) :
    ∀ (s : SkyLine) (xmlfile : Option XmlFile) (raw : Nat → SkyLineLocation)
      (r₁ : SkyLine.FitAllResult),
      SkyLine.fitAllLoop pidx glst s xmlfile raw l₁ = some r₁ → r₁.ret = l₁.length →
      SkyLine.fitAllLoop pidx glst s xmlfile raw (l₁ ++ l₂) =
        (SkyLine.fitAllLoop pidx glst r₁.sky r₁.xmlfile (fun k => raw (k + l₁.length)) l₂).map
          (fun r => { r with glyphs := r₁.glyphs ++ r.glyphs, ret := r₁.ret + r.ret,
                             placed := r₁.placed ++ r.placed }) := by
  induction l₁ with
  | nil =>
    intro s xmlfile raw r₁ h₁ _
    simp only [SkyLine.fitAllLoop, Option.some.injEq] at h₁
    subst h₁
    simp only [List.nil_append, List.length_nil, Nat.add_zero, Nat.zero_add]
    cases SkyLine.fitAllLoop pidx glst s xmlfile raw l₂ <;> rfl
  | cons e rest ih =>
    intro s xmlfile raw r₁ h₁ hret
    cases e with
    | none => simp [SkyLine.fitAllLoop] at h₁
    | some gly =>
      cases hvalid : (s.fit gly (raw 0)).m_valid with
      | false =>
        rw [fitAllLoop_cons_invalid pidx glst s xmlfile raw gly rest hvalid] at h₁
        simp only [Option.some.injEq] at h₁
        subst h₁
        simp at hret
      | true =>
        rw [fitAllLoop_cons_valid pidx glst s xmlfile raw gly rest hvalid] at h₁
        obtain ⟨r', hr', hmap⟩ := Option.map_eq_some'.mp h₁
        subst hmap
        rw [List.cons_append, fitAllLoop_cons_valid pidx glst s xmlfile raw gly (rest ++ l₂) hvalid,
          ih _ _ _ r' hr' (by simpa using hret)]
        simp only [Option.map_map, List.length_cons]
        have hraw : (fun k => raw (k + rest.length + 1)) = fun k => raw (k + (rest.length + 1)) :=
          rfl
        rw [hraw]
        cases SkyLine.fitAllLoop pidx glst r'.sky r'.xmlfile
          (fun k => raw (k + (rest.length + 1))) l₂ with
        | none => rfl
        | some r₂ =>
          simp only [Option.map_some', Function.comp_apply, List.cons_append, Option.some.injEq]
          congr 1
          omega

theorem fitAllLoop_take_succ (pidx : Nat) (glst : Bool) (gs : List FtGlyphSptr) (s : SkyLine)
    (xmlfile : Option XmlFile) (raw : Nat → SkyLineLocation) (i : Nat) (g : FtGlyph)
    (ri : SkyLine.FitAllResult)
    (hri : SkyLine.fitAllLoop pidx glst s xmlfile raw (gs.take i) = some ri)
    (hret : ri.ret = i) (hi : i ≤ gs.length) (hg : gs[i]? = some (some g))
    (hvalid : (ri.sky.fit g (raw i)).m_valid = true) :
    ∃ rn, SkyLine.fitAllLoop pidx glst s xmlfile raw (gs.take (i + 1)) = some rn ∧
      rn.ret = i + 1 ∧
      rn.sky = (SkyLine.fitAllWrite pidx glst (ri.sky.allocate (ri.sky.fit g (raw i)))
        ri.xmlfile (ri.sky.fit g (raw i)) g).1 := by
  have hlen : (gs.take i).length = i := by rw [List.length_take]; omega
  have happ := fitAllLoop_append pidx glst (gs.take i) [some g] s xmlfile raw ri hri
    (by rw [hret, hlen])
  rw [List.take_succ, hg, Option.toList_some, happ, hlen]
  have hvalid0 : (ri.sky.fit g ((fun k => raw (k + i)) 0)).m_valid = true := by
    simpa using hvalid
  rw [fitAllLoop_cons_valid pidx glst ri.sky ri.xmlfile (fun k => raw (k + i)) g [] hvalid0]
  simp only [SkyLine.fitAllLoop, Option.map_some', Nat.zero_add]
  exact ⟨_, rfl, by simp only [hret], rfl⟩

theorem fitAllWrite_wasted (pidx : Nat) (glst : Bool) (s : SkyLine) (xmlfile : Option XmlFile)
    (loc : SkyLineLocation) (gly : FtGlyph) :
    (SkyLine.fitAllWrite pidx glst s xmlfile loc gly).1.m_wasted = s.m_wasted := by
  cases xmlfile with
  | none => rfl
  | some f => exact (insert_fst_line s loc gly).2.2.2

/-- C7. For every storage without null entry and every skyline, `fitAll` returns a count
`k ≤ n`.  The run over the first `i ≤ k` glyphs alone places all `i` of them; for `i < k`, glyph
`i` gets a valid location from `fit` in the state left by that run, this location is the `i`-th
one allocated, and the run over the first `i + 1` glyphs ends with the contour and the wasted
counter that `allocate` of this location produces.  The run over the first `k` glyphs leaves
exactly the final skyline, sink and allocations, and glyph `k`, if there is one, gets an invalid
location in the final state.  Without a sink the storage is unchanged; with a sink the first
`k` entries become null, the entries from `k` on are untouched, and the sink receives `k`
records, the `i`-th being glyph `i` with the page index `pidx`. -/
theorem fitAll_stops_at_first_failure (s : SkyLine) (glyphs : GlyphStorage)
    (xmlfile : Option XmlFile) (pidx : Nat) (glst : Bool) (raw : Nat → SkyLineLocation)
    (hnn : ∀ e ∈ glyphs.m_glyphs, e ≠ none) :
    ∃ r, s.fitAll glyphs xmlfile pidx glst raw = some r ∧
      r.ret ≤ glyphs.m_glyphs.length ∧ r.placed.length = r.ret ∧
      (∀ g, glyphs.m_glyphs[r.ret]? = some (some g) →
        (r.sky.fit g (raw r.ret)).m_valid = false) ∧
      (∀ i, i ≤ r.ret →
        ∃ ri, s.fitAll { glyphs with m_glyphs := glyphs.m_glyphs.take i } xmlfile pidx glst raw =
            some ri ∧
          ri.ret = i ∧
          (i = r.ret → ri.sky = r.sky ∧ ri.xmlfile = r.xmlfile ∧ ri.placed = r.placed) ∧
          (i < r.ret → ∀ g, glyphs.m_glyphs[i]? = some (some g) →
            (ri.sky.fit g (raw i)).m_valid = true ∧
            r.placed[i]? = some (ri.sky.fit g (raw i)) ∧
            ∃ rn, s.fitAll { glyphs with m_glyphs := glyphs.m_glyphs.take (i + 1) } xmlfile pidx
                glst raw = some rn ∧
              rn.sky.m_line = (ri.sky.allocate (ri.sky.fit g (raw i))).m_line ∧
              rn.sky.m_wasted = (ri.sky.allocate (ri.sky.fit g (raw i))).m_wasted)) ∧
      (xmlfile = none → r.glyphs = glyphs.m_glyphs ∧ r.xmlfile = none) ∧
      (∀ f, xmlfile = some f →
        r.glyphs = List.replicate r.ret none ++ glyphs.m_glyphs.drop r.ret ∧
        ∃ recs, r.xmlfile = some (f ++ recs) ∧ recs.length = r.ret ∧
          ∀ i g, i < r.ret → glyphs.m_glyphs[i]? = some (some g) →
            ∃ w, recs[i]? = some (w, glst) ∧ w.m_page = pidx ∧
              w.m_unicode = g.m_unicode ∧ w.m_crunched = g.m_crunched ∧
              w.m_bitmap_w = g.m_bitmap_w ∧ w.m_bitmap_h = g.m_bitmap_h) := by
  obtain ⟨r, hr, hle, hpl, hfail, hpre⟩ :=
    fitAllLoop_first_failure pidx glst glyphs.m_glyphs s xmlfile raw hnn
  obtain ⟨hnone, hsome⟩ := fitAllLoop_storage pidx glst glyphs.m_glyphs s xmlfile raw r hr
  refine ⟨r, hr, hle, hpl, hfail, ?_, hnone, hsome⟩
  intro i hi
  obtain ⟨ri, hri, hret, hlast, hmid⟩ := hpre i hi
  refine ⟨ri, hri, hret, hlast, fun hlt g hg => ?_⟩
  obtain ⟨hvalid, hplaced⟩ := hmid hlt g hg
  obtain ⟨rn, hrn, _, hsky⟩ := fitAllLoop_take_succ pidx glst glyphs.m_glyphs s xmlfile raw i g
    ri hri hret (by omega) hg hvalid
  refine ⟨hvalid, hplaced, rn, hrn, ?_, ?_⟩
  · rw [hsky, (fitAllWrite_line pidx glst _ ri.xmlfile _ g).1]
  · rw [hsky, fitAllWrite_wasted pidx glst _ ri.xmlfile _ g]

theorem fitAll_stops_at_first_failure_witness :
    (∃ r, (SkyLine.new 2 2).fitAll
        ⟨[some (FtGlyph.mk 65 [1, 2, 3, 4] 2 2 0 0 0 0 0), some (FtGlyph.mk 66 [5] 1 1 0 0 0 0 0)],
          [], 0, 0, false⟩ (some []) 3 true (fun _ => ⟨0, 0, 0, 0, 0, false⟩) = some r ∧
      r.ret ≤ 2 ∧ r.placed.length = r.ret ∧
      r.glyphs = List.replicate r.ret none ++
        [some (FtGlyph.mk 65 [1, 2, 3, 4] 2 2 0 0 0 0 0),
          some (FtGlyph.mk 66 [5] 1 1 0 0 0 0 0)].drop r.ret) ∧
    ((SkyLine.new 2 2).fitAll
        ⟨[some (FtGlyph.mk 65 [1, 2, 3, 4] 2 2 0 0 0 0 0), some (FtGlyph.mk 66 [5] 1 1 0 0 0 0 0)],
          [], 0, 0, false⟩ (some []) 3 true (fun _ => ⟨0, 0, 0, 0, 0, false⟩)).map
      (fun r => (r.ret, r.sky.m_line, r.sky.m_bitmap)) = some (1, [2, 2], some [3, 4, 1, 2]) ∧
    ((SkyLine.new 2 2).fitAll
        ⟨[some (FtGlyph.mk 65 [1, 2, 3, 4] 2 2 0 0 0 0 0), some (FtGlyph.mk 66 [5] 1 1 0 0 0 0 0)],
          [], 0, 0, false⟩ (some []) 3 true (fun _ => ⟨0, 0, 0, 0, 0, false⟩)).map
      (fun r => r.glyphs.map (fun e => e.map (fun g => g.m_unicode))) =
      some [none, some 66] := by
  refine ⟨?_, by decide, by decide⟩
  obtain ⟨r, hr, h1, h2, _, _, _, h3⟩ := fitAll_stops_at_first_failure (SkyLine.new 2 2)
    ⟨[some (FtGlyph.mk 65 [1, 2, 3, 4] 2 2 0 0 0 0 0), some (FtGlyph.mk 66 [5] 1 1 0 0 0 0 0)],
      [], 0, 0, false⟩ (some []) 3 true (fun _ => ⟨0, 0, 0, 0, 0, false⟩) (by decide)
  exact ⟨r, hr, h1, h2, (h3 [] rfl).1⟩

/-! ### C2: a glyph taller than the ceiling -/

/-- A valid non-zero-area location returned by `fit` never leaves the atlas sideways, and it
stays below the ceiling whenever the glyph is not taller than the ceiling. -/
theorem fit_inside_atlas_of_height_le (s : SkyLine) (op : FtGlyph) (raw : SkyLineLocation)
    (hW : s.m_width < 4294967296) (hw32 : op.m_bitmap_w < 4294967296)
    (hw : op.m_bitmap_w ≠ 0) (hh : op.m_bitmap_h ≠ 0)
    (hvalid : (s.fit op raw).m_valid = true) :
    (s.fit op raw).m_width = op.m_bitmap_w ∧ (s.fit op raw).m_height = op.m_bitmap_h ∧
    (s.fit op raw).m_x + (s.fit op raw).m_width ≤ s.m_width ∧
    (op.m_bitmap_h ≤ s.m_max_height →
      (s.fit op raw).m_y + (s.fit op raw).m_height ≤ s.m_max_height) := by
  obtain ⟨k, cur, heq, hbound, hcur, _⟩ := fit_valid_nonzero s op raw hW hw32 hw hh hvalid
  rw [heq]
  simp only [SkyLineLocation.make, SkyLineLocation.setWasted]
  refine ⟨trivial, trivial, hbound, fun hle => ?_⟩
  unfold usub at hcur
  rw [if_pos hle] at hcur
  omega

/-- C2, the failing input: on a fresh `SkyLine(4, 4)` the glyph of crunched size `1 × 5` gets
the valid location `(0, 0, 1, 5)`, whose top `y + h = 5` is above the ceiling `4`, because
`m_max_height - bitmap_h` wraps around. -/
theorem fit_taller_than_ceiling_is_placed :
    (SkyLine.new 4 4).fit (FtGlyph.mk 65 [1, 2, 3, 4, 5] 1 5 0 0 0 0 0) ⟨0, 0, 0, 0, 0, false⟩ =
      ⟨0, 0, 1, 5, 0, true⟩ ∧
    usub 4 5 = 4294967295 ∧
    ¬ (((SkyLine.new 4 4).fit (FtGlyph.mk 65 [1, 2, 3, 4, 5] 1 5 0 0 0 0 0)
          ⟨0, 0, 0, 0, 0, false⟩).m_y +
        ((SkyLine.new 4 4).fit (FtGlyph.mk 65 [1, 2, 3, 4, 5] 1 5 0 0 0 0 0)
          ⟨0, 0, 0, 0, 0, false⟩).m_height ≤ (SkyLine.new 4 4).m_max_height) := by
  decide

/-! ### C6, C5, C4: the wasted counter and zero-area glyphs -/

theorem foldl_add_eq_sum (f : Nat → Nat) (n init : Nat) :
    (List.range n).foldl (fun ret k => ret + f k) init = init + ((List.range n).map f).sum := by
  induction n with
  | zero => simp
  | succ n ih =>
    rw [List.range_succ, List.foldl_append, List.map_append, List.sum_append]
    simp only [List.foldl_cons, List.foldl_nil, List.map_cons, List.map_nil, List.sum_cons,
      List.sum_nil, ih]
    omega

/-- What the source does for a zero-area glyph: `fit` returns a valid location with
`w = h = 0`; `allocate` leaves the contour alone and adds the never initialised `m_wasted` of
that location to the counter; `insert` changes neither the skyline nor the glyph. -/
theorem zero_area_fit_allocate_insert (s : SkyLine) (op : FtGlyph) (raw : SkyLineLocation)
    (hz : op.m_bitmap_w = 0 ∨ op.m_bitmap_h = 0) :
    (s.fit op raw).m_valid = true ∧ (s.fit op raw).m_width = 0 ∧ (s.fit op raw).m_height = 0 ∧
    (s.allocate (s.fit op raw)).m_line = s.m_line ∧
    (s.allocate (s.fit op raw)).m_wasted = s.m_wasted + raw.m_wasted ∧
    (s.allocate (s.fit op raw)).insert (s.fit op raw) op = (s.allocate (s.fit op raw), op) := by
  rw [fit_zero_area s op raw hz]
  exact ⟨rfl, rfl, rfl, rfl, rfl, if_pos (Or.inl rfl)⟩

/-- What the source does for a glyph of non-zero area that fits: every column under the
location is at most `y` before `allocate` and exactly `y + h` after it, and the wasted counter
grows by the sum of `y - line[i]` over these columns. -/
theorem allocate_after_fit_nonzero (s : SkyLine) (op : FtGlyph) (raw : SkyLineLocation)
    (hlen : s.m_line.length = s.m_width)
    (hW : s.m_width < 4294967296) (hw32 : op.m_bitmap_w < 4294967296)
    (hw : op.m_bitmap_w ≠ 0) (hh : op.m_bitmap_h ≠ 0)
    (hvalid : (s.fit op raw).m_valid = true) :
    (∀ i, (s.fit op raw).m_x ≤ i → i < (s.fit op raw).m_x + (s.fit op raw).m_width →
      s.m_line.getD i 0 ≤ (s.fit op raw).m_y ∧
      (s.allocate (s.fit op raw)).m_line.getD i 0 =
        (s.fit op raw).m_y + (s.fit op raw).m_height) ∧
    (s.allocate (s.fit op raw)).m_wasted = s.m_wasted +
      ((List.range (s.fit op raw).m_width).map
        (fun k => (s.fit op raw).m_y - s.m_line.getD ((s.fit op raw).m_x + k) 0)).sum := by
  obtain ⟨k, cur, heq, hbound, _, hrun⟩ := fit_valid_nonzero s op raw hW hw32 hw hh hvalid
  obtain ⟨hin, htop⟩ := fit_valid_on_top s op raw hW hw32 hvalid
  refine ⟨fun i h1 h2 => ⟨htop i h1 h2, ?_⟩, ?_⟩
  · rw [allocate_line_getD, if_pos ⟨h1, h2, by omega⟩]
  · rw [heq]
    simp only [SkyLine.allocate, SkyLineLocation.make, SkyLineLocation.setWasted,
      SkyLine.getWastedSpace, foldl_add_eq_sum, Nat.zero_add]
    congr 2
    apply List.map_congr_left
    intro t ht
    have := hrun t (List.mem_range.mp ht)
    unfold usub
    rw [if_pos this]

/-- C6, the failing input: for a zero-area glyph on a fresh `SkyLine(4, 4)`, with `7` in the
storage of the never initialised `m_wasted`, the location is valid with `w = h = 0`, the
contour and the (absent) atlas buffer stay as they are, but the wasted counter goes from 0
to 7. -/
theorem zero_area_allocate_changes_wasted :
    ((SkyLine.new 4 4).fit (FtGlyph.mk 32 [] 0 0 0 0 0 0 0) ⟨0, 0, 0, 0, 7, false⟩) =
      ⟨0, 0, 0, 0, 7, true⟩ ∧
    (SkyLine.new 4 4).m_wasted = 0 ∧
    ((SkyLine.new 4 4).allocate
      ((SkyLine.new 4 4).fit (FtGlyph.mk 32 [] 0 0 0 0 0 0 0) ⟨0, 0, 0, 0, 7, false⟩)) =
      { SkyLine.new 4 4 with m_wasted := 7 } := by
  decide

/-- C5, the failing input: on the contour `[3, 1]` a zero-area glyph, with `5` in the storage
of the never initialised `m_wasted`, gets a valid location that spans no column, so the sum of
`y - line[i]` over its columns is 0, while `allocate` raises the wasted counter by 5. -/
theorem zero_area_wasted_growth_differs_from_sum :
    ((SkyLine.mk none [3, 1] 2 8 0).fit (FtGlyph.mk 32 [] 0 0 0 0 0 0 0)
      ⟨0, 0, 0, 0, 5, false⟩).m_valid = true ∧
    (SkyLine.mk none [3, 1] 2 8 0).getWastedSpace
      ((SkyLine.mk none [3, 1] 2 8 0).fit (FtGlyph.mk 32 [] 0 0 0 0 0 0 0)
        ⟨0, 0, 0, 0, 5, false⟩) = 0 ∧
    ((SkyLine.mk none [3, 1] 2 8 0).allocate
      ((SkyLine.mk none [3, 1] 2 8 0).fit (FtGlyph.mk 32 [] 0 0 0 0 0 0 0)
        ⟨0, 0, 0, 0, 5, false⟩)).m_wasted = (SkyLine.mk none [3, 1] 2 8 0).m_wasted + 5 := by
  decide

/-- C4, the failing input: `fitAll` of a `1 × 1` glyph and a zero-area glyph on a fresh
`SkyLine(4, 4)`, with `100` in the storage of the never initialised `m_wasted`, places both
and ends with used height 4 and `wasted = 115 > 16 = W * used_height`, so `getUsage` is
negative. -/
theorem usage_negative_after_zero_area_glyph :
    ∃ r, (SkyLine.new 4 4).fitAll
        ⟨[some (FtGlyph.mk 65 [9] 1 1 0 0 0 0 0), some (FtGlyph.mk 32 [] 0 0 0 0 0 0 0)],
          [], 0, 0, false⟩ none 0 true (fun _ => ⟨0, 0, 0, 0, 100, false⟩) = some r ∧
      r.ret = 2 ∧ r.sky = ⟨none, [1, 0, 0, 0], 4, 4, 100⟩ ∧
      r.sky.getUsedHeight = 4 ∧ r.sky.getUsageWasted = 115 ∧
      r.sky.m_width * r.sky.getUsedHeight = 16 ∧ r.sky.getUsage < 0 := by
  refine ⟨⟨⟨none, [1, 0, 0, 0], 4, 4, 100⟩,
    [some (FtGlyph.mk 65 [9] 1 1 0 0 0 0 0), some (FtGlyph.mk 32 [] 0 0 0 0 0 0 0)], none, 2,
    [⟨0, 0, 1, 1, 0, true⟩, ⟨0, 0, 0, 0, 100, true⟩]⟩, by rfl, rfl, rfl, by decide, by decide,
    by decide, ?_⟩
  have h1 : (SkyLine.mk none [1, 0, 0, 0] 4 4 100).getUsedHeight = 4 := by decide
  have h2 : (SkyLine.mk none [1, 0, 0, 0] 4 4 100).getUsageWasted = 115 := by decide
  simp only [SkyLine.getUsage, h1, h2]
  norm_num

/-! ### The area balance behind `getUsage` -/

theorem foldl_add_eq_finset_sum (f : Nat → Nat) (n init : Nat) :
    (List.range n).foldl (fun ret k => ret + f k) init = init + ∑ k in Finset.range n, f k := by
  induction n with
  | zero => simp
  | succ n ih =>
    rw [List.range_succ, List.foldl_append, Finset.sum_range_succ]
    simp only [List.foldl_cons, List.foldl_nil, ih]
    omega

/-- Sum of the contour over all columns after `allocate` of a location that lies inside the
contour and rests on or above it: the columns under the location rise by the wasted space
plus the area of the location. -/
theorem allocate_line_sum (s : SkyLine) (loc : SkyLineLocation)
    (hlen : s.m_line.length = s.m_width)
    (hin : loc.m_x + loc.m_width ≤ s.m_width)
    (htop : ∀ c, loc.m_x ≤ c → c < loc.m_x + loc.m_width → s.m_line.getD c 0 ≤ loc.m_y) :
    ∑ i in Finset.range s.m_width, (s.allocate loc).m_line.getD i 0 =
      ∑ i in Finset.range s.m_width, s.m_line.getD i 0 + s.getWastedSpace loc +
        loc.m_width * loc.m_height := by
  have hpoint : ∀ i ∈ Finset.range s.m_width, (s.allocate loc).m_line.getD i 0 =
      s.m_line.getD i 0 +
        (if loc.m_x ≤ i ∧ i < loc.m_x + loc.m_width then
          loc.m_y + loc.m_height - s.m_line.getD i 0 else 0) := by
    intro i hi
    rw [allocate_line_getD]
    have hi' := Finset.mem_range.mp hi
    by_cases hc : loc.m_x ≤ i ∧ i < loc.m_x + loc.m_width
    · have := htop i hc.1 hc.2
      rw [if_pos ⟨hc.1, hc.2, by omega⟩, if_pos hc]
      omega
    · rw [if_neg (fun h => hc ⟨h.1, h.2.1⟩), if_neg hc, Nat.add_zero]
  rw [Finset.sum_congr rfl hpoint, Finset.sum_add_distrib, ← Finset.sum_filter]
  have hfilter : (Finset.range s.m_width).filter
      (fun i => loc.m_x ≤ i ∧ i < loc.m_x + loc.m_width) =
      Finset.Ico loc.m_x (loc.m_x + loc.m_width) := by
    ext i
    simp only [Finset.mem_filter, Finset.mem_range, Finset.mem_Ico]
    constructor
    · rintro ⟨_, h⟩; exact h
    · rintro h; exact ⟨by omega, h⟩
  rw [hfilter, Finset.sum_Ico_eq_sum_range, Nat.add_sub_cancel_left]
  have hterm : ∀ k ∈ Finset.range loc.m_width,
      loc.m_y + loc.m_height - s.m_line.getD (loc.m_x + k) 0 =
        usub loc.m_y (s.m_line.getD (loc.m_x + k) 0) + loc.m_height := by
    intro k hk
    have := htop (loc.m_x + k) (by omega) (by have := Finset.mem_range.mp hk; omega)
    unfold usub
    rw [if_pos this]
    omega
  rw [Finset.sum_congr rfl hterm, Finset.sum_add_distrib, Finset.sum_const, Finset.card_range,
    smul_eq_mul]
  unfold SkyLine.getWastedSpace
  rw [foldl_add_eq_finset_sum]
  omega

/-- The local `wasted` of `getUsage` plus the sum of the contour is the counter `m_wasted`
plus the area `W * used_height`. -/
theorem getUsageWasted_add_line_sum (s : SkyLine) :
    s.getUsageWasted + ∑ i in Finset.range s.m_width, s.m_line.getD i 0 =
      s.m_wasted + s.m_width * s.getUsedHeight := by
  have hge : ∀ i, i < s.m_width → s.m_line.getD i 0 ≤ s.getUsedHeight := by
    intro i hi
    have := (foldl_max_getD_ge s.m_line s.m_width 0).2 i hi
    unfold SkyLine.getUsedHeight SkyLine.SIZE_STEP
    simp only []
    split <;> omega
  unfold SkyLine.getUsageWasted
  simp only []
  rw [foldl_add_eq_finset_sum, Nat.add_assoc, ← Finset.sum_add_distrib]
  have hterm : ∀ i ∈ Finset.range s.m_width,
      usub s.getUsedHeight (s.m_line.getD i 0) + s.m_line.getD i 0 = s.getUsedHeight := by
    intro i hi
    have := hge i (Finset.mem_range.mp hi)
    unfold usub
    rw [if_pos this]
    omega
  rw [Finset.sum_congr rfl hterm, Finset.sum_const, Finset.card_range, smul_eq_mul]

theorem fit_wasted_eq (s : SkyLine) (op : FtGlyph) (raw : SkyLineLocation)
    (hW : s.m_width < 4294967296) (hw32 : op.m_bitmap_w < 4294967296)
    (hraw : raw.m_wasted = 0) (hvalid : (s.fit op raw).m_valid = true) :
    (s.fit op raw).m_wasted = s.getWastedSpace (s.fit op raw) := by
  by_cases hz : op.m_bitmap_w = 0 ∨ op.m_bitmap_h = 0
  · rw [fit_zero_area s op raw hz]
    simp [SkyLineLocation.make, SkyLine.getWastedSpace, hraw]
  · obtain ⟨k, cur, heq, _, _, _⟩ :=
      fit_valid_nonzero s op raw hW hw32 (by omega) (by omega) hvalid
    rw [heq]
    rfl

/-- Area balance of the `fitAll` loop when the storage of every location holds 0 in the member
`m_wasted` before construction: the contour sum grows by the growth of the wasted counter plus
the area of the placed locations. -/
theorem fitAllLoop_balance (pidx : Nat) (glst : Bool) (gs : List FtGlyphSptr) :
    ∀ (s : SkyLine) (xmlfile : Option XmlFile) (raw : Nat → SkyLineLocation)
      (r : SkyLine.FitAllResult),
      s.m_line.length = s.m_width → s.m_width < 4294967296 →
      (∀ g, some g ∈ gs → g.m_bitmap_w < 4294967296) →
      (∀ k, (raw k).m_wasted = 0) →
      SkyLine.fitAllLoop pidx glst s xmlfile raw gs = some r →
      r.sky.m_width = s.m_width ∧
      ∑ i in Finset.range s.m_width, r.sky.m_line.getD i 0 + s.m_wasted =
        ∑ i in Finset.range s.m_width, s.m_line.getD i 0 + r.sky.m_wasted +
          (r.placed.map (fun loc => loc.m_width * loc.m_height)).sum := by
  induction gs with
  | nil =>
    intro s xmlfile raw r _ _ _ _ hr
    simp only [SkyLine.fitAllLoop, Option.some.injEq] at hr
    subst hr
    simp
  | cons e rest ih =>
    intro s xmlfile raw r hlen hW hw32 hraw hr
    cases e with
    | none => simp [SkyLine.fitAllLoop] at hr
    | some gly =>
      cases hvalid : (s.fit gly (raw 0)).m_valid with
      | false =>
        rw [fitAllLoop_cons_invalid pidx glst s xmlfile raw gly rest hvalid] at hr
        simp only [Option.some.injEq] at hr
        subst hr
        simp
      | true =>
        rw [fitAllLoop_cons_valid pidx glst s xmlfile raw gly rest hvalid] at hr
        obtain ⟨r', hr', hmap⟩ := Option.map_eq_some'.mp hr
        subst hmap
        obtain ⟨hin, htop⟩ := fit_valid_on_top s gly (raw 0) hW
          (hw32 gly (List.mem_cons_self _ _)) hvalid
        have hwst := fit_wasted_eq s gly (raw 0) hW (hw32 gly (List.mem_cons_self _ _))
          (hraw 0) hvalid
        have hsum := allocate_line_sum s (s.fit gly (raw 0)) hlen hin htop
        obtain ⟨hl, hwd⟩ := fitAllWrite_line pidx glst (s.allocate (s.fit gly (raw 0))) xmlfile
          (s.fit gly (raw 0)) gly
        have hws := fitAllWrite_wasted pidx glst (s.allocate (s.fit gly (raw 0))) xmlfile
          (s.fit gly (raw 0)) gly
        obtain ⟨h1, h2⟩ := ih _ _ _ r' (by rw [hl, hwd, allocate_line_length]; exact hlen)
          (by rw [hwd]; exact hW) (fun g hg => hw32 g (List.mem_cons_of_mem _ hg))
          (fun k => hraw (k + 1)) hr'
        rw [hwd] at h1 h2
        rw [hl, hws] at h2
        have hw' : (s.allocate (s.fit gly (raw 0))).m_wasted =
            s.m_wasted + (s.fit gly (raw 0)).m_wasted := rfl
        have hwidth : (s.allocate (s.fit gly (raw 0))).m_width = s.m_width := rfl
        rw [hwidth] at h1 h2
        refine ⟨h1, ?_⟩
        simp only [List.map_cons, List.sum_cons]
        rw [hw'] at h2
        omega

/-- When the storage in which `fit` constructs its locations holds 0 in the member `m_wasted`,
the state left by `fitAll` on a fresh `SkyLine(W, H_max)` satisfies the utilization bound: the
wasted pixels counted by `getUsage` are at most `W * used_height`, and the usage is in
`[0, 1]`. -/
theorem fitAll_usage_bound_of_zeroed_storage (W H_max : Nat) (glyphs : GlyphStorage)
    (xmlfile : Option XmlFile) (pidx : Nat) (glst : Bool) (raw : Nat → SkyLineLocation)
    (hW : W < 4294967296)
    (hw32 : ∀ g, some g ∈ glyphs.m_glyphs → g.m_bitmap_w < 4294967296)
    (hnn : ∀ e ∈ glyphs.m_glyphs, e ≠ none)
    (hraw : ∀ k, (raw k).m_wasted = 0) :
    ∃ r, (SkyLine.new W H_max).fitAll glyphs xmlfile pidx glst raw = some r ∧
      r.sky.getUsageWasted ≤ r.sky.m_width * r.sky.getUsedHeight ∧
      0 ≤ r.sky.getUsage ∧ r.sky.getUsage ≤ 1 := by
  obtain ⟨r, hr, _⟩ := fitAllLoop_first_failure pidx glst glyphs.m_glyphs (SkyLine.new W H_max)
    xmlfile raw hnn
  obtain ⟨hwd, hbal⟩ := fitAllLoop_balance pidx glst glyphs.m_glyphs (SkyLine.new W H_max)
    xmlfile raw r (by simp [SkyLine.new]) hW hw32 hraw hr
  have hzero : ∑ i in Finset.range (SkyLine.new W H_max).m_width,
      (SkyLine.new W H_max).m_line.getD i 0 = 0 := by
    apply Finset.sum_eq_zero
    intro i _
    simp [SkyLine.new, List.getD_eq_getElem?_getD, List.getElem?_replicate]
    split <;> rfl
  have huw := getUsageWasted_add_line_sum r.sky
  rw [hwd] at huw
  rw [hzero] at hbal
  have hw0 : (SkyLine.new W H_max).m_wasted = 0 := rfl
  have hbound : r.sky.getUsageWasted ≤ r.sky.m_width * r.sky.getUsedHeight := by
    rw [hwd]; omega
  refine ⟨r, hr, hbound, ?_, ?_⟩
  · unfold SkyLine.getUsage
    simp only []
    split
    · exact le_refl _
    · rename_i hused
      have hpos : (0 : ℚ) < ((r.sky.m_width * r.sky.getUsedHeight : Nat) : ℚ) := by
        have : 0 < r.sky.m_width * r.sky.getUsedHeight := by
          rcases Nat.eq_zero_or_pos r.sky.m_width with h0 | h0
          · exfalso
            apply hused
            unfold SkyLine.getUsedHeight
            rw [h0]
            rfl
          · exact Nat.mul_pos h0 (Nat.pos_of_ne_zero hused)
        exact_mod_cast this
      have hle : (r.sky.getUsageWasted : ℚ) ≤ ((r.sky.m_width * r.sky.getUsedHeight : Nat) : ℚ) := by
        exact_mod_cast hbound
      rw [sub_nonneg, div_le_one hpos]
      exact hle
  · unfold SkyLine.getUsage
    simp only []
    split
    · exact zero_le_one
    · rw [sub_le_self_iff]
      positivity

/-! ### C13: `markGlyph` -/

theorem mapContains_mapAssign (m : List (Nat × Bool)) (k : Nat) (v : Bool) (j : Nat) :
    mapContains (mapAssign m k v) j = (mapContains m j || decide (j = k)) := by
  unfold mapAssign
  by_cases h : mapContains m k = true
  · rw [if_pos h]
    simp only [mapContains, List.any_map, List.any_eq_true, decide_eq_true_eq] at h ⊢
    obtain ⟨p, hp, hpk⟩ := h
    rw [Bool.eq_iff_iff]
    simp only [List.any_eq_true, Function.comp_apply, decide_eq_true_eq, Bool.or_eq_true]
    constructor
    · rintro ⟨q, hq, hqj⟩
      by_cases hqk : q.1 = k
      · rw [if_pos hqk] at hqj
        right; exact hqj.symm
      · rw [if_neg hqk] at hqj
        left; exact ⟨q, hq, hqj⟩
    · rintro (⟨q, hq, hqj⟩ | hjk)
      · refine ⟨q, hq, ?_⟩
        by_cases hqk : q.1 = k
        · rw [if_pos hqk]; simp only; rw [← hqk, hqj]
        · rw [if_neg hqk]; exact hqj
      · exact ⟨p, hp, by rw [if_pos hpk]; exact hjk.symm⟩
  · rw [if_neg h]
    simp [mapContains, List.any_append, eq_comm]

theorem markGlyph_spec (st : GlyphStorage) (c : Nat) :
    ((st.markGlyph c).2 = true ↔ mapContains st.m_glyph_guard c = false) ∧
    mapContains (st.markGlyph c).1.m_glyph_guard c = true ∧
    (∀ j, mapContains st.m_glyph_guard j = true →
      mapContains (st.markGlyph c).1.m_glyph_guard j = true) := by
  unfold GlyphStorage.markGlyph
  cases h : mapContains st.m_glyph_guard c
  · simp [mapContains_mapAssign]
    intro j hj; left; exact hj
  · simp [h]

theorem call_keeps_marks (st st1 : GlyphStorage) (c : StorageCall) (flag : Bool)
    (h : st.call c = some (st1, flag)) (j : Nat)
    (hj : mapContains st.m_glyph_guard j = true) :
    mapContains st1.m_glyph_guard j = true := by
  cases c with
  | markGlyph op =>
    simp only [GlyphStorage.call, Option.some.injEq] at h
    have := (markGlyph_spec st op).2.2 j hj
    rw [h] at this
    exact this
  | add op v =>
    simp only [GlyphStorage.call, Option.some.injEq, Prod.mk.injEq] at h
    rw [← h.1]
    unfold GlyphStorage.add GlyphStorage.concurrencyDecrement
    split
    · exact hj
    · simp only []
      split
      · split <;> exact hj
      · exact hj
  | concurrencyIcrement =>
    simp only [GlyphStorage.call, GlyphStorage.concurrencyIcrement] at h
    split at h
    · simp at h
    · simp only [Option.map_some', Option.some.injEq, Prod.mk.injEq] at h
      rw [← h.1]
      exact hj

theorem run_marked_no_true (calls : List StorageCall) :
    ∀ (st st' : GlyphStorage) (flags : List Bool) (c : Nat),
      st.run calls = some (st', flags) → mapContains st.m_glyph_guard c = true →
      ((calls.zip flags).countP (fun p => p.1.isMarkOf c && p.2)) = 0 := by
  induction calls with
  | nil => intro st st' flags c _ _; simp
  | cons call rest ih =>
    intro st st' flags c hrun hc
    unfold GlyphStorage.run at hrun
    cases hcall : st.call call with
    | none => rw [hcall] at hrun; simp at hrun
    | some r =>
      obtain ⟨st1, flag⟩ := r
      rw [hcall] at hrun
      simp only [Option.map_eq_some'] at hrun
      obtain ⟨⟨st2, flags2⟩, hrest, heq⟩ := hrun
      simp only [Prod.mk.injEq] at heq
      obtain ⟨rfl, rfl⟩ := heq
      have hc1 := call_keeps_marks st st1 call flag hcall c hc
      have hrec := ih st1 st2 flags2 c hrest hc1
      rw [List.zip_cons_cons, List.countP_cons, hrec]
      have hflag : (call.isMarkOf c && flag) = false := by
        cases call with
        | markGlyph op =>
          simp only [GlyphStorage.call, Option.some.injEq] at hcall
          by_cases hop : op = c
          · subst hop
            have := (markGlyph_spec st op).1
            rw [hcall] at this
            simp only [hc] at this
            cases flag
            · simp
            · exact absurd (this.mp rfl) (by simp)
          · simp [StorageCall.isMarkOf, hop]
        | add op v => simp [StorageCall.isMarkOf]
        | concurrencyIcrement => simp [StorageCall.isMarkOf]
      simp [hflag]

theorem run_true_marks_at_most_once (calls : List StorageCall) :
    ∀ (st st' : GlyphStorage) (flags : List Bool) (c : Nat),
      st.run calls = some (st', flags) →
      ((calls.zip flags).countP (fun p => p.1.isMarkOf c && p.2)) ≤ 1 := by
  induction calls with
  | nil => intro st st' flags c _; simp
  | cons call rest ih =>
    intro st st' flags c hrun
    unfold GlyphStorage.run at hrun
    cases hcall : st.call call with
    | none => rw [hcall] at hrun; simp at hrun
    | some r =>
      obtain ⟨st1, flag⟩ := r
      rw [hcall] at hrun
      simp only [Option.map_eq_some'] at hrun
      obtain ⟨⟨st2, flags2⟩, hrest, heq⟩ := hrun
      simp only [Prod.mk.injEq] at heq
      obtain ⟨rfl, rfl⟩ := heq
      rw [List.zip_cons_cons, List.countP_cons]
      by_cases hflag : (call.isMarkOf c && flag) = true
      · simp only [hflag, if_true]
        have hmarked : mapContains st1.m_glyph_guard c = true := by
          cases call with
          | markGlyph op =>
            simp only [StorageCall.isMarkOf, Bool.and_eq_true, decide_eq_true_eq] at hflag
            simp only [GlyphStorage.call, Option.some.injEq] at hcall
            have := (markGlyph_spec st op).2.1
            rw [hcall, hflag.1] at this
            exact this
          | add op v => simp [StorageCall.isMarkOf] at hflag
          | concurrencyIcrement => simp [StorageCall.isMarkOf] at hflag
        rw [run_marked_no_true rest st1 st2 flags2 c hrest hmarked]
      · simp only [hflag, Bool.false_eq_true, if_false, Nat.add_zero]
        exact ih st1 st2 flags2 c hrest

/-- C13. For every storage state and code point `c`, `markGlyph(c)` returns true exactly when
`c` has not been marked before; afterwards `c` is marked and every earlier mark is kept.  Hence
in any sequence of calls (marks, possibly mixed with `add` and `concurrencyIcrement`), at most
one `markGlyph(c)` returns true. -/
theorem markGlyph_true_once_per_code_point (st : GlyphStorage) (c : Nat) :
    ((st.markGlyph c).2 = true ↔ mapContains st.m_glyph_guard c = false) ∧
    mapContains (st.markGlyph c).1.m_glyph_guard c = true ∧
    (∀ j, mapContains st.m_glyph_guard j = true →
      mapContains (st.markGlyph c).1.m_glyph_guard j = true) ∧
    (∀ (calls : List StorageCall) (st' : GlyphStorage) (flags : List Bool),
      st.run calls = some (st', flags) →
      ((calls.zip flags).countP (fun p => p.1.isMarkOf c && p.2)) ≤ 1) := by
  obtain ⟨h1, h2, h3⟩ := markGlyph_spec st c
  exact ⟨h1, h2, h3, fun calls st' flags hrun =>
    run_true_marks_at_most_once calls st st' flags c hrun⟩

theorem markGlyph_true_once_per_code_point_witness :
    ((GlyphStorage.new 1).run [StorageCall.markGlyph 65, StorageCall.markGlyph 66,
        StorageCall.markGlyph 65]).map (fun r => r.2) = some [true, true, false] ∧
    ([StorageCall.markGlyph 65, StorageCall.markGlyph 66, StorageCall.markGlyph 65].zip
        [true, true, false]).countP (fun p => p.1.isMarkOf 65 && p.2) ≤ 1 :=
  ⟨by decide,
    (markGlyph_true_once_per_code_point (GlyphStorage.new 1) 65).2.2.2
      [StorageCall.markGlyph 65, StorageCall.markGlyph 66, StorageCall.markGlyph 65]
      ⟨[], [(65, true), (66, true)], 0, 2, false⟩ [true, true, false] (by rfl)⟩

/-! ### C14: `add` -/

theorem add_spec (st : GlyphStorage) (op : FtGlyph) (g_verbose : Bool) :
    (mapContains st.m_glyph_guard op.m_unicode = false →
      (st.add op g_verbose).2.isSome = true ∧ (st.add op g_verbose).1 = st) ∧
    (mapContains st.m_glyph_guard op.m_unicode = true →
      (st.add op g_verbose).2 = none ∧
      (st.add op g_verbose).1.m_glyphs = st.m_glyphs ++ [some op] ∧
      (st.add op g_verbose).1.m_glyph_guard = st.m_glyph_guard ∧
      (st.add op g_verbose).1.m_glyphs_in_flight = usub st.m_glyphs_in_flight 1 ∧
      (st.add op g_verbose).1.m_concurrency = st.m_concurrency) := by
  unfold GlyphStorage.add GlyphStorage.concurrencyDecrement
  constructor
  · intro h
    simp [h]
  · intro h
    simp only [h, Bool.not_true, Bool.false_eq_true, if_false]
    split
    · split <;> exact ⟨rfl, rfl, rfl, rfl, rfl⟩
    · exact ⟨rfl, rfl, rfl, rfl, rfl⟩

theorem call_keeps_glyphs_marked (st st1 : GlyphStorage) (c : StorageCall) (flag : Bool)
    (h : st.call c = some (st1, flag))
    (hinv : ∀ g, some g ∈ st.m_glyphs → mapContains st.m_glyph_guard g.m_unicode = true) :
    ∀ g, some g ∈ st1.m_glyphs → mapContains st1.m_glyph_guard g.m_unicode = true := by
  intro g hg
  cases c with
  | markGlyph op =>
    have hkeep := call_keeps_marks st st1 _ flag h
    simp only [GlyphStorage.call, Option.some.injEq] at h
    have hgl : st1.m_glyphs = st.m_glyphs := by
      have h1 := congrArg Prod.fst h
      simp only at h1
      rw [← h1]
      unfold GlyphStorage.markGlyph
      split <;> rfl
    rw [hgl] at hg
    exact hkeep _ (hinv g hg)
  | add op v =>
    simp only [GlyphStorage.call, Option.some.injEq, Prod.mk.injEq] at h
    obtain ⟨h1, _⟩ := h
    subst h1
    cases hm : mapContains st.m_glyph_guard op.m_unicode with
    | false =>
      rw [((add_spec st op v).1 hm).2] at hg ⊢
      exact hinv g hg
    | true =>
      obtain ⟨_, hgl, hgd, _, _⟩ := (add_spec st op v).2 hm
      rw [hgl] at hg
      rw [hgd]
      rcases List.mem_append.mp hg with hg | hg
      · exact hinv g hg
      · simp only [List.mem_singleton, Option.some.injEq] at hg
        rw [hg]; exact hm
  | concurrencyIcrement =>
    simp only [GlyphStorage.call, GlyphStorage.concurrencyIcrement] at h
    split at h
    · simp at h
    · simp only [Option.map_some', Option.some.injEq, Prod.mk.injEq] at h
      rw [← h.1] at hg ⊢
      exact hinv g hg

theorem run_keeps_glyphs_marked (calls : List StorageCall) :
    ∀ (st st' : GlyphStorage) (flags : List Bool),
      st.run calls = some (st', flags) →
      (∀ g, some g ∈ st.m_glyphs → mapContains st.m_glyph_guard g.m_unicode = true) →
      ∀ g, some g ∈ st'.m_glyphs → mapContains st'.m_glyph_guard g.m_unicode = true := by
  induction calls with
  | nil =>
    intro st st' flags hrun hinv
    simp only [GlyphStorage.run, Option.some.injEq, Prod.mk.injEq] at hrun
    rw [← hrun.1]; exact hinv
  | cons call rest ih =>
    intro st st' flags hrun hinv
    unfold GlyphStorage.run at hrun
    cases hcall : st.call call with
    | none => rw [hcall] at hrun; simp at hrun
    | some r =>
      obtain ⟨st1, flag⟩ := r
      rw [hcall] at hrun
      simp only [Option.map_eq_some'] at hrun
      obtain ⟨⟨st2, flags2⟩, hrest, heq⟩ := hrun
      simp only [Prod.mk.injEq] at heq
      obtain ⟨rfl, rfl⟩ := heq
      exact ih st1 st2 flags2 hrest (call_keeps_glyphs_marked st st1 call flag hcall hinv)

/-- C14. For every storage state and glyph: when the code point of the glyph has not been
marked, `add` throws and leaves the whole storage (the completed list and the in-flight
counter included) unchanged; when it has been marked, `add` does not throw and appends the
glyph at the end of the list.  Hence in every state reached from a fresh storage by calls of
`markGlyph`, `add` and `concurrencyIcrement`, every glyph of the completed list has a marked
code point. -/
theorem add_requires_mark_and_appends (st : GlyphStorage) (op : FtGlyph) (g_verbose : Bool) :
    (mapContains st.m_glyph_guard op.m_unicode = false →
      (st.add op g_verbose).2.isSome = true ∧ (st.add op g_verbose).1 = st) ∧
    (mapContains st.m_glyph_guard op.m_unicode = true →
      (st.add op g_verbose).2 = none ∧
      (st.add op g_verbose).1.m_glyphs = st.m_glyphs ++ [some op]) ∧
    (∀ (hardware_concurrency : Nat) (calls : List StorageCall) (st' : GlyphStorage)
      (flags : List Bool),
      (GlyphStorage.new hardware_concurrency).run calls = some (st', flags) →
      ∀ g, some g ∈ st'.m_glyphs → mapContains st'.m_glyph_guard g.m_unicode = true) := by
  refine ⟨(add_spec st op g_verbose).1, fun h => ?_, ?_⟩
  · obtain ⟨h1, h2, _⟩ := (add_spec st op g_verbose).2 h
    exact ⟨h1, h2⟩
  · intro hc calls st' flags hrun
    exact run_keeps_glyphs_marked calls _ st' flags hrun
      (fun g hg => absurd hg (by simp [GlyphStorage.new]))

theorem add_requires_mark_and_appends_witness :
    (((GlyphStorage.new 1).add (FtGlyph.mk 65 [] 0 0 0 0 0 0 0) false).2.isSome = true ∧
      ((GlyphStorage.new 1).add (FtGlyph.mk 65 [] 0 0 0 0 0 0 0) false).1 =
        GlyphStorage.new 1) ∧
    ((((GlyphStorage.new 1).markGlyph 65).1.add (FtGlyph.mk 65 [] 0 0 0 0 0 0 0) false).2 =
        none ∧
      (((GlyphStorage.new 1).markGlyph 65).1.add (FtGlyph.mk 65 [] 0 0 0 0 0 0 0)
        false).1.m_glyphs =
        ((GlyphStorage.new 1).markGlyph 65).1.m_glyphs ++
          [some (FtGlyph.mk 65 [] 0 0 0 0 0 0 0)]) :=
  ⟨(add_requires_mark_and_appends (GlyphStorage.new 1) (FtGlyph.mk 65 [] 0 0 0 0 0 0 0)
      false).1 (by decide),
    (add_requires_mark_and_appends ((GlyphStorage.new 1).markGlyph 65).1
      (FtGlyph.mk 65 [] 0 0 0 0 0 0 0) false).2.1 (by decide)⟩

/-! ### C15: the in-flight counter -/

theorem call_keeps_in_flight_bound (st st1 : GlyphStorage) (c : StorageCall) (flag : Bool)
    (h : st.call c = some (st1, flag))
    (hadd : ∀ op v, c = StorageCall.add op v → 0 < st.m_glyphs_in_flight)
    (hinv : st.m_glyphs_in_flight ≤ st.m_concurrency) :
    st1.m_glyphs_in_flight ≤ st1.m_concurrency := by
  cases c with
  | markGlyph op =>
    simp only [GlyphStorage.call, Option.some.injEq] at h
    have h1 := congrArg Prod.fst h
    simp only at h1
    rw [← h1]
    unfold GlyphStorage.markGlyph
    split <;> exact hinv
  | add op v =>
    simp only [GlyphStorage.call, Option.some.injEq, Prod.mk.injEq] at h
    obtain ⟨h1, _⟩ := h
    subst h1
    have hpos := hadd op v rfl
    cases hm : mapContains st.m_glyph_guard op.m_unicode with
    | false =>
      rw [((add_spec st op v).1 hm).2]
      exact hinv
    | true =>
      obtain ⟨_, _, _, hfl, hcc⟩ := (add_spec st op v).2 hm
      rw [hfl, hcc]
      unfold usub
      split <;> omega
  | concurrencyIcrement =>
    simp only [GlyphStorage.call, GlyphStorage.concurrencyIcrement] at h
    split at h
    · simp at h
    · rename_i hlt
      simp only [Option.map_some', Option.some.injEq, Prod.mk.injEq] at h
      rw [← h.1]
      simp only
      omega

theorem run_keeps_in_flight_bound (calls : List StorageCall) :
    ∀ (st st' : GlyphStorage) (flags : List Bool),
      st.run calls = some (st', flags) → st.addsInFlight calls = true →
      st.m_glyphs_in_flight ≤ st.m_concurrency →
      st'.m_glyphs_in_flight ≤ st'.m_concurrency := by
  induction calls with
  | nil =>
    intro st st' flags hrun _ hinv
    simp only [GlyphStorage.run, Option.some.injEq, Prod.mk.injEq] at hrun
    rw [← hrun.1]; exact hinv
  | cons call rest ih =>
    intro st st' flags hrun hdisc hinv
    unfold GlyphStorage.run at hrun
    unfold GlyphStorage.addsInFlight at hdisc
    cases hcall : st.call call with
    | none => rw [hcall] at hrun; simp at hrun
    | some r =>
      obtain ⟨st1, flag⟩ := r
      rw [hcall] at hrun hdisc
      simp only [Option.map_eq_some'] at hrun
      obtain ⟨⟨st2, flags2⟩, hrest, heq⟩ := hrun
      simp only [Prod.mk.injEq] at heq
      obtain ⟨rfl, rfl⟩ := heq
      simp only [Bool.and_eq_true] at hdisc
      refine ih st1 st2 flags2 hrest hdisc.2
        (call_keeps_in_flight_bound st st1 call flag hcall ?_ hinv)
      intro op v hc
      subst hc
      simpa using hdisc.1

/-! ### C20: `GlyphRange` stays sorted -/

theorem stdSort_lt_sorted (l : List Nat) :
    (stdSort (fun a b => decide (a < b)) l).Pairwise (fun a b => a ≤ b) :=
  (stdSort_pairwise (fun a b => decide (a < b))
    (fun a b h => by simp only [decide_eq_true_eq, decide_eq_false_iff_not] at h ⊢; omega)
    (fun a b c h1 h2 => by simp only [decide_eq_true_eq] at h1 h2 ⊢; omega) l).imp
    (fun {a b} h => by simp only [decide_eq_false_iff_not] at h; omega)

theorem removeFrom_sublist (ps pe past : Nat) (l : List Nat) :
    (GlyphRange.removeFrom ps pe past l).Sublist l := by
  induction l with
  | nil => exact List.Sublist.refl _
  | cons x rest ih =>
    unfold GlyphRange.removeFrom
    split
    · exact List.drop_sublist _ _
    · exact List.Sublist.cons₂ x ih

theorem call_keeps_sorted (r : GlyphRange) (c : RangeCall)
    (h : r.m_range.Pairwise (fun a b => a ≤ b)) :
    (r.call c).m_range.Pairwise (fun a b => a ≤ b) := by
  cases c with
  | add op => exact stdSort_lt_sorted _
  | addRange ps pe => exact stdSort_lt_sorted _
  | remove op => exact h.sublist (List.erase_sublist _ _)
  | removeRange ps pe past => exact h.sublist (removeFrom_sublist _ _ _ _)

theorem run_keeps_sorted (calls : List RangeCall) :
    ∀ r : GlyphRange, r.m_range.Pairwise (fun a b => a ≤ b) →
      (r.run calls).m_range.Pairwise (fun a b => a ≤ b) := by
  induction calls with
  | nil => intro r h; exact h
  | cons c rest ih =>
    intro r h
    exact ih (r.call c) (call_keeps_sorted r c h)

/-- C20, the counterexample: `add(65)` twice on an empty range gives the sequence `[65, 65]`,
which contains a duplicate code point. -/
theorem add_twice_keeps_duplicate :
    (GlyphRange.empty.run [RangeCall.add 65, RangeCall.add 65]).m_range = [65, 65] ∧
    ¬ (GlyphRange.empty.run [RangeCall.add 65, RangeCall.add 65]).m_range.Nodup := by
  decide

/-- C20, amended. After any sequence of `add(point)`, `add(range)`, `remove(point)` and
`remove(range)` calls on an empty `GlyphRange`, its code-point sequence is sorted in ascending
order (it may contain the same code point more than once). -/
theorem range_sorted_after_any_calls (calls : List RangeCall) :
    (GlyphRange.empty.run calls).m_range.Pairwise (fun a b => a ≤ b) :=
  run_keeps_sorted calls GlyphRange.empty List.Pairwise.nil

/-! ### C11: the best tuple of the fitter -/

theorem storeAttempt_cases (slf : SkyLineFitter) (a : FitAttempt) :
    (a.pcount ≥ slf.m_best_count ∧ a.pusage > slf.m_best_usage ∧
      slf.storeAttempt a.pcount a.pusage a.pw a.ph =
        { slf with m_best_count := a.pcount, m_best_usage := a.pusage, m_best_width := a.pw,
                   m_best_height := a.ph }) ∨
    (¬ (a.pcount ≥ slf.m_best_count ∧ a.pusage > slf.m_best_usage) ∧
      slf.storeAttempt a.pcount a.pusage a.pw a.ph = slf) := by
  unfold SkyLineFitter.storeAttempt
  by_cases h : a.pcount ≥ slf.m_best_count ∧ a.pusage > slf.m_best_usage
  · left; exact ⟨h.1, h.2, if_pos h⟩
  · right; exact ⟨h, if_neg h⟩

theorem storeAll_cons (slf : SkyLineFitter) (a : FitAttempt) (rest : List FitAttempt) :
    slf.storeAll (a :: rest) = (slf.storeAttempt a.pcount a.pusage a.pw a.ph).storeAll rest :=
  rfl

theorem storeAll_monotone (attempts : List FitAttempt) :
    ∀ slf : SkyLineFitter,
      slf.m_best_count ≤ (slf.storeAll attempts).m_best_count ∧
      slf.m_best_usage ≤ (slf.storeAll attempts).m_best_usage := by
  induction attempts with
  | nil => intro slf; exact ⟨le_refl _, le_refl _⟩
  | cons a rest ih =>
    intro slf
    have hrec := ih (slf.storeAttempt a.pcount a.pusage a.pw a.ph)
    have hstep : slf.m_best_count ≤ (slf.storeAttempt a.pcount a.pusage a.pw a.ph).m_best_count ∧
        slf.m_best_usage ≤ (slf.storeAttempt a.pcount a.pusage a.pw a.ph).m_best_usage := by
      rcases storeAttempt_cases slf a with ⟨h1, h2, heq⟩ | ⟨_, heq⟩
      · rw [heq]; exact ⟨h1, le_of_lt h2⟩
      · rw [heq]; exact ⟨le_refl _, le_refl _⟩
    exact ⟨le_trans hstep.1 hrec.1, le_trans hstep.2 hrec.2⟩

theorem storeAll_not_dominated (attempts : List FitAttempt) :
    ∀ slf : SkyLineFitter, ∀ a ∈ attempts,
      a.pcount < (slf.storeAll attempts).m_best_count ∨
      a.pusage ≤ (slf.storeAll attempts).m_best_usage := by
  induction attempts with
  | nil => intro slf a ha; exact absurd ha (List.not_mem_nil a)
  | cons b rest ih =>
    intro slf a ha
    rcases List.mem_cons.mp ha with rfl | ha
    · have hmono := storeAll_monotone rest (slf.storeAttempt a.pcount a.pusage a.pw a.ph)
      change a.pcount < ((slf.storeAttempt a.pcount a.pusage a.pw a.ph).storeAll
          rest).m_best_count ∨
        a.pusage ≤ ((slf.storeAttempt a.pcount a.pusage a.pw a.ph).storeAll rest).m_best_usage
      rcases storeAttempt_cases slf a with ⟨_, _, heq⟩ | ⟨hno, heq⟩
      · right
        rw [heq] at hmono ⊢
        exact hmono.2
      · rw [heq] at hmono ⊢
        by_cases hc : a.pcount ≥ slf.m_best_count
        · right
          have : ¬ a.pusage > slf.m_best_usage := fun h => hno ⟨hc, h⟩
          exact le_trans (not_lt.mp this) hmono.2
        · left
          exact lt_of_lt_of_le (not_le.mp hc) hmono.1
    · exact ih (slf.storeAttempt b.pcount b.pusage b.pw b.ph) a ha

theorem storeAll_best_is_stored (attempts : List FitAttempt) :
    ∀ slf : SkyLineFitter,
      ((slf.storeAll attempts).m_best_count = slf.m_best_count ∧
        (slf.storeAll attempts).m_best_usage = slf.m_best_usage ∧
        (slf.storeAll attempts).m_best_width = slf.m_best_width ∧
        (slf.storeAll attempts).m_best_height = slf.m_best_height) ∨
      (⟨(slf.storeAll attempts).m_best_count, (slf.storeAll attempts).m_best_usage,
        (slf.storeAll attempts).m_best_width, (slf.storeAll attempts).m_best_height⟩ :
          FitAttempt) ∈ attempts := by
  induction attempts with
  | nil => intro slf; left; exact ⟨rfl, rfl, rfl, rfl⟩
  | cons a rest ih =>
    intro slf
    simp only [storeAll_cons]
    rcases ih (slf.storeAttempt a.pcount a.pusage a.pw a.ph) with ⟨h1, h2, h3, h4⟩ | hmem
    · rcases storeAttempt_cases slf a with ⟨_, _, heq⟩ | ⟨_, heq⟩
      · right
        rw [h1, h2, h3, h4, heq]
        exact List.mem_cons_self _ _
      · left
        rw [h1, h2, h3, h4, heq]
        exact ⟨rfl, rfl, rfl, rfl⟩
    · right
      exact List.mem_cons_of_mem _ hmem

/-- C11, amended. After any list of attempts has been stored in a fresh fitter, in whatever
order, the stored best tuple is the initial tuple `(0, 0, 0, 0)` or one of the stored attempts,
and no stored attempt has both a glyph count at least the best count and a utilization above
the best utilization: the best tuple has the highest utilization among the attempts whose
count is at least its own (its count need not be the maximum). -/
theorem best_tuple_not_dominated (pmax : Nat) (attempts : List FitAttempt) :
    (((SkyLineFitter.new pmax).storeAll attempts).m_best_count = 0 ∧
        ((SkyLineFitter.new pmax).storeAll attempts).m_best_usage = 0 ∧
        ((SkyLineFitter.new pmax).storeAll attempts).m_best_width = 0 ∧
        ((SkyLineFitter.new pmax).storeAll attempts).m_best_height = 0 ∨
      (⟨((SkyLineFitter.new pmax).storeAll attempts).m_best_count,
        ((SkyLineFitter.new pmax).storeAll attempts).m_best_usage,
        ((SkyLineFitter.new pmax).storeAll attempts).m_best_width,
        ((SkyLineFitter.new pmax).storeAll attempts).m_best_height⟩ : FitAttempt) ∈ attempts) ∧
    ∀ a ∈ attempts,
      ¬ (a.pcount ≥ ((SkyLineFitter.new pmax).storeAll attempts).m_best_count ∧
         a.pusage > ((SkyLineFitter.new pmax).storeAll attempts).m_best_usage) := by
  refine ⟨storeAll_best_is_stored attempts (SkyLineFitter.new pmax), fun a ha h => ?_⟩
  rcases storeAll_not_dominated attempts (SkyLineFitter.new pmax) a ha with h1 | h1
  · exact absurd h.1 (not_le.mpr h1)
  · exact absurd h.2 (not_lt.mpr h1)

theorem runTasks_eq_storeAll (glyphs : GlyphStorage) (tasks : List (Nat × Nat)) :
    ∀ (slf slf' : SkyLineFitter) (raws : Nat → Nat → SkyLineLocation),
      slf.runTasks glyphs raws tasks = some slf' →
      ∃ attempts : List FitAttempt, attempts.length = tasks.length ∧
        slf' = slf.storeAll attempts ∧
        ∀ k (hk : k < tasks.length), ∃ a, attempts[k]? = some a ∧
          SkyLineFitter.attempt glyphs (tasks.get ⟨k, hk⟩).1 (tasks.get ⟨k, hk⟩).2 (raws k) =
            some a := by
  induction tasks with
  | nil =>
    intro slf slf' raws h
    simp only [SkyLineFitter.runTasks, Option.some.injEq] at h
    exact ⟨[], rfl, h.symm, fun k hk => absurd hk (Nat.not_lt_zero k)⟩
  | cons t rest ih =>
    intro slf slf' raws h
    obtain ⟨pw, pmaxh⟩ := t
    unfold SkyLineFitter.runTasks at h
    cases hat : slf.attempt_thread glyphs pw pmaxh (raws 0) with
    | none => rw [hat] at h; simp at h
    | some slf1 =>
      rw [hat] at h
      simp only at h
      unfold SkyLineFitter.attempt_thread at hat
      obtain ⟨a, ha, hs⟩ := Option.map_eq_some'.mp hat
      obtain ⟨attempts, hlen, heq, hall⟩ := ih slf1 slf' (fun k => raws (k + 1)) h
      refine ⟨a :: attempts, by simp [hlen], ?_, ?_⟩
      · rw [heq, ← hs]; rfl
      · intro k hk
        cases k with
        | zero => exact ⟨a, by simp, ha⟩
        | succ j =>
          obtain ⟨b, hb1, hb2⟩ := hall j (by simpa using hk)
          exact ⟨b, by simpa using hb1, hb2⟩

theorem attempt_width_four :
    SkyLineFitter.attempt
        ⟨[some (FtGlyph.mk 65 (List.replicate 32 1) 4 8 0 0 0 0 0),
          some (FtGlyph.mk 66 [9] 1 1 0 0 0 0 0)], [], 0, 0, false⟩ 4 8
        (fun _ => ⟨0, 0, 0, 0, 0, false⟩) = some ⟨1, 1, 4, 8⟩ := by
  have hfit : (SkyLine.new 4 8).fitAll
      ⟨[some (FtGlyph.mk 65 (List.replicate 32 1) 4 8 0 0 0 0 0),
        some (FtGlyph.mk 66 [9] 1 1 0 0 0 0 0)], [], 0, 0, false⟩ none 0 true
      (fun _ => ⟨0, 0, 0, 0, 0, false⟩) =
      some ⟨⟨none, [8, 8, 8, 8], 4, 8, 0⟩,
        [some (FtGlyph.mk 65 (List.replicate 32 1) 4 8 0 0 0 0 0),
          some (FtGlyph.mk 66 [9] 1 1 0 0 0 0 0)], none, 1, [⟨0, 0, 4, 8, 0, true⟩]⟩ := by
    rfl
  have h1 : (SkyLine.mk none [8, 8, 8, 8] 4 8 0).getUsedHeight = 8 := by decide
  have h2 : (SkyLine.mk none [8, 8, 8, 8] 4 8 0).getUsageWasted = 0 := by decide
  simp only [SkyLineFitter.attempt, hfit, Option.map_some', SkyLine.getUsage, h1, h2]
  norm_num

theorem attempt_width_eight :
    SkyLineFitter.attempt
        ⟨[some (FtGlyph.mk 65 (List.replicate 32 1) 4 8 0 0 0 0 0),
          some (FtGlyph.mk 66 [9] 1 1 0 0 0 0 0)], [], 0, 0, false⟩ 8 8
        (fun _ => ⟨0, 0, 0, 0, 0, false⟩) = some ⟨2, 33 / 64, 8, 8⟩ := by
  have hfit : (SkyLine.new 8 8).fitAll
      ⟨[some (FtGlyph.mk 65 (List.replicate 32 1) 4 8 0 0 0 0 0),
        some (FtGlyph.mk 66 [9] 1 1 0 0 0 0 0)], [], 0, 0, false⟩ none 0 true
      (fun _ => ⟨0, 0, 0, 0, 0, false⟩) =
      some ⟨⟨none, [8, 8, 8, 8, 1, 0, 0, 0], 8, 8, 0⟩,
        [some (FtGlyph.mk 65 (List.replicate 32 1) 4 8 0 0 0 0 0),
          some (FtGlyph.mk 66 [9] 1 1 0 0 0 0 0)], none, 2,
        [⟨0, 0, 4, 8, 0, true⟩, ⟨4, 0, 1, 1, 0, true⟩]⟩ := by
    rfl
  have h1 : (SkyLine.mk none [8, 8, 8, 8, 1, 0, 0, 0] 8 8 0).getUsedHeight = 8 := by decide
  have h2 : (SkyLine.mk none [8, 8, 8, 8, 1, 0, 0, 0] 8 8 0).getUsageWasted = 31 := by decide
  simp only [SkyLineFitter.attempt, hfit, Option.map_some', SkyLine.getUsage, h1, h2]
  norm_num

/-- C11, the counterexample: for the storage of a `4 × 8` and a `1 × 1` glyph and maximum size
8 the candidate widths are 8 and 4.  Width 4 places 1 glyph at utilization 1, width 8 places
2 glyphs at utilization 33/64.  When the attempt of width 4 is stored first, the attempt of
width 8 is rejected and the best tuple keeps the count 1, which is not the maximum count. -/
theorem best_count_below_maximum :
    (SkyLineFitter.new 8).queue.2 = [(8, 8), (4, 8)] ∧
    (SkyLineFitter.new 8).queue.1.runTasks
        ⟨[some (FtGlyph.mk 65 (List.replicate 32 1) 4 8 0 0 0 0 0),
          some (FtGlyph.mk 66 [9] 1 1 0 0 0 0 0)], [], 0, 0, false⟩
        (fun _ _ => ⟨0, 0, 0, 0, 0, false⟩) [(4, 8), (8, 8)] = some ⟨8, 1, 1, 4, 8⟩ ∧
    (SkyLineFitter.attempt
        ⟨[some (FtGlyph.mk 65 (List.replicate 32 1) 4 8 0 0 0 0 0),
          some (FtGlyph.mk 66 [9] 1 1 0 0 0 0 0)], [], 0, 0, false⟩ 8 8
        (fun _ => ⟨0, 0, 0, 0, 0, false⟩)).map (fun a => a.pcount) = some 2 ∧
    ¬ (2 ≤ (SkyLineFitter.mk 8 1 1 4 8).m_best_count) := by
  refine ⟨by decide, ?_, ?_, by decide⟩
  · simp only [SkyLineFitter.runTasks, SkyLineFitter.attempt_thread, attempt_width_four,
      attempt_width_eight, Option.map_some', SkyLineFitter.storeAttempt, SkyLineFitter.queue,
      SkyLineFitter.new, SkyLine.SIZE_STEP]
    norm_num
  · rw [attempt_width_eight]
    rfl

/-! ### C12: a pass that places no glyph -/

theorem mem_intRange (lo hi k : Int) : k ∈ intRange lo hi ↔ lo ≤ k ∧ k ≤ hi := by
  unfold intRange
  rw [List.mem_map]
  constructor
  · rintro ⟨n, hn, rfl⟩
    rw [List.mem_range] at hn
    omega
  · rintro ⟨h1, h2⟩
    exact ⟨(k - lo).toNat, List.mem_range.mpr (by omega), by omega⟩

theorem fdist_nonneg_int (ii jj px py : Int) :
    ∃ n : Nat, fdist ii jj px py = (n : ℚ) ∧ (n = 0 ↔ ii = px ∧ jj = py) ∧
      n = (px - ii).natAbs + (py - jj).natAbs := by
  refine ⟨(px - ii).natAbs + (py - jj).natAbs, rfl, ?_, rfl⟩
  omega

/-- What a run of the search body over a list of points computes: the result never exceeds
the start value, is at most the distance of every point of the wanted polarity, and is the
start value or the distance of such a point. -/
theorem searchStep_fold (bitmap : FT_Bitmap) (px py : Int) (inside : Bool)
    (pts : List (Int × Int)) :
    ∀ init : ℚ,
      pts.foldl (fun c p => searchStep bitmap px py inside c p.1 p.2) init ≤ init ∧
      (∀ p ∈ pts, get_ftbitmap_value bitmap p.1 p.2 = !inside →
        pts.foldl (fun c p => searchStep bitmap px py inside c p.1 p.2) init ≤
          fdist p.1 p.2 px py) ∧
      (pts.foldl (fun c p => searchStep bitmap px py inside c p.1 p.2) init = init ∨
        ∃ p ∈ pts, get_ftbitmap_value bitmap p.1 p.2 = !inside ∧
          pts.foldl (fun c p => searchStep bitmap px py inside c p.1 p.2) init =
            fdist p.1 p.2 px py) := by
  induction pts with
  | nil =>
    intro init
    exact ⟨le_refl _, fun p hp => absurd hp (List.not_mem_nil p), Or.inl rfl⟩
  | cons q rest ih =>
    intro init
    simp only [List.foldl_cons]
    obtain ⟨h1, h2, h3⟩ := ih (searchStep bitmap px py inside init q.1 q.2)
    have hstep : searchStep bitmap px py inside init q.1 q.2 ≤ init ∧
        (get_ftbitmap_value bitmap q.1 q.2 = !inside →
          searchStep bitmap px py inside init q.1 q.2 ≤ fdist q.1 q.2 px py) ∧
        (searchStep bitmap px py inside init q.1 q.2 = init ∨
          (get_ftbitmap_value bitmap q.1 q.2 = !inside ∧
            searchStep bitmap px py inside init q.1 q.2 = fdist q.1 q.2 px py)) := by
      unfold searchStep
      simp only []
      by_cases hd : fdist q.1 q.2 px py < init
      · by_cases ht : get_ftbitmap_value bitmap q.1 q.2 = !inside
        · rw [if_pos hd, if_pos ht]
          exact ⟨le_of_lt hd, fun _ => le_refl _, Or.inr ⟨ht, rfl⟩⟩
        · rw [if_pos hd, if_neg ht]
          exact ⟨le_refl _, fun h => absurd h ht, Or.inl rfl⟩
      · rw [if_neg hd]
        exact ⟨le_refl _, fun _ => not_lt.mp hd, Or.inl rfl⟩
    refine ⟨le_trans h1 hstep.1, ?_, ?_⟩
    · intro p hp ht
      rcases List.mem_cons.mp hp with rfl | hp
      · exact le_trans h1 (hstep.2.1 ht)
      · exact h2 p hp ht
    · rcases h3 with h3 | ⟨p, hp, ht, heq⟩
      · rcases hstep.2.2 with h4 | ⟨ht, h4⟩
        · left; rw [h3, h4]
        · right; exact ⟨q, List.mem_cons_self _ _, ht, by rw [h3, h4]⟩
      · right; exact ⟨p, List.mem_cons_of_mem _ hp, ht, heq⟩

theorem searchClosest_eq_fold (bitmap : FT_Bitmap) (px py search : Int) (inside : Bool) :
    searchClosest bitmap px py search inside =
      ((intRange (px - search) (px + search)).flatMap (fun ii =>
        (intRange (py - search) (py + search)).map (fun jj => (ii, jj)))).foldl
        (fun c p => searchStep bitmap px py inside c p.1 p.2) FLT_MAX := by
  unfold searchClosest
  generalize FLT_MAX = init
  induction intRange (px - search) (px + search) generalizing init with
  | nil => rfl
  | cons ii rest ih =>
    simp only [List.foldl_cons, List.flatMap_cons, List.foldl_append, List.foldl_map]
    exact ih _

theorem mem_search_box (px py search : Int) (p : Int × Int) :
    p ∈ (intRange (px - search) (px + search)).flatMap (fun ii =>
        (intRange (py - search) (py + search)).map (fun jj => (ii, jj))) ↔
      (px - search ≤ p.1 ∧ p.1 ≤ px + search) ∧ (py - search ≤ p.2 ∧ p.2 ≤ py + search) := by
  simp only [List.mem_flatMap, List.mem_map, mem_intRange]
  constructor
  · rintro ⟨ii, hii, jj, hjj, rfl⟩
    exact ⟨hii, hjj⟩
  · rintro ⟨h1, h2⟩
    exact ⟨p.1, h1, p.2, h2, rfl⟩

/-- No point of the wanted polarity in the search box: the search ends with `FLT_MAX`. -/
theorem searchClosest_none (bitmap : FT_Bitmap) (px py search : Int) (inside : Bool)
    (hnone : ∀ ii jj, px - search ≤ ii → ii ≤ px + search → py - search ≤ jj →
      jj ≤ py + search → get_ftbitmap_value bitmap ii jj = inside) :
    searchClosest bitmap px py search inside = FLT_MAX := by
  rw [searchClosest_eq_fold]
  rcases (searchStep_fold bitmap px py inside _ FLT_MAX).2.2 with h | ⟨p, hp, ht, _⟩
  · exact h
  · rw [mem_search_box] at hp
    have := hnone p.1 p.2 hp.1.1 hp.1.2 hp.2.1 hp.2.2
    rw [this] at ht
    cases inside <;> simp at ht

/-- A point of the wanted polarity next to the sample, which itself has the other polarity:
the search ends with the distance 1. -/
theorem searchClosest_adjacent (bitmap : FT_Bitmap) (px py search : Int) (inside : Bool)
    (hsearch : 1 ≤ search) (hself : get_ftbitmap_value bitmap px py = inside)
    (nx ny : Int) (hadj : (px - nx).natAbs + (py - ny).natAbs = 1)
    (hn : get_ftbitmap_value bitmap nx ny = !inside) :
    searchClosest bitmap px py search inside = 1 := by
  rw [searchClosest_eq_fold]
  obtain ⟨_, h2, h3⟩ := searchStep_fold bitmap px py inside
    ((intRange (px - search) (px + search)).flatMap (fun ii =>
      (intRange (py - search) (py + search)).map (fun jj => (ii, jj)))) FLT_MAX
  have hmem : (nx, ny) ∈ (intRange (px - search) (px + search)).flatMap (fun ii =>
      (intRange (py - search) (py + search)).map (fun jj => (ii, jj))) := by
    rw [mem_search_box]
    simp only
    omega
  have hle := h2 (nx, ny) hmem hn
  have hd1 : fdist nx ny px py = 1 := by
    unfold fdist
    simp only [hadj]
    norm_num
  rw [hd1] at hle
  apply le_antisymm hle
  rcases h3 with h | ⟨p, _, ht, heq⟩
  · rw [h]; unfold FLT_MAX; norm_num
  · rw [heq]
    obtain ⟨n, hn1, hn2, _⟩ := fdist_nonneg_int p.1 p.2 px py
    rw [hn1]
    have hne : n ≠ 0 := by
      intro h0
      obtain ⟨e1, e2⟩ := hn2.mp h0
      rw [e1, e2, hself] at ht
      cases inside <;> simp at ht
    have : 1 ≤ n := Nat.one_le_iff_ne_zero.mpr hne
    exact_mod_cast this

/-! ### C16: the byte next to the boundary -/

theorem lround_eq_of_mem (x : ℚ) (n : Int) (h0 : 0 ≤ x) (h1 : (n : ℚ) - 1 / 2 ≤ x)
    (h2 : x < (n : ℚ) + 1 / 2) : lround x = n := by
  unfold lround
  rw [if_pos h0, Int.floor_eq_iff]
  constructor <;> linarith

/-- The value of `get_ftbitmap_dfield_value` at a sample that has a direct neighbour of the
other polarity, for a search radius of at least 1. -/
theorem dfield_adjacent_value (bitmap : FT_Bitmap) (px py nx ny search : Int) (dist_scale : ℚ)
    (hsearch : 1 ≤ search) (hadj : (px - nx).natAbs + (py - ny).natAbs = 1)
    (hopp : get_ftbitmap_value bitmap nx ny = !get_ftbitmap_value bitmap px py) :
    get_ftbitmap_dfield_value bitmap px py search dist_scale =
      (lround ((if get_ftbitmap_value bitmap px py then
          min (1 / 2 + (1 + 1 / 2) * dist_scale) 1
        else max (1 / 2 - (1 + 1 / 2) * dist_scale) 0) * 255) % 256).toNat := by
  unfold get_ftbitmap_dfield_value
  cases hv : get_ftbitmap_value bitmap px py with
  | true =>
    rw [hv] at hopp
    simp only [if_true, searchClosest_adjacent bitmap px py search true hsearch hv nx ny hadj hopp]
  | false =>
    rw [hv] at hopp
    simp only [Bool.false_eq_true, if_false,
      searchClosest_adjacent bitmap px py search false hsearch hv nx ny hadj hopp]

theorem crunchSearch_pos (m_size : Nat) (m_dropdown : ℚ) (h : 0 < (m_size : ℚ) * m_dropdown) :
    1 ≤ crunchSearch m_size m_dropdown := by
  unfold crunchSearch ceil
  exact Int.one_le_ceil_iff.mpr h

/-- C16, the counterexample: for precalc size 1 and dropdown 1/2 (search radius 1, scale 1),
in the `4 × 2` bitmap whose left half is inside and whose right half is outside, the inside
sample `(1, 0)` next to the boundary gets the byte 255 and the outside sample `(2, 0)` next to
it gets the byte 0, neither of which is 127 or 128. -/
theorem boundary_byte_saturated_for_small_precalc :
    get_ftbitmap_value ⟨2, 4, [255, 255, 0, 0, 255, 255, 0, 0]⟩ 1 0 = true ∧
    get_ftbitmap_value ⟨2, 4, [255, 255, 0, 0, 255, 255, 0, 0]⟩ 2 0 = false ∧
    get_ftbitmap_dfield_value ⟨2, 4, [255, 255, 0, 0, 255, 255, 0, 0]⟩ 1 0
      (crunchSearch 1 (1 / 2)) (crunchDistScale 1 (1 / 2)) = 255 ∧
    get_ftbitmap_dfield_value ⟨2, 4, [255, 255, 0, 0, 255, 255, 0, 0]⟩ 2 0
      (crunchSearch 1 (1 / 2)) (crunchDistScale 1 (1 / 2)) = 0 := by
  have hs : crunchSearch 1 (1 / 2) = 1 := by
    unfold crunchSearch ceil
    rw [Int.ceil_eq_iff]
    norm_num
  have hsc : crunchDistScale 1 (1 / 2) = 1 := by
    unfold crunchDistScale
    norm_num
  have hin : get_ftbitmap_value ⟨2, 4, [255, 255, 0, 0, 255, 255, 0, 0]⟩ 1 0 = true := by decide
  have hout : get_ftbitmap_value ⟨2, 4, [255, 255, 0, 0, 255, 255, 0, 0]⟩ 2 0 = false := by
    decide
  refine ⟨hin, hout, ?_, ?_⟩
  · rw [hs, hsc, dfield_adjacent_value _ 1 0 2 0 1 1 (le_refl _) (by decide)
      (by rw [hin, hout]; rfl), hin]
    have : lround ((min (1 / 2 + (1 + 1 / 2) * 1) 1 : ℚ) * 255) = 255 := by
      apply lround_eq_of_mem <;> norm_num
    simp only [if_true, this]
    decide
  · rw [hs, hsc, dfield_adjacent_value _ 2 0 1 0 1 1 (le_refl _) (by decide)
      (by rw [hin, hout]; rfl), hout]
    have : lround ((max (1 / 2 - (1 + 1 / 2) * 1) 0 : ℚ) * 255) = 0 := by
      apply lround_eq_of_mem <;> norm_num
    simp only [Bool.false_eq_true, if_false, this]
    decide

/-- C16, amended. For every precalc size and dropdown in `(0, 1)` whose product exceeds 191.25
(in exact arithmetic), every bitmap and every sample point that has a direct neighbour of the
other polarity (a point next to the inside/outside boundary), the distance-field byte of the
sample is 128 when the sample is inside and 127 when it is outside. -/
theorem boundary_byte_is_127_or_128 (bitmap : FT_Bitmap) (px py nx ny : Int) (m_size : Nat)
    (m_dropdown : ℚ) (hd0 : 0 < m_dropdown) (hd1 : m_dropdown < 1)
    (hbig : 765 < 4 * (m_size : ℚ) * m_dropdown)
    (hadj : (px - nx).natAbs + (py - ny).natAbs = 1)
    (hopp : get_ftbitmap_value bitmap nx ny = !get_ftbitmap_value bitmap px py) :
    get_ftbitmap_dfield_value bitmap px py (crunchSearch m_size m_dropdown)
        (crunchDistScale m_size m_dropdown) =
      if get_ftbitmap_value bitmap px py then 128 else 127 := by
  have hpos : 0 < (m_size : ℚ) * m_dropdown := by linarith
  rw [dfield_adjacent_value bitmap px py nx ny _ _ (crunchSearch_pos m_size m_dropdown hpos)
    hadj hopp]
  have hq : (1 + 1 / 2) * crunchDistScale m_size m_dropdown =
      3 / (4 * ((m_size : ℚ) * m_dropdown)) := by
    unfold crunchDistScale
    field_simp
    ring
  have hq0 : 0 < 3 / (4 * ((m_size : ℚ) * m_dropdown)) := by positivity
  have hq1 : 3 / (4 * ((m_size : ℚ) * m_dropdown)) * 255 < 1 := by
    rw [div_mul_eq_mul_div, div_lt_one (by positivity)]
    linarith
  rw [hq]
  generalize 3 / (4 * ((m_size : ℚ) * m_dropdown)) = q at hq0 hq1
  cases get_ftbitmap_value bitmap px py with
  | true =>
    simp only [if_true]
    have hmin : min (1 / 2 + q) 1 = 1 / 2 + q := min_eq_left (by linarith)
    rw [hmin, lround_eq_of_mem ((1 / 2 + q) * 255) 128 (by nlinarith) (by push_cast; linarith)
      (by push_cast; linarith)]
    decide
  | false =>
    simp only [Bool.false_eq_true, if_false]
    have hmax : max (1 / 2 - q) 0 = 1 / 2 - q := max_eq_left (by linarith)
    rw [hmax, lround_eq_of_mem ((1 / 2 - q) * 255) 127 (by nlinarith) (by push_cast; linarith)
      (by push_cast; linarith)]
    decide

theorem boundary_byte_is_127_or_128_witness :
    (765 < 4 * ((2048 : Nat) : ℚ) * (1 / 10)) ∧
    get_ftbitmap_dfield_value ⟨2, 4, [255, 255, 0, 0, 255, 255, 0, 0]⟩ 1 0
        (crunchSearch 2048 (1 / 10)) (crunchDistScale 2048 (1 / 10)) =
      (if get_ftbitmap_value ⟨2, 4, [255, 255, 0, 0, 255, 255, 0, 0]⟩ 1 0 then 128 else 127) ∧
    get_ftbitmap_dfield_value ⟨2, 4, [255, 255, 0, 0, 255, 255, 0, 0]⟩ 2 0
        (crunchSearch 2048 (1 / 10)) (crunchDistScale 2048 (1 / 10)) =
      (if get_ftbitmap_value ⟨2, 4, [255, 255, 0, 0, 255, 255, 0, 0]⟩ 2 0 then 128 else 127) :=
  ⟨by norm_num,
    boundary_byte_is_127_or_128 ⟨2, 4, [255, 255, 0, 0, 255, 255, 0, 0]⟩ 1 0 2 0 2048 (1 / 10)
      (by norm_num) (by norm_num) (by norm_num) (by decide) (by decide),
    boundary_byte_is_127_or_128 ⟨2, 4, [255, 255, 0, 0, 255, 255, 0, 0]⟩ 2 0 1 0 2048 (1 / 10)
      (by norm_num) (by norm_num) (by norm_num) (by decide) (by decide)⟩

/-! ### C17: the centre byte of a bitmap without boundary -/

theorem saturation_factor (m_size : Nat) (m_dropdown : ℚ) (hP : 0 < m_size)
    (hP32 : m_size < 4294967296) (hd0 : 0 < m_dropdown) (hd1 : m_dropdown < 1) :
    1 / 2 ≤ (FLT_MAX + 1 / 2) * crunchDistScale m_size m_dropdown := by
  have hpos : 0 < (m_size : ℚ) * m_dropdown := by
    have : (0 : ℚ) < m_size := by exact_mod_cast hP
    positivity
  have hle : (m_size : ℚ) * m_dropdown ≤ FLT_MAX + 1 / 2 := by
    have h1 : (m_size : ℚ) < 4294967296 := by exact_mod_cast hP32
    have h2 : (m_size : ℚ) * m_dropdown ≤ (m_size : ℚ) * 1 :=
      mul_le_mul_of_nonneg_left (le_of_lt hd1) (by positivity)
    unfold FLT_MAX
    linarith
  unfold crunchDistScale
  rw [← mul_div_assoc, le_div_iff₀ hpos]
  linarith

/-- The bytes of `get_ftbitmap_dfield_value` when the search box holds no point of the other
polarity: 255 for an inside sample, 0 for an outside sample. -/
theorem dfield_without_boundary (bitmap : FT_Bitmap) (px py : Int) (m_size : Nat)
    (m_dropdown : ℚ) (hP : 0 < m_size) (hP32 : m_size < 4294967296) (hd0 : 0 < m_dropdown)
    (hd1 : m_dropdown < 1)
    (hsame : ∀ ii jj, px - crunchSearch m_size m_dropdown ≤ ii →
      ii ≤ px + crunchSearch m_size m_dropdown → py - crunchSearch m_size m_dropdown ≤ jj →
      jj ≤ py + crunchSearch m_size m_dropdown →
      get_ftbitmap_value bitmap ii jj = get_ftbitmap_value bitmap px py) :
    get_ftbitmap_dfield_value bitmap px py (crunchSearch m_size m_dropdown)
        (crunchDistScale m_size m_dropdown) =
      if get_ftbitmap_value bitmap px py then 255 else 0 := by
  have hsat := saturation_factor m_size m_dropdown hP hP32 hd0 hd1
  unfold get_ftbitmap_dfield_value
  cases hv : get_ftbitmap_value bitmap px py with
  | true =>
    rw [hv] at hsame
    simp only [if_true, searchClosest_none bitmap px py _ true hsame]
    have hmin : min (1 / 2 + (FLT_MAX + 1 / 2) * crunchDistScale m_size m_dropdown) 1 = 1 :=
      min_eq_right (by linarith)
    rw [hmin, lround_eq_of_mem ((1 : ℚ) * 255) 255 (by norm_num) (by norm_num)
      (by norm_num)]
    decide
  | false =>
    rw [hv] at hsame
    simp only [Bool.false_eq_true, if_false, searchClosest_none bitmap px py _ false hsame]
    have hmax : max (1 / 2 - (FLT_MAX + 1 / 2) * crunchDistScale m_size m_dropdown) 0 = 0 :=
      max_eq_right (by linarith)
    rw [hmax, lround_eq_of_mem ((0 : ℚ) * 255) 0 (by norm_num) (by norm_num)
      (by norm_num)]
    decide

theorem get_ftbitmap_value_of_inside (bitmap : FT_Bitmap) (ii jj : Int)
    (hfull : ∀ x y, x < bitmap.width → y < bitmap.rows →
      127 < bitmap.buffer.getD (y * bitmap.width + x) 0)
    (h1 : 0 ≤ ii) (h2 : ii < bitmap.width) (h3 : 0 ≤ jj) (h4 : jj < bitmap.rows) :
    get_ftbitmap_value bitmap ii jj = true := by
  unfold get_ftbitmap_value
  rw [if_neg (by omega)]
  simp only []
  rw [if_neg (by omega)]
  exact decide_eq_true (hfull ii.toNat jj.toNat (by omega) (by omega))

theorem get_ftbitmap_value_of_no_inside (bitmap : FT_Bitmap) (ii jj : Int)
    (hnone : ∀ x y, x < bitmap.width → y < bitmap.rows →
      bitmap.buffer.getD (y * bitmap.width + x) 0 ≤ 127) :
    get_ftbitmap_value bitmap ii jj = false := by
  unfold get_ftbitmap_value
  split
  · rfl
  · simp only []
    split
    · rfl
    · rename_i hb
      exact decide_eq_false (not_lt.mpr (hnone ii.toNat jj.toNat (by omega) (by omega)))

/-! ### C18, C19: contraction of the sampled tile -/

theorem takeWhile_range'_spec (p : Nat → Bool) (n : Nat) : ∀ (s : Nat),
    ((List.range' s n).takeWhile p).length ≤ n ∧
    (∀ i, i < ((List.range' s n).takeWhile p).length → p (s + i) = true) ∧
    (((List.range' s n).takeWhile p).length < n →
      p (s + ((List.range' s n).takeWhile p).length) = false) := by
  induction n with
  | zero => intro s; simp
  | succ n ih =>
    intro s
    rw [List.range'_succ, List.takeWhile_cons]
    cases hp : p s with
    | false => simp [hp]
    | true =>
      obtain ⟨h1, h2, h3⟩ := ih (s + 1)
      simp only [if_true, List.length_cons]
      refine ⟨by omega, ?_, ?_⟩
      · intro i hi
        cases i with
        | zero => exact hp
        | succ j =>
          have := h2 j (by omega)
          rw [show s + (j + 1) = s + 1 + j by omega]
          exact this
      · intro hlt
        have := h3 (by omega)
        rw [show s + (((List.range' (s + 1) n).takeWhile p).length + 1) =
          s + 1 + ((List.range' (s + 1) n).takeWhile p).length by omega]
        exact this

theorem countEmpty_le (p : Nat → Bool) (n : Nat) : countEmpty p n ≤ n := by
  unfold countEmpty
  rw [List.range_eq_range']
  exact (takeWhile_range'_spec p n 0).1

theorem countEmpty_before (p : Nat → Bool) (n i : Nat) (h : i < countEmpty p n) :
    p i = true := by
  unfold countEmpty at h
  rw [List.range_eq_range'] at h
  have := (takeWhile_range'_spec p n 0).2.1 i h
  rwa [Nat.zero_add] at this

theorem countEmpty_at (p : Nat → Bool) (n : Nat) (h : countEmpty p n < n) :
    p (countEmpty p n) = false := by
  unfold countEmpty at h ⊢
  rw [List.range_eq_range'] at h ⊢
  have := (takeWhile_range'_spec p n 0).2.2 h
  rwa [Nat.zero_add] at this

theorem countEmpty_eq (p : Nat → Bool) (n c : Nat) (hc : c < n) (hne : p c = false)
    (hall : ∀ i, i < c → p i = true) : countEmpty p n = c := by
  rcases Nat.lt_trichotomy (countEmpty p n) c with h | h | h
  · have h1 := countEmpty_at p n (by omega)
    rw [hall _ h] at h1
    cases h1
  · exact h
  · have h1 := countEmpty_before p n c h
    rw [hne] at h1
    cases h1

theorem isEmptyColumn_iff (g : FtGlyph) (op : Nat) :
    g.isEmptyColumn op = true ↔ ∀ y, y < g.m_bitmap_h → g.cell op y = 0 := by
  unfold FtGlyph.isEmptyColumn FtGlyph.cell
  rw [List.all_eq_true]
  constructor
  · intro h y hy
    have := h y (List.mem_range.mpr hy)
    simp only [Bool.not_eq_true', decide_eq_false_iff_not] at this
    omega
  · intro h y hy
    have := h y (List.mem_range.mp hy)
    simp only [Bool.not_eq_true', decide_eq_false_iff_not]
    omega

theorem isEmptyRow_iff (g : FtGlyph) (op : Nat) :
    g.isEmptyRow op = true ↔ ∀ x, x < g.m_bitmap_w → g.cell x op = 0 := by
  unfold FtGlyph.isEmptyRow FtGlyph.cell
  rw [List.all_eq_true]
  constructor
  · intro h x hx
    have := h x (List.mem_range.mpr hx)
    simp only [Bool.not_eq_true', decide_eq_false_iff_not] at this
    omega
  · intro h x hx
    have := h x (List.mem_range.mp hx)
    simp only [Bool.not_eq_true', decide_eq_false_iff_not]
    omega

theorem flatMap_rows_length (f : Nat → Nat → Nat) (pw : Nat) : ∀ (ph : Nat),
    ((List.range ph).flatMap (fun jj => (List.range pw).map (f jj))).length = ph * pw := by
  intro ph
  induction ph with
  | zero => simp
  | succ n ih =>
    rw [List.range_succ, List.flatMap_append, List.length_append, ih]
    simp [Nat.succ_mul]

theorem flatMap_rows_getD (f : Nat → Nat → Nat) (pw : Nat) : ∀ (ph jj ii : Nat),
    jj < ph → ii < pw →
    ((List.range ph).flatMap (fun jj => (List.range pw).map (f jj))).getD (jj * pw + ii) 0 =
      f jj ii := by
  intro ph
  induction ph with
  | zero => intro jj ii h; omega
  | succ n ih =>
    intro jj ii hj hi
    rw [List.range_succ, List.flatMap_append]
    by_cases hjn : jj < n
    · have hlt : jj * pw + ii < n * pw := by
        have : (jj + 1) * pw ≤ n * pw := Nat.mul_le_mul_right pw hjn
        rw [Nat.succ_mul] at this
        omega
      rw [List.getD_append _ _ _ _ (by rw [flatMap_rows_length]; exact hlt)]
      exact ih jj ii hjn hi
    · have hjeq : jj = n := by omega
      subst hjeq
      rw [List.getD_append_right _ _ _ _ (by rw [flatMap_rows_length]; omega),
        flatMap_rows_length]
      simp only [List.flatMap_cons, List.flatMap_nil, List.append_nil]
      rw [show jj * pw + ii - jj * pw = ii by omega, List.getD_eq_getElem?_getD,
        List.getElem?_map, List.getElem?_range hi]
      rfl

theorem subCrunched_spec (g : FtGlyph) (px py pw ph : Nat) :
    (g.subCrunched px py pw ph).m_bitmap_w = pw ∧
    (g.subCrunched px py pw ph).m_bitmap_h = ph ∧
    (g.subCrunched px py pw ph).m_crunched.length = pw * ph ∧
    ∀ x y, x < pw → y < ph →
      (g.subCrunched px py pw ph).cell x y = g.cell (x + px) (y + py) := by
  refine ⟨rfl, rfl, ?_, ?_⟩
  · unfold FtGlyph.subCrunched
    simp only []
    rw [flatMap_rows_length, Nat.mul_comm]
  · intro x y hx hy
    unfold FtGlyph.cell FtGlyph.subCrunched
    simp only []
    rw [flatMap_rows_getD (fun jj ii => g.m_crunched.getD ((jj + py) * g.m_bitmap_w + ii + px) 0)
      pw ph y x hy hx]
    rw [show (y + py) * g.m_bitmap_w + x + px = (y + py) * g.m_bitmap_w + (x + px) by omega]

theorem isEmptyColumn_false_iff (g : FtGlyph) (op : Nat) :
    g.isEmptyColumn op = false ↔ ∃ y, y < g.m_bitmap_h ∧ g.cell op y ≠ 0 := by
  rw [← Bool.not_eq_true, isEmptyColumn_iff]
  push_neg
  rfl

theorem isEmptyRow_false_iff (g : FtGlyph) (op : Nat) :
    g.isEmptyRow op = false ↔ ∃ x, x < g.m_bitmap_w ∧ g.cell x op ≠ 0 := by
  rw [← Bool.not_eq_true, isEmptyRow_iff]
  push_neg
  rfl

theorem contractLeft_of_count (g : FtGlyph) (k : Nat)
    (hk : countEmpty (fun ii => g.isEmptyColumn ii) g.m_bitmap_w = k)
    (hlt : k < g.m_bitmap_w) :
    g.contractLeft.1.m_bitmap_w = g.m_bitmap_w - (k - 1) ∧
    g.contractLeft.1.m_bitmap_h = g.m_bitmap_h ∧
    g.contractLeft.2 = k - 1 ∧
    ∀ x y, x < g.m_bitmap_w - (k - 1) → y < g.m_bitmap_h →
      g.contractLeft.1.cell x y = g.cell (x + (k - 1)) y := by
  unfold FtGlyph.contractLeft
  simp only [hk]
  rw [if_neg (by omega)]
  by_cases h1 : 1 < k
  · rw [if_pos h1]
    obtain ⟨a, b, _, d⟩ :=
      subCrunched_spec g (k - 1) 0 (g.m_bitmap_w - k + 1) g.m_bitmap_h
    refine ⟨by rw [a]; omega, b, rfl, ?_⟩
    intro x y hx hy
    exact d x y (by omega) hy
  · rw [if_neg h1]
    have hk0 : k - 1 = 0 := by omega
    refine ⟨by simp only []; omega, rfl, by simp only []; omega, ?_⟩
    intro x y _ _
    rw [hk0]
    rfl

theorem contractUp_of_count (g : FtGlyph) (k : Nat)
    (hk : countEmpty (fun ii => g.isEmptyRow ii) g.m_bitmap_h = k)
    (hlt : k < g.m_bitmap_h) :
    g.contractUp.1.m_bitmap_w = g.m_bitmap_w ∧
    g.contractUp.1.m_bitmap_h = g.m_bitmap_h - (k - 1) ∧
    g.contractUp.2 = k - 1 ∧
    ∀ x y, x < g.m_bitmap_w → y < g.m_bitmap_h - (k - 1) →
      g.contractUp.1.cell x y = g.cell x (y + (k - 1)) := by
  unfold FtGlyph.contractUp
  simp only [hk]
  rw [if_neg (by omega)]
  by_cases h1 : 1 < k
  · rw [if_pos h1]
    obtain ⟨a, b, _, d⟩ :=
      subCrunched_spec g 0 (k - 1) g.m_bitmap_w (g.m_bitmap_h - k + 1)
    refine ⟨a, by rw [b]; omega, rfl, ?_⟩
    intro x y hx hy
    exact d x y hx (by omega)
  · rw [if_neg h1]
    have hk0 : k - 1 = 0 := by omega
    refine ⟨rfl, by simp only []; omega, by simp only []; omega, ?_⟩
    intro x y _ _
    rw [hk0]
    rfl

theorem contractRight_of_count (g : FtGlyph) (k : Nat)
    (hk : countEmpty (fun ii => g.isEmptyColumn (g.m_bitmap_w - ii - 1)) g.m_bitmap_w = k)
    (hlt : k < g.m_bitmap_w) :
    g.contractRight.1.m_bitmap_w = g.m_bitmap_w - (k - 1) ∧
    g.contractRight.1.m_bitmap_h = g.m_bitmap_h ∧
    ∀ x y, x < g.m_bitmap_w - (k - 1) → y < g.m_bitmap_h →
      g.contractRight.1.cell x y = g.cell x y := by
  unfold FtGlyph.contractRight
  simp only [hk]
  rw [if_neg (by omega)]
  by_cases h1 : 1 < k
  · rw [if_pos h1]
    obtain ⟨a, b, _, d⟩ :=
      subCrunched_spec g 0 0 (g.m_bitmap_w - k + 1) g.m_bitmap_h
    refine ⟨by rw [a]; omega, b, ?_⟩
    intro x y hx hy
    exact d x y (by omega) hy
  · rw [if_neg h1]
    refine ⟨by simp only []; omega, rfl, ?_⟩
    intro x y _ _
    rfl

theorem contractDown_of_count (g : FtGlyph) (k : Nat)
    (hk : countEmpty (fun ii => g.isEmptyRow (g.m_bitmap_h - ii - 1)) g.m_bitmap_h = k)
    (hlt : k < g.m_bitmap_h) :
    g.contractDown.1.m_bitmap_w = g.m_bitmap_w ∧
    g.contractDown.1.m_bitmap_h = g.m_bitmap_h - (k - 1) ∧
    ∀ x y, x < g.m_bitmap_w → y < g.m_bitmap_h - (k - 1) →
      g.contractDown.1.cell x y = g.cell x y := by
  unfold FtGlyph.contractDown
  simp only [hk]
  rw [if_neg (by omega)]
  by_cases h1 : 1 < k
  · rw [if_pos h1]
    obtain ⟨a, b, _, d⟩ :=
      subCrunched_spec g 0 0 g.m_bitmap_w (g.m_bitmap_h - k + 1)
    refine ⟨a, by rw [b]; omega, ?_⟩
    intro x y hx hy
    exact d x y hx (by omega)
  · rw [if_neg h1]
    refine ⟨rfl, by simp only []; omega, ?_⟩
    intro x y _ _
    rfl

theorem contractLeft_of_first (g : FtGlyph) (c : Nat) (hc : c < g.m_bitmap_w)
    (hne : g.isEmptyColumn c = false) (hall : ∀ x, x < c → g.isEmptyColumn x = true) :
    g.contractLeft.1.m_bitmap_w = g.m_bitmap_w - (c - 1) ∧
    g.contractLeft.1.m_bitmap_h = g.m_bitmap_h ∧
    g.contractLeft.2 = c - 1 ∧
    ∀ x y, x < g.m_bitmap_w - (c - 1) → y < g.m_bitmap_h →
      g.contractLeft.1.cell x y = g.cell (x + (c - 1)) y :=
  contractLeft_of_count g c
    (countEmpty_eq (fun ii => g.isEmptyColumn ii) g.m_bitmap_w c hc hne hall) hc

theorem contractUp_of_first (g : FtGlyph) (c : Nat) (hc : c < g.m_bitmap_h)
    (hne : g.isEmptyRow c = false) (hall : ∀ y, y < c → g.isEmptyRow y = true) :
    g.contractUp.1.m_bitmap_w = g.m_bitmap_w ∧
    g.contractUp.1.m_bitmap_h = g.m_bitmap_h - (c - 1) ∧
    g.contractUp.2 = c - 1 ∧
    ∀ x y, x < g.m_bitmap_w → y < g.m_bitmap_h - (c - 1) →
      g.contractUp.1.cell x y = g.cell x (y + (c - 1)) :=
  contractUp_of_count g c
    (countEmpty_eq (fun ii => g.isEmptyRow ii) g.m_bitmap_h c hc hne hall) hc

theorem contractRight_of_last (g : FtGlyph) (c : Nat) (hc : c < g.m_bitmap_w)
    (hne : g.isEmptyColumn c = false)
    (hall : ∀ x, c < x → x < g.m_bitmap_w → g.isEmptyColumn x = true) :
    g.contractRight.1.m_bitmap_w = min g.m_bitmap_w (c + 2) ∧
    g.contractRight.1.m_bitmap_h = g.m_bitmap_h ∧
    ∀ x y, x < min g.m_bitmap_w (c + 2) → y < g.m_bitmap_h →
      g.contractRight.1.cell x y = g.cell x y := by
  have hk : countEmpty (fun ii => g.isEmptyColumn (g.m_bitmap_w - ii - 1)) g.m_bitmap_w =
      g.m_bitmap_w - 1 - c := by
    apply countEmpty_eq _ _ _ (by omega)
    · show g.isEmptyColumn (g.m_bitmap_w - (g.m_bitmap_w - 1 - c) - 1) = false
      rw [show g.m_bitmap_w - (g.m_bitmap_w - 1 - c) - 1 = c by omega]
      exact hne
    · intro i hi
      exact hall (g.m_bitmap_w - i - 1) (by omega) (by omega)
  obtain ⟨a, b, d⟩ := contractRight_of_count g (g.m_bitmap_w - 1 - c) hk (by omega)
  refine ⟨by rw [a]; omega, b, ?_⟩
  intro x y hx hy
  exact d x y (by omega) hy

theorem contractDown_of_last (g : FtGlyph) (c : Nat) (hc : c < g.m_bitmap_h)
    (hne : g.isEmptyRow c = false)
    (hall : ∀ y, c < y → y < g.m_bitmap_h → g.isEmptyRow y = true) :
    g.contractDown.1.m_bitmap_w = g.m_bitmap_w ∧
    g.contractDown.1.m_bitmap_h = min g.m_bitmap_h (c + 2) ∧
    ∀ x y, x < g.m_bitmap_w → y < min g.m_bitmap_h (c + 2) →
      g.contractDown.1.cell x y = g.cell x y := by
  have hk : countEmpty (fun ii => g.isEmptyRow (g.m_bitmap_h - ii - 1)) g.m_bitmap_h =
      g.m_bitmap_h - 1 - c := by
    apply countEmpty_eq _ _ _ (by omega)
    · show g.isEmptyRow (g.m_bitmap_h - (g.m_bitmap_h - 1 - c) - 1) = false
      rw [show g.m_bitmap_h - (g.m_bitmap_h - 1 - c) - 1 = c by omega]
      exact hne
    · intro i hi
      exact hall (g.m_bitmap_h - i - 1) (by omega) (by omega)
  obtain ⟨a, b, d⟩ := contractDown_of_count g (g.m_bitmap_h - 1 - c) hk (by omega)
  refine ⟨a, by rw [b]; omega, ?_⟩
  intro x y hx hy
  exact d x y hx (by omega)

/-- C18. Let the non-empty columns of a sampled tile run from `c0` to `c1` and its non-empty
rows from `r0` to `r1`, with at least one all-zero column left of `c0` and right of `c1` and
at least one all-zero row above `r0` and below `r1`. After `contractLeft`, `contractUp`,
`contractRight` and `contractDown` the tile is `c1 - c0 + 3` wide and `r1 - r0 + 3` high, its
cell `(x, y)` is the original cell `(x + c0 - 1, y + r0 - 1)`, its first and last column and
row are all-zero and the ones next to them are not; `contractLeft` returns `c0 - 1` and
`contractUp` returns `r0 - 1`. -/
theorem contraction_keeps_content_and_one_guard (g : FtGlyph) (c0 c1 r0 r1 : Nat)
    (hc0 : 1 ≤ c0) (hc1 : c1 + 1 < g.m_bitmap_w)
    (hr0 : 1 ≤ r0) (hr1 : r1 + 1 < g.m_bitmap_h)
    (hfc : g.isEmptyColumn c0 = false) (hbc : ∀ x, x < c0 → g.isEmptyColumn x = true)
    (hlc : g.isEmptyColumn c1 = false)
    (hac : ∀ x, c1 < x → x < g.m_bitmap_w → g.isEmptyColumn x = true)
    (hfr : g.isEmptyRow r0 = false) (hbr : ∀ y, y < r0 → g.isEmptyRow y = true)
    (hlr : g.isEmptyRow r1 = false)
    (har : ∀ y, r1 < y → y < g.m_bitmap_h → g.isEmptyRow y = true) :
    g.crunchContract.m_bitmap_w = c1 - c0 + 3 ∧
    g.crunchContract.m_bitmap_h = r1 - r0 + 3 ∧
    g.contractLeft.2 = c0 - 1 ∧
    g.contractLeft.1.contractUp.2 = r0 - 1 ∧
    (∀ x y, x < c1 - c0 + 3 → y < r1 - r0 + 3 →
      g.crunchContract.cell x y = g.cell (x + (c0 - 1)) (y + (r0 - 1))) ∧
    g.crunchContract.isEmptyColumn 0 = true ∧
    g.crunchContract.isEmptyColumn 1 = false ∧
    g.crunchContract.isEmptyColumn (c1 - c0 + 1) = false ∧
    g.crunchContract.isEmptyColumn (c1 - c0 + 2) = true ∧
    g.crunchContract.isEmptyRow 0 = true ∧
    g.crunchContract.isEmptyRow 1 = false ∧
    g.crunchContract.isEmptyRow (r1 - r0 + 1) = false ∧
    g.crunchContract.isEmptyRow (r1 - r0 + 2) = true := by
  have hc01 : c0 ≤ c1 := by
    by_contra hcon
    rw [hbc c1 (by omega)] at hlc
    cases hlc
  have hr01 : r0 ≤ r1 := by
    by_contra hcon
    rw [hbr r1 (by omega)] at hlr
    cases hlr
  -- cell-level facts about the original tile
  have Zc : ∀ x y, x < g.m_bitmap_w → y < g.m_bitmap_h → (x < c0 ∨ c1 < x) →
      g.cell x y = 0 := by
    intro x y hx hy h
    rcases h with h | h
    · exact (isEmptyColumn_iff g x).mp (hbc x h) y hy
    · exact (isEmptyColumn_iff g x).mp (hac x h hx) y hy
  have Zr : ∀ x y, x < g.m_bitmap_w → y < g.m_bitmap_h → (y < r0 ∨ r1 < y) →
      g.cell x y = 0 := by
    intro x y hx hy h
    rcases h with h | h
    · exact (isEmptyRow_iff g y).mp (hbr y h) x hx
    · exact (isEmptyRow_iff g y).mp (har y h hy) x hx
  have hcol : ∀ x y, x < g.m_bitmap_w → y < g.m_bitmap_h → g.cell x y ≠ 0 →
      c0 ≤ x ∧ x ≤ c1 ∧ r0 ≤ y ∧ y ≤ r1 := by
    intro x y hx hy hne
    refine ⟨?_, ?_, ?_, ?_⟩ <;> by_contra hcon
    · exact hne (Zc x y hx hy (Or.inl (by omega)))
    · exact hne (Zc x y hx hy (Or.inr (by omega)))
    · exact hne (Zr x y hx hy (Or.inl (by omega)))
    · exact hne (Zr x y hx hy (Or.inr (by omega)))
  obtain ⟨yc0, hyc0, nc0⟩ := (isEmptyColumn_false_iff g c0).mp hfc
  obtain ⟨yc1, hyc1, nc1⟩ := (isEmptyColumn_false_iff g c1).mp hlc
  obtain ⟨xr0, hxr0, nr0⟩ := (isEmptyRow_false_iff g r0).mp hfr
  obtain ⟨xr1, hxr1, nr1⟩ := (isEmptyRow_false_iff g r1).mp hlr
  have bc0 := hcol c0 yc0 (by omega) hyc0 nc0
  have bc1 := hcol c1 yc1 (by omega) hyc1 nc1
  have br0 := hcol xr0 r0 hxr0 (by omega) nr0
  have br1 := hcol xr1 r1 hxr1 (by omega) nr1
  -- contractLeft
  obtain ⟨w1, h1, ret1, cell1⟩ := contractLeft_of_first g c0 (by omega) hfc hbc
  -- contractUp
  obtain ⟨w2, h2, ret2, cell2⟩ := contractUp_of_first g.contractLeft.1 r0 (by omega)
    ((isEmptyRow_false_iff _ _).mpr ⟨xr0 - (c0 - 1), by omega, by
      rw [cell1 _ _ (by omega) (by omega), show xr0 - (c0 - 1) + (c0 - 1) = xr0 by omega]
      exact nr0⟩)
    (fun y hy => (isEmptyRow_iff _ _).mpr (fun x hx => by
      rw [cell1 _ _ (by omega) (by omega)]
      exact Zr _ _ (by omega) (by omega) (Or.inl hy)))
  -- contractRight
  have cell12 : ∀ x y, x < g.m_bitmap_w - (c0 - 1) → y < g.m_bitmap_h - (r0 - 1) →
      g.contractLeft.1.contractUp.1.cell x y = g.cell (x + (c0 - 1)) (y + (r0 - 1)) := by
    intro x y hx hy
    rw [cell2 _ _ (by omega) (by omega), cell1 _ _ (by omega) (by omega)]
  obtain ⟨w3, h3, cell3⟩ := contractRight_of_last g.contractLeft.1.contractUp.1
    (c1 - (c0 - 1)) (by omega)
    ((isEmptyColumn_false_iff _ _).mpr ⟨yc1 - (r0 - 1), by omega, by
      rw [cell12 _ _ (by omega) (by omega),
        show c1 - (c0 - 1) + (c0 - 1) = c1 by omega,
        show yc1 - (r0 - 1) + (r0 - 1) = yc1 by omega]
      exact nc1⟩)
    (fun x hx hxw => (isEmptyColumn_iff _ _).mpr (fun y hy => by
      rw [cell12 _ _ (by omega) (by omega)]
      exact Zc _ _ (by omega) (by omega) (Or.inr (by omega))))
  have cell123 : ∀ x y, x < c1 - c0 + 3 → y < g.m_bitmap_h - (r0 - 1) →
      g.contractLeft.1.contractUp.1.contractRight.1.cell x y =
        g.cell (x + (c0 - 1)) (y + (r0 - 1)) := by
    intro x y hx hy
    rw [cell3 _ _ (by omega) (by omega), cell12 _ _ (by omega) (by omega)]
  -- contractDown
  obtain ⟨w4, h4, cell4⟩ := contractDown_of_last g.contractLeft.1.contractUp.1.contractRight.1
    (r1 - (r0 - 1)) (by omega)
    ((isEmptyRow_false_iff _ _).mpr ⟨xr1 - (c0 - 1), by omega, by
      rw [cell123 _ _ (by omega) (by omega),
        show xr1 - (c0 - 1) + (c0 - 1) = xr1 by omega,
        show r1 - (r0 - 1) + (r0 - 1) = r1 by omega]
      exact nr1⟩)
    (fun y hy hyh => (isEmptyRow_iff _ _).mpr (fun x hx => by
      rw [cell123 _ _ (by omega) (by omega)]
      exact Zr _ _ (by omega) (by omega) (Or.inr (by omega))))
  have hW : g.crunchContract.m_bitmap_w = c1 - c0 + 3 := by
    unfold FtGlyph.crunchContract
    omega
  have hH : g.crunchContract.m_bitmap_h = r1 - r0 + 3 := by
    unfold FtGlyph.crunchContract
    omega
  have hcell : ∀ x y, x < c1 - c0 + 3 → y < r1 - r0 + 3 →
      g.crunchContract.cell x y = g.cell (x + (c0 - 1)) (y + (r0 - 1)) := by
    intro x y hx hy
    unfold FtGlyph.crunchContract
    rw [cell4 _ _ (by omega) (by omega), cell123 _ _ (by omega) (by omega)]
  refine ⟨hW, hH, ret1, ret2, hcell, ?_, ?_, ?_, ?_, ?_, ?_, ?_, ?_⟩
  · rw [isEmptyColumn_iff]
    intro y hy
    rw [hcell 0 y (by omega) (by omega)]
    exact Zc _ _ (by omega) (by omega) (Or.inl (by omega))
  · rw [isEmptyColumn_false_iff]
    refine ⟨yc0 - (r0 - 1), by omega, ?_⟩
    rw [hcell 1 _ (by omega) (by omega), show 1 + (c0 - 1) = c0 by omega,
      show yc0 - (r0 - 1) + (r0 - 1) = yc0 by omega]
    exact nc0
  · rw [isEmptyColumn_false_iff]
    refine ⟨yc1 - (r0 - 1), by omega, ?_⟩
    rw [hcell _ _ (by omega) (by omega), show c1 - c0 + 1 + (c0 - 1) = c1 by omega,
      show yc1 - (r0 - 1) + (r0 - 1) = yc1 by omega]
    exact nc1
  · rw [isEmptyColumn_iff]
    intro y hy
    rw [hcell _ y (by omega) (by omega)]
    exact Zc _ _ (by omega) (by omega) (Or.inr (by omega))
  · rw [isEmptyRow_iff]
    intro x hx
    rw [hcell x 0 (by omega) (by omega)]
    exact Zr _ _ (by omega) (by omega) (Or.inl (by omega))
  · rw [isEmptyRow_false_iff]
    refine ⟨xr0 - (c0 - 1), by omega, ?_⟩
    rw [hcell _ 1 (by omega) (by omega), show 1 + (r0 - 1) = r0 by omega,
      show xr0 - (c0 - 1) + (c0 - 1) = xr0 by omega]
    exact nr0
  · rw [isEmptyRow_false_iff]
    refine ⟨xr1 - (c0 - 1), by omega, ?_⟩
    rw [hcell _ _ (by omega) (by omega), show r1 - r0 + 1 + (r0 - 1) = r1 by omega,
      show xr1 - (c0 - 1) + (c0 - 1) = xr1 by omega]
    exact nr1
  · rw [isEmptyRow_iff]
    intro x hx
    rw [hcell x _ (by omega) (by omega)]
    exact Zr _ _ (by omega) (by omega) (Or.inr (by omega))

theorem contraction_keeps_content_and_one_guard_witness :
    (FtGlyph.mk 65 [0, 0, 0, 0, 0, 0, 0, 0, 0, 0, 0, 0, 0, 0, 7, 9, 0, 0, 0, 0, 0, 0, 0, 0,
        0, 0, 0, 0, 0, 0] 6 5 0 0 0 0 0).crunchContract.m_crunched =
      [0, 0, 0, 0, 0, 7, 9, 0, 0, 0, 0, 0] ∧
    (FtGlyph.mk 65 [0, 0, 0, 0, 0, 0, 0, 0, 0, 0, 0, 0, 0, 0, 7, 9, 0, 0, 0, 0, 0, 0, 0, 0,
        0, 0, 0, 0, 0, 0] 6 5 0 0 0 0 0).crunchContract.m_bitmap_w = 3 - 2 + 3 ∧
    (FtGlyph.mk 65 [0, 0, 0, 0, 0, 0, 0, 0, 0, 0, 0, 0, 0, 0, 7, 9, 0, 0, 0, 0, 0, 0, 0, 0,
        0, 0, 0, 0, 0, 0] 6 5 0 0 0 0 0).crunchContract.m_bitmap_h = 2 - 2 + 3 := by
  have h := contraction_keeps_content_and_one_guard
    (FtGlyph.mk 65 [0, 0, 0, 0, 0, 0, 0, 0, 0, 0, 0, 0, 0, 0, 7, 9, 0, 0, 0, 0, 0, 0, 0, 0,
        0, 0, 0, 0, 0, 0] 6 5 0 0 0 0 0) 2 3 2 2 (by decide) (by decide) (by decide)
    (by decide) (by decide) (by intro x hx; interval_cases x <;> rfl) (by decide)
    (by intro x h1 h2; simp only [] at h2; interval_cases x <;> rfl) (by decide)
    (by intro y hy; interval_cases y <;> rfl) (by decide)
    (by intro y h1 h2; simp only [] at h2; interval_cases y <;> rfl)
  exact ⟨by decide, h.1, h.2.1⟩

/-! ### C19: size bound and collapse of the contracted tile -/

theorem contractLeft_step (g : FtGlyph) :
    g.contractLeft.1.m_bitmap_w ≤ g.m_bitmap_w ∧
    g.contractLeft.1.m_bitmap_h ≤ g.m_bitmap_h ∧
    ((∀ x y, x < g.m_bitmap_w → y < g.m_bitmap_h → g.cell x y = 0) →
      g.contractLeft.1.m_bitmap_w = 0 ∧ g.contractLeft.1.m_bitmap_h = 0) ∧
    ((∃ x y, x < g.m_bitmap_w ∧ y < g.m_bitmap_h ∧ g.cell x y ≠ 0) →
      ∃ x y, x < g.contractLeft.1.m_bitmap_w ∧ y < g.contractLeft.1.m_bitmap_h ∧
        g.contractLeft.1.cell x y ≠ 0) := by
  by_cases hlt : countEmpty (fun ii => g.isEmptyColumn ii) g.m_bitmap_w < g.m_bitmap_w
  · obtain ⟨a, b, _, d⟩ := contractLeft_of_count g _ rfl hlt
    have hat := countEmpty_at _ _ hlt
    refine ⟨by omega, by omega, ?_, ?_⟩
    · intro hz
      have : g.isEmptyColumn (countEmpty (fun ii => g.isEmptyColumn ii) g.m_bitmap_w) = true :=
        (isEmptyColumn_iff g _).mpr (fun y hy => hz _ y hlt hy)
      rw [this] at hat
      cases hat
    · rintro ⟨x, y, hx, hy, hne⟩
      have hxk : countEmpty (fun ii => g.isEmptyColumn ii) g.m_bitmap_w ≤ x := by
        by_contra hcon
        have := countEmpty_before (fun ii => g.isEmptyColumn ii) g.m_bitmap_w x (by omega)
        exact hne ((isEmptyColumn_iff g x).mp this y hy)
      refine ⟨x - (countEmpty (fun ii => g.isEmptyColumn ii) g.m_bitmap_w - 1), y,
        by omega, by omega, ?_⟩
      rw [d _ _ (by omega) hy, show x - (countEmpty (fun ii => g.isEmptyColumn ii)
        g.m_bitmap_w - 1) + (countEmpty (fun ii => g.isEmptyColumn ii) g.m_bitmap_w - 1) = x
        by omega]
      exact hne
  · have hcol : g.contractLeft.1 = g.collapse := by
      unfold FtGlyph.contractLeft
      simp only []
      rw [if_pos (by omega)]
    rw [hcol]
    refine ⟨Nat.zero_le _, Nat.zero_le _, fun _ => ⟨rfl, rfl⟩, ?_⟩
    rintro ⟨x, y, hx, hy, hne⟩
    exfalso
    have := countEmpty_before (fun ii => g.isEmptyColumn ii) g.m_bitmap_w x (by omega)
    exact hne ((isEmptyColumn_iff g x).mp this y hy)

theorem contractUp_step (g : FtGlyph) :
    g.contractUp.1.m_bitmap_w ≤ g.m_bitmap_w ∧
    g.contractUp.1.m_bitmap_h ≤ g.m_bitmap_h ∧
    ((∀ x y, x < g.m_bitmap_w → y < g.m_bitmap_h → g.cell x y = 0) →
      g.contractUp.1.m_bitmap_w = 0 ∧ g.contractUp.1.m_bitmap_h = 0) ∧
    ((∃ x y, x < g.m_bitmap_w ∧ y < g.m_bitmap_h ∧ g.cell x y ≠ 0) →
      ∃ x y, x < g.contractUp.1.m_bitmap_w ∧ y < g.contractUp.1.m_bitmap_h ∧
        g.contractUp.1.cell x y ≠ 0) := by
  by_cases hlt : countEmpty (fun ii => g.isEmptyRow ii) g.m_bitmap_h < g.m_bitmap_h
  · obtain ⟨a, b, _, d⟩ := contractUp_of_count g _ rfl hlt
    have hat := countEmpty_at _ _ hlt
    refine ⟨by omega, by omega, ?_, ?_⟩
    · intro hz
      have : g.isEmptyRow (countEmpty (fun ii => g.isEmptyRow ii) g.m_bitmap_h) = true :=
        (isEmptyRow_iff g _).mpr (fun x hx => hz x _ hx hlt)
      rw [this] at hat
      cases hat
    · rintro ⟨x, y, hx, hy, hne⟩
      have hyk : countEmpty (fun ii => g.isEmptyRow ii) g.m_bitmap_h ≤ y := by
        by_contra hcon
        have := countEmpty_before (fun ii => g.isEmptyRow ii) g.m_bitmap_h y (by omega)
        exact hne ((isEmptyRow_iff g y).mp this x hx)
      refine ⟨x, y - (countEmpty (fun ii => g.isEmptyRow ii) g.m_bitmap_h - 1),
        by omega, by omega, ?_⟩
      rw [d _ _ hx (by omega), show y - (countEmpty (fun ii => g.isEmptyRow ii)
        g.m_bitmap_h - 1) + (countEmpty (fun ii => g.isEmptyRow ii) g.m_bitmap_h - 1) = y
        by omega]
      exact hne
  · have hcol : g.contractUp.1 = g.collapse := by
      unfold FtGlyph.contractUp
      simp only []
      rw [if_pos (by omega)]
    rw [hcol]
    refine ⟨Nat.zero_le _, Nat.zero_le _, fun _ => ⟨rfl, rfl⟩, ?_⟩
    rintro ⟨x, y, hx, hy, hne⟩
    exfalso
    have := countEmpty_before (fun ii => g.isEmptyRow ii) g.m_bitmap_h y (by omega)
    exact hne ((isEmptyRow_iff g y).mp this x hx)

theorem contractRight_step (g : FtGlyph) :
    g.contractRight.1.m_bitmap_w ≤ g.m_bitmap_w ∧
    g.contractRight.1.m_bitmap_h ≤ g.m_bitmap_h ∧
    ((∀ x y, x < g.m_bitmap_w → y < g.m_bitmap_h → g.cell x y = 0) →
      g.contractRight.1.m_bitmap_w = 0 ∧ g.contractRight.1.m_bitmap_h = 0) ∧
    ((∃ x y, x < g.m_bitmap_w ∧ y < g.m_bitmap_h ∧ g.cell x y ≠ 0) →
      ∃ x y, x < g.contractRight.1.m_bitmap_w ∧ y < g.contractRight.1.m_bitmap_h ∧
        g.contractRight.1.cell x y ≠ 0) := by
  have hbefore : ∀ x y, x < g.m_bitmap_w → y < g.m_bitmap_h → g.cell x y ≠ 0 →
      x + countEmpty (fun ii => g.isEmptyColumn (g.m_bitmap_w - ii - 1)) g.m_bitmap_w <
        g.m_bitmap_w := by
    intro x y hx hy hne
    by_contra hcon
    have := countEmpty_before (fun ii => g.isEmptyColumn (g.m_bitmap_w - ii - 1))
      g.m_bitmap_w (g.m_bitmap_w - 1 - x) (by omega)
    simp only [] at this
    rw [show g.m_bitmap_w - (g.m_bitmap_w - 1 - x) - 1 = x by omega] at this
    exact hne ((isEmptyColumn_iff g x).mp this y hy)
  by_cases hlt : countEmpty (fun ii => g.isEmptyColumn (g.m_bitmap_w - ii - 1)) g.m_bitmap_w <
      g.m_bitmap_w
  · obtain ⟨a, b, d⟩ := contractRight_of_count g _ rfl hlt
    have hat := countEmpty_at _ _ hlt
    simp only [] at hat
    refine ⟨by omega, by omega, ?_, ?_⟩
    · intro hz
      rw [(isEmptyColumn_iff g _).mpr (fun y hy => hz _ y (by omega) hy)] at hat
      cases hat
    · rintro ⟨x, y, hx, hy, hne⟩
      have := hbefore x y hx hy hne
      refine ⟨x, y, by omega, by omega, ?_⟩
      rw [d _ _ (by omega) hy]
      exact hne
  · have hcol : g.contractRight.1 = g.collapse := by
      unfold FtGlyph.contractRight
      simp only []
      rw [if_pos (by omega)]
    rw [hcol]
    refine ⟨Nat.zero_le _, Nat.zero_le _, fun _ => ⟨rfl, rfl⟩, ?_⟩
    rintro ⟨x, y, hx, hy, hne⟩
    exfalso
    have := hbefore x y hx hy hne
    omega

theorem contractDown_step (g : FtGlyph) :
    g.contractDown.1.m_bitmap_w ≤ g.m_bitmap_w ∧
    g.contractDown.1.m_bitmap_h ≤ g.m_bitmap_h ∧
    ((∀ x y, x < g.m_bitmap_w → y < g.m_bitmap_h → g.cell x y = 0) →
      g.contractDown.1.m_bitmap_w = 0 ∧ g.contractDown.1.m_bitmap_h = 0) ∧
    ((∃ x y, x < g.m_bitmap_w ∧ y < g.m_bitmap_h ∧ g.cell x y ≠ 0) →
      ∃ x y, x < g.contractDown.1.m_bitmap_w ∧ y < g.contractDown.1.m_bitmap_h ∧
        g.contractDown.1.cell x y ≠ 0) := by
  have hbefore : ∀ x y, x < g.m_bitmap_w → y < g.m_bitmap_h → g.cell x y ≠ 0 →
      y + countEmpty (fun ii => g.isEmptyRow (g.m_bitmap_h - ii - 1)) g.m_bitmap_h <
        g.m_bitmap_h := by
    intro x y hx hy hne
    by_contra hcon
    have := countEmpty_before (fun ii => g.isEmptyRow (g.m_bitmap_h - ii - 1))
      g.m_bitmap_h (g.m_bitmap_h - 1 - y) (by omega)
    simp only [] at this
    rw [show g.m_bitmap_h - (g.m_bitmap_h - 1 - y) - 1 = y by omega] at this
    exact hne ((isEmptyRow_iff g y).mp this x hx)
  by_cases hlt : countEmpty (fun ii => g.isEmptyRow (g.m_bitmap_h - ii - 1)) g.m_bitmap_h <
      g.m_bitmap_h
  · obtain ⟨a, b, d⟩ := contractDown_of_count g _ rfl hlt
    have hat := countEmpty_at _ _ hlt
    simp only [] at hat
    refine ⟨by omega, by omega, ?_, ?_⟩
    · intro hz
      rw [(isEmptyRow_iff g _).mpr (fun x hx => hz x _ hx (by omega))] at hat
      cases hat
    · rintro ⟨x, y, hx, hy, hne⟩
      have := hbefore x y hx hy hne
      refine ⟨x, y, by omega, by omega, ?_⟩
      rw [d _ _ hx (by omega)]
      exact hne
  · have hcol : g.contractDown.1 = g.collapse := by
      unfold FtGlyph.contractDown
      simp only []
      rw [if_pos (by omega)]
    rw [hcol]
    refine ⟨Nat.zero_le _, Nat.zero_le _, fun _ => ⟨rfl, rfl⟩, ?_⟩
    rintro ⟨x, y, hx, hy, hne⟩
    exfalso
    have := hbefore x y hx hy hne
    omega

theorem crunchContract_step (g : FtGlyph) :
    g.crunchContract.m_bitmap_w ≤ g.m_bitmap_w ∧
    g.crunchContract.m_bitmap_h ≤ g.m_bitmap_h ∧
    ((∀ x y, x < g.m_bitmap_w → y < g.m_bitmap_h → g.cell x y = 0) →
      g.crunchContract.m_bitmap_w = 0 ∧ g.crunchContract.m_bitmap_h = 0) ∧
    ((∃ x y, x < g.m_bitmap_w ∧ y < g.m_bitmap_h ∧ g.cell x y ≠ 0) →
      0 < g.crunchContract.m_bitmap_w ∧ 0 < g.crunchContract.m_bitmap_h) := by
  obtain ⟨a1, b1, z1, p1⟩ := contractLeft_step g
  obtain ⟨a2, b2, z2, p2⟩ := contractUp_step g.contractLeft.1
  obtain ⟨a3, b3, z3, p3⟩ := contractRight_step g.contractLeft.1.contractUp.1
  obtain ⟨a4, b4, z4, p4⟩ := contractDown_step g.contractLeft.1.contractUp.1.contractRight.1
  unfold FtGlyph.crunchContract
  refine ⟨by omega, by omega, ?_, ?_⟩
  · intro hz
    have e1 := z1 hz
    have e2 := z2 (fun x y hx _ => by omega)
    have e3 := z3 (fun x y hx _ => by omega)
    exact z4 (fun x y hx _ => by omega)
  · intro hp
    obtain ⟨x, y, hx, hy, _⟩ := p4 (p3 (p2 (p1 hp)))
    exact ⟨by omega, by omega⟩

/-! ### C28, C29: the placement rule of `fit` -/

theorem findSome?_range'_first {β : Type} (f : Nat → Option β) (n : Nat) :
    ∀ (s : Nat) (b : β), (List.range' s n).findSome? f = some b →
      ∃ i, s ≤ i ∧ i < s + n ∧ f i = some b ∧ ∀ j, s ≤ j → j < i → f j = none := by
  induction n with
  | zero => intro s b h; simp at h
  | succ n ih =>
    intro s b h
    rw [List.range'_succ, List.findSome?_cons] at h
    cases hf : f s with
    | some v =>
      rw [hf] at h
      exact ⟨s, le_refl _, by omega, by rw [hf]; exact h, fun j h1 h2 => by omega⟩
    | none =>
      rw [hf] at h
      obtain ⟨i, h1, h2, h3, h4⟩ := ih (s + 1) b h
      refine ⟨i, by omega, by omega, h3, fun j hj1 hj2 => ?_⟩
      by_cases hjs : j = s
      · rw [hjs]; exact hf
      · exact h4 j (by omega) hj2

theorem findSome?_range'_none {β : Type} (f : Nat → Option β) (s n : Nat) :
    (List.range' s n).findSome? f = none ↔ ∀ i, s ≤ i → i < s + n → f i = none := by
  rw [List.findSome?_eq_none_iff]
  constructor
  · intro h i h1 h2
    exact h i (List.mem_range'_1.mpr ⟨h1, h2⟩)
  · intro h i hi
    rw [List.mem_range'_1] at hi
    exact h i hi.1 hi.2

theorem restingHeight_le_iff (s : SkyLine) (x w c : Nat) :
    s.restingHeight x w ≤ c ↔ ∀ t, t < w → s.m_line.getD (x + t) 0 ≤ c := by
  unfold SkyLine.restingHeight
  induction w with
  | zero => simp
  | succ n ih =>
    rw [List.range_succ, List.foldl_append]
    simp only [List.foldl_cons, List.foldl_nil]
    rw [max_le_iff, ih]
    constructor
    · rintro ⟨h1, h2⟩ t ht
      by_cases htn : t = n
      · rw [htn]; exact h2
      · exact h1 t (by omega)
    · intro h
      exact ⟨fun t ht => h t (by omega), h n (by omega)⟩

theorem restingHeight_ge (s : SkyLine) (x w t : Nat) (ht : t < w) :
    s.m_line.getD (x + t) 0 ≤ s.restingHeight x w :=
  (restingHeight_le_iff s x w _).mp (le_refl _) t ht

theorem restingHeight_attained (s : SkyLine) (x w : Nat) (hw : 0 < w) :
    ∃ t, t < w ∧ s.m_line.getD (x + t) 0 = s.restingHeight x w := by
  by_contra hcon
  push_neg at hcon
  have hlt : ∀ t, t < w → s.m_line.getD (x + t) 0 < s.restingHeight x w := fun t ht =>
    lt_of_le_of_ne (restingHeight_ge s x w t ht) (hcon t ht)
  have h0 := hlt 0 hw
  have : s.restingHeight x w ≤ s.restingHeight x w - 1 :=
    (restingHeight_le_iff s x w _).mpr (fun t ht => by have := hlt t ht; omega)
  omega

theorem foldl_min_getD_le (l : List Nat) (n init : Nat) :
    (List.range n).foldl (fun m ii => min m (l.getD ii 0)) init ≤ init ∧
    ∀ i, i < n → (List.range n).foldl (fun m ii => min m (l.getD ii 0)) init ≤ l.getD i 0 := by
  induction n with
  | zero => simp
  | succ n ih =>
    rw [List.range_succ, List.foldl_append]
    simp only [List.foldl_cons, List.foldl_nil]
    refine ⟨le_trans (min_le_left _ _) ih.1, fun i hi => ?_⟩
    by_cases hin : i = n
    · rw [hin]; exact min_le_right _ _
    · exact le_trans (min_le_left _ _) (ih.2 i (by omega))

theorem foldl_max_getD_ge' (l : List Nat) (n init : Nat) :
    ∀ i, i < n → l.getD i 0 ≤ (List.range n).foldl (fun m ii => max m (l.getD ii 0)) init := by
  induction n with
  | zero => intro i hi; omega
  | succ n ih =>
    intro i hi
    rw [List.range_succ, List.foldl_append]
    simp only [List.foldl_cons, List.foldl_nil]
    by_cases hin : i = n
    · rw [hin]; exact le_max_right _ _
    · exact le_trans (ih i (by omega)) (le_max_left _ _)

theorem toInt_of_lt (n : Nat) (h : n < 2147483648) : toInt n = (n : Int) := by
  unfold toInt
  rw [if_pos h]

theorem fitColumn_range (s : SkyLine) (w jj k : Nat) (hW : s.m_width < 2147483648)
    (hw32 : w < 4294967296) (hjj : jj < s.m_width) :
    ((max (toInt jj - toInt w + 1) 0).toNat ≤ k ∧
      k < (max (toInt jj - toInt w + 1) 0).toNat +
        (min (toInt jj) (toInt s.m_width - toInt w) + 1 -
          max (toInt jj - toInt w + 1) 0).toNat) ↔
    (k ≤ jj ∧ jj < k + w ∧ k + w ≤ s.m_width) := by
  rw [toInt_of_lt jj (by omega), toInt_of_lt s.m_width hW]
  rcases toInt_cases w with ⟨_, hw⟩ | ⟨_, hw⟩ <;> rw [hw] <;> omega

theorem fitColumn_none_iff (s : SkyLine) (raw : SkyLineLocation) (w h cur jj : Nat)
    (hW : s.m_width < 2147483648) (hw32 : w < 4294967296) (hjj : jj < s.m_width) :
    s.fitColumn raw w h cur jj = none ↔
      ∀ k, k ≤ jj → jj < k + w → k + w ≤ s.m_width → s.fitRun k cur w = false := by
  unfold SkyLine.fitColumn
  simp only []
  rw [findSome?_range'_none]
  constructor
  · intro hn k h1 h2 h3
    have hr := (fitColumn_range s w jj k hW hw32 hjj).mpr ⟨h1, h2, h3⟩
    have := hn k hr.1 hr.2
    by_contra hcon
    rw [if_pos (by simpa using hcon)] at this
    exact absurd this (by simp)
  · intro hn k h1 h2
    have hr := (fitColumn_range s w jj k hW hw32 hjj).mp ⟨h1, h2⟩
    rw [if_neg (by rw [hn k hr.1 hr.2.1 hr.2.2]; simp)]

theorem fitColumn_first (s : SkyLine) (raw : SkyLineLocation) (w h cur jj : Nat)
    (hW : s.m_width < 2147483648) (hw32 : w < 4294967296) (hjj : jj < s.m_width)
    (ret : SkyLineLocation) (hret : s.fitColumn raw w h cur jj = some ret) :
    ∃ k, ret = (SkyLineLocation.make raw k cur w h).setWasted
        (s.getWastedSpace (SkyLineLocation.make raw k cur w h)) ∧
      k ≤ jj ∧ jj < k + w ∧ k + w ≤ s.m_width ∧ s.fitRun k cur w = true ∧
      ∀ k', k' < k → k' ≤ jj → jj < k' + w → s.fitRun k' cur w = false := by
  unfold SkyLine.fitColumn at hret
  simp only [] at hret
  obtain ⟨k, h1, h2, h3, h4⟩ := findSome?_range'_first _ _ _ _ hret
  have hr := (fitColumn_range s w jj k hW hw32 hjj).mp ⟨h1, h2⟩
  by_cases hrun : s.fitRun k cur w = true
  · rw [if_pos hrun] at h3
    refine ⟨k, (Option.some.inj h3).symm, hr.1, hr.2.1, hr.2.2, hrun, ?_⟩
    intro k' hk' hk1 hk2
    have hr' := (fitColumn_range s w jj k' hW hw32 hjj).mpr ⟨hk1, hk2, by omega⟩
    have := h4 k' hr'.1 hk'
    by_contra hcon
    rw [if_pos (by simpa using hcon)] at this
    exact absurd this (by simp)
  · rw [if_neg hrun] at h3
    exact absurd h3 (by simp)

theorem fit_columns_none_iff (s : SkyLine) (raw : SkyLineLocation) (w h ii : Nat)
    (hW : s.m_width < 2147483648) (hw32 : w < 4294967296) (hw : 0 < w) :
    (List.range s.m_width).findSome? (fun jj =>
        if s.m_line.getD jj 0 = ii then s.fitColumn raw w h ii jj else none) = none ↔
      ∀ x, x + w ≤ s.m_width → s.restingHeight x w ≠ ii := by
  rw [List.findSome?_eq_none_iff]
  constructor
  · intro hn x hx hrest
    obtain ⟨t, ht, hatt⟩ := restingHeight_attained s x w hw
    have hjj : x + t < s.m_width := by omega
    have := hn (x + t) (List.mem_range.mpr hjj)
    rw [if_pos (by rw [hatt, hrest])] at this
    have hrun := (fitColumn_none_iff s raw w h ii (x + t) hW hw32 hjj).mp this x (by omega)
      (by omega) hx
    have hfit : s.fitRun x ii w = true :=
      (fitRun_iff s x ii w).mpr ((restingHeight_le_iff s x w ii).mp (le_of_eq hrest))
    rw [hfit] at hrun
    cases hrun
  · intro hn jj hjj
    rw [List.mem_range] at hjj
    split
    · rename_i hline
      rw [fitColumn_none_iff s raw w h ii jj hW hw32 hjj]
      intro k h1 h2 h3
      by_contra hcon
      have hfit : s.fitRun k ii w = true := by simpa using hcon
      have hle := (restingHeight_le_iff s k w ii).mpr ((fitRun_iff s k ii w).mp hfit)
      have hge := restingHeight_ge s k w (jj - k) (by omega)
      rw [show k + (jj - k) = jj by omega, hline] at hge
      exact hn k h3 (le_antisymm hle hge)
    · rfl

theorem fit_columns_first (s : SkyLine) (raw : SkyLineLocation) (w h ii : Nat)
    (hW : s.m_width < 2147483648) (hw32 : w < 4294967296)
    (ret : SkyLineLocation)
    (hret : (List.range s.m_width).findSome? (fun jj =>
        if s.m_line.getD jj 0 = ii then s.fitColumn raw w h ii jj else none) = some ret) :
    ∃ k, ret = (SkyLineLocation.make raw k ii w h).setWasted
        (s.getWastedSpace (SkyLineLocation.make raw k ii w h)) ∧
      k + w ≤ s.m_width ∧ s.restingHeight k w = ii ∧
      ∀ x, x < k → x + w ≤ s.m_width → s.restingHeight x w ≠ ii := by
  rw [List.range_eq_range'] at hret
  obtain ⟨jj, _, hjj, hf, hbefore⟩ := findSome?_range'_first _ _ _ _ hret
  rw [Nat.zero_add] at hjj
  by_cases hline : s.m_line.getD jj 0 = ii
  · rw [if_pos hline] at hf
    obtain ⟨k, hk, h1, h2, h3, hrun, hfirst⟩ := fitColumn_first s raw w h ii jj hW hw32 hjj ret hf
    have hle := (restingHeight_le_iff s k w ii).mpr ((fitRun_iff s k ii w).mp hrun)
    have hge := restingHeight_ge s k w (jj - k) (by omega)
    rw [show k + (jj - k) = jj by omega, hline] at hge
    refine ⟨k, hk, h3, le_antisymm hle hge, ?_⟩
    intro x hxk hxw hrest
    have hw : 0 < w := by omega
    obtain ⟨t, ht, hatt⟩ := restingHeight_attained s x w hw
    have hxfit : s.fitRun x ii w = true :=
      (fitRun_iff s x ii w).mpr ((restingHeight_le_iff s x w ii).mp (le_of_eq hrest))
    -- the column `x + t` has height `ii` and the window at `x` fits there
    have hcol : ¬ (x + t < jj) := by
      intro hlt
      have := hbefore (x + t) (Nat.zero_le _) hlt
      rw [if_pos (by rw [hatt, hrest])] at this
      have hnone := (fitColumn_none_iff s raw w h ii (x + t) hW hw32 (by omega)).mp this x
        (by omega) (by omega) hxw
      rw [hxfit] at hnone
      cases hnone
    have := hfirst x hxk (by omega) (by omega)
    rw [hxfit] at this
    cases this
  · rw [if_neg hline] at hf
    exact absurd hf (by simp)

/-- What `fit` returns for a glyph of non-zero area when it returns a valid location: the
lowest resting height over all windows inside the contour, and the left-most window with that
resting height. -/
theorem fit_valid_spec (s : SkyLine) (op : FtGlyph) (raw : SkyLineLocation)
    (hW : s.m_width < 2147483648) (hw32 : op.m_bitmap_w < 4294967296)
    (hw : op.m_bitmap_w ≠ 0) (hh : op.m_bitmap_h ≠ 0)
    (hvalid : (s.fit op raw).m_valid = true) :
    ∃ k cur, s.fit op raw =
        (SkyLineLocation.make raw k cur op.m_bitmap_w op.m_bitmap_h).setWasted
          (s.getWastedSpace (SkyLineLocation.make raw k cur op.m_bitmap_w op.m_bitmap_h)) ∧
      k + op.m_bitmap_w ≤ s.m_width ∧
      cur ≤ usub s.m_max_height op.m_bitmap_h ∧
      s.restingHeight k op.m_bitmap_w = cur ∧
      (∀ x, x + op.m_bitmap_w ≤ s.m_width → cur ≤ s.restingHeight x op.m_bitmap_w) ∧
      ∀ x, x < k → x + op.m_bitmap_w ≤ s.m_width → s.restingHeight x op.m_bitmap_w ≠ cur := by
  unfold SkyLine.fit at hvalid ⊢
  rw [if_neg (by omega)] at hvalid ⊢
  simp only [] at hvalid ⊢
  split at hvalid
  · rename_i ret hfound
    obtain ⟨ii, hlo, hhi, hii, hbefore⟩ := findSome?_range'_first _ _ _ _ hfound
    have hcur : ii ≤ usub s.m_max_height op.m_bitmap_h := by
      have := min_le_right
        ((List.range s.m_width).foldl (fun m ii => max m (s.m_line.getD ii 0)) 0)
        (usub s.m_max_height op.m_bitmap_h)
      omega
    obtain ⟨k, hk, hbound, hrest, hleft⟩ := fit_columns_first s raw _ _ ii hW hw32 ret hii
    refine ⟨k, ii, hk, hbound, hcur, hrest, ?_, hleft⟩
    intro x hx
    by_contra hcon
    obtain ⟨t, ht, hatt⟩ := restingHeight_attained s x op.m_bitmap_w (by omega)
    have hmin := (foldl_min_getD_le s.m_line s.m_width UINT_MAX).2 (x + t) (by omega)
    rw [hatt] at hmin
    have hnone := hbefore (s.restingHeight x op.m_bitmap_w) hmin (by omega)
    exact (fit_columns_none_iff s raw _ _ _ hW hw32 (by omega)).mp hnone x hx rfl
  · simp [SkyLineLocation.empty] at hvalid

theorem fit_valid_iff (s : SkyLine) (op : FtGlyph) (raw : SkyLineLocation)
    (hW : s.m_width < 2147483648) (hw32 : op.m_bitmap_w < 4294967296)
    (hw : op.m_bitmap_w ≠ 0) (hh : op.m_bitmap_h ≠ 0) :
    (s.fit op raw).m_valid = true ↔
      ∃ x, x + op.m_bitmap_w ≤ s.m_width ∧
        s.restingHeight x op.m_bitmap_w ≤ usub s.m_max_height op.m_bitmap_h := by
  constructor
  · intro hvalid
    obtain ⟨k, cur, _, hbound, hcur, hrest, _, _⟩ :=
      fit_valid_spec s op raw hW hw32 hw hh hvalid
    exact ⟨k, hbound, by omega⟩
  · rintro ⟨x, hx, hle⟩
    obtain ⟨t, ht, hatt⟩ := restingHeight_attained s x op.m_bitmap_w (by omega)
    have hmin := (foldl_min_getD_le s.m_line s.m_width UINT_MAX).2 (x + t) (by omega)
    have hmax := foldl_max_getD_ge' s.m_line s.m_width 0 (x + t) (by omega)
    rw [hatt] at hmin hmax
    unfold SkyLine.fit
    rw [if_neg (by omega)]
    simp only []
    split
    · rename_i ret hfound
      obtain ⟨ii, _, _, hii, _⟩ := findSome?_range'_first _ _ _ _ hfound
      obtain ⟨k, hk, _⟩ := fit_columns_first s raw _ _ ii hW hw32 ret hii
      rw [hk]
      rfl
    · rename_i hfound
      exfalso
      have hnone := (findSome?_range'_none _ _ _).mp hfound (s.restingHeight x op.m_bitmap_w)
        hmin (by
          have := le_min hmax hle
          omega)
      exact (fit_columns_none_iff s raw _ _ _ hW hw32 (by omega)).mp hnone x hx rfl

theorem fitReadIndices_bound (s : SkyLine) (w : Nat) (hW : s.m_width < 2147483648)
    (hw32 : w < 4294967296) (i : Int) (hi : i ∈ s.fitReadIndices w) :
    0 ≤ i ∧ i < s.m_width := by
  unfold SkyLine.fitReadIndices at hi
  rw [List.mem_append] at hi
  rcases hi with hi | hi
  · rw [List.mem_map] at hi
    obtain ⟨ii, hii, rfl⟩ := hi
    rw [List.mem_range] at hii
    omega
  · rw [List.mem_flatMap] at hi
    obtain ⟨jj, hjj, hi⟩ := hi
    rw [List.mem_range] at hjj
    rw [List.mem_cons] at hi
    rcases hi with hi | hi
    · omega
    · simp only [] at hi
      rw [List.mem_flatMap] at hi
      obtain ⟨d, hd, hi⟩ := hi
      rw [List.mem_range] at hd
      rw [List.mem_map] at hi
      obtain ⟨fp, hfp, rfl⟩ := hi
      rw [List.mem_range] at hfp
      rw [toInt_of_lt jj (by omega), toInt_of_lt s.m_width hW] at hd
      rw [toInt_of_lt jj (by omega)]
      rcases toInt_cases w with ⟨hlt, hwi⟩ | ⟨hge, hwi⟩
      · rw [hwi] at hd ⊢
        rw [toInt_of_lt fp (by omega)]
        omega
      · rw [hwi] at hd
        omega

/-- C28. For every skyline state (with a width in the range of `int`) and every glyph with
`w ≥ 1` and `1 ≤ h ≤ H_max`, `fit` returns an invalid location if and only if there is no
column `x` with `x + w ≤ W` and `max(line[x..x+w)) + h ≤ H_max`. -/
theorem fit_invalid_iff_no_admissible_column (s : SkyLine) (op : FtGlyph)
    (raw : SkyLineLocation) (hW : s.m_width < 2147483648)
    (hw32 : op.m_bitmap_w < 4294967296) (hw : 1 ≤ op.m_bitmap_w) (hh1 : 1 ≤ op.m_bitmap_h)
    (hh : op.m_bitmap_h ≤ s.m_max_height) :
    (s.fit op raw).m_valid = false ↔
      ¬ ∃ x, x + op.m_bitmap_w ≤ s.m_width ∧
        s.restingHeight x op.m_bitmap_w + op.m_bitmap_h ≤ s.m_max_height := by
  have husub : usub s.m_max_height op.m_bitmap_h = s.m_max_height - op.m_bitmap_h := by
    unfold usub
    rw [if_pos hh]
  rw [← Bool.not_eq_true, fit_valid_iff s op raw hW hw32 (by omega) (by omega), husub]
  constructor
  · rintro hn ⟨x, hx, hle⟩
    exact hn ⟨x, hx, by omega⟩
  · rintro hn ⟨x, hx, hle⟩
    exact hn ⟨x, hx, by omega⟩

theorem fit_invalid_iff_no_admissible_column_witness :
    ((SkyLine.mk none [3, 1, 1, 0] 4 4 0).fit (FtGlyph.mk 65 [1, 1, 1, 1, 1, 1] 2 3 0 0 0 0 0)
        ⟨0, 0, 0, 0, 0, false⟩).m_valid = true ∧
    ((SkyLine.mk none [3, 3, 2, 3] 4 4 0).fit (FtGlyph.mk 65 [1, 1, 1, 1, 1, 1] 2 3 0 0 0 0 0)
        ⟨0, 0, 0, 0, 0, false⟩).m_valid = false ∧
    ¬ ∃ x, x + 2 ≤ 4 ∧ (SkyLine.mk none [3, 3, 2, 3] 4 4 0).restingHeight x 2 + 3 ≤ 4 :=
  ⟨by decide, by decide,
    (fit_invalid_iff_no_admissible_column (SkyLine.mk none [3, 3, 2, 3] 4 4 0)
      (FtGlyph.mk 65 [1, 1, 1, 1, 1, 1] 2 3 0 0 0 0 0) ⟨0, 0, 0, 0, 0, false⟩
      (by decide) (by decide) (by decide) (by decide) (by decide)).mp (by decide)⟩

/-- C29. For every skyline state (with a width in the range of `int`) and every glyph of
non-zero area, a valid location `(x, y)` returned by `fit` lies inside the contour, rests on
it (`y = max(line[x..x+w))`), `y` is the least resting height over all columns `x'` with
`x' + w ≤ W`, and `x` is the smallest such column with that resting height; when
`h ≤ H_max` the location also stays under the ceiling.  Every index at which `fit` may read
the contour is in `[0, W)`. -/
theorem fit_rests_lowest_then_leftmost (s : SkyLine) (op : FtGlyph) (raw : SkyLineLocation)
    (hW : s.m_width < 2147483648) (hw32 : op.m_bitmap_w < 4294967296)
    (hw : op.m_bitmap_w ≠ 0) (hh : op.m_bitmap_h ≠ 0)
    (hvalid : (s.fit op raw).m_valid = true) :
    (s.fit op raw).m_x + op.m_bitmap_w ≤ s.m_width ∧
    (s.fit op raw).m_y = s.restingHeight (s.fit op raw).m_x op.m_bitmap_w ∧
    (∀ x, x + op.m_bitmap_w ≤ s.m_width →
      (s.fit op raw).m_y ≤ s.restingHeight x op.m_bitmap_w) ∧
    (∀ x, x + op.m_bitmap_w ≤ s.m_width →
      s.restingHeight x op.m_bitmap_w = (s.fit op raw).m_y → (s.fit op raw).m_x ≤ x) ∧
    (op.m_bitmap_h ≤ s.m_max_height →
      (s.fit op raw).m_y + op.m_bitmap_h ≤ s.m_max_height) ∧
    ∀ i ∈ s.fitReadIndices op.m_bitmap_w, 0 ≤ i ∧ i < s.m_width := by
  obtain ⟨k, cur, hk, hbound, hcur, hrest, hlow, hleft⟩ :=
    fit_valid_spec s op raw hW hw32 hw hh hvalid
  have hx : (s.fit op raw).m_x = k := by rw [hk]; rfl
  have hy : (s.fit op raw).m_y = cur := by rw [hk]; rfl
  rw [hx, hy]
  refine ⟨hbound, hrest.symm, hlow, ?_, ?_, fitReadIndices_bound s _ hW hw32⟩
  · intro x hxw hxr
    by_contra hcon
    exact hleft x (by omega) hxw hxr
  · intro hle
    unfold usub at hcur
    rw [if_pos hle] at hcur
    omega

theorem fit_rests_lowest_then_leftmost_witness :
    (SkyLine.mk none [3, 1, 1, 0, 1, 1] 6 8 0).fit
        (FtGlyph.mk 65 [1, 1, 1, 1, 1, 1] 2 3 0 0 0 0 0) ⟨0, 0, 0, 0, 0, false⟩ =
      ⟨1, 1, 2, 3, 0, true⟩ ∧
    (∀ x, x + 2 ≤ 6 → 1 ≤ (SkyLine.mk none [3, 1, 1, 0, 1, 1] 6 8 0).restingHeight x 2) ∧
    (∀ x, x + 2 ≤ 6 → (SkyLine.mk none [3, 1, 1, 0, 1, 1] 6 8 0).restingHeight x 2 = 1 →
      1 ≤ x) := by
  have h := fit_rests_lowest_then_leftmost (SkyLine.mk none [3, 1, 1, 0, 1, 1] 6 8 0)
    (FtGlyph.mk 65 [1, 1, 1, 1, 1, 1] 2 3 0 0 0 0 0) ⟨0, 0, 0, 0, 0, false⟩
    (by decide) (by decide) (by decide) (by decide) (by decide)
  exact ⟨by decide, h.2.2.1, h.2.2.2.1⟩

/-! ### C30: the final skyline reproduces the scratch run of the fitter -/

theorem restingHeight_congr (s1 s2 : SkyLine) (h : s1.m_line = s2.m_line) (x w : Nat) :
    s1.restingHeight x w = s2.restingHeight x w := by
  unfold SkyLine.restingHeight
  rw [h]

theorem allocate_line_congr (s1 s2 : SkyLine) (l1 l2 : SkyLineLocation)
    (h : s1.m_line = s2.m_line) (hx : l1.m_x = l2.m_x) (hy : l1.m_y = l2.m_y)
    (hw : l1.m_width = l2.m_width) (hh : l1.m_height = l2.m_height) :
    (s1.allocate l1).m_line = (s2.allocate l2).m_line := by
  unfold SkyLine.allocate
  simp only []
  rw [h, hx, hy, hw, hh]

theorem allocate_line_ge (s : SkyLine) (op : FtGlyph) (raw : SkyLineLocation)
    (hW : s.m_width < 4294967296) (hw32 : op.m_bitmap_w < 4294967296)
    (hvalid : (s.fit op raw).m_valid = true) (c : Nat) :
    s.m_line.getD c 0 ≤ (s.allocate (s.fit op raw)).m_line.getD c 0 := by
  rw [allocate_line_getD]
  split
  · rename_i hc
    have := (fit_valid_on_top s op raw hW hw32 hvalid).2 c hc.1 hc.2.1
    omega
  · exact le_refl _

theorem fitAllLoop_line_mono (pidx : Nat) (glst : Bool) (gs : List FtGlyphSptr) :
    ∀ (s : SkyLine) (xmlfile : Option XmlFile) (raw : Nat → SkyLineLocation)
      (r : SkyLine.FitAllResult),
      s.m_width < 4294967296 →
      (∀ g, some g ∈ gs → g.m_bitmap_w < 4294967296) →
      SkyLine.fitAllLoop pidx glst s xmlfile raw gs = some r →
      ∀ c, s.m_line.getD c 0 ≤ r.sky.m_line.getD c 0 := by
  induction gs with
  | nil =>
    intro s xmlfile raw r _ _ hr c
    simp only [SkyLine.fitAllLoop, Option.some.injEq] at hr
    rw [← hr]
  | cons e rest ih =>
    intro s xmlfile raw r hW hw32 hr c
    cases e with
    | none => simp [SkyLine.fitAllLoop] at hr
    | some gly =>
      by_cases hvalid : (s.fit gly (raw 0)).m_valid = true
      · rw [fitAllLoop_cons_valid pidx glst s xmlfile raw gly rest hvalid] at hr
        obtain ⟨r', hr', hrr⟩ := Option.map_eq_some'.mp hr
        have hline := fitAllWrite_line pidx glst (s.allocate (s.fit gly (raw 0))) xmlfile
          (s.fit gly (raw 0)) gly
        have := ih _ _ _ r' (by rw [hline.2, (allocate_fields _ _).1]; exact hW)
          (fun g hg => hw32 g (List.mem_cons_of_mem _ hg)) hr' c
        rw [hline.1] at this
        have hge := allocate_line_ge s gly (raw 0) hW (hw32 gly (List.mem_cons_self _ _))
          hvalid c
        rw [← hrr]
        exact le_trans hge this
      · rw [fitAllLoop_cons_invalid pidx glst s xmlfile raw gly rest (by simpa using hvalid)]
          at hr
        simp only [Option.some.injEq] at hr
        rw [← hr]

theorem fit_same_under_lower_ceiling (s1 s2 : SkyLine) (op : FtGlyph)
    (raw1 raw2 : SkyLineLocation) (hline : s1.m_line = s2.m_line)
    (hwidth : s1.m_width = s2.m_width) (hW : s1.m_width < 2147483648)
    (hw32 : op.m_bitmap_w < 4294967296) (hw : op.m_bitmap_w ≠ 0) (hh : op.m_bitmap_h ≠ 0)
    (hvalid : (s1.fit op raw1).m_valid = true)
    (hfits : (s1.fit op raw1).m_y + op.m_bitmap_h ≤ s2.m_max_height) :
    (s2.fit op raw2).m_valid = true ∧
    (s2.fit op raw2).m_x = (s1.fit op raw1).m_x ∧
    (s2.fit op raw2).m_y = (s1.fit op raw1).m_y ∧
    (s2.fit op raw2).m_width = (s1.fit op raw1).m_width ∧
    (s2.fit op raw2).m_height = (s1.fit op raw1).m_height := by
  obtain ⟨k1, cur1, hk1, hb1, _, hrest1, hlow1, hleft1⟩ :=
    fit_valid_spec s1 op raw1 hW hw32 hw hh hvalid
  have hy1 : (s1.fit op raw1).m_y = cur1 := by rw [hk1]; rfl
  rw [hy1] at hfits
  have hv2 : (s2.fit op raw2).m_valid = true := by
    rw [fit_valid_iff s2 op raw2 (by omega) hw32 hw hh]
    refine ⟨k1, by omega, ?_⟩
    rw [← restingHeight_congr s1 s2 hline, hrest1]
    unfold usub
    rw [if_pos (by omega)]
    omega
  obtain ⟨k2, cur2, hk2, hb2, _, hrest2, hlow2, hleft2⟩ :=
    fit_valid_spec s2 op raw2 (by omega) hw32 hw hh hv2
  have hcur : cur2 = cur1 := by
    have a := hlow1 k2 (by omega)
    have b := hlow2 k1 (by omega)
    rw [restingHeight_congr s1 s2 hline, hrest2] at a
    rw [← restingHeight_congr s1 s2 hline, hrest1] at b
    omega
  have hk : k2 = k1 := by
    rcases Nat.lt_trichotomy k2 k1 with h | h | h
    · exfalso
      apply hleft1 k2 h (by omega)
      rw [restingHeight_congr s1 s2 hline, hrest2, hcur]
    · exact h
    · exfalso
      apply hleft2 k1 h (by omega)
      rw [← restingHeight_congr s1 s2 hline, hrest1, hcur]
  refine ⟨hv2, ?_, ?_, ?_, ?_⟩ <;> rw [hk1, hk2, hk, hcur] <;> rfl

theorem fit_invalid_under_lower_ceiling (s1 s2 : SkyLine) (op : FtGlyph)
    (raw1 raw2 : SkyLineLocation) (hline : s1.m_line = s2.m_line)
    (hwidth : s1.m_width = s2.m_width) (hW : s1.m_width < 2147483648)
    (hw32 : op.m_bitmap_w < 4294967296) (hw : op.m_bitmap_w ≠ 0) (hh : op.m_bitmap_h ≠ 0)
    (hM : op.m_bitmap_h ≤ s1.m_max_height) (hH : s2.m_max_height ≤ s1.m_max_height)
    (hcase : (∀ c, c < s1.m_width → s1.m_line.getD c 0 = 0) ∨
      op.m_bitmap_h ≤ s2.m_max_height)
    (hinvalid : (s1.fit op raw1).m_valid = false) :
    (s2.fit op raw2).m_valid = false := by
  by_contra hcon
  have hv2 : (s2.fit op raw2).m_valid = true := by simpa using hcon
  obtain ⟨x, hx, hle⟩ := (fit_valid_iff s2 op raw2 (by omega) hw32 hw hh).mp hv2
  have hv1 : (s1.fit op raw1).m_valid = true := by
    rw [fit_valid_iff s1 op raw1 hW hw32 hw hh]
    refine ⟨x, by omega, ?_⟩
    have hu1 : usub s1.m_max_height op.m_bitmap_h = s1.m_max_height - op.m_bitmap_h := by
      unfold usub
      rw [if_pos hM]
    rw [hu1]
    rcases hcase with hzero | hle2
    · have : s1.restingHeight x op.m_bitmap_w ≤ 0 :=
        (restingHeight_le_iff s1 x _ 0).mpr (fun t ht => by
          rw [hzero (x + t) (by omega)])
      omega
    · have hu2 : usub s2.m_max_height op.m_bitmap_h = s2.m_max_height - op.m_bitmap_h := by
        unfold usub
        rw [if_pos hle2]
      rw [hu2, ← restingHeight_congr s1 s2 hline] at hle
      omega
  rw [hv1] at hinvalid
  cases hinvalid

theorem fitAllWrite_max_height (pidx : Nat) (glst : Bool) (s : SkyLine)
    (xmlfile : Option XmlFile) (loc : SkyLineLocation) (gly : FtGlyph) :
    (SkyLine.fitAllWrite pidx glst s xmlfile loc gly).1.m_max_height = s.m_max_height := by
  unfold SkyLine.fitAllWrite
  cases xmlfile with
  | none => rfl
  | some f => exact (insert_fst_line s loc gly).2.2.1

theorem fitAllLoop_two_ceilings (gs : List FtGlyphSptr) :
    ∀ (s1 s2 : SkyLine) (pidx1 pidx2 : Nat) (glst1 glst2 : Bool)
      (xml1 xml2 : Option XmlFile) (raw1 raw2 : Nat → SkyLineLocation)
      (r1 : SkyLine.FitAllResult),
      s1.m_line = s2.m_line → s1.m_width = s2.m_width → s1.m_line.length = s1.m_width →
      s1.m_width < 2147483648 →
      (∀ g, some g ∈ gs → g.m_bitmap_w < 4294967296 ∧ g.m_bitmap_h ≤ s1.m_max_height) →
      gs.Pairwise (fun a b => ∀ ga gb, a = some ga → b = some gb →
        gb.m_bitmap_h ≤ ga.m_bitmap_h) →
      s2.m_max_height ≤ s1.m_max_height →
      ((∀ c, c < s1.m_width → s1.m_line.getD c 0 = 0) ∨
        ∀ g, some g ∈ gs → g.m_bitmap_h ≤ s2.m_max_height) →
      SkyLine.fitAllLoop pidx1 glst1 s1 xml1 raw1 gs = some r1 →
      (∀ c, c < s1.m_width → r1.sky.m_line.getD c 0 ≤ s2.m_max_height) →
      ∃ r2, SkyLine.fitAllLoop pidx2 glst2 s2 xml2 raw2 gs = some r2 ∧ r2.ret = r1.ret ∧
        r2.placed.map (fun l => (l.m_x, l.m_y, l.m_width, l.m_height)) =
          r1.placed.map (fun l => (l.m_x, l.m_y, l.m_width, l.m_height)) := by
  induction gs with
  | nil =>
    intro s1 s2 pidx1 pidx2 glst1 glst2 xml1 xml2 raw1 raw2 r1 _ _ _ _ _ _ _ _ hr1 _
    simp only [SkyLine.fitAllLoop, Option.some.injEq] at hr1
    refine ⟨_, rfl, ?_, ?_⟩ <;> rw [← hr1]
  | cons e rest ih =>
    intro s1 s2 pidx1 pidx2 glst1 glst2 xml1 xml2 raw1 raw2 r1 hline hwidth hlen hW hsize
      hsorted hH hcase hr1 hfinal
    cases e with
    | none => simp [SkyLine.fitAllLoop] at hr1
    | some gly =>
      obtain ⟨hw32, hM⟩ := hsize gly (List.mem_cons_self _ _)
      have hsize' : ∀ g, some g ∈ rest → g.m_bitmap_w < 4294967296 ∧
          g.m_bitmap_h ≤ s1.m_max_height := fun g hg => hsize g (List.mem_cons_of_mem _ hg)
      have hsorted' := (List.pairwise_cons.mp hsorted).2
      have hle_gly : ∀ g, some g ∈ rest → g.m_bitmap_h ≤ gly.m_bitmap_h := fun g hg =>
        (List.pairwise_cons.mp hsorted).1 (some g) hg gly g rfl rfl
      by_cases hvalid : (s1.fit gly (raw1 0)).m_valid = true
      · -- the glyph is placed in the first run
        rw [fitAllLoop_cons_valid pidx1 glst1 s1 xml1 raw1 gly rest hvalid] at hr1
        obtain ⟨r1', hr1', hrr⟩ := Option.map_eq_some'.mp hr1
        have hw1 := fitAllWrite_line pidx1 glst1 (s1.allocate (s1.fit gly (raw1 0))) xml1
          (s1.fit gly (raw1 0)) gly
        have hm1 := fitAllWrite_max_height pidx1 glst1 (s1.allocate (s1.fit gly (raw1 0)))
          xml1 (s1.fit gly (raw1 0)) gly
        have hw2 := fitAllWrite_line pidx2 glst2 (s2.allocate (s2.fit gly (raw2 0))) xml2
          (s2.fit gly (raw2 0)) gly
        have hm2 := fitAllWrite_max_height pidx2 glst2 (s2.allocate (s2.fit gly (raw2 0)))
          xml2 (s2.fit gly (raw2 0)) gly
        have hsky : r1.sky = r1'.sky := by rw [← hrr]
        have hmono := fitAllLoop_line_mono pidx1 glst1 rest _ _ _ r1'
          (by rw [hw1.2, (allocate_fields _ _).1]; omega) (fun g hg => (hsize' g hg).1) hr1'
        rw [hw1.1] at hmono
        -- the two runs choose the same place
        have hgeom : (s2.fit gly (raw2 0)).m_valid = true ∧
            (s2.fit gly (raw2 0)).m_x = (s1.fit gly (raw1 0)).m_x ∧
            (s2.fit gly (raw2 0)).m_y = (s1.fit gly (raw1 0)).m_y ∧
            (s2.fit gly (raw2 0)).m_width = (s1.fit gly (raw1 0)).m_width ∧
            (s2.fit gly (raw2 0)).m_height = (s1.fit gly (raw1 0)).m_height ∧
            ((gly.m_bitmap_w = 0 ∨ gly.m_bitmap_h = 0) ∨
              gly.m_bitmap_h ≤ s2.m_max_height) := by
          by_cases hz : gly.m_bitmap_w = 0 ∨ gly.m_bitmap_h = 0
          · rw [fit_zero_area s1 gly (raw1 0) hz, fit_zero_area s2 gly (raw2 0) hz]
            exact ⟨rfl, rfl, rfl, rfl, rfl, Or.inl hz⟩
          · push_neg at hz
            obtain ⟨k, cur, hk, hb, _, _, _, _⟩ :=
              fit_valid_spec s1 gly (raw1 0) hW hw32 hz.1 hz.2 hvalid
            have hx : (s1.fit gly (raw1 0)).m_x = k := by rw [hk]; rfl
            have hy : (s1.fit gly (raw1 0)).m_y = cur := by rw [hk]; rfl
            have hwd : (s1.fit gly (raw1 0)).m_width = gly.m_bitmap_w := by rw [hk]; rfl
            have hht : (s1.fit gly (raw1 0)).m_height = gly.m_bitmap_h := by rw [hk]; rfl
            have hcol := hmono k
            rw [allocate_line_getD, if_pos (by rw [hx, hwd]; omega), hy, hht] at hcol
            have hfin := hfinal k (by omega)
            rw [hsky] at hfin
            have hfits : (s1.fit gly (raw1 0)).m_y + gly.m_bitmap_h ≤ s2.m_max_height := by
              rw [hy]; omega
            obtain ⟨a, b, c, d, e⟩ := fit_same_under_lower_ceiling s1 s2 gly (raw1 0) (raw2 0)
              hline hwidth hW hw32 hz.1 hz.2 hvalid hfits
            exact ⟨a, b, c, d, e, Or.inr (by omega)⟩
        obtain ⟨hv2, gx, gy, gw, gh, hnext⟩ := hgeom
        have hline' : (s1.allocate (s1.fit gly (raw1 0))).m_line =
            (s2.allocate (s2.fit gly (raw2 0))).m_line :=
          allocate_line_congr s1 s2 _ _ hline gx.symm gy.symm gw.symm gh.symm
        have hcase' : (∀ c, c < s1.m_width →
            (s1.allocate (s1.fit gly (raw1 0))).m_line.getD c 0 = 0) ∨
            ∀ g, some g ∈ rest → g.m_bitmap_h ≤ s2.m_max_height := by
          rcases hnext with hz | hle
          · rcases hcase with h0 | h1
            · left
              intro c hc
              rw [fit_zero_area s1 gly (raw1 0) hz, allocate_line_getD,
                if_neg (by simp [SkyLineLocation.make])]
              exact h0 c hc
            · right
              exact fun g hg => h1 g (List.mem_cons_of_mem _ hg)
          · right
            exact fun g hg => le_trans (hle_gly g hg) hle
        obtain ⟨r2', hr2', hret', hplaced'⟩ := ih
          (SkyLine.fitAllWrite pidx1 glst1 (s1.allocate (s1.fit gly (raw1 0))) xml1
            (s1.fit gly (raw1 0)) gly).1
          (SkyLine.fitAllWrite pidx2 glst2 (s2.allocate (s2.fit gly (raw2 0))) xml2
            (s2.fit gly (raw2 0)) gly).1
          pidx1 pidx2 glst1 glst2
          (SkyLine.fitAllWrite pidx1 glst1 (s1.allocate (s1.fit gly (raw1 0))) xml1
            (s1.fit gly (raw1 0)) gly).2.1
          (SkyLine.fitAllWrite pidx2 glst2 (s2.allocate (s2.fit gly (raw2 0))) xml2
            (s2.fit gly (raw2 0)) gly).2.1
          (fun k => raw1 (k + 1)) (fun k => raw2 (k + 1)) r1'
          (by rw [hw1.1, hw2.1]; exact hline')
          (by rw [hw1.2, hw2.2, (allocate_fields _ _).1, (allocate_fields _ _).1]; exact hwidth)
          (by rw [hw1.1, hw1.2, allocate_line_length, (allocate_fields _ _).1]; exact hlen)
          (by rw [hw1.2, (allocate_fields _ _).1]; exact hW)
          (by rw [hm1, (allocate_fields _ _).2.1]; exact hsize')
          hsorted'
          (by rw [hm1, hm2, (allocate_fields _ _).2.1, (allocate_fields _ _).2.1]; exact hH)
          (by rw [hw1.1, hw1.2, hm2, (allocate_fields _ _).1, (allocate_fields _ _).2.1]
              exact hcase')
          hr1'
          (by rw [hw1.2, hm2, (allocate_fields _ _).1, (allocate_fields _ _).2.1, ← hsky]
              exact hfinal)
        rw [fitAllLoop_cons_valid pidx2 glst2 s2 xml2 raw2 gly rest hv2, hr2']
        refine ⟨_, rfl, ?_, ?_⟩
        · rw [← hrr]
          simp only []
          rw [hret']
        · rw [← hrr]
          simp only [List.map_cons]
          rw [hplaced', gx, gy, gw, gh]
      · -- the glyph does not fit in the first run
        have hinv : (s1.fit gly (raw1 0)).m_valid = false := by simpa using hvalid
        rw [fitAllLoop_cons_invalid pidx1 glst1 s1 xml1 raw1 gly rest hinv] at hr1
        simp only [Option.some.injEq] at hr1
        have hnz : gly.m_bitmap_w ≠ 0 ∧ gly.m_bitmap_h ≠ 0 := by
          by_contra hz
          have hz' : gly.m_bitmap_w = 0 ∨ gly.m_bitmap_h = 0 := by
            by_cases h0 : gly.m_bitmap_w = 0
            · exact Or.inl h0
            · right
              by_contra h1
              exact hz ⟨h0, h1⟩
          rw [fit_zero_area s1 gly (raw1 0) hz'] at hinv
          simp [SkyLineLocation.make] at hinv
        have hinv2 := fit_invalid_under_lower_ceiling s1 s2 gly (raw1 0) (raw2 0) hline hwidth
          hW hw32 hnz.1 hnz.2 hM hH
          (hcase.imp id (fun h => h gly (List.mem_cons_self _ _))) hinv
        rw [fitAllLoop_cons_invalid pidx2 glst2 s2 xml2 raw2 gly rest hinv2]
        refine ⟨_, rfl, ?_, ?_⟩ <;> rw [← hr1]

theorem getD_replicate_zero (n c : Nat) : (List.replicate n 0).getD c 0 = 0 := by
  rw [List.getD_eq_getElem?_getD, List.getElem?_replicate]
  split <;> rfl

theorem fitAllLoop_line_le_ceiling (pidx : Nat) (glst : Bool) (gs : List FtGlyphSptr) :
    ∀ (s : SkyLine) (xmlfile : Option XmlFile) (raw : Nat → SkyLineLocation)
      (r : SkyLine.FitAllResult),
      s.m_width < 4294967296 →
      (∀ g, some g ∈ gs → g.m_bitmap_w < 4294967296 ∧ g.m_bitmap_h ≤ s.m_max_height) →
      (∀ c, s.m_line.getD c 0 ≤ s.m_max_height) →
      SkyLine.fitAllLoop pidx glst s xmlfile raw gs = some r →
      ∀ c, r.sky.m_line.getD c 0 ≤ s.m_max_height := by
  induction gs with
  | nil =>
    intro s xmlfile raw r _ _ hle hr c
    simp only [SkyLine.fitAllLoop, Option.some.injEq] at hr
    rw [← hr]
    exact hle c
  | cons e rest ih =>
    intro s xmlfile raw r hW hsize hle hr c
    cases e with
    | none => simp [SkyLine.fitAllLoop] at hr
    | some gly =>
      obtain ⟨hw32, hM⟩ := hsize gly (List.mem_cons_self _ _)
      by_cases hvalid : (s.fit gly (raw 0)).m_valid = true
      · rw [fitAllLoop_cons_valid pidx glst s xmlfile raw gly rest hvalid] at hr
        obtain ⟨r', hr', hrr⟩ := Option.map_eq_some'.mp hr
        have hl := fitAllWrite_line pidx glst (s.allocate (s.fit gly (raw 0))) xmlfile
          (s.fit gly (raw 0)) gly
        have hm := fitAllWrite_max_height pidx glst (s.allocate (s.fit gly (raw 0))) xmlfile
          (s.fit gly (raw 0)) gly
        have hnew : ∀ c, (s.allocate (s.fit gly (raw 0))).m_line.getD c 0 ≤ s.m_max_height := by
          intro c
          rw [allocate_line_getD]
          split
          · by_cases hz : gly.m_bitmap_w = 0 ∨ gly.m_bitmap_h = 0
            · rw [fit_zero_area s gly (raw 0) hz]
              exact Nat.zero_le _
            · push_neg at hz
              obtain ⟨k, cur, hk, _, hcur, _⟩ :=
                fit_valid_nonzero s gly (raw 0) hW hw32 hz.1 hz.2 hvalid
              rw [hk]
              show cur + gly.m_bitmap_h ≤ s.m_max_height
              unfold usub at hcur
              rw [if_pos hM] at hcur
              omega
          · exact hle c
        have := ih _ _ _ r' (by rw [hl.2, (allocate_fields _ _).1]; exact hW)
          (by rw [hm, (allocate_fields _ _).2.1]
              exact fun g hg => hsize g (List.mem_cons_of_mem _ hg))
          (by rw [hl.1, hm, (allocate_fields _ _).2.1]; exact hnew) hr' c
        rw [hm, (allocate_fields _ _).2.1] at this
        rw [← hrr]
        exact this
      · rw [fitAllLoop_cons_invalid pidx glst s xmlfile raw gly rest (by simpa using hvalid)]
          at hr
        simp only [Option.some.injEq] at hr
        rw [← hr]
        exact hle c

theorem fitAllLoop_width (pidx : Nat) (glst : Bool) (gs : List FtGlyphSptr) :
    ∀ (s : SkyLine) (xmlfile : Option XmlFile) (raw : Nat → SkyLineLocation)
      (r : SkyLine.FitAllResult),
      SkyLine.fitAllLoop pidx glst s xmlfile raw gs = some r → r.sky.m_width = s.m_width := by
  induction gs with
  | nil =>
    intro s xmlfile raw r hr
    simp only [SkyLine.fitAllLoop, Option.some.injEq] at hr
    rw [← hr]
  | cons e rest ih =>
    intro s xmlfile raw r hr
    cases e with
    | none => simp [SkyLine.fitAllLoop] at hr
    | some gly =>
      by_cases hvalid : (s.fit gly (raw 0)).m_valid = true
      · rw [fitAllLoop_cons_valid pidx glst s xmlfile raw gly rest hvalid] at hr
        obtain ⟨r', hr', hrr⟩ := Option.map_eq_some'.mp hr
        have := ih _ _ _ r' hr'
        rw [(fitAllWrite_line _ _ _ _ _ _).2, (allocate_fields _ _).1] at this
        rw [← hrr]
        exact this
      · rw [fitAllLoop_cons_invalid pidx glst s xmlfile raw gly rest (by simpa using hvalid)]
          at hr
        simp only [Option.some.injEq] at hr
        rw [← hr]

theorem getUsedHeight_bounds (s : SkyLine) :
    (∀ c, c < s.m_width → s.m_line.getD c 0 ≤ s.getUsedHeight) ∧
    ∀ M, M % 4 = 0 → (∀ c, c < s.m_width → s.m_line.getD c 0 ≤ M) → s.getUsedHeight ≤ M := by
  unfold SkyLine.getUsedHeight SkyLine.SIZE_STEP
  simp only []
  constructor
  · intro c hc
    have := (foldl_max_getD_ge s.m_line s.m_width 0).2 c hc
    split <;> omega
  · intro M hM hle
    have := foldl_max_getD_le s.m_line s.m_width 0 M (Nat.zero_le _) hle
    split <;> omega

/-- C30. For every storage (no null entry) sorted by non-increasing crunched height with all
heights at most `M`, every width `W` (in the range of `int`) and every ceiling `M` divisible
by 4: `fitAll` without a sink on a fresh `SkyLine(W, M)` returns a count `k` and ends with a
used height `H`, and `fitAll` (with or without a sink) on a fresh `SkyLine(W, H)` returns the
same count and puts the glyphs at the same places `(x, y, w, h)`. -/
theorem fitAll_reproduced_at_used_height (W M : Nat) (glyphs : GlyphStorage)
    (xmlfile : Option XmlFile) (pidx1 pidx2 : Nat) (glst1 glst2 : Bool)
    (raw1 raw2 : Nat → SkyLineLocation)
    (hW : W < 2147483648)
    (hw32 : ∀ g, some g ∈ glyphs.m_glyphs → g.m_bitmap_w < 4294967296)
    (hnn : ∀ e ∈ glyphs.m_glyphs, e ≠ none)
    (hsorted : glyphs.m_glyphs.Pairwise (fun a b => ∀ ga gb, a = some ga → b = some gb →
      gb.m_bitmap_h ≤ ga.m_bitmap_h))
    (hM : ∀ g, some g ∈ glyphs.m_glyphs → g.m_bitmap_h ≤ M)
    (hM4 : M % 4 = 0) :
    ∃ r1 r2, (SkyLine.new W M).fitAll glyphs none pidx1 glst1 raw1 = some r1 ∧
      (SkyLine.new W r1.sky.getUsedHeight).fitAll glyphs xmlfile pidx2 glst2 raw2 = some r2 ∧
      r2.ret = r1.ret ∧
      r2.placed.map (fun l => (l.m_x, l.m_y, l.m_width, l.m_height)) =
        r1.placed.map (fun l => (l.m_x, l.m_y, l.m_width, l.m_height)) := by
  obtain ⟨r1, hr1, _⟩ := fitAllLoop_first_failure pidx1 glst1 glyphs.m_glyphs
    (SkyLine.new W M) none raw1 hnn
  have hsize : ∀ g, some g ∈ glyphs.m_glyphs →
      g.m_bitmap_w < 4294967296 ∧ g.m_bitmap_h ≤ (SkyLine.new W M).m_max_height :=
    fun g hg => ⟨hw32 g hg, hM g hg⟩
  have hfinal := fitAllLoop_line_le_ceiling pidx1 glst1 glyphs.m_glyphs (SkyLine.new W M) none
    raw1 r1 (by show W < 4294967296; omega) hsize
    (fun c => by
      show (List.replicate W 0).getD c 0 ≤ M
      rw [getD_replicate_zero]
      exact Nat.zero_le _) hr1
  have hwidth : r1.sky.m_width = W :=
    fitAllLoop_width pidx1 glst1 glyphs.m_glyphs (SkyLine.new W M) none raw1 r1 hr1
  have hb := getUsedHeight_bounds r1.sky
  rw [hwidth] at hb
  obtain ⟨r2, hr2, hret, hplaced⟩ := fitAllLoop_two_ceilings glyphs.m_glyphs
    (SkyLine.new W M) (SkyLine.new W r1.sky.getUsedHeight) pidx1 pidx2 glst1 glst2 none xmlfile
    raw1 raw2 r1 rfl rfl (by show (List.replicate W 0).length = W; simp) hW hsize hsorted
    (hb.2 M hM4 (fun c _ => hfinal c))
    (Or.inl (fun c _ => getD_replicate_zero W c)) hr1 hb.1
  exact ⟨r1, r2, hr1, hr2, hret, hplaced⟩

theorem fitAll_reproduced_at_used_height_witness :
    ((SkyLine.new 4 8).fitAll
        ⟨[some (FtGlyph.mk 65 [1, 1, 1, 1, 1, 1] 2 3 0 0 0 0 0),
          some (FtGlyph.mk 66 [1, 1] 1 2 0 0 0 0 0)], [], 0, 0, false⟩ none 0 true
        (fun _ => ⟨0, 0, 0, 0, 0, false⟩)).map (fun r => (r.ret, r.sky.getUsedHeight)) =
      some (2, 4) ∧
    ∃ r1 r2, (SkyLine.new 4 8).fitAll
        ⟨[some (FtGlyph.mk 65 [1, 1, 1, 1, 1, 1] 2 3 0 0 0 0 0),
          some (FtGlyph.mk 66 [1, 1] 1 2 0 0 0 0 0)], [], 0, 0, false⟩ none 0 true
        (fun _ => ⟨0, 0, 0, 0, 0, false⟩) = some r1 ∧
      (SkyLine.new 4 r1.sky.getUsedHeight).fitAll
        ⟨[some (FtGlyph.mk 65 [1, 1, 1, 1, 1, 1] 2 3 0 0 0 0 0),
          some (FtGlyph.mk 66 [1, 1] 1 2 0 0 0 0 0)], [], 0, 0, false⟩ (some []) 0 true
        (fun _ => ⟨0, 0, 0, 0, 0, false⟩) = some r2 ∧
      r2.ret = r1.ret ∧
      r2.placed.map (fun l => (l.m_x, l.m_y, l.m_width, l.m_height)) =
        r1.placed.map (fun l => (l.m_x, l.m_y, l.m_width, l.m_height)) := by
  refine ⟨by decide, ?_⟩
  apply fitAll_reproduced_at_used_height 4 8 _ (some []) 0 0 true true _ _ (by decide)
  · intro g hg
    simp only [List.mem_cons, Option.some.injEq, List.mem_singleton, List.not_mem_nil,
      or_false] at hg
    rcases hg with rfl | rfl <;> decide
  · intro e he
    simp only [List.mem_cons, List.mem_singleton, List.not_mem_nil, or_false] at he
    rcases he with rfl | rfl <;> simp
  · simp only [List.pairwise_cons, List.mem_singleton, List.not_mem_nil, List.mem_cons,
      or_false, forall_eq, Option.some.injEq, IsEmpty.forall_iff, implies_true,
      List.Pairwise.nil, and_true]
    intro ga gb h1 h2
    rw [← h1, ← h2]
    decide
  · intro g hg
    simp only [List.mem_cons, Option.some.injEq, List.mem_singleton, List.not_mem_nil,
      or_false] at hg
    rcases hg with rfl | rfl <;> decide
  · decide

/-! ### C21: `remove(ps, pe)` -/

set_option maxRecDepth 100000 in
/-- C21, the failing input: `remove(65, 90)` on the ascii range `32..126` erases the code
points 65 to 89 and leaves 90 (`Z`) in the range, whatever lies behind the vector. -/
theorem remove_range_keeps_last_code_point (past : Nat) :
    (GlyphRange.ofRange 32 126).m_range = List.range' 32 95 ∧
    ((GlyphRange.ofRange 32 126).removeRange 65 90 past).m_range =
      List.range' 32 33 ++ List.range' 90 37 ∧
    90 ∈ ((GlyphRange.ofRange 32 126).removeRange 65 90 past).m_range := by
  have h : ((GlyphRange.ofRange 32 126).removeRange 65 90 past).m_range =
      List.range' 32 33 ++ List.range' 90 37 := by rfl
  refine ⟨by rfl, h, ?_⟩
  rw [h]
  simp

/-! ### C24, C25: the coordinate system of the XML records -/

/-- C24, the failing inputs: for the value `directx` the driver sets `opengl_coordinates` to
true and for the value `opengl` to false (for an absent option it keeps the default true);
the flag reaches `write` as `glst` through `fitAll`, and `write` prints `t1`, `t2` unchanged
for a true flag and `1 - t` for a false one. -/
theorem coordinates_option_is_inverted :
    mainCoordinates (some "directx") true = Except.ok true ∧
    mainCoordinates (some "opengl") true = Except.ok false ∧
    mainCoordinates none true = Except.ok true ∧
    (∀ (pidx : Nat) (glst : Bool) (s : SkyLine) (f : XmlFile) (loc : SkyLineLocation)
      (gly : FtGlyph),
      (SkyLine.fitAllWrite pidx glst s (some f) loc gly).2.1 =
        some (f ++ [((s.insert loc gly).2.setPage pidx, glst)])) ∧
    (∀ (g : FtGlyph) (m : FtGlyphMetrics),
      (g.write m true).t1 = g.m_t1 ∧ (g.write m true).t2 = g.m_t2 ∧
      (g.write m false).t1 = 1 - g.m_t1 ∧ (g.write m false).t2 = 1 - g.m_t2) :=
  ⟨rfl, rfl, rfl, fun _ _ _ _ _ _ => rfl, fun _ _ => ⟨rfl, rfl, rfl, rfl⟩⟩

/-- C25. For every glyph, the record written with the DirectX convention (`glst` false) and
the record written with the OpenGL convention (`glst` true) agree in every field but `t1` and
`t2`, and there `t1_dx = 1 - t1_gl` and `t2_dx = 1 - t2_gl`. -/
theorem write_directx_differs_only_in_t (g : FtGlyph) (m : FtGlyphMetrics) :
    (g.write m false).t1 = 1 - (g.write m true).t1 ∧
    (g.write m false).t2 = 1 - (g.write m true).t2 ∧
    { g.write m false with t1 := (g.write m true).t1, t2 := (g.write m true).t2 } =
      g.write m true ∧
    (g.write m false).code = (g.write m true).code ∧
    (g.write m false).s1 = (g.write m true).s1 ∧
    (g.write m false).s2 = (g.write m true).s2 ∧
    (g.write m false).page = (g.write m true).page :=
  ⟨rfl, rfl, rfl, rfl, rfl, rfl, rfl⟩

/-! ### C26, C27: `--revoke` and `--custom-range` -/

/-- C26, the failing inputs: `--revoke ascii`, the name of a known segment, ends in the
exception `invalid range description` and disables nothing, and `--revoke 65:90`, which is no
segment name, calls `disable()` through the end iterator of the map and removes nothing.  The
loop over `--include` tests the iterator the other way round and enables the segment. -/
theorem revoke_tests_the_iterator_the_wrong_way (extra_range : GlyphRange) (past : Nat) :
    (rangeMapFind mainInitialRanges "ascii").isSome = true ∧
    mainRevokeToken mainInitialRanges extra_range past "ascii" =
      ConfigOutcome.error "invalid range description: 'ascii'" ∧
    mainRanges ⟨false, none, none, false, [], ["ascii"]⟩ past =
      ConfigOutcome.error "invalid range description: 'ascii'" ∧
    (rangeMapFind mainInitialRanges "65:90").isNone = true ∧
    sscanfRange "65:90" = some (65, 90) ∧
    mainRevokeToken mainInitialRanges extra_range past "65:90" =
      ConfigOutcome.undefinedBehaviour ∧
    mainRanges ⟨false, none, none, false, ["ascii"], ["65:90"]⟩ past =
      ConfigOutcome.undefinedBehaviour ∧
    mainIncludeToken mainInitialRanges extra_range "ascii" =
      ConfigOutcome.ok (rangeMapModify mainInitialRanges "ascii" GlyphRange.enable)
        extra_range :=
  ⟨rfl, rfl, rfl, rfl, rfl, rfl, rfl, rfl⟩

/-- C27, the failing input: the value of `--custom-range` is never read, so the outcome of the
option handling is the same with and without it; for `--empty --custom-range 9731:9731` every
named range is disabled, the extra range is empty and not enabled, and the map gets no entry
`extra`.  The same value given to `--include` does put 9731 into an enabled extra range. -/
theorem custom_range_value_is_never_read (past : Nat) :
    (∀ vmap : VariablesMap,
      mainRanges vmap past = mainRanges { vmap with opt_custom_range := none } past) ∧
    mainRanges ⟨false, none, some "9731:9731", true, [], []⟩ past =
      ConfigOutcome.ok (mainInitialRanges.map (fun vv => (vv.1, vv.2.disable)))
        GlyphRange.empty ∧
    (∀ vv ∈ mainInitialRanges.map (fun vv => (vv.1, vv.2.disable)), vv.2.m_enabled = false) ∧
    rangeMapFind (mainInitialRanges.map (fun vv => (vv.1, vv.2.disable))) "extra" = none ∧
    GlyphRange.empty.m_enabled = false ∧ GlyphRange.empty.m_range = [] ∧
    mainIncludeToken mainInitialRanges GlyphRange.empty "9731:9731" =
      ConfigOutcome.ok mainInitialRanges ⟨[9731], true⟩ := by
  refine ⟨fun _ => rfl, rfl, ?_, rfl, rfl, rfl, rfl⟩
  intro vv hvv
  rw [List.mem_map] at hvv
  obtain ⟨a, _, rfl⟩ := hvv
  rfl

/-! ### C22, C23: `GlyphRange::queue` -/

theorem renderFirst_unicode (src : List FtFaceSptr) (c target_size : Nat) (g : FtGlyph)
    (h : src.findSome? (fun ii => ii.renderGlyph c target_size) = some g) :
    g.m_unicode = c := by
  obtain ⟨f, _, hf⟩ := List.exists_of_findSome?_eq_some h
  unfold FtFace.renderGlyph at hf
  obtain ⟨g0, _, hg0⟩ := Option.map_eq_some'.mp hf
  rw [← hg0]

theorem crunch_glyph_spec (crunch : FtGlyph → List Nat × Nat × Nat) (g_verbose : Bool)
    (storage : GlyphStorage) (gly : FtGlyph)
    (hm : mapContains storage.m_glyph_guard gly.m_unicode = true) :
    (crunch_glyph crunch g_verbose storage gly).m_glyph_guard = storage.m_glyph_guard ∧
    (crunch_glyph crunch g_verbose storage gly).m_glyphs_in_flight =
      usub storage.m_glyphs_in_flight 1 ∧
    (crunch_glyph crunch g_verbose storage gly).m_concurrency = storage.m_concurrency := by
  unfold crunch_glyph
  obtain ⟨_, _, a, b, c⟩ := (add_spec storage
    { gly with m_crunched := (crunch gly).1, m_bitmap_w := (crunch gly).2.1,
               m_bitmap_h := (crunch gly).2.2 } g_verbose).2 hm
  exact ⟨a, b, c⟩

/-- The state of producer and workers is consistent: the counter equals the number of pending
tasks, the ceiling is positive, and the code point of every pending glyph is marked. -/
theorem queueWorkers_spec (crunch : FtGlyph → List Nat × Nat × Nat) (g_verbose : Bool)
    (n : Nat) : ∀ (q : QueueState),
      q.storage.m_glyphs_in_flight = q.pending.length →
      (∀ g ∈ q.pending, mapContains q.storage.m_glyph_guard g.m_unicode = true) →
      (queueWorkers crunch g_verbose n q).storage.m_glyphs_in_flight =
        (queueWorkers crunch g_verbose n q).pending.length ∧
      (∀ g ∈ (queueWorkers crunch g_verbose n q).pending,
        mapContains (queueWorkers crunch g_verbose n q).storage.m_glyph_guard g.m_unicode =
          true) ∧
      (queueWorkers crunch g_verbose n q).storage.m_glyph_guard = q.storage.m_glyph_guard ∧
      (queueWorkers crunch g_verbose n q).storage.m_concurrency = q.storage.m_concurrency ∧
      (queueWorkers crunch g_verbose n q).dispatched = q.dispatched ∧
      (queueWorkers crunch g_verbose n q).missing = q.missing ∧
      (queueWorkers crunch g_verbose n q).ret = q.ret := by
  induction n with
  | zero => intro q h1 h2; exact ⟨h1, h2, rfl, rfl, rfl, rfl, rfl⟩
  | succ n ih =>
    intro q h1 h2
    unfold queueWorkers
    cases hp : q.pending with
    | nil =>
      simp only []
      rw [hp] at h1 h2
      exact ⟨by rw [hp]; exact h1, by rw [hp]; exact h2, trivial, trivial, trivial, trivial,
        trivial⟩
    | cons gly rest =>
      simp only []
      rw [hp] at h1 h2
      obtain ⟨a, b, c⟩ := crunch_glyph_spec crunch g_verbose q.storage gly
        (h2 gly (List.mem_cons_self _ _))
      obtain ⟨i1, i2, i3, i4, i5, i6, i7⟩ := ih
        { q with storage := crunch_glyph crunch g_verbose q.storage gly, pending := rest }
        (by
          show (crunch_glyph crunch g_verbose q.storage gly).m_glyphs_in_flight = rest.length
          rw [b, h1]
          unfold usub
          simp)
        (by
          intro g hg
          show mapContains (crunch_glyph crunch g_verbose q.storage gly).m_glyph_guard
            g.m_unicode = true
          rw [a]
          exact h2 g (List.mem_cons_of_mem _ hg))
      refine ⟨i1, i2, ?_, ?_, i5, i6, i7⟩
      · rw [i3]; exact a
      · rw [i4]; exact c

theorem queueWait_spec (crunch : FtGlyph → List Nat × Nat × Nat) (g_verbose : Bool)
    (fuel : Nat) : ∀ (q : QueueState),
      q.pending.length ≤ fuel →
      q.storage.m_glyphs_in_flight = q.pending.length →
      0 < q.storage.m_concurrency →
      (∀ g ∈ q.pending, mapContains q.storage.m_glyph_guard g.m_unicode = true) →
      ∃ q', queueWait crunch g_verbose fuel q = some q' ∧
        q'.storage.m_glyphs_in_flight < q'.storage.m_concurrency ∧
        q'.storage.m_glyphs_in_flight = q'.pending.length ∧
        (∀ g ∈ q'.pending, mapContains q'.storage.m_glyph_guard g.m_unicode = true) ∧
        q'.storage.m_glyph_guard = q.storage.m_glyph_guard ∧
        q'.storage.m_concurrency = q.storage.m_concurrency ∧
        q'.dispatched = q.dispatched ∧ q'.missing = q.missing ∧ q'.ret = q.ret := by
  induction fuel with
  | zero =>
    intro q hf h1 h0 h2
    have hp : q.pending = [] := List.length_eq_zero.mp (by omega)
    unfold queueWait
    rw [if_neg (by rw [h1, hp]; simp; omega)]
    exact ⟨q, rfl, by rw [h1, hp]; simpa using h0, h1, h2, rfl, rfl, rfl, rfl, rfl⟩
  | succ fuel ih =>
    intro q hf h1 h0 h2
    unfold queueWait
    by_cases hb : q.storage.m_glyphs_in_flight ≥ q.storage.m_concurrency
    · rw [if_pos hb]
      cases hp : q.pending with
      | nil =>
        rw [hp] at h1
        simp at h1
        omega
      | cons gly rest =>
        simp only []
        rw [hp] at h1 h2 hf
        obtain ⟨a, b, c⟩ := crunch_glyph_spec crunch g_verbose q.storage gly
          (h2 gly (List.mem_cons_self _ _))
        obtain ⟨q', e1, e2, e3, e4, e5, e6, e7, e8, e9⟩ := ih
          { q with storage := crunch_glyph crunch g_verbose q.storage gly, pending := rest }
          (by simp at hf; exact hf)
          (by
            show (crunch_glyph crunch g_verbose q.storage gly).m_glyphs_in_flight = rest.length
            rw [b, h1]
            unfold usub
            simp)
          (by
            show 0 < (crunch_glyph crunch g_verbose q.storage gly).m_concurrency
            rw [c]; exact h0)
          (by
            intro g hg
            show mapContains (crunch_glyph crunch g_verbose q.storage gly).m_glyph_guard
              g.m_unicode = true
            rw [a]
            exact h2 g (List.mem_cons_of_mem _ hg))
        refine ⟨q', e1, e2, e3, e4, ?_, ?_, e7, e8, e9⟩
        · rw [e5]; exact a
        · rw [e6]; exact c
    · rw [if_neg hb]
      exact ⟨q, rfl, by omega, h1, h2, rfl, rfl, rfl, rfl, rfl⟩

theorem markGlyph_fields (st : GlyphStorage) (c : Nat) :
    (st.markGlyph c).2 = !mapContains st.m_glyph_guard c ∧
    (st.markGlyph c).1.m_glyphs_in_flight = st.m_glyphs_in_flight ∧
    (st.markGlyph c).1.m_concurrency = st.m_concurrency ∧
    ∀ j, mapContains (st.markGlyph c).1.m_glyph_guard j =
      (mapContains st.m_glyph_guard j || decide (j = c)) := by
  unfold GlyphStorage.markGlyph
  cases hm : mapContains st.m_glyph_guard c with
  | false =>
    simp only [Bool.not_false, if_true]
    refine ⟨trivial, trivial, trivial, fun j => mapContains_mapAssign _ _ _ _⟩
  | true =>
    simp only [Bool.not_true, Bool.false_eq_true, if_false]
    refine ⟨trivial, trivial, trivial, fun j => ?_⟩
    by_cases hj : j = c
    · rw [hj, hm]; rfl
    · simp [hj]

theorem missing_fields (st : GlyphStorage) (c : Nat) (g_verbose : Bool) :
    (st.missing c g_verbose).m_glyph_guard = st.m_glyph_guard ∧
    (st.missing c g_verbose).m_glyphs_in_flight = st.m_glyphs_in_flight ∧
    (st.missing c g_verbose).m_concurrency = st.m_concurrency := by
  unfold GlyphStorage.missing
  split
  · split <;> exact ⟨rfl, rfl, rfl⟩
  · exact ⟨rfl, rfl, rfl⟩

theorem queueStep_spec (src : List FtFaceSptr) (target_size : Nat)
    (crunch : FtGlyph → List Nat × Nat × Nat) (g_verbose : Bool) (progress : Nat)
    (q : QueueState) (gidx : Nat)
    (h1 : q.storage.m_glyphs_in_flight = q.pending.length)
    (h0 : 0 < q.storage.m_concurrency)
    (h2 : ∀ g ∈ q.pending, mapContains q.storage.m_glyph_guard g.m_unicode = true) :
    ∃ q', queueStep src target_size crunch g_verbose progress q gidx = some q' ∧
      q'.storage.m_glyphs_in_flight = q'.pending.length ∧
      0 < q'.storage.m_concurrency ∧
      (∀ g ∈ q'.pending, mapContains q'.storage.m_glyph_guard g.m_unicode = true) ∧
      (∀ j, mapContains q'.storage.m_glyph_guard j =
        (mapContains q.storage.m_glyph_guard j || decide (j = gidx))) ∧
      ((mapContains q.storage.m_glyph_guard gidx = false ∧
          ∃ g, src.findSome? (fun ii => ii.renderGlyph gidx target_size) = some g ∧
            q'.dispatched = q.dispatched ++ [g] ∧ q'.missing = q.missing ∧
            q'.ret = q.ret + 1) ∨
        ((mapContains q.storage.m_glyph_guard gidx = true ∨
            src.findSome? (fun ii => ii.renderGlyph gidx target_size) = none) ∧
          q'.dispatched = q.dispatched ∧ q'.missing = q.missing ++ [gidx] ∧
          q'.ret = q.ret)) := by
  obtain ⟨w1, w2, w3, w4, w5, w6, w7⟩ := queueWorkers_spec crunch g_verbose progress q h1 h2
  obtain ⟨m1, m2, m3, m4⟩ :=
    markGlyph_fields (queueWorkers crunch g_verbose progress q).storage gidx
  rw [w3] at m1 m4
  have hmarked : ∀ g ∈ (queueWorkers crunch g_verbose progress q).pending,
      mapContains ((queueWorkers crunch g_verbose progress q).storage.markGlyph
        gidx).1.m_glyph_guard g.m_unicode = true := by
    intro g hg
    rw [m4, ← w3, w2 g hg]
    rfl
  unfold queueStep
  simp only []
  by_cases hcase : mapContains q.storage.m_glyph_guard gidx = false ∧
      ∃ g, src.findSome? (fun ii => ii.renderGlyph gidx target_size) = some g
  · obtain ⟨hm, g, hg⟩ := hcase
    rw [m1, hm]
    simp only [Bool.not_false, if_true, hg]
    obtain ⟨q', e1, e2, e3, e4, e5, e6, e7, e8, e9⟩ := queueWait_spec crunch g_verbose
      (queueWorkers crunch g_verbose progress q).pending.length
      { queueWorkers crunch g_verbose progress q with
        storage := ((queueWorkers crunch g_verbose progress q).storage.markGlyph gidx).1 }
      (le_refl _) (by show _ = _; rw [m2]; exact w1) (by show 0 < _; rw [m3, w4]; exact h0)
      hmarked
    rw [e1]
    have hinc : q'.storage.concurrencyIcrement =
        some { q'.storage with m_glyphs_in_flight := q'.storage.m_glyphs_in_flight + 1 } := by
      unfold GlyphStorage.concurrencyIcrement
      rw [if_neg (by omega)]
    simp only [Option.some_bind, hinc, Option.map_some']
    refine ⟨_, rfl, ?_, ?_, ?_, ?_, Or.inl ⟨trivial, g, rfl, ?_, ?_, ?_⟩⟩
    · show q'.storage.m_glyphs_in_flight + 1 = (q'.pending ++ [g]).length
      rw [List.length_append, e3]
      rfl
    · show 0 < q'.storage.m_concurrency
      rw [e6]
      show 0 < ((queueWorkers crunch g_verbose progress q).storage.markGlyph gidx).1.m_concurrency
      rw [m3, w4]; exact h0
    · intro g' hg'
      show mapContains q'.storage.m_glyph_guard g'.m_unicode = true
      rw [List.mem_append] at hg'
      rcases hg' with hg' | hg'
      · exact e4 g' hg'
      · rw [List.mem_singleton] at hg'
        rw [hg', renderFirst_unicode src gidx target_size g hg, e5]
        show mapContains ((queueWorkers crunch g_verbose progress q).storage.markGlyph
          gidx).1.m_glyph_guard gidx = true
        rw [m4]
        simp
    · intro j
      show mapContains q'.storage.m_glyph_guard j = _
      rw [e5]
      exact m4 j
    · show q'.dispatched ++ [g] = q.dispatched ++ [g]
      rw [e7]
      show (queueWorkers crunch g_verbose progress q).dispatched ++ [g] = _
      rw [w5]
    · show q'.missing = q.missing
      rw [e8]
      exact w6
    · show q'.ret + 1 = q.ret + 1
      rw [e9]
      show (queueWorkers crunch g_verbose progress q).ret + 1 = _
      rw [w7]
  · have hgly : (if ((queueWorkers crunch g_verbose progress q).storage.markGlyph gidx).2 = true
        then src.findSome? (fun ii => ii.renderGlyph gidx target_size) else none) = none := by
      rw [m1]
      cases hm : mapContains q.storage.m_glyph_guard gidx with
      | true => rfl
      | false =>
        simp only [Bool.not_false, if_true]
        cases hr : src.findSome? (fun ii => ii.renderGlyph gidx target_size) with
        | none => rfl
        | some g => exact absurd ⟨hm, g, hr⟩ hcase
    rw [hgly]
    simp only []
    obtain ⟨f1, f2, f3⟩ := missing_fields
      ((queueWorkers crunch g_verbose progress q).storage.markGlyph gidx).1 gidx g_verbose
    refine ⟨_, rfl, ?_, ?_, ?_, ?_, Or.inr ⟨?_, ?_, ?_, ?_⟩⟩
    · show (GlyphStorage.missing _ gidx g_verbose).m_glyphs_in_flight = _
      rw [f2, m2]; exact w1
    · show 0 < (GlyphStorage.missing _ gidx g_verbose).m_concurrency
      rw [f3, m3, w4]; exact h0
    · intro g hg
      show mapContains (GlyphStorage.missing _ gidx g_verbose).m_glyph_guard g.m_unicode = true
      rw [f1]
      exact hmarked g hg
    · intro j
      show mapContains (GlyphStorage.missing _ gidx g_verbose).m_glyph_guard j = _
      rw [f1]
      exact m4 j
    · by_contra hcon
      push_neg at hcon
      apply hcase
      refine ⟨by simpa using hcon.1, ?_⟩
      cases hr : src.findSome? (fun ii => ii.renderGlyph gidx target_size) with
      | none => exact absurd hr hcon.2
      | some g => exact ⟨g, rfl⟩
    · exact w5
    · show (queueWorkers crunch g_verbose progress q).missing ++ [gidx] = _
      rw [w6]
    · exact w7

theorem queueLoop_spec (src : List FtFaceSptr) (target_size : Nat)
    (crunch : FtGlyph → List Nat × Nat × Nat) (g_verbose : Bool) (sched : Nat → Nat)
    (l : List Nat) : ∀ (k : Nat) (q : QueueState),
      q.storage.m_glyphs_in_flight = q.pending.length →
      0 < q.storage.m_concurrency →
      (∀ g ∈ q.pending, mapContains q.storage.m_glyph_guard g.m_unicode = true) →
      ∃ q' D, queueLoop src target_size crunch g_verbose sched l k q = some q' ∧
        (∀ j, mapContains q'.storage.m_glyph_guard j =
          (mapContains q.storage.m_glyph_guard j || decide (j ∈ l))) ∧
        q'.dispatched = q.dispatched ++ D ∧ q'.ret = q.ret + D.length ∧
        (∀ g ∈ D, g.m_unicode ∈ l ∧ mapContains q.storage.m_glyph_guard g.m_unicode = false ∧
          src.findSome? (fun ii => ii.renderGlyph g.m_unicode target_size) = some g) ∧
        ∀ c g, c ∈ l → mapContains q.storage.m_glyph_guard c = false →
          src.findSome? (fun ii => ii.renderGlyph c target_size) = some g →
          D.filter (fun d => decide (d.m_unicode = c)) = [g] := by
  induction l with
  | nil =>
    intro k q _ _ _
    refine ⟨q, [], rfl, fun j => by simp, by simp, rfl, fun g hg => by simp at hg, ?_⟩
    intro c g hc
    simp at hc
  | cons gidx rest ih =>
    intro k q h1 h0 h2
    obtain ⟨q1, hq1, a1, a0, a2, aguard, acase⟩ :=
      queueStep_spec src target_size crunch g_verbose (sched k) q gidx h1 h0 h2
    obtain ⟨q', D, hq', bguard, bdisp, bret, bmem, bonce⟩ := ih (k + 1) q1 a1 a0 a2
    have hloop : queueLoop src target_size crunch g_verbose sched (gidx :: rest) k q =
        some q' := by
      unfold queueLoop
      rw [hq1]
      exact hq'
    have hguard : ∀ j, mapContains q'.storage.m_glyph_guard j =
        (mapContains q.storage.m_glyph_guard j || decide (j ∈ gidx :: rest)) := by
      intro j
      rw [bguard j, aguard j, Bool.or_assoc]
      congr 1
      simp [List.mem_cons]
    have hmarked1 : mapContains q1.storage.m_glyph_guard gidx = true := by
      rw [aguard]; simp
    have hD : ∀ d ∈ D, d.m_unicode ≠ gidx := by
      intro d hd heq
      have := (bmem d hd).2.1
      rw [heq, hmarked1] at this
      cases this
    have hfilter : D.filter (fun d => decide (d.m_unicode = gidx)) = [] := by
      rw [List.filter_eq_nil_iff]
      intro d hd
      simpa using hD d hd
    -- what the suffix dispatches, seen from the state before the step
    have hmem' : ∀ g ∈ D, g.m_unicode ∈ gidx :: rest ∧
        mapContains q.storage.m_glyph_guard g.m_unicode = false ∧
        src.findSome? (fun ii => ii.renderGlyph g.m_unicode target_size) = some g := by
      intro g hg
      obtain ⟨m1, m2, m3⟩ := bmem g hg
      refine ⟨List.mem_cons_of_mem _ m1, ?_, m3⟩
      rw [aguard] at m2
      cases hq : mapContains q.storage.m_glyph_guard g.m_unicode with
      | false => rfl
      | true => rw [hq] at m2; simp at m2
    have honce' : ∀ c g, c ∈ rest → c ≠ gidx →
        mapContains q.storage.m_glyph_guard c = false →
        src.findSome? (fun ii => ii.renderGlyph c target_size) = some g →
        D.filter (fun d => decide (d.m_unicode = c)) = [g] := by
      intro c g hc hne hm hr
      exact bonce c g hc (by rw [aguard, hm]; simp [hne]) hr
    rcases acase with ⟨hm, g0, hr0, cdisp, _, cret⟩ | ⟨hcond, cdisp, _, cret⟩
    · -- the code point is rendered and dispatched by this step
      have hu0 := renderFirst_unicode src gidx target_size g0 hr0
      refine ⟨q', g0 :: D, hloop, hguard, ?_, ?_, ?_, ?_⟩
      · rw [bdisp, cdisp, List.append_assoc]
        rfl
      · rw [bret, cret, List.length_cons]
        omega
      · intro g hg
        rw [List.mem_cons] at hg
        rcases hg with rfl | hg
        · rw [hu0]
          exact ⟨List.mem_cons_self _ _, hm, hr0⟩
        · exact hmem' g hg
      · intro c g hc hmc hr
        by_cases hcg : c = gidx
        · rw [hcg] at hr ⊢
          rw [hr0] at hr
          rw [List.filter_cons, if_pos (by simpa using hu0), hfilter, ← Option.some.inj hr]
        · rw [List.filter_cons, if_neg (by rw [hu0]; simpa using fun h => hcg h.symm)]
          rcases List.mem_cons.mp hc with h | h
          · exact absurd h hcg
          · exact honce' c g h hcg hmc hr
    · -- nothing is dispatched by this step
      refine ⟨q', D, hloop, hguard, ?_, ?_, hmem', ?_⟩
      · rw [bdisp, cdisp]
      · rw [bret, cret]
      · intro c g hc hmc hr
        by_cases hcg : c = gidx
        · exfalso
          rw [hcg] at hmc hr
          rcases hcond with h | h
          · rw [h] at hmc; cases hmc
          · rw [h] at hr; cases hr
        · rcases List.mem_cons.mp hc with h | h
          · exact absurd h hcg
          · exact honce' c g h hcg hmc hr

/-- C22. For every range, storage (with a positive ceiling, its counter equal to the number of
pending tasks and every pending glyph marked), ordered face list and schedule of the workers,
`queue` returns.  For a disabled range it returns 0, dispatches nothing and leaves the
storage as it is.  For an enabled range it marks exactly the code points of the range; every
dispatched glyph belongs to a code point of the range that was not marked before and is the
glyph of the first face in list order whose render succeeds; every such code point that some
face renders is dispatched exactly once; and the returned number is the number of glyphs
dispatched. -/
theorem queue_dispatches_first_rendering_face (r : GlyphRange) (storage : GlyphStorage)
    (src : List FtFaceSptr) (target_size : Nat) (crunch : FtGlyph → List Nat × Nat × Nat)
    (g_verbose : Bool) (sched : Nat → Nat) (pending : List FtGlyph)
    (h1 : storage.m_glyphs_in_flight = pending.length) (h0 : 0 < storage.m_concurrency)
    (h2 : ∀ g ∈ pending, mapContains storage.m_glyph_guard g.m_unicode = true) :
    ∃ q, r.queue storage src target_size crunch g_verbose sched pending = some q ∧
      q.ret = q.dispatched.length ∧
      (r.m_enabled = false → q.ret = 0 ∧ q.dispatched = [] ∧ q.storage = storage) ∧
      (r.m_enabled = true →
        (∀ j, mapContains q.storage.m_glyph_guard j =
          (mapContains storage.m_glyph_guard j || decide (j ∈ r.m_range))) ∧
        (∀ g ∈ q.dispatched, g.m_unicode ∈ r.m_range ∧
          mapContains storage.m_glyph_guard g.m_unicode = false ∧
          ∃ before face after, src = before ++ face :: after ∧
            face.renderGlyph g.m_unicode target_size = some g ∧
            ∀ f ∈ before, f.renderGlyph g.m_unicode target_size = none) ∧
        ∀ c g, c ∈ r.m_range → mapContains storage.m_glyph_guard c = false →
          src.findSome? (fun ii => ii.renderGlyph c target_size) = some g →
          q.dispatched.filter (fun d => decide (d.m_unicode = c)) = [g]) := by
  unfold GlyphRange.queue
  cases he : r.m_enabled with
  | false =>
    simp only [Bool.not_false, if_true]
    exact ⟨_, rfl, rfl, fun _ => ⟨rfl, rfl, rfl⟩, fun h => Bool.noConfusion h⟩
  | true =>
    simp only [Bool.not_true, Bool.false_eq_true, if_false]
    obtain ⟨q', D, hq', hguard, hdisp, hret, hmem, honce⟩ :=
      queueLoop_spec src target_size crunch g_verbose sched r.m_range 0
        { storage := storage, pending := pending, dispatched := [], missing := [], ret := 0 }
        h1 h0 h2
    simp only [List.nil_append, Nat.zero_add] at hdisp hret
    refine ⟨q', hq', (by rw [hret, hdisp]), fun h => Bool.noConfusion h,
      fun _ => ⟨hguard, ?_, ?_⟩⟩
    · intro g hg
      rw [hdisp] at hg
      obtain ⟨m1, m2, m3⟩ := hmem g hg
      refine ⟨m1, m2, ?_⟩
      obtain ⟨before, face, after, hsplit, hface, hbefore⟩ := List.findSome?_eq_some_iff.mp m3
      exact ⟨before, face, after, hsplit, hface, hbefore⟩
    · intro c g hc hm hr
      rw [hdisp]
      exact honce c g hc hm hr

theorem queue_dispatches_first_rendering_face_witness :
    ∃ q, (GlyphRange.mk [65, 66, 67] true).queue (GlyphStorage.new 1)
        [⟨fun u _ => if u = 65 then some (FtGlyph.mk 0 [] 0 0 0 0 0 0 0) else none⟩,
         ⟨fun u _ => if u ≤ 66 then some (FtGlyph.mk 1 [] 0 0 0 0 0 0 0) else none⟩] 48
        (fun _ => ([], 0, 0)) false (fun _ => 0) [] = some q ∧
      q.ret = q.dispatched.length := by
  obtain ⟨q, hq, hret, _⟩ := queue_dispatches_first_rendering_face
    (GlyphRange.mk [65, 66, 67] true) (GlyphStorage.new 1)
    [⟨fun u _ => if u = 65 then some (FtGlyph.mk 0 [] 0 0 0 0 0 0 0) else none⟩,
     ⟨fun u _ => if u ≤ 66 then some (FtGlyph.mk 1 [] 0 0 0 0 0 0 0) else none⟩] 48
    (fun _ => ([], 0, 0)) false (fun _ => 0) [] rfl (by decide) (fun g hg => by cases hg)
  exact ⟨q, hq, hret⟩

/-- C23, the failing inputs: with one face that renders 65, a first request for the range
`[65, 66]` dispatches 65 and reports 66 missing; a later request for the range `[65]` on the
same storage finds 65 marked, leaves the glyph pointer null and reports 65 missing, although
the face rendered it.  The same happens inside one request for the range `[65, 65]`. -/
theorem missing_reported_for_rendered_code_point :
    ((GlyphRange.mk [65, 66] true).queue (GlyphStorage.new 1)
        [⟨fun u _ => if u = 65 then some (FtGlyph.mk 0 [] 0 0 0 0 0 0 0) else none⟩] 48
        (fun _ => ([], 0, 0)) true (fun _ => 0) []).map
      (fun q => (q.dispatched.map (fun g => g.m_unicode), q.missing)) = some ([65], [66]) ∧
    (((GlyphRange.mk [65, 66] true).queue (GlyphStorage.new 1)
        [⟨fun u _ => if u = 65 then some (FtGlyph.mk 0 [] 0 0 0 0 0 0 0) else none⟩] 48
        (fun _ => ([], 0, 0)) true (fun _ => 0) []).bind (fun q1 =>
      (GlyphRange.mk [65] true).queue q1.storage
        [⟨fun u _ => if u = 65 then some (FtGlyph.mk 0 [] 0 0 0 0 0 0 0) else none⟩] 48
        (fun _ => ([], 0, 0)) true (fun _ => 0) q1.pending)).map
      (fun q => (q.dispatched.map (fun g => g.m_unicode), q.missing)) = some ([], [65]) ∧
    ((GlyphRange.mk [65, 65] true).queue (GlyphStorage.new 1)
        [⟨fun u _ => if u = 65 then some (FtGlyph.mk 0 [] 0 0 0 0 0 0 0) else none⟩] 48
        (fun _ => ([], 0, 0)) true (fun _ => 0) []).map
      (fun q => (q.dispatched.map (fun g => g.m_unicode), q.missing)) = some ([65], [65]) := by
  decide

/-! ### C32, C33: the rule of `storeAttempt` -/

/-- C32. A fresh fitter holds the best tuple `(0, 0.0, 0, 0)`; in every state,
`storeAttempt(c, u, w, h)` replaces the best tuple by `(c, u, w, h)` when `c >= best_count`
and `u > best_usage`, and otherwise leaves the fitter as it is; `m_max_size` is never
touched. -/
theorem storeAttempt_replaces_exactly_when_rule_holds (pmax : Nat) (slf : SkyLineFitter)
    (c : Nat) (u : ℚ) (w h : Nat) :
    ((SkyLineFitter.new pmax).m_best_count = 0 ∧ (SkyLineFitter.new pmax).m_best_usage = 0 ∧
      (SkyLineFitter.new pmax).m_best_width = 0 ∧ (SkyLineFitter.new pmax).m_best_height = 0) ∧
    (c ≥ slf.m_best_count ∧ u > slf.m_best_usage →
      (slf.storeAttempt c u w h).m_best_count = c ∧
      (slf.storeAttempt c u w h).m_best_usage = u ∧
      (slf.storeAttempt c u w h).m_best_width = w ∧
      (slf.storeAttempt c u w h).m_best_height = h) ∧
    (¬ (c ≥ slf.m_best_count ∧ u > slf.m_best_usage) → slf.storeAttempt c u w h = slf) ∧
    (slf.storeAttempt c u w h).m_max_size = slf.m_max_size := by
  refine ⟨⟨rfl, rfl, rfl, rfl⟩, ?_, ?_, ?_⟩
  · intro hc
    unfold SkyLineFitter.storeAttempt
    rw [if_pos hc]
    exact ⟨rfl, rfl, rfl, rfl⟩
  · intro hc
    unfold SkyLineFitter.storeAttempt
    rw [if_neg hc]
  · unfold SkyLineFitter.storeAttempt
    split <;> rfl

/-- C33, the counterexample: the attempts `(1, 1, 4, 8)` and `(2, 33/64, 8, 8)` stored in the
two possible orders leave two different best tuples: the first one stored is kept. -/
theorem best_tuple_depends_on_order :
    (SkyLineFitter.new 8).storeAll [⟨1, 1, 4, 8⟩, ⟨2, 33 / 64, 8, 8⟩] = ⟨8, 1, 1, 4, 8⟩ ∧
    (SkyLineFitter.new 8).storeAll [⟨2, 33 / 64, 8, 8⟩, ⟨1, 1, 4, 8⟩] =
      ⟨8, 2, 33 / 64, 8, 8⟩ ∧
    (SkyLineFitter.mk 8 1 1 4 8).m_best_count ≠ (SkyLineFitter.mk 8 2 (33 / 64) 8 8).m_best_count
    := by
  refine ⟨?_, ?_, by decide⟩
  · simp only [SkyLineFitter.storeAll, List.foldl_cons, List.foldl_nil,
      SkyLineFitter.storeAttempt, SkyLineFitter.new]
    norm_num
  · simp only [SkyLineFitter.storeAll, List.foldl_cons, List.foldl_nil,
      SkyLineFitter.storeAttempt, SkyLineFitter.new]
    norm_num

theorem storeAll_keeps_dominating (a : FitAttempt) (attempts : List FitAttempt) :
    ∀ slf : SkyLineFitter,
      (∀ b ∈ attempts, b.pcount ≤ a.pcount ∧ (b ≠ a → b.pusage < a.pusage)) →
      ((slf.m_best_count ≤ a.pcount ∧ slf.m_best_usage < a.pusage ∧ a ∈ attempts) ∨
        (slf.m_best_count = a.pcount ∧ slf.m_best_usage = a.pusage ∧
          slf.m_best_width = a.pw ∧ slf.m_best_height = a.ph)) →
      (slf.storeAll attempts).m_best_count = a.pcount ∧
      (slf.storeAll attempts).m_best_usage = a.pusage ∧
      (slf.storeAll attempts).m_best_width = a.pw ∧
      (slf.storeAll attempts).m_best_height = a.ph ∧
      (slf.storeAll attempts).m_max_size = slf.m_max_size := by
  induction attempts with
  | nil =>
    intro slf _ h
    rcases h with ⟨_, _, hmem⟩ | h
    · cases hmem
    · exact ⟨h.1, h.2.1, h.2.2.1, h.2.2.2, rfl⟩
  | cons b rest ih =>
    intro slf hdom h
    rw [storeAll_cons]
    obtain ⟨hb1, hb2⟩ := hdom b (List.mem_cons_self _ _)
    have hdom' : ∀ c ∈ rest, c.pcount ≤ a.pcount ∧ (c ≠ a → c.pusage < a.pusage) :=
      fun c hc => hdom c (List.mem_cons_of_mem _ hc)
    have hmax : (slf.storeAttempt b.pcount b.pusage b.pw b.ph).m_max_size = slf.m_max_size := by
      unfold SkyLineFitter.storeAttempt
      split <;> rfl
    rcases storeAttempt_cases slf b with ⟨hc1, hc2, hst⟩ | ⟨hnot, hst⟩
    · -- `b` is stored
      rw [hst]
      rcases h with ⟨h1, h2, hmem⟩ | ⟨h1, h2, h3, h4⟩
      · by_cases hba : b = a
        · have := ih { slf with m_best_count := b.pcount, m_best_usage := b.pusage,
                                m_best_width := b.pw, m_best_height := b.ph } hdom'
            (Or.inr (by rw [hba]; exact ⟨rfl, rfl, rfl, rfl⟩))
          exact this
        · have hmem' : a ∈ rest := by
            rcases List.mem_cons.mp hmem with h | h
            · exact absurd h.symm hba
            · exact h
          exact ih { slf with m_best_count := b.pcount, m_best_usage := b.pusage,
                              m_best_width := b.pw, m_best_height := b.ph } hdom'
            (Or.inl ⟨hb1, hb2 hba, hmem'⟩)
      · -- the best tuple is already `a`: `b` needs a greater utilization
        exfalso
        by_cases hba : b = a
        · rw [hba, h2] at hc2
          exact lt_irrefl _ hc2
        · have := hb2 hba
          rw [h2] at hc2
          exact lt_irrefl _ (lt_trans hc2 this)
    · rw [hst]
      rcases h with ⟨h1, h2, hmem⟩ | h
      · have hba : b ≠ a := by
          intro hba
          apply hnot
          rw [hba]
          exact ⟨h1, h2⟩
        have hmem' : a ∈ rest := by
          rcases List.mem_cons.mp hmem with h | h
          · exact absurd h.symm hba
          · exact h
        exact ih slf hdom' (Or.inl ⟨h1, h2, hmem'⟩)
      · exact ih slf hdom' (Or.inr h)

/-- C33, amended. When one of the attempts has a count at least the count of every attempt
and a positive utilization greater than the utilization of every other attempt, the best
tuple after storing all attempts is that attempt, in whatever order they are stored. -/
theorem best_tuple_of_dominating_attempt (pmax : Nat) (a : FitAttempt)
    (attempts order : List FitAttempt) (hperm : order.Perm attempts) (ha : a ∈ attempts)
    (hpos : 0 < a.pusage)
    (hdom : ∀ b ∈ attempts, b.pcount ≤ a.pcount ∧ (b ≠ a → b.pusage < a.pusage)) :
    (SkyLineFitter.new pmax).storeAll order = ⟨pmax, a.pcount, a.pusage, a.pw, a.ph⟩ ∧
    (SkyLineFitter.new pmax).storeAll order = (SkyLineFitter.new pmax).storeAll attempts := by
  have key : ∀ l : List FitAttempt, l.Perm attempts →
      (SkyLineFitter.new pmax).storeAll l = ⟨pmax, a.pcount, a.pusage, a.pw, a.ph⟩ := by
    intro l hl
    obtain ⟨h1, h2, h3, h4, h5⟩ := storeAll_keeps_dominating a l (SkyLineFitter.new pmax)
      (fun b hb => hdom b (hl.mem_iff.mp hb))
      (Or.inl ⟨Nat.zero_le _, hpos, hl.mem_iff.mpr ha⟩)
    cases hs : (SkyLineFitter.new pmax).storeAll l with
    | mk m c u w h =>
      rw [hs] at h1 h2 h3 h4 h5
      simp only at h1 h2 h3 h4 h5
      rw [h1, h2, h3, h4, h5]
      rfl
  exact ⟨key order hperm, by rw [key order hperm, key attempts (List.Perm.refl _)]⟩

theorem best_tuple_of_dominating_attempt_witness :
    (SkyLineFitter.new 8).storeAll [⟨1, 1 / 2, 4, 8⟩, ⟨2, 3 / 4, 8, 8⟩] =
      ⟨8, 2, 3 / 4, 8, 8⟩ ∧
    (SkyLineFitter.new 8).storeAll [⟨1, 1 / 2, 4, 8⟩, ⟨2, 3 / 4, 8, 8⟩] =
      (SkyLineFitter.new 8).storeAll [⟨2, 3 / 4, 8, 8⟩, ⟨1, 1 / 2, 4, 8⟩] :=
  best_tuple_of_dominating_attempt 8 ⟨2, 3 / 4, 8, 8⟩ [⟨2, 3 / 4, 8, 8⟩, ⟨1, 1 / 2, 4, 8⟩]
    [⟨1, 1 / 2, 4, 8⟩, ⟨2, 3 / 4, 8, 8⟩] (List.Perm.swap _ _ _) (List.mem_cons_self _ _)
    (by norm_num) (by
      intro b hb
      simp only [List.mem_cons, List.mem_singleton, List.not_mem_nil, or_false] at hb
      rcases hb with rfl | rfl
      · exact ⟨le_refl _, fun h => absurd rfl h⟩
      · exact ⟨by decide, fun _ => by norm_num⟩)

/-! ### C31: area balance for glyphs of non-zero area -/

/-- Area balance of the `fitAll` loop over glyphs of non-zero area, whatever the storage of the
locations held before construction: the contour sum grows by the growth of the wasted counter
plus the area of the placed locations, and every placed location has the size of its glyph. -/
theorem fitAllLoop_balance_nonzero (pidx : Nat) (glst : Bool) (gs : List FtGlyphSptr) :
    ∀ (s : SkyLine) (xmlfile : Option XmlFile) (raw : Nat → SkyLineLocation)
      (r : SkyLine.FitAllResult),
      s.m_line.length = s.m_width → s.m_width < 4294967296 →
      (∀ g, some g ∈ gs → g.m_bitmap_w < 4294967296) →
      (∀ g, some g ∈ gs → g.m_bitmap_w ≠ 0 ∧ g.m_bitmap_h ≠ 0) →
      SkyLine.fitAllLoop pidx glst s xmlfile raw gs = some r →
      r.sky.m_width = s.m_width ∧
      ∑ i in Finset.range s.m_width, r.sky.m_line.getD i 0 + s.m_wasted =
        ∑ i in Finset.range s.m_width, s.m_line.getD i 0 + r.sky.m_wasted +
          (r.placed.map (fun loc => loc.m_width * loc.m_height)).sum ∧
      (r.placed.map (fun loc => loc.m_width * loc.m_height)).sum =
        ((gs.take r.ret).map (fun e =>
          match e with
          | some g => g.m_bitmap_w * g.m_bitmap_h
          | none => 0)).sum := by
  induction gs with
  | nil =>
    intro s xmlfile raw r _ _ _ _ hr
    simp only [SkyLine.fitAllLoop, Option.some.injEq] at hr
    subst hr
    simp
  | cons e rest ih =>
    intro s xmlfile raw r hlen hW hw32 hnz hr
    cases e with
    | none => simp [SkyLine.fitAllLoop] at hr
    | some gly =>
      cases hvalid : (s.fit gly (raw 0)).m_valid with
      | false =>
        rw [fitAllLoop_cons_invalid pidx glst s xmlfile raw gly rest hvalid] at hr
        simp only [Option.some.injEq] at hr
        subst hr
        simp
      | true =>
        rw [fitAllLoop_cons_valid pidx glst s xmlfile raw gly rest hvalid] at hr
        obtain ⟨r', hr', hmap⟩ := Option.map_eq_some'.mp hr
        subst hmap
        obtain ⟨hin, htop⟩ := fit_valid_on_top s gly (raw 0) hW
          (hw32 gly (List.mem_cons_self _ _)) hvalid
        obtain ⟨hgw, hgh⟩ := hnz gly (List.mem_cons_self _ _)
        obtain ⟨k, cur, heq, _, _, _⟩ := fit_valid_nonzero s gly (raw 0) hW
          (hw32 gly (List.mem_cons_self _ _)) hgw hgh hvalid
        have hwst : (s.fit gly (raw 0)).m_wasted = s.getWastedSpace (s.fit gly (raw 0)) := by
          rw [heq]
          rfl
        have harea : (s.fit gly (raw 0)).m_width * (s.fit gly (raw 0)).m_height =
            gly.m_bitmap_w * gly.m_bitmap_h := by
          rw [heq]
          rfl
        have hsum := allocate_line_sum s (s.fit gly (raw 0)) hlen hin htop
        obtain ⟨hl, hwd⟩ := fitAllWrite_line pidx glst (s.allocate (s.fit gly (raw 0))) xmlfile
          (s.fit gly (raw 0)) gly
        have hws := fitAllWrite_wasted pidx glst (s.allocate (s.fit gly (raw 0))) xmlfile
          (s.fit gly (raw 0)) gly
        obtain ⟨h1, h2, h3⟩ := ih _ _ _ r' (by rw [hl, hwd, allocate_line_length]; exact hlen)
          (by rw [hwd]; exact hW) (fun g hg => hw32 g (List.mem_cons_of_mem _ hg))
          (fun g hg => hnz g (List.mem_cons_of_mem _ hg)) hr'
        rw [hwd] at h1 h2
        rw [hl, hws] at h2
        have hw' : (s.allocate (s.fit gly (raw 0))).m_wasted =
            s.m_wasted + (s.fit gly (raw 0)).m_wasted := rfl
        have hwidth : (s.allocate (s.fit gly (raw 0))).m_width = s.m_width := rfl
        rw [hwidth] at h1 h2
        refine ⟨h1, ?_, ?_⟩
        · simp only [List.map_cons, List.sum_cons]
          rw [hw'] at h2
          omega
        · simp only [List.map_cons, List.sum_cons, List.take_succ_cons]
          rw [h3, harea]

/-- C31. On a fresh `SkyLine(W, H_max)`, after `fitAll` over glyphs of non-zero area (that is,
after any run of fit-then-allocate steps), the sum of `line[i]` over all columns equals the
wasted counter plus the sum of `w * h` over the placed glyphs; hence, when something has been
placed (`used_height ≠ 0`), the utilization returned by `getUsage` is the placed glyph area
divided by `W * used_height`. -/
theorem contour_sum_is_wasted_plus_placed_area (W H_max : Nat) (glyphs : GlyphStorage)
    (xmlfile : Option XmlFile) (pidx : Nat) (glst : Bool) (raw : Nat → SkyLineLocation)
    (hW : W < 4294967296)
    (hw32 : ∀ g, some g ∈ glyphs.m_glyphs → g.m_bitmap_w < 4294967296)
    (hnn : ∀ e ∈ glyphs.m_glyphs, e ≠ none)
    (hnz : ∀ g, some g ∈ glyphs.m_glyphs → g.m_bitmap_w ≠ 0 ∧ g.m_bitmap_h ≠ 0) :
    ∃ r, (SkyLine.new W H_max).fitAll glyphs xmlfile pidx glst raw = some r ∧
      r.sky.m_width = W ∧
      (r.placed.map (fun loc => loc.m_width * loc.m_height)).sum =
        ((glyphs.m_glyphs.take r.ret).map (fun e =>
          match e with
          | some g => g.m_bitmap_w * g.m_bitmap_h
          | none => 0)).sum ∧
      ∑ i in Finset.range W, r.sky.m_line.getD i 0 =
        r.sky.m_wasted + (r.placed.map (fun loc => loc.m_width * loc.m_height)).sum ∧
      (r.sky.getUsedHeight ≠ 0 →
        r.sky.getUsage =
          (((r.placed.map (fun loc => loc.m_width * loc.m_height)).sum : Nat) : ℚ) /
            ((W * r.sky.getUsedHeight : Nat) : ℚ)) := by
  obtain ⟨r, hr, _⟩ := fitAllLoop_first_failure pidx glst glyphs.m_glyphs (SkyLine.new W H_max)
    xmlfile raw hnn
  obtain ⟨hwd, hbal, harea⟩ := fitAllLoop_balance_nonzero pidx glst glyphs.m_glyphs
    (SkyLine.new W H_max) xmlfile raw r (by simp [SkyLine.new]) hW hw32 hnz hr
  have hzero : ∑ i in Finset.range (SkyLine.new W H_max).m_width,
      (SkyLine.new W H_max).m_line.getD i 0 = 0 := by
    apply Finset.sum_eq_zero
    intro i _
    simp [SkyLine.new, List.getD_eq_getElem?_getD, List.getElem?_replicate]
    split <;> rfl
  have huw := getUsageWasted_add_line_sum r.sky
  rw [hwd] at huw
  rw [hzero] at hbal
  have hw0 : (SkyLine.new W H_max).m_wasted = 0 := rfl
  have hWW : (SkyLine.new W H_max).m_width = W := rfl
  rw [hw0, hWW] at hbal
  rw [hWW] at huw hwd
  have hbal' : ∑ i in Finset.range W, r.sky.m_line.getD i 0 =
      r.sky.m_wasted + (r.placed.map (fun loc => loc.m_width * loc.m_height)).sum := by
    omega
  refine ⟨r, hr, hwd, harea, hbal', ?_⟩
  intro hused
  have hW0 : 0 < W := by
    rcases Nat.eq_zero_or_pos W with h0 | h0
    · exfalso
      apply hused
      unfold SkyLine.getUsedHeight
      rw [hwd, h0]
      rfl
    · exact h0
  have hpos : (0 : ℚ) < ((W * r.sky.getUsedHeight : Nat) : ℚ) := by
    have : 0 < W * r.sky.getUsedHeight := Nat.mul_pos hW0 (Nat.pos_of_ne_zero hused)
    exact_mod_cast this
  have hnat : r.sky.getUsageWasted +
      (r.placed.map (fun loc => loc.m_width * loc.m_height)).sum =
      W * r.sky.getUsedHeight := by omega
  have hq : (r.sky.getUsageWasted : ℚ) +
      (((r.placed.map (fun loc => loc.m_width * loc.m_height)).sum : Nat) : ℚ) =
      ((W * r.sky.getUsedHeight : Nat) : ℚ) := by
    exact_mod_cast hnat
  unfold SkyLine.getUsage
  simp only []
  rw [if_neg hused, hwd]
  rw [eq_div_iff (ne_of_gt hpos), sub_mul, one_mul, div_mul_cancel₀ _ (ne_of_gt hpos)]
  linarith

/-! ### C34: the dispatch loop of the fitter -/

theorem queueDispatch_multiple (m : Nat) :
    ∀ k fuel : Nat, k ≤ fuel →
      SkyLineFitter.queueDispatch m fuel (4 * k) =
        some ((List.range k).map (fun (j : Nat) => (4 * k - 4 * j, m))) := by
  intro k
  induction k with
  | zero =>
    intro fuel _
    unfold SkyLineFitter.queueDispatch
    simp
  | succ k ih =>
    intro fuel hf
    cases fuel with
    | zero => omega
    | succ fuel =>
      unfold SkyLineFitter.queueDispatch
      rw [if_pos (by omega)]
      simp only []
      have hsub : usub (4 * (k + 1)) SkyLine.SIZE_STEP = 4 * k := by
        unfold usub SkyLine.SIZE_STEP
        rw [if_pos (by omega)]
        omega
      rw [hsub, ih fuel (by omega)]
      simp only [Option.map_some', Option.some.injEq]
      rw [List.range_succ_eq_map, List.map_cons, List.map_map]
      refine congrArg₂ _ rfl ?_
      apply List.map_congr_left
      intro j hj
      simp only [Function.comp_apply, Prod.mk.injEq, and_true]
      have := List.mem_range.mp hj
      omega

theorem contour_sum_is_wasted_plus_placed_area_witness :
    ∃ r, (SkyLine.new 4 8).fitAll
        ⟨[some (FtGlyph.mk 65 [1, 1, 1, 1, 1, 1] 2 3 0 0 0 0 0),
          some (FtGlyph.mk 66 [1, 1] 1 2 0 0 0 0 0)], [], 0, 0, false⟩ none 0 true
        (fun _ => ⟨0, 0, 0, 0, 7, false⟩) = some r ∧
      r.sky.m_width = 4 ∧
      (r.placed.map (fun loc => loc.m_width * loc.m_height)).sum =
        ((List.take r.ret [some (FtGlyph.mk 65 [1, 1, 1, 1, 1, 1] 2 3 0 0 0 0 0),
          some (FtGlyph.mk 66 [1, 1] 1 2 0 0 0 0 0)]).map (fun e =>
          match e with
          | some g => g.m_bitmap_w * g.m_bitmap_h
          | none => 0)).sum ∧
      ∑ i in Finset.range 4, r.sky.m_line.getD i 0 =
        r.sky.m_wasted + (r.placed.map (fun loc => loc.m_width * loc.m_height)).sum ∧
      (r.sky.getUsedHeight ≠ 0 →
        r.sky.getUsage =
          (((r.placed.map (fun loc => loc.m_width * loc.m_height)).sum : Nat) : ℚ) /
            ((4 * r.sky.getUsedHeight : Nat) : ℚ)) := by
  apply contour_sum_is_wasted_plus_placed_area 4 8 _ none 0 true _ (by decide)
  · intro g hg
    simp only [List.mem_cons, Option.some.injEq, List.mem_singleton, List.not_mem_nil,
      or_false] at hg
    rcases hg with rfl | rfl <;> decide
  · intro e he
    simp only [List.mem_cons, List.mem_singleton, List.not_mem_nil, or_false] at he
    rcases he with rfl | rfl <;> simp
  · intro g hg
    simp only [List.mem_cons, Option.some.injEq, List.mem_singleton, List.not_mem_nil,
      or_false] at hg
    rcases hg with rfl | rfl <;> decide

/-- C34. For every `max_size`, `SkyLineFitter::queue` stores `m = max_size - max_size % 4`,
the greatest multiple of 4 not above `max_size`; its loop, given at least `m / 4` turns, ends
and has dispatched the tasks `(m, m), (m - 4, m), ..., (4, m)` in this order: one task for every
positive multiple of 4 up to `m`, each once, all with ceiling height `m`, and none when
`m = 0`. -/
theorem queue_dispatches_each_width_once (pmax : Nat) :
    ∃ m, m = pmax - pmax % 4 ∧ (SkyLineFitter.new pmax).queue.1.m_max_size = m ∧
      m % 4 = 0 ∧ m ≤ pmax ∧ pmax < m + 4 ∧
      (∀ fuel, m / 4 ≤ fuel →
        SkyLineFitter.queueDispatch m fuel m = some (SkyLineFitter.new pmax).queue.2) ∧
      (SkyLineFitter.new pmax).queue.2 =
        (List.range (m / 4)).map (fun (j : Nat) => (m - 4 * j, m)) ∧
      (∀ w h, (w, h) ∈ (SkyLineFitter.new pmax).queue.2 ↔
        (0 < w ∧ w ≤ m ∧ w % 4 = 0 ∧ h = m)) ∧
      ((SkyLineFitter.new pmax).queue.2.map Prod.fst).Nodup ∧
      (m = 0 → (SkyLineFitter.new pmax).queue.2 = []) := by
  have hq : (SkyLineFitter.new pmax).queue.2 =
      (List.range ((pmax - pmax % 4) / 4)).map
        (fun (j : Nat) => (pmax - pmax % 4 - 4 * j, pmax - pmax % 4)) := rfl
  have hm4 : (pmax - pmax % 4) % 4 = 0 := by omega
  have hmk : 4 * ((pmax - pmax % 4) / 4) = pmax - pmax % 4 := by omega
  refine ⟨pmax - pmax % 4, rfl, rfl, hm4, by omega, by omega, ?_, hq, ?_, ?_, ?_⟩
  · intro fuel hf
    have := queueDispatch_multiple (pmax - pmax % 4) ((pmax - pmax % 4) / 4) fuel hf
    rw [hmk] at this
    rw [this, hq]
  · intro w h
    rw [hq]
    simp only [List.mem_map, List.mem_range, Prod.mk.injEq]
    constructor
    · rintro ⟨j, hj, hw, hh⟩
      refine ⟨by omega, by omega, by omega, hh.symm⟩
    · rintro ⟨h0, hle, h4, hh⟩
      exact ⟨(pmax - pmax % 4 - w) / 4, by omega, by omega, hh.symm⟩
  · rw [hq, List.map_map]
    apply List.Nodup.map_on _ (List.nodup_range _)
    intro x hx y hy hxy
    simp only [Function.comp_apply] at hxy
    have := List.mem_range.mp hx
    have := List.mem_range.mp hy
    omega
  · intro h0
    rw [hq, h0]
    rfl

/-! ### C35: `fitAll` without an XML sink -/

theorem fitAllLoop_frame_none (pidx : Nat) (glst : Bool) (gs : List FtGlyphSptr) :
    ∀ (s : SkyLine) (raw : Nat → SkyLineLocation) (r : SkyLine.FitAllResult),
      SkyLine.fitAllLoop pidx glst s none raw gs = some r →
      r.sky.m_max_height = s.m_max_height ∧ r.sky.m_bitmap = s.m_bitmap := by
  induction gs with
  | nil =>
    intro s raw r hr
    simp only [SkyLine.fitAllLoop, Option.some.injEq] at hr
    subst hr
    exact ⟨rfl, rfl⟩
  | cons e rest ih =>
    intro s raw r hr
    cases e with
    | none => simp [SkyLine.fitAllLoop] at hr
    | some gly =>
      cases hvalid : (s.fit gly (raw 0)).m_valid with
      | false =>
        rw [fitAllLoop_cons_invalid pidx glst s none raw gly rest hvalid] at hr
        simp only [Option.some.injEq] at hr
        subst hr
        exact ⟨rfl, rfl⟩
      | true =>
        rw [fitAllLoop_cons_valid pidx glst s none raw gly rest hvalid] at hr
        obtain ⟨r', hr', hmap⟩ := Option.map_eq_some'.mp hr
        subst hmap
        obtain ⟨h1, h2⟩ := ih _ _ r' hr'
        exact ⟨h1, h2⟩

/-- C35. `fitAll` called without an XML sink on a storage without null entries returns, and
leaves the storage vector as it was (same length, same order, every glyph with every field
unchanged) and the sink absent; of the skyline only the contour and the wasted counter can
change: width, ceiling height and atlas bitmap are as before. -/
theorem fitAll_without_sink_keeps_storage (s : SkyLine) (glyphs : GlyphStorage) (pidx : Nat)
    (glst : Bool) (raw : Nat → SkyLineLocation) (hnn : ∀ e ∈ glyphs.m_glyphs, e ≠ none) :
    ∃ r, s.fitAll glyphs none pidx glst raw = some r ∧
      r.glyphs = glyphs.m_glyphs ∧ r.xmlfile = none ∧
      r.sky.m_width = s.m_width ∧ r.sky.m_max_height = s.m_max_height ∧
      r.sky.m_bitmap = s.m_bitmap := by
  obtain ⟨r, hr, _⟩ := fitAllLoop_first_failure pidx glst glyphs.m_glyphs s none raw hnn
  obtain ⟨hg, hx⟩ := (fitAllLoop_storage pidx glst glyphs.m_glyphs s none raw r hr).1 rfl
  obtain ⟨hm, hb⟩ := fitAllLoop_frame_none pidx glst glyphs.m_glyphs s raw r hr
  exact ⟨r, hr, hg, hx, fitAllLoop_width pidx glst glyphs.m_glyphs s none raw r hr, hm, hb⟩

theorem fitAll_without_sink_keeps_storage_witness :
    ∃ r, (SkyLine.new 4 8).fitAll
        ⟨[some (FtGlyph.mk 65 [1, 1, 1, 1, 1, 1] 2 3 0 0 0 0 0),
          some (FtGlyph.mk 66 [1, 1] 1 2 0 0 0 0 0)], [], 0, 0, false⟩ none 0 true
        (fun _ => ⟨0, 0, 0, 0, 0, false⟩) = some r ∧
      r.glyphs = [some (FtGlyph.mk 65 [1, 1, 1, 1, 1, 1] 2 3 0 0 0 0 0),
          some (FtGlyph.mk 66 [1, 1] 1 2 0 0 0 0 0)] ∧ r.xmlfile = none ∧
      r.sky.m_width = 4 ∧ r.sky.m_max_height = 8 ∧ r.sky.m_bitmap = none :=
  fitAll_without_sink_keeps_storage (SkyLine.new 4 8) _ 0 true _ (by
    intro e he
    simp only [List.mem_cons, List.mem_singleton, List.not_mem_nil, or_false] at he
    rcases he with rfl | rfl <;> simp)

/-! ### C36, C37: the distance-field byte -/

theorem fdist_eq_natAbs (ii jj px py : Int) :
    fdist ii jj px py = (((ii - px).natAbs + (jj - py).natAbs : Nat) : ℚ) := by
  unfold fdist
  simp only []
  have : (px - ii).natAbs + (py - jj).natAbs = (ii - px).natAbs + (jj - py).natAbs := by omega
  rw [this]

/-- The search never ends below zero: its result is `FLT_MAX` or a Manhattan distance. -/
theorem searchClosest_nonneg (bitmap : FT_Bitmap) (px py search : Int) (inside : Bool) :
    0 ≤ searchClosest bitmap px py search inside := by
  rw [searchClosest_eq_fold]
  rcases (searchStep_fold bitmap px py inside _ FLT_MAX).2.2 with h | ⟨p, _, _, h⟩
  · rw [h]
    unfold FLT_MAX
    norm_num
  · rw [h, fdist_eq_natAbs]
    exact Nat.cast_nonneg _

theorem lround_nonneg_eq (x : ℚ) (h : 0 ≤ x) : lround x = ⌊x + 1 / 2⌋ := by
  unfold lround
  rw [if_pos h]

/-- Rounding of `v * 255` for `v` in `[0, 1]`: a byte, at least 128 above one half, at most 127
below one half. -/
theorem lround_byte_bounds (v : ℚ) (h0 : 0 ≤ v) (h1 : v ≤ 1) :
    0 ≤ lround (v * 255) ∧ lround (v * 255) ≤ 255 ∧
    (1 / 2 < v → 128 ≤ lround (v * 255)) ∧ (v < 1 / 2 → lround (v * 255) ≤ 127) := by
  have hx : 0 ≤ v * 255 := by positivity
  rw [lround_nonneg_eq _ hx]
  refine ⟨?_, ?_, ?_, ?_⟩
  · apply Int.floor_nonneg.mpr
    linarith
  · have : ⌊v * 255 + 1 / 2⌋ < 256 := by
      apply Int.floor_lt.mpr
      push_cast
      linarith
    omega
  · intro h
    apply Int.le_floor.mpr
    push_cast
    linarith
  · intro h
    have : ⌊v * 255 + 1 / 2⌋ < 128 := by
      apply Int.floor_lt.mpr
      push_cast
      linarith
    omega

/-- The value computed by `get_ftbitmap_dfield_value` before rounding lies in `(1/2, 1]` for an
inside sample and in `[0, 1/2)` for an outside sample. -/
theorem dfield_value_range (closest scale : ℚ) (hc : 0 ≤ closest) (hs : 0 < scale) :
    (1 / 2 < min (1 / 2 + (closest + 1 / 2) * scale) 1 ∧
      min (1 / 2 + (closest + 1 / 2) * scale) 1 ≤ 1) ∧
    (0 ≤ max (1 / 2 - (closest + 1 / 2) * scale) 0 ∧
      max (1 / 2 - (closest + 1 / 2) * scale) 0 < 1 / 2) := by
  have hpos : 0 < (closest + 1 / 2) * scale := by positivity
  refine ⟨⟨?_, min_le_right _ _⟩, ⟨le_max_right _ _, ?_⟩⟩
  · apply lt_min
    · linarith
    · norm_num
  · apply max_lt
    · linarith
    · norm_num

/-- The byte returned by `get_ftbitmap_dfield_value` in terms of the result of the search. -/
theorem dfield_byte_eq (bitmap : FT_Bitmap) (px py search : Int) (scale : ℚ) (hs : 0 < scale) :
    ((get_ftbitmap_dfield_value bitmap px py search scale : Nat) : Int) =
      lround (255 * (if get_ftbitmap_value bitmap px py
        then min (1 / 2 +
          (searchClosest bitmap px py search (get_ftbitmap_value bitmap px py) + 1 / 2) * scale) 1
        else max (1 / 2 -
          (searchClosest bitmap px py search (get_ftbitmap_value bitmap px py) + 1 / 2) * scale)
            0)) ∧
    (get_ftbitmap_value bitmap px py = true →
      128 ≤ get_ftbitmap_dfield_value bitmap px py search scale ∧
      get_ftbitmap_dfield_value bitmap px py search scale ≤ 255) ∧
    (get_ftbitmap_value bitmap px py = false →
      get_ftbitmap_dfield_value bitmap px py search scale ≤ 127) := by
  unfold get_ftbitmap_dfield_value
  simp only []
  cases hv : get_ftbitmap_value bitmap px py with
  | true =>
    simp only [if_true]
    obtain ⟨⟨ha, hb⟩, _⟩ := dfield_value_range (searchClosest bitmap px py search true) scale
      (searchClosest_nonneg _ _ _ _ _) hs
    obtain ⟨b0, b1, b2, _⟩ := lround_byte_bounds _ (by linarith) hb
    have b2' := b2 ha
    rw [mul_comm (255 : ℚ)]
    refine ⟨by omega, fun _ => ⟨by omega, by omega⟩, fun h => Bool.noConfusion h⟩
  | false =>
    simp only [Bool.false_eq_true, if_false]
    obtain ⟨_, ⟨ha, hb⟩⟩ := dfield_value_range (searchClosest bitmap px py search false) scale
      (searchClosest_nonneg _ _ _ _ _) hs
    obtain ⟨b0, b1, _, b3⟩ := lround_byte_bounds _ ha (by linarith)
    have b3' := b3 hb
    rw [mul_comm (255 : ℚ)]
    refine ⟨by omega, fun h => False.elim h, fun _ => by omega⟩

/-- C37. For every bitmap, sample point, search radius and scale `> 0`, the distance-field
byte is `>= 128` if and only if the sampled source point is inside, that is, within the bitmap
with coverage `>= 128`. -/
theorem dfield_byte_ge_128_iff_inside (bitmap : FT_Bitmap) (px py R : Int) (scale : ℚ)
    (hs : 0 < scale) :
    (128 ≤ get_ftbitmap_dfield_value bitmap px py R scale ↔
      get_ftbitmap_value bitmap px py = true) ∧
    (get_ftbitmap_value bitmap px py = true ↔
      (0 ≤ px ∧ px < bitmap.width ∧ 0 ≤ py ∧ py < bitmap.rows ∧
        128 ≤ bitmap.buffer.getD (py.toNat * bitmap.width + px.toNat) 0)) := by
  obtain ⟨_, hin, hout⟩ := dfield_byte_eq bitmap px py R scale hs
  constructor
  · constructor
    · intro h
      cases hv : get_ftbitmap_value bitmap px py with
      | true => rfl
      | false =>
        have := hout hv
        omega
    · intro hv
      exact (hin hv).1
  · unfold get_ftbitmap_value
    simp only []
    by_cases h1 : px < 0 ∨ py < 0
    · rw [if_pos h1]
      constructor
      · intro h
        exact Bool.noConfusion h
      · rintro ⟨a, _, c, _, _⟩
        omega
    · rw [if_neg h1]
      by_cases h2 : px.toNat ≥ bitmap.width ∨ py.toNat ≥ bitmap.rows
      · rw [if_pos h2]
        constructor
        · intro h
          exact Bool.noConfusion h
        · rintro ⟨a, b, c, d, _⟩
          omega
      · rw [if_neg h2, decide_eq_true_eq]
        constructor
        · intro h
          refine ⟨by omega, by omega, by omega, by omega, by omega⟩
        · rintro ⟨_, _, _, _, e⟩
          omega

theorem dfield_byte_ge_128_iff_inside_witness :
    (0 : ℚ) < 1 / 4 ∧
    (128 ≤ get_ftbitmap_dfield_value ⟨1, 2, [255, 0]⟩ 0 0 1 (1 / 4) ↔
      get_ftbitmap_value ⟨1, 2, [255, 0]⟩ 0 0 = true) ∧
    (get_ftbitmap_value ⟨1, 2, [255, 0]⟩ 0 0 = true ↔
      ((0 : Int) ≤ 0 ∧ (0 : Int) < (FT_Bitmap.mk 1 2 [255, 0]).width ∧ (0 : Int) ≤ 0 ∧
        (0 : Int) < (FT_Bitmap.mk 1 2 [255, 0]).rows ∧
        128 ≤ (FT_Bitmap.mk 1 2 [255, 0]).buffer.getD
          ((0 : Int).toNat * (FT_Bitmap.mk 1 2 [255, 0]).width + (0 : Int).toNat) 0)) :=
  ⟨by norm_num, dfield_byte_ge_128_iff_inside ⟨1, 2, [255, 0]⟩ 0 0 1 (1 / 4) (by norm_num)⟩

/-- With the scale 1 the distance-field byte is the polarity of the sample: 255 inside and 0
outside. -/
theorem dfield_scale_one (bitmap : FT_Bitmap) (px py R : Int) :
    get_ftbitmap_dfield_value bitmap px py R 1 =
      if get_ftbitmap_value bitmap px py then 255 else 0 := by
  have h := (dfield_byte_eq bitmap px py R 1 (by norm_num)).1
  have hc := searchClosest_nonneg bitmap px py R (get_ftbitmap_value bitmap px py)
  cases hv : get_ftbitmap_value bitmap px py with
  | true =>
    rw [hv] at h hc
    simp only [if_true] at h ⊢
    rw [min_eq_right (by linarith),
      lround_eq_of_mem _ 255 (by norm_num) (by norm_num) (by norm_num)] at h
    exact_mod_cast h
  | false =>
    rw [hv] at h hc
    simp only [Bool.false_eq_true, if_false] at h ⊢
    rw [max_eq_right (by linarith),
      lround_eq_of_mem _ 0 (by norm_num) (by norm_num) (by norm_num)] at h
    exact_mod_cast h

/-! ### C17: the centre byte of the tile -/

/-- For a target size below 32768 no product of `crunch` before its loop wraps: the tile has
`(2 * target_size + 1)²` bytes and the centre is inside it. -/
theorem crunchInit_eq (bitmap : FT_Bitmap) (m_size m_target_size : Nat) (m_dropdown : ℚ)
    (ht : m_target_size < 32768) :
    crunchInit bitmap m_size m_target_size m_dropdown =
      some ((List.replicate ((m_target_size * 2 + 1) * (m_target_size * 2 + 1)) 0).set
        (m_target_size * (m_target_size * 2 + 1) + m_target_size)
        (get_ftbitmap_dfield_value bitmap ((bitmap.width / 2 : Nat) : Int)
          ((bitmap.rows / 2 : Nat) : Int) (crunchSearch m_size m_dropdown)
          (crunchDistScale m_size m_dropdown))) := by
  have hw : m_target_size * 2 + 1 ≤ 65535 := by omega
  have hsq : (m_target_size * 2 + 1) * (m_target_size * 2 + 1) ≤ 65535 * 65535 :=
    Nat.mul_le_mul hw hw
  have hc : m_target_size * (m_target_size * 2 + 1) + m_target_size <
      (m_target_size * 2 + 1) * (m_target_size * 2 + 1) := by nlinarith
  have h1 : (m_target_size * 2 + 1) % 4294967296 = m_target_size * 2 + 1 :=
    Nat.mod_eq_of_lt (by omega)
  have h2 : ((m_target_size * 2 + 1) * (m_target_size * 2 + 1)) % 4294967296 =
      (m_target_size * 2 + 1) * (m_target_size * 2 + 1) := Nat.mod_eq_of_lt (by omega)
  have h3 : (m_target_size * (m_target_size * 2 + 1) + m_target_size) % 4294967296 =
      m_target_size * (m_target_size * 2 + 1) + m_target_size := Nat.mod_eq_of_lt (by omega)
  unfold crunchInit
  simp only []
  rw [h1, h2, h3, if_pos hc]

theorem crunchInit_centre (bitmap : FT_Bitmap) (m_size m_target_size : Nat) (m_dropdown : ℚ)
    (ht : m_target_size < 32768) :
    (crunchInit bitmap m_size m_target_size m_dropdown).map (fun tile =>
        tile.getD (m_target_size * (m_target_size * 2 + 1) + m_target_size) 0) =
      some (get_ftbitmap_dfield_value bitmap ((bitmap.width / 2 : Nat) : Int)
        ((bitmap.rows / 2 : Nat) : Int) (crunchSearch m_size m_dropdown)
        (crunchDistScale m_size m_dropdown)) := by
  rw [crunchInit_eq bitmap m_size m_target_size m_dropdown ht]
  simp only [Option.map_some', Option.some.injEq]
  rw [getD_set, if_pos]
  refine ⟨rfl, ?_⟩
  rw [List.length_replicate]
  nlinarith

/-- C17, the counterexample: for the fully inside `1 × 1` bitmap, precalc size 8 and dropdown
1/2 (search radius 4, scale 1/8), the nearest outside point is the out-of-bounds neighbour at
distance 1, and the byte written at the tile centre `(1, 1)` of the `3 × 3` tile is 175, not
255.  And for the target size 32768, which `main` accepts, the tile size `65537 * 65537` wraps
to 131073 bytes while the centre index is 2147549184: the centre byte is written outside the
tile, whatever the bitmap. -/
theorem centre_byte_of_small_inside_bitmap :
    (∀ x y, x < 1 → y < 1 → 127 < ([255] : List Nat).getD (y * 1 + x) 0) ∧
    crunchSearch 8 (1 / 2) = 4 ∧
    (crunchInit ⟨1, 1, [255]⟩ 8 1 (1 / 2)).map (fun tile => tile.getD (1 * (1 * 2 + 1) + 1) 0) =
      some 175 ∧
    (65537 * 65537 % 4294967296 = 131073 ∧
      (32768 * 65537 + 32768) % 4294967296 = 2147549184) ∧
    crunchInit ⟨0, 0, []⟩ 2048 32768 (1 / 10) = none := by
  have hs : crunchSearch 8 (1 / 2) = 4 := by
    unfold crunchSearch ceil
    rw [Int.ceil_eq_iff]
    norm_num
  have hsc : crunchDistScale 8 (1 / 2) = 1 / 8 := by
    unfold crunchDistScale
    norm_num
  refine ⟨?_, hs, ?_, ⟨by decide, by decide⟩, ?_⟩
  · intro x y hx hy
    have hx0 : x = 0 := by omega
    have hy0 : y = 0 := by omega
    subst hx0 hy0
    decide
  · rw [crunchInit_centre _ _ _ _ (by decide), hs, hsc]
    have hin : get_ftbitmap_value ⟨1, 1, [255]⟩ ((((⟨1, 1, [255]⟩ : FT_Bitmap).width / 2 : Nat)
        : Int)) ((((⟨1, 1, [255]⟩ : FT_Bitmap).rows / 2 : Nat) : Int)) = true := by decide
    rw [dfield_adjacent_value _ _ _ (-1) 0 4 (1 / 8) (by decide) (by decide)
      (by rw [hin]; decide), hin]
    have : lround ((min (1 / 2 + (1 + 1 / 2) * (1 / 8)) 1 : ℚ) * 255) = 175 := by
      apply lround_eq_of_mem <;> norm_num
    simp only [if_true, this]
    decide
  · unfold crunchInit
    simp only []
    rw [if_neg (by decide)]

/-- C17, amended. With `R = ceil(precalc_size * dropdown)`, a 32-bit precalc size and a target
size below 32768: for a source bitmap that is fully inside and contains the whole search box
around its centre `(ox, oy) = (width / 2, rows / 2)` (that is `R ≤ ox`, `ox + R < width`,
`R ≤ oy`, `oy + R < rows`), the byte written at the tile centre `(target_size, target_size)`
is 255; for a source bitmap with no inside pixel it is 0. -/
theorem centre_byte_saturates (bitmap : FT_Bitmap) (m_size m_target_size : Nat)
    (m_dropdown : ℚ) (hP : 0 < m_size) (hP32 : m_size < 4294967296) (hd0 : 0 < m_dropdown)
    (hd1 : m_dropdown < 1) (ht : m_target_size < 32768) :
    ((∀ x y, x < bitmap.width → y < bitmap.rows →
        127 < bitmap.buffer.getD (y * bitmap.width + x) 0) →
      crunchSearch m_size m_dropdown ≤ ((bitmap.width / 2 : Nat) : Int) →
      ((bitmap.width / 2 : Nat) : Int) + crunchSearch m_size m_dropdown < bitmap.width →
      crunchSearch m_size m_dropdown ≤ ((bitmap.rows / 2 : Nat) : Int) →
      ((bitmap.rows / 2 : Nat) : Int) + crunchSearch m_size m_dropdown < bitmap.rows →
      (crunchInit bitmap m_size m_target_size m_dropdown).map (fun tile =>
        tile.getD (m_target_size * (m_target_size * 2 + 1) + m_target_size) 0) = some 255) ∧
    ((∀ x y, x < bitmap.width → y < bitmap.rows →
        bitmap.buffer.getD (y * bitmap.width + x) 0 ≤ 127) →
      (crunchInit bitmap m_size m_target_size m_dropdown).map (fun tile =>
        tile.getD (m_target_size * (m_target_size * 2 + 1) + m_target_size) 0) = some 0) := by
  constructor
  · intro hfull h1 h2 h3 h4
    have hbox : ∀ ii jj,
        ((bitmap.width / 2 : Nat) : Int) - crunchSearch m_size m_dropdown ≤ ii →
        ii ≤ ((bitmap.width / 2 : Nat) : Int) + crunchSearch m_size m_dropdown →
        ((bitmap.rows / 2 : Nat) : Int) - crunchSearch m_size m_dropdown ≤ jj →
        jj ≤ ((bitmap.rows / 2 : Nat) : Int) + crunchSearch m_size m_dropdown →
        get_ftbitmap_value bitmap ii jj = true := by
      intro ii jj a1 a2 a3 a4
      exact get_ftbitmap_value_of_inside bitmap ii jj hfull (by omega) (by omega) (by omega)
        (by omega)
    have hmq : (0 : ℚ) < (m_size : ℚ) * m_dropdown := by
      have : (0 : ℚ) < m_size := by exact_mod_cast hP
      positivity
    have hR := crunchSearch_pos m_size m_dropdown hmq
    have hc := hbox ((bitmap.width / 2 : Nat) : Int) ((bitmap.rows / 2 : Nat) : Int)
      (by omega) (by omega) (by omega) (by omega)
    rw [crunchInit_centre _ _ _ _ ht,
      dfield_without_boundary bitmap _ _ m_size m_dropdown hP hP32 hd0 hd1
      (fun ii jj a1 a2 a3 a4 => by rw [hbox ii jj a1 a2 a3 a4, hc]), hc]
    rfl
  · intro hnone
    rw [crunchInit_centre _ _ _ _ ht,
      dfield_without_boundary bitmap _ _ m_size m_dropdown hP hP32 hd0 hd1
      (fun ii jj _ _ _ _ => by
        rw [get_ftbitmap_value_of_no_inside bitmap ii jj hnone,
          get_ftbitmap_value_of_no_inside bitmap _ _ hnone]),
      get_ftbitmap_value_of_no_inside bitmap _ _ hnone]
    rfl

theorem centre_byte_saturates_witness :
    (0 : ℚ) < 1 / 2 ∧ (1 / 2 : ℚ) < 1 ∧ 1 < 32768 ∧
    (crunchInit ⟨3, 3, [255, 255, 255, 255, 255, 255, 255, 255, 255]⟩ 1 1 (1 / 2)).map
      (fun tile => tile.getD (1 * (1 * 2 + 1) + 1) 0) = some 255 ∧
    (crunchInit ⟨3, 3, [0, 0, 0, 0, 0, 0, 0, 0, 0]⟩ 1 1 (1 / 2)).map
      (fun tile => tile.getD (1 * (1 * 2 + 1) + 1) 0) = some 0 := by
  have hs : crunchSearch 1 (1 / 2) = 1 := by
    unfold crunchSearch ceil
    rw [Int.ceil_eq_iff]
    norm_num
  have hcells : ∀ (v : Nat) (x y : Nat), x < 3 → y < 3 →
      ([v, v, v, v, v, v, v, v, v] : List Nat).getD (y * 3 + x) 0 = v := by
    intro v x y hx hy
    interval_cases x <;> interval_cases y <;> rfl
  refine ⟨by norm_num, by norm_num, by decide, ?_, ?_⟩
  · exact (centre_byte_saturates ⟨3, 3, [255, 255, 255, 255, 255, 255, 255, 255, 255]⟩ 1 1
      (1 / 2) (by decide) (by decide) (by norm_num) (by norm_num) (by decide)).1
      (fun x y hx hy => by
        have := hcells 255 x y hx hy
        show 127 < ([255, 255, 255, 255, 255, 255, 255, 255, 255] : List Nat).getD (y * 3 + x) 0
        omega)
      (by rw [hs]; decide) (by rw [hs]; decide) (by rw [hs]; decide) (by rw [hs]; decide)
  · exact (centre_byte_saturates ⟨3, 3, [0, 0, 0, 0, 0, 0, 0, 0, 0]⟩ 1 1
      (1 / 2) (by decide) (by decide) (by norm_num) (by norm_num) (by decide)).2
      (fun x y hx hy => by
        have := hcells 0 x y hx hy
        show ([0, 0, 0, 0, 0, 0, 0, 0, 0] : List Nat).getD (y * 3 + x) 0 ≤ 127
        omega)

/-! ### C12: a pass of the page loop that places no glyph -/

/-- A sequence of `concurrencyIcrement` and `add` calls on a storage in which no code point
is marked: every `add` throws before it decrements, and the counter stays at or below the
ceiling. -/
theorem run_unmarked_keeps_in_flight_bound (calls : List StorageCall) :
    ∀ (st st' : GlyphStorage) (flags : List Bool),
      (∀ c ∈ calls, c = StorageCall.concurrencyIcrement ∨ ∃ op v, c = StorageCall.add op v) →
      st.m_glyph_guard = [] → st.m_glyphs_in_flight ≤ st.m_concurrency →
      st.run calls = some (st', flags) →
      st'.m_glyphs_in_flight ≤ st'.m_concurrency := by
  induction calls with
  | nil =>
    intro st st' flags _ _ hinv hrun
    simp only [GlyphStorage.run, Option.some.injEq, Prod.mk.injEq] at hrun
    rw [← hrun.1]; exact hinv
  | cons c rest ih =>
    intro st st' flags hsteps hguard hinv hrun
    unfold GlyphStorage.run at hrun
    have hrest : ∀ c ∈ rest,
        c = StorageCall.concurrencyIcrement ∨ ∃ op v, c = StorageCall.add op v :=
      fun c hc => hsteps c (List.mem_cons_of_mem _ hc)
    rcases hsteps c (List.mem_cons_self _ _) with hc | ⟨op, v, hc⟩
    · subst hc
      simp only [GlyphStorage.call] at hrun
      unfold GlyphStorage.concurrencyIcrement at hrun
      by_cases hb : st.m_glyphs_in_flight ≥ st.m_concurrency
      · rw [if_pos hb] at hrun
        simp at hrun
      · rw [if_neg hb] at hrun
        simp only [Option.map_some'] at hrun
        obtain ⟨r, hr, hmap⟩ := Option.map_eq_some'.mp hrun
        have := ih { st with m_glyphs_in_flight := st.m_glyphs_in_flight + 1 } r.1 r.2 hrest
          hguard (by show st.m_glyphs_in_flight + 1 ≤ st.m_concurrency; omega) hr
        simp only [Prod.mk.injEq] at hmap
        rw [← hmap.1]
        exact this
    · subst hc
      have hadd : (st.add op v).1 = st := by
        unfold GlyphStorage.add
        rw [hguard]
        rfl
      simp only [GlyphStorage.call, hadd] at hrun
      obtain ⟨r, hr, hmap⟩ := Option.map_eq_some'.mp hrun
      have := ih st r.1 r.2 hrest hguard hinv hr
      simp only [Prod.mk.injEq] at hmap
      rw [← hmap.1]
      exact this

/-- A worker finishes the oldest pending task of a consistent state: the state stays
consistent and the counter goes down by one. -/
theorem worker_step_consistent (crunch : FtGlyph → List Nat × Nat × Nat) (g_verbose : Bool)
    (q : QueueState) (gly : FtGlyph) (rest : List FtGlyph) (hp : q.pending = gly :: rest)
    (h1 : q.storage.m_glyphs_in_flight = q.pending.length)
    (h2 : ∀ g ∈ q.pending, mapContains q.storage.m_glyph_guard g.m_unicode = true)
    (h3 : q.storage.m_glyphs_in_flight ≤ q.storage.m_concurrency) :
    (crunch_glyph crunch g_verbose q.storage gly).m_glyphs_in_flight = rest.length ∧
    (∀ g ∈ rest,
      mapContains (crunch_glyph crunch g_verbose q.storage gly).m_glyph_guard g.m_unicode =
        true) ∧
    (crunch_glyph crunch g_verbose q.storage gly).m_glyphs_in_flight ≤
      (crunch_glyph crunch g_verbose q.storage gly).m_concurrency ∧
    (crunch_glyph crunch g_verbose q.storage gly).m_glyph_guard = q.storage.m_glyph_guard := by
  rw [hp] at h1 h2
  obtain ⟨a, b, c⟩ := crunch_glyph_spec crunch g_verbose q.storage gly
    (h2 gly (List.mem_cons_self _ _))
  have hlen : (crunch_glyph crunch g_verbose q.storage gly).m_glyphs_in_flight =
      rest.length := by
    rw [b, h1]
    unfold usub
    simp
  refine ⟨hlen, ?_, ?_, a⟩
  · intro g hg
    rw [a]
    exact h2 g (List.mem_cons_of_mem _ hg)
  · rw [hlen, c]
    simp only [List.length_cons] at h1
    omega

theorem queueWorkers_consistent (crunch : FtGlyph → List Nat × Nat × Nat) (g_verbose : Bool)
    (n : Nat) : ∀ (q : QueueState),
      q.storage.m_glyphs_in_flight = q.pending.length →
      (∀ g ∈ q.pending, mapContains q.storage.m_glyph_guard g.m_unicode = true) →
      q.storage.m_glyphs_in_flight ≤ q.storage.m_concurrency →
      (queueWorkers crunch g_verbose n q).storage.m_glyphs_in_flight =
        (queueWorkers crunch g_verbose n q).pending.length ∧
      (∀ g ∈ (queueWorkers crunch g_verbose n q).pending,
        mapContains (queueWorkers crunch g_verbose n q).storage.m_glyph_guard g.m_unicode =
          true) ∧
      (queueWorkers crunch g_verbose n q).storage.m_glyphs_in_flight ≤
        (queueWorkers crunch g_verbose n q).storage.m_concurrency := by
  induction n with
  | zero => intro q h1 h2 h3; exact ⟨h1, h2, h3⟩
  | succ n ih =>
    intro q h1 h2 h3
    unfold queueWorkers
    cases hp : q.pending with
    | nil =>
      simp only []
      rw [hp] at h1 h2
      exact ⟨by rw [hp]; exact h1, by rw [hp]; exact h2, h3⟩
    | cons gly rest =>
      simp only []
      obtain ⟨a, b, c, _⟩ := worker_step_consistent crunch g_verbose q gly rest hp h1 h2 h3
      exact ih { q with storage := crunch_glyph crunch g_verbose q.storage gly, pending := rest }
        a b c

theorem queueWait_consistent (crunch : FtGlyph → List Nat × Nat × Nat) (g_verbose : Bool)
    (fuel : Nat) : ∀ (q q' : QueueState),
      q.storage.m_glyphs_in_flight = q.pending.length →
      (∀ g ∈ q.pending, mapContains q.storage.m_glyph_guard g.m_unicode = true) →
      q.storage.m_glyphs_in_flight ≤ q.storage.m_concurrency →
      queueWait crunch g_verbose fuel q = some q' →
      q'.storage.m_glyphs_in_flight = q'.pending.length ∧
      (∀ g ∈ q'.pending, mapContains q'.storage.m_glyph_guard g.m_unicode = true) ∧
      q'.storage.m_glyphs_in_flight < q'.storage.m_concurrency ∧
      q'.storage.m_glyph_guard = q.storage.m_glyph_guard := by
  induction fuel with
  | zero =>
    intro q q' h1 h2 h3 hq
    unfold queueWait at hq
    by_cases hb : q.storage.m_glyphs_in_flight ≥ q.storage.m_concurrency
    · rw [if_pos hb] at hq
      simp at hq
    · rw [if_neg hb] at hq
      simp only [Option.some.injEq] at hq
      subst hq
      exact ⟨h1, h2, by omega, rfl⟩
  | succ fuel ih =>
    intro q q' h1 h2 h3 hq
    unfold queueWait at hq
    by_cases hb : q.storage.m_glyphs_in_flight ≥ q.storage.m_concurrency
    · rw [if_pos hb] at hq
      cases hp : q.pending with
      | nil =>
        rw [hp] at hq
        simp at hq
      | cons gly rest =>
        rw [hp] at hq
        simp only [] at hq
        obtain ⟨a, b, c, d⟩ := worker_step_consistent crunch g_verbose q gly rest hp h1 h2 h3
        obtain ⟨e1, e2, e3, e4⟩ := ih
          { q with storage := crunch_glyph crunch g_verbose q.storage gly, pending := rest } q'
          a b c hq
        exact ⟨e1, e2, e3, by rw [e4]; exact d⟩
    · rw [if_neg hb] at hq
      simp only [Option.some.injEq] at hq
      subst hq
      exact ⟨h1, h2, by omega, rfl⟩

/-- One turn of the loop of `GlyphRange::queue` keeps the state consistent: the counter is
the number of pending tasks, every pending glyph is marked, and the counter does not exceed
the ceiling. -/
theorem queueStep_consistent (src : List FtFaceSptr) (target_size : Nat)
    (crunch : FtGlyph → List Nat × Nat × Nat) (g_verbose : Bool) (progress : Nat)
    (q q' : QueueState) (gidx : Nat)
    (h1 : q.storage.m_glyphs_in_flight = q.pending.length)
    (h2 : ∀ g ∈ q.pending, mapContains q.storage.m_glyph_guard g.m_unicode = true)
    (h3 : q.storage.m_glyphs_in_flight ≤ q.storage.m_concurrency)
    (hq : queueStep src target_size crunch g_verbose progress q gidx = some q') :
    q'.storage.m_glyphs_in_flight = q'.pending.length ∧
    (∀ g ∈ q'.pending, mapContains q'.storage.m_glyph_guard g.m_unicode = true) ∧
    q'.storage.m_glyphs_in_flight ≤ q'.storage.m_concurrency := by
  obtain ⟨w1, w2, w3⟩ := queueWorkers_consistent crunch g_verbose progress q h1 h2 h3
  obtain ⟨m1, m2, m3, m4⟩ :=
    markGlyph_fields (queueWorkers crunch g_verbose progress q).storage gidx
  have hmarked : ∀ g ∈ (queueWorkers crunch g_verbose progress q).pending,
      mapContains ((queueWorkers crunch g_verbose progress q).storage.markGlyph
        gidx).1.m_glyph_guard g.m_unicode = true := by
    intro g hg
    rw [m4, w2 g hg]
    rfl
  unfold queueStep at hq
  simp only [] at hq
  cases hgly : (if ((queueWorkers crunch g_verbose progress q).storage.markGlyph gidx).2 = true
      then src.findSome? (fun ii => ii.renderGlyph gidx target_size) else none) with
  | none =>
    rw [hgly] at hq
    simp only [Option.some.injEq] at hq
    subst hq
    obtain ⟨f1, f2, f3⟩ := missing_fields
      ((queueWorkers crunch g_verbose progress q).storage.markGlyph gidx).1 gidx g_verbose
    refine ⟨?_, ?_, ?_⟩
    · show (GlyphStorage.missing _ gidx g_verbose).m_glyphs_in_flight = _
      rw [f2, m2]; exact w1
    · intro g hg
      show mapContains (GlyphStorage.missing _ gidx g_verbose).m_glyph_guard g.m_unicode = true
      rw [f1]
      exact hmarked g hg
    · show (GlyphStorage.missing _ gidx g_verbose).m_glyphs_in_flight ≤
        (GlyphStorage.missing _ gidx g_verbose).m_concurrency
      rw [f2, f3, m2, m3]; exact w3
  | some g =>
    rw [hgly] at hq
    simp only [] at hq
    have hrender : src.findSome? (fun ii => ii.renderGlyph gidx target_size) = some g := by
      by_cases hm : ((queueWorkers crunch g_verbose progress q).storage.markGlyph gidx).2 = true
      · rw [if_pos hm] at hgly
        exact hgly
      · rw [if_neg hm] at hgly
        exact absurd hgly (by simp)
    cases hwait : queueWait crunch g_verbose
        (queueWorkers crunch g_verbose progress q).pending.length
        { queueWorkers crunch g_verbose progress q with
          storage := ((queueWorkers crunch g_verbose progress q).storage.markGlyph gidx).1 } with
    | none =>
      rw [hwait] at hq
      simp at hq
    | some qw =>
      rw [hwait] at hq
      simp only [Option.some_bind] at hq
      obtain ⟨e1, e2, e3, e4⟩ := queueWait_consistent crunch g_verbose _ _ qw
        (by show _ = _; rw [m2]; exact w1) hmarked
        (by show _ ≤ _; rw [m2, m3]; exact w3) hwait
      have hinc : qw.storage.concurrencyIcrement =
          some { qw.storage with m_glyphs_in_flight := qw.storage.m_glyphs_in_flight + 1 } := by
        unfold GlyphStorage.concurrencyIcrement
        rw [if_neg (by omega)]
      rw [hinc] at hq
      simp only [Option.map_some', Option.some.injEq] at hq
      subst hq
      refine ⟨?_, ?_, ?_⟩
      · show qw.storage.m_glyphs_in_flight + 1 = (qw.pending ++ [g]).length
        rw [List.length_append, e1]
        rfl
      · intro g' hg'
        show mapContains qw.storage.m_glyph_guard g'.m_unicode = true
        rw [List.mem_append] at hg'
        rcases hg' with hg' | hg'
        · exact e2 g' hg'
        · rw [List.mem_singleton] at hg'
          rw [hg', renderFirst_unicode src gidx target_size g hrender, e4]
          show mapContains ((queueWorkers crunch g_verbose progress q).storage.markGlyph
            gidx).1.m_glyph_guard gidx = true
          rw [m4]
          simp
      · show qw.storage.m_glyphs_in_flight + 1 ≤ qw.storage.m_concurrency
        omega

theorem queueLoop_consistent (src : List FtFaceSptr) (target_size : Nat)
    (crunch : FtGlyph → List Nat × Nat × Nat) (g_verbose : Bool) (sched : Nat → Nat)
    (l : List Nat) : ∀ (k : Nat) (q q' : QueueState),
      q.storage.m_glyphs_in_flight = q.pending.length →
      (∀ g ∈ q.pending, mapContains q.storage.m_glyph_guard g.m_unicode = true) →
      q.storage.m_glyphs_in_flight ≤ q.storage.m_concurrency →
      queueLoop src target_size crunch g_verbose sched l k q = some q' →
      q'.storage.m_glyphs_in_flight = q'.pending.length ∧
      (∀ g ∈ q'.pending, mapContains q'.storage.m_glyph_guard g.m_unicode = true) ∧
      q'.storage.m_glyphs_in_flight ≤ q'.storage.m_concurrency := by
  induction l with
  | nil =>
    intro k q q' h1 h2 h3 hq
    simp only [queueLoop, Option.some.injEq] at hq
    subst hq
    exact ⟨h1, h2, h3⟩
  | cons gidx rest ih =>
    intro k q q' h1 h2 h3 hq
    unfold queueLoop at hq
    cases hstep : queueStep src target_size crunch g_verbose (sched k) q gidx with
    | none =>
      rw [hstep] at hq
      simp at hq
    | some q1 =>
      rw [hstep] at hq
      simp only [] at hq
      obtain ⟨a, b, c⟩ := queueStep_consistent src target_size crunch g_verbose (sched k) q q1
        gidx h1 h2 h3 hstep
      exact ih (k + 1) q1 q' a b c hq

/-- C15. In every state reached from a fresh `GlyphStorage` the in-flight counter does not
exceed the concurrency ceiling: (1) after any sequence of `concurrencyIcrement` (which
proceeds only when `in_flight < ceiling`) and `add` calls; (2) after any sequence of
`markGlyph`, `concurrencyIcrement` and `add` calls in which every `add` is executed while a
glyph is in flight; (3) in the pipeline itself, which calls `add` only from a task dispatched
after `concurrencyIcrement`: the fresh storage with no pending task is consistent (the
counter is the number of pending tasks, every pending glyph is marked, the counter is at
most the ceiling), and every call of `GlyphRange::queue` and every number of tasks finished
by the workers lead from a consistent state to a consistent state. -/
theorem in_flight_never_exceeds_ceiling (hardware_concurrency : Nat) :
    (∀ (calls : List StorageCall) (st' : GlyphStorage) (flags : List Bool),
      (∀ c ∈ calls, c = StorageCall.concurrencyIcrement ∨ ∃ op v, c = StorageCall.add op v) →
      (GlyphStorage.new hardware_concurrency).run calls = some (st', flags) →
      st'.m_glyphs_in_flight ≤ st'.m_concurrency) ∧
    (∀ (calls : List StorageCall) (st' : GlyphStorage) (flags : List Bool),
      (GlyphStorage.new hardware_concurrency).run calls = some (st', flags) →
      (GlyphStorage.new hardware_concurrency).addsInFlight calls = true →
      st'.m_glyphs_in_flight ≤ st'.m_concurrency) ∧
    ((GlyphStorage.new hardware_concurrency).m_glyphs_in_flight = ([] : List FtGlyph).length ∧
      (GlyphStorage.new hardware_concurrency).m_glyphs_in_flight ≤
        (GlyphStorage.new hardware_concurrency).m_concurrency) ∧
    (∀ (q q' : QueueState) (r : GlyphRange) (src : List FtFaceSptr) (target_size : Nat)
        (crunch : FtGlyph → List Nat × Nat × Nat) (g_verbose : Bool) (sched : Nat → Nat),
      q.storage.m_glyphs_in_flight = q.pending.length →
      (∀ g ∈ q.pending, mapContains q.storage.m_glyph_guard g.m_unicode = true) →
      q.storage.m_glyphs_in_flight ≤ q.storage.m_concurrency →
      r.queue q.storage src target_size crunch g_verbose sched q.pending = some q' →
      q'.storage.m_glyphs_in_flight = q'.pending.length ∧
      (∀ g ∈ q'.pending, mapContains q'.storage.m_glyph_guard g.m_unicode = true) ∧
      q'.storage.m_glyphs_in_flight ≤ q'.storage.m_concurrency) ∧
    (∀ (q : QueueState) (crunch : FtGlyph → List Nat × Nat × Nat) (g_verbose : Bool)
        (n : Nat),
      q.storage.m_glyphs_in_flight = q.pending.length →
      (∀ g ∈ q.pending, mapContains q.storage.m_glyph_guard g.m_unicode = true) →
      q.storage.m_glyphs_in_flight ≤ q.storage.m_concurrency →
      (queueWorkers crunch g_verbose n q).storage.m_glyphs_in_flight =
        (queueWorkers crunch g_verbose n q).pending.length ∧
      (∀ g ∈ (queueWorkers crunch g_verbose n q).pending,
        mapContains (queueWorkers crunch g_verbose n q).storage.m_glyph_guard g.m_unicode =
          true) ∧
      (queueWorkers crunch g_verbose n q).storage.m_glyphs_in_flight ≤
        (queueWorkers crunch g_verbose n q).storage.m_concurrency) := by
  refine ⟨?_, ?_, ⟨rfl, Nat.zero_le _⟩, ?_, ?_⟩
  · intro calls st' flags hsteps hrun
    exact run_unmarked_keeps_in_flight_bound calls _ st' flags hsteps rfl (Nat.zero_le _) hrun
  · intro calls st' flags hrun hdisc
    exact run_keeps_in_flight_bound calls _ st' flags hrun hdisc (Nat.zero_le _)
  · intro q q' r src target_size crunch g_verbose sched h1 h2 h3 hq
    unfold GlyphRange.queue at hq
    by_cases he : (!r.m_enabled) = true
    · rw [if_pos he] at hq
      simp only [Option.some.injEq] at hq
      subst hq
      exact ⟨h1, h2, h3⟩
    · rw [if_neg he] at hq
      exact queueLoop_consistent src target_size crunch g_verbose sched r.m_range 0
        { storage := q.storage, pending := q.pending, dispatched := [], missing := [],
          ret := 0 } q' h1 h2 h3 hq
  · intro q crunch g_verbose n h1 h2 h3
    exact queueWorkers_consistent crunch g_verbose n q h1 h2 h3

theorem in_flight_never_exceeds_ceiling_witness :
    (∃ st' flags, (GlyphStorage.new 1).run [StorageCall.concurrencyIcrement,
        StorageCall.add (FtGlyph.mk 65 [] 0 0 0 0 0 0 0) false,
        StorageCall.concurrencyIcrement] = some (st', flags) ∧
      st'.m_glyphs_in_flight = 2 ∧ st'.m_glyphs_in_flight ≤ st'.m_concurrency) ∧
    (∃ st' flags, (GlyphStorage.new 1).run [StorageCall.markGlyph 65,
        StorageCall.concurrencyIcrement, StorageCall.concurrencyIcrement,
        StorageCall.add (FtGlyph.mk 65 [] 0 0 0 0 0 0 0) false] = some (st', flags) ∧
      st'.m_glyphs_in_flight = 1 ∧ st'.m_glyphs_in_flight ≤ st'.m_concurrency) ∧
    (∃ q', (GlyphRange.mk [65, 66, 67] true).queue (GlyphStorage.new 1)
        [⟨fun _ _ => some (FtGlyph.mk 0 [] 0 0 0 0 0 0 0)⟩] 48 (fun _ => ([], 0, 0)) true
        (fun _ => 0) [] = some q' ∧
      q'.storage.m_glyphs_in_flight = q'.pending.length ∧
      q'.storage.m_glyphs_in_flight ≤ q'.storage.m_concurrency) := by
  refine ⟨⟨⟨[], [], 2, 2, false⟩, [false, false, false], by rfl, rfl, ?_⟩,
    ⟨⟨[some (FtGlyph.mk 65 [] 0 0 0 0 0 0 0)], [(65, true)], 1, 2, false⟩,
      [true, false, false, false], by rfl, rfl, ?_⟩, ?_⟩
  · exact (in_flight_never_exceeds_ceiling 1).1
      [StorageCall.concurrencyIcrement, StorageCall.add (FtGlyph.mk 65 [] 0 0 0 0 0 0 0) false,
        StorageCall.concurrencyIcrement] _ [false, false, false]
      (by
        intro c hc
        simp only [List.mem_cons, List.mem_singleton, List.not_mem_nil, or_false] at hc
        rcases hc with rfl | rfl | rfl
        · exact Or.inl rfl
        · exact Or.inr ⟨_, _, rfl⟩
        · exact Or.inl rfl)
      (by rfl)
  · exact (in_flight_never_exceeds_ceiling 1).2.1
      [StorageCall.markGlyph 65, StorageCall.concurrencyIcrement,
        StorageCall.concurrencyIcrement,
        StorageCall.add (FtGlyph.mk 65 [] 0 0 0 0 0 0 0) false] _ [true, false, false, false]
      (by rfl) (by decide)
  · cases hq : (GlyphRange.mk [65, 66, 67] true).queue (GlyphStorage.new 1)
        [⟨fun _ _ => some (FtGlyph.mk 0 [] 0 0 0 0 0 0 0)⟩] 48 (fun _ => ([], 0, 0)) true
        (fun _ => 0) [] with
    | none =>
      have hsome : ((GlyphRange.mk [65, 66, 67] true).queue (GlyphStorage.new 1)
        [⟨fun _ _ => some (FtGlyph.mk 0 [] 0 0 0 0 0 0 0)⟩] 48 (fun _ => ([], 0, 0)) true
        (fun _ => 0) []).isSome = true := by decide
      rw [hq] at hsome
      exact Bool.noConfusion hsome
    | some q' =>
      have h := (in_flight_never_exceeds_ceiling 1).2.2.2.1
        ⟨GlyphStorage.new 1, [], [], [], 0⟩ q' (GlyphRange.mk [65, 66, 67] true)
        [⟨fun _ _ => some (FtGlyph.mk 0 [] 0 0 0 0 0 0 0)⟩] 48 (fun _ => ([], 0, 0)) true
        (fun _ => 0) rfl (fun g hg => absurd hg (List.not_mem_nil g)) (Nat.zero_le _) hq
      exact ⟨q', rfl, h.1, h.2.2⟩

/-! ### C36: the formula of the distance-field byte -/

/-- The expansion phase for `m_size = 1`, `m_target_size = 1` and `m_dropdown = 1/2`, where the
step and the scale are 1 and the search radius is 1: the sample is 255 for an inside source
point and 0 for an outside one, and an offset is its own source offset. -/
theorem crunchExpansion_unit (bitmap : FT_Bitmap) (fuel : Nat) :
    crunchExpansion bitmap 1 1 (1 / 2) fuel =
      Expansion.loop (fun px py => if get_ftbitmap_value bitmap px py then 255 else 0)
        (fun (u : Nat) => (u : Int)) 1 3 ((bitmap.width / 2 : Nat) : Int)
        ((bitmap.rows / 2 : Nat) : Int) (bitmap.width / 2) (bitmap.rows / 2) fuel 0
        { m_crunched := (List.replicate 9 0).set 4
            (if get_ftbitmap_value bitmap ((bitmap.width / 2 : Nat) : Int)
              ((bitmap.rows / 2 : Nat) : Int) then 255 else 0),
          bitmap_down := 0, bitmap_left := 0, bitmap_right := 0, bitmap_scope_horiz := 1,
          bitmap_scope_vert := 1, bitmap_up := 0, down_done := false, left_done := false,
          right_done := false, up_done := false, done := false } := by
  have hscale : crunchDistScale 1 (1 / 2) = 1 := by
    unfold crunchDistScale
    norm_num
  have hsample : (fun px py => get_ftbitmap_dfield_value bitmap px py (crunchSearch 1 (1 / 2))
      (crunchDistScale 1 (1 / 2))) =
      fun px py => if get_ftbitmap_value bitmap px py then 255 else 0 := by
    funext px py
    rw [hscale]
    exact dfield_scale_one bitmap px py _
  have hcoord : (fun (u : Nat) => lround ((u : ℚ) * (((1 : Nat) : ℚ) / ((1 : Nat) : ℚ)))) =
      fun (u : Nat) => (u : Int) := by
    funext u
    apply lround_eq_of_mem
    · positivity
    · push_cast
      norm_num
    · push_cast
      norm_num
  have hceil : ∀ n : Nat,
      (ceil ((((n : Nat) : Int) : ℚ) / (((1 : Nat) : ℚ) / ((1 : Nat) : ℚ)))).toNat = n := by
    intro n
    unfold ceil
    have : (((n : Nat) : Int) : ℚ) / (((1 : Nat) : ℚ) / ((1 : Nat) : ℚ)) =
        ((n : Int) : ℚ) := by
      push_cast
      norm_num
    rw [this, Int.ceil_intCast]
    rfl
  unfold crunchExpansion
  simp only []
  rw [crunchInit_eq bitmap 1 1 (1 / 2) (by decide)]
  simp only []
  rw [hsample, hcoord, hceil, hceil, hscale, dfield_scale_one]

theorem lround_offset_unit (a : Nat) :
    lround (((a : ℚ) - ((1 : Nat) : ℚ)) * (((1 : Nat) : ℚ) / ((1 : Nat) : ℚ))) =
      (a : Int) - 1 := by
  have hx : ((a : ℚ) - ((1 : Nat) : ℚ)) * (((1 : Nat) : ℚ) / ((1 : Nat) : ℚ)) =
      (a : ℚ) - 1 := by
    push_cast
    norm_num
  rw [hx]
  cases a with
  | zero =>
    unfold lround
    norm_num
  | succ n =>
    have hn : (0 : ℚ) ≤ (n : ℚ) := Nat.cast_nonneg n
    have h := lround_eq_of_mem (((n + 1 : Nat) : ℚ) - 1) (n : Int) (by push_cast; linarith)
      (by push_cast; linarith) (by push_cast; linarith)
    rw [h]
    push_cast
    ring

/-- The tile of the specification for `m_size = 1`, `m_target_size = 1`, `m_dropdown = 1/2`:
cell `k` holds 255 when the source point `(ox + k % 3 - 1, oy + k / 3 - 1)` is inside and 0
otherwise. -/
theorem crunchTileBySpec_unit (bitmap : FT_Bitmap) :
    crunchTileBySpec bitmap 1 1 (1 / 2) =
      (List.range 9).map (fun (k : Nat) =>
        if get_ftbitmap_value bitmap
            (((bitmap.width / 2 : Nat) : Int) + (((k % 3 : Nat) : Int) - 1))
            (((bitmap.rows / 2 : Nat) : Int) + (((k / 3 : Nat) : Int) - 1)) then 255
        else 0) := by
  have hscale : crunchDistScale 1 (1 / 2) = 1 := by
    unfold crunchDistScale
    norm_num
  unfold crunchTileBySpec
  simp only []
  rw [hscale]
  simp only [dfield_scale_one, lround_offset_unit]

/-- C38: the failing input.  A glyph with `m_size = 1`, `m_target_size = 1`, `m_dropdown = 1/2`
and the coverage bitmap of one row `[255, 0]` has `ox = 1`, `oy = 0`; its expansion loop ends
after one turn with all four counters 1, so the sampled rectangle is the whole 3 × 3 tile.
The cell `(tx, ty) = (0, 1)`, left of the centre, holds 0, whereas the distance-field byte of
the source point `(ox + round((0 - 1) * step), oy + round((1 - 1) * step)) = (0, 0)` is 255:
the left pass samples at the offset `-bitmap_left` computed in `unsigned`. -/
theorem expansion_left_of_centre_samples_elsewhere :
    (∀ fuel, crunchExpansion ⟨1, 2, [255, 0]⟩ 1 1 (1 / 2) (fuel + 1) =
      ExpansionOutcome.finished
        ⟨[0, 0, 0, 0, 0, 0, 0, 0, 0], 1, 1, 1, 3, 3, 1, true, true, true, true, true⟩) ∧
    [0, 0, 0, 0, 0, 0, 0, 0, 0].getD (1 * 3 + 0) 0 = 0 ∧
    get_ftbitmap_dfield_value ⟨1, 2, [255, 0]⟩
      (((2 / 2 : Nat) : Int) + lround ((((0 : Nat) : ℚ) - ((1 : Nat) : ℚ)) *
        (((1 : Nat) : ℚ) / ((1 : Nat) : ℚ))))
      (((1 / 2 : Nat) : Int) + lround ((((1 : Nat) : ℚ) - ((1 : Nat) : ℚ)) *
        (((1 : Nat) : ℚ) / ((1 : Nat) : ℚ))))
      (crunchSearch 1 (1 / 2)) (crunchDistScale 1 (1 / 2)) = 255 := by
  refine ⟨?_, rfl, ?_⟩
  · intro fuel
    rw [crunchExpansion_unit]
    cases fuel with
    | zero => decide
    | succ n => rfl
  · have hscale : crunchDistScale 1 (1 / 2) = 1 := by
      unfold crunchDistScale
      norm_num
    rw [hscale, dfield_scale_one, lround_offset_unit, lround_offset_unit]
    decide

/-- C39: the failing input.  A glyph with `m_size = 1`, `m_target_size = 1`, `m_dropdown = 1/2`
and the coverage bitmap of one column `[255, 255, 255]` has `ox = 0`, `oy = 1`.  The down pass
of the first turn samples the inside point `(0, 2)` and clears `down_done`; the down pass of
the second turn runs with `bitmap_down = 2 > m_target_size` and writes at the offset
`(1 + 2) * 3 + 1 - 1 = 9`, behind the 9 bytes of the tile. -/
theorem expansion_writes_behind_the_tile :
    (Expansion.mk [0, 0, 0, 0, 255, 0, 0, 0, 0] 0 0 0 1 1 0 false false false false false).turn
        (fun px py => if get_ftbitmap_value ⟨3, 1, [255, 255, 255]⟩ px py then 255 else 0)
        (fun (u : Nat) => (u : Int)) 1 3 0 1 0 1 0 =
      some ⟨[0, 0, 0, 0, 255, 0, 0, 255, 0], 1, 1, 1, 3, 3, 1, false, true, true, true,
        false⟩ ∧
    (Expansion.mk [0, 0, 0, 0, 255, 0, 0, 255, 0] 1 1 1 3 3 1 false true true true
        true).downPass
        (fun px py => if get_ftbitmap_value ⟨3, 1, [255, 255, 255]⟩ px py then 255 else 0)
        (fun (u : Nat) => (u : Int)) 1 3 0 1 = none ∧
    (∀ fuel, crunchExpansion ⟨3, 1, [255, 255, 255]⟩ 1 1 (1 / 2) (fuel + 2) =
      ExpansionOutcome.outside 1) := by
  refine ⟨by decide, by decide, ?_⟩
  intro fuel
  rw [crunchExpansion_unit]
  rfl

/-- C40: the failing input, the one of C38.  The expansion of the glyph with `m_size = 1`,
`m_target_size = 1`, `m_dropdown = 1/2` and the coverage bitmap of one row `[255, 0]` stays
inside the tile (it ends with all four counters equal to `m_target_size`), and its tile is
all zero, whereas the tile sampled cell by cell at the source coordinates holds 255 in the
cell `(0, 1)`. -/
theorem expansion_differs_from_cellwise_sampling :
    (∀ fuel, ∃ e, crunchExpansion ⟨1, 2, [255, 0]⟩ 1 1 (1 / 2) (fuel + 1) =
        ExpansionOutcome.finished e ∧
      e.bitmap_down ≤ 1 ∧ e.bitmap_left ≤ 1 ∧ e.bitmap_right ≤ 1 ∧ e.bitmap_up ≤ 1 ∧
      e.m_crunched = [0, 0, 0, 0, 0, 0, 0, 0, 0]) ∧
    crunchTileBySpec ⟨1, 2, [255, 0]⟩ 1 1 (1 / 2) = [0, 0, 0, 255, 0, 0, 0, 0, 0] := by
  constructor
  · intro fuel
    refine ⟨⟨[0, 0, 0, 0, 0, 0, 0, 0, 0], 1, 1, 1, 3, 3, 1, true, true, true, true, true⟩,
      ?_, by decide, by decide, by decide, by decide, rfl⟩
    rw [crunchExpansion_unit]
    cases fuel with
    | zero => decide
    | succ n => rfl
  · rw [crunchTileBySpec_unit]
    decide

/-! ### C19: the tile after `crunch` -/

/-- The four contractions on a tile of `(2 * target_size + 1)²` bytes, whatever its content:
afterwards `bitmap_w ≤ 2 * target_size + 1` and `bitmap_h ≤ 2 * target_size + 1`;
`bitmap_w = 0` exactly when `bitmap_h = 0`, and exactly when every byte of the tile is 0. -/
theorem crunched_tile_bounded_and_collapses_iff_empty (g : FtGlyph) (m_target_size : Nat)
    (hw : g.m_bitmap_w = m_target_size * 2 + 1) (hh : g.m_bitmap_h = m_target_size * 2 + 1) :
    g.crunchContract.m_bitmap_w ≤ m_target_size * 2 + 1 ∧
    g.crunchContract.m_bitmap_h ≤ m_target_size * 2 + 1 ∧
    (g.crunchContract.m_bitmap_w = 0 ↔ g.crunchContract.m_bitmap_h = 0) ∧
    (g.crunchContract.m_bitmap_w = 0 ↔
      ∀ x y, x < m_target_size * 2 + 1 → y < m_target_size * 2 + 1 → g.cell x y = 0) ∧
    (∀ (bitmap : FT_Bitmap) (m_size : Nat) (m_dropdown : ℚ),
      0 < m_size → m_size < 4294967296 → 0 < m_dropdown → m_dropdown < 1 →
      (∀ x y, x < bitmap.width → y < bitmap.rows →
        bitmap.buffer.getD (y * bitmap.width + x) 0 ≤ 127) →
      (∀ x y, x < m_target_size * 2 + 1 → y < m_target_size * 2 + 1 →
        g.cell x y = 0 ∨ ∃ px py, g.cell x y = get_ftbitmap_dfield_value bitmap px py
          (crunchSearch m_size m_dropdown) (crunchDistScale m_size m_dropdown)) →
      g.crunchContract.m_bitmap_w = 0 ∧ g.crunchContract.m_bitmap_h = 0) := by
  obtain ⟨a, b, z, p⟩ := crunchContract_step g
  rw [hw, hh] at z p
  have hcases : (∀ x y, x < m_target_size * 2 + 1 → y < m_target_size * 2 + 1 →
      g.cell x y = 0) ∨
      ∃ x y, x < m_target_size * 2 + 1 ∧ y < m_target_size * 2 + 1 ∧ g.cell x y ≠ 0 := by
    by_cases h : ∀ x y, x < m_target_size * 2 + 1 → y < m_target_size * 2 + 1 →
        g.cell x y = 0
    · exact Or.inl h
    · right
      push_neg at h
      exact h
  refine ⟨by omega, by omega, ?_, ?_, ?_⟩
  · rcases hcases with h | h
    · have := z h
      omega
    · have := p h
      omega
  · constructor
    · intro h0
      rcases hcases with h | h
      · exact h
      · have := p h
        omega
    · intro h
      exact (z h).1
  · intro bitmap m_size m_dropdown hP hP32 hd0 hd1 hnone hcell
    apply z
    intro x y hx hy
    rcases hcell x y hx hy with h | ⟨px, py, h⟩
    · exact h
    · rw [h, dfield_without_boundary bitmap px py m_size m_dropdown hP hP32 hd0 hd1
        (fun ii jj _ _ _ _ => by
          rw [get_ftbitmap_value_of_no_inside bitmap ii jj hnone,
            get_ftbitmap_value_of_no_inside bitmap px py hnone]),
        get_ftbitmap_value_of_no_inside bitmap px py hnone]
      rfl

/-- When `crunch` returns for a target size below 32768, its expansion phase has ended inside
the tile, and the contracted tile is bounded by `2 * target_size + 1` in both directions and
is `0 × 0` exactly when every byte left by the expansion phase is 0. -/
theorem crunch_some_spec (m_unicode : Nat) (bitmap : FT_Bitmap) (m_size m_target_size : Nat)
    (m_dropdown : ℚ) (fuel : Nat) (g' : FtGlyph) (ht : m_target_size < 32768)
    (h : crunch m_unicode bitmap m_size m_target_size m_dropdown fuel = some g') :
    ∃ e, crunchExpansion bitmap m_size m_target_size m_dropdown fuel =
        ExpansionOutcome.finished e ∧
      g'.m_bitmap_w ≤ m_target_size * 2 + 1 ∧ g'.m_bitmap_h ≤ m_target_size * 2 + 1 ∧
      (g'.m_bitmap_w = 0 ↔ g'.m_bitmap_h = 0) ∧
      (g'.m_bitmap_w = 0 ↔
        ∀ x y, x < m_target_size * 2 + 1 → y < m_target_size * 2 + 1 →
          (FtGlyph.mk m_unicode e.m_crunched (m_target_size * 2 + 1) (m_target_size * 2 + 1)
            0 0 0 0 0).cell x y = 0) := by
  have hmod : (m_target_size * 2 + 1) % 4294967296 = m_target_size * 2 + 1 :=
    Nat.mod_eq_of_lt (by omega)
  unfold crunch at h
  cases hexp : crunchExpansion bitmap m_size m_target_size m_dropdown fuel with
  | finished e =>
    rw [hexp] at h
    simp only [Option.some.injEq] at h
    rw [hmod] at h
    subst h
    obtain ⟨a, b, c, d, _⟩ := crunched_tile_bounded_and_collapses_iff_empty
      (FtGlyph.mk m_unicode e.m_crunched (m_target_size * 2 + 1) (m_target_size * 2 + 1)
        0 0 0 0 0) m_target_size rfl rfl
    exact ⟨e, rfl, a, b, c, d⟩
  | outside k => rw [hexp] at h; simp at h
  | running => rw [hexp] at h; simp at h
  | centreOutside => rw [hexp] at h; simp at h

/-- C19: the failing input.  A glyph with `m_size = 1`, `m_target_size = 1`, `m_dropdown = 1/2`
and the coverage bitmap of one row `[0, 0, 0, 0]`, which has no inside pixel, has `ox = 2` and
`horiz_expand = ceil(2 / 1) = 2`.  The first turn of the expansion loop fills the whole
`3 × 3` tile with zeros and sets all flags; the second turn still runs the left pass because
`expansion = 1 < horiz_expand`, with `bitmap_left = 2 > m_target_size`, and its first write
is at the offset `(1 - 1) * 3 + 1 - 2 = -1`, before the tile.  So `crunch` has no defined
result, where the claim says that the tile collapses to `0 × 0`. -/
theorem crunch_of_wide_outside_bitmap_leaves_the_tile :
    (∀ x y, x < 4 → y < 1 → ([0, 0, 0, 0] : List Nat).getD (y * 4 + x) 0 ≤ 127) ∧
    (Expansion.mk [0, 0, 0, 0, 0, 0, 0, 0, 0] 0 0 0 1 1 0 false false false false false).turn
        (fun px py => if get_ftbitmap_value ⟨1, 4, [0, 0, 0, 0]⟩ px py then 255 else 0)
        (fun (u : Nat) => (u : Int)) 1 3 2 0 2 0 0 =
      some ⟨[0, 0, 0, 0, 0, 0, 0, 0, 0], 1, 1, 1, 3, 3, 1, true, true, true, true, true⟩ ∧
    (Expansion.mk [0, 0, 0, 0, 0, 0, 0, 0, 0] 1 1 1 3 3 1 true true true true true).leftPass
        (fun px py => if get_ftbitmap_value ⟨1, 4, [0, 0, 0, 0]⟩ px py then 255 else 0)
        (fun (u : Nat) => (u : Int)) 1 3 2 0 = none ∧
    (∀ fuel, crunchExpansion ⟨1, 4, [0, 0, 0, 0]⟩ 1 1 (1 / 2) (fuel + 2) =
      ExpansionOutcome.outside 1) ∧
    (∀ fuel, crunch 65 ⟨1, 4, [0, 0, 0, 0]⟩ 1 1 (1 / 2) fuel = none) := by
  have hout : ∀ fuel, crunchExpansion ⟨1, 4, [0, 0, 0, 0]⟩ 1 1 (1 / 2) (fuel + 2) =
      ExpansionOutcome.outside 1 := by
    intro fuel
    rw [crunchExpansion_unit]
    rfl
  refine ⟨?_, by decide, by decide, hout, ?_⟩
  · intro x y hx hy
    interval_cases x <;> interval_cases y <;> decide
  · intro fuel
    unfold crunch
    cases fuel with
    | zero =>
      rw [crunchExpansion_unit]
      rfl
    | succ n =>
      cases n with
      | zero =>
        rw [crunchExpansion_unit]
        rfl
      | succ m => rw [hout m]
